import Mathlib

/-! Safe-start generator: a verification development.

Shallow embedding of the box approximators, the strengthening strategies, the
refinement driver and the unsafe-path identifier of the safe-start generator,
followed by theorems about them.

Conventions of the embedding.

* A state (`StateBase`) is the list of its integer values; index 0 is the
  location variable, indices 1..n are the data variables.
* An `std::unordered_set` of states is a list: the order of the list is the
  iteration order of the set, and every theorem quantifies over all lists,
  hence over all iteration orders.
* `int` is a 32-bit two's-complement integer. The relative volume of the
  bounding box and the definitions of the namespace `Machine.BoundedBox`
  reduce the result of every `int` operation to 32 bits (`wrap_int`): an
  overflow wraps around, as it does on the usual targets (the C++ standard
  leaves it undefined). The definitions of the namespace `BoundedBox` compute
  the same loops on mathematical integers; the two agree whenever no data
  value of a state is `INT_MAX` and the values of a variable differ by less
  than `INT_MAX` (`machine_compute_bounded_box_eq`). `size_t` arithmetic is
  taken modulo `2 ^ 64`.
* `double` is IEEE 754 binary64 (`Double`): a finite value is the rational it
  denotes, and every operation returns the correctly rounded result.
* `while` loops run on fuel and return `none` when the fuel runs out.
* Statistics counters and log output do not influence any result and are left
  out, except the cycle and dead-end counters of the unsafe-path identifier
  and the statistics sink `per_iteration_stats` of the driver, which is a
  null pointer unless the option `iteration_stats` is given.
* The `assert` at the end of `InvariantStrengthening::verify` is part of the
  model; the field `NDEBUG` tells whether the build compiles it out.
-/

set_option autoImplicit false

namespace SSG

/-! ## Data model -/

/-- Modelled from the spec: the state type is not under src/. A state is an ordered tuple of integer
valuations; index 0 is the location discriminator, indices 1..n are data variables. -/
abbrev StateBase := List Int

/-- Modelled from the spec: value of the state at a state index (`StateBase::get_int`); reading past
the end of the tuple yields 0. -/
def StateBase.get_int (state : StateBase) (state_index : Nat) : Int :=
  state.getD state_index 0

/-- Modelled from the spec: number of integer entries of the state, the location included
(`StateBase::get_int_state_size`). -/
def StateBase.get_int_state_size (state : StateBase) : Nat :=
  state.length

/-- Modelled from the spec: the model type is not under src/. Only the number of variables and the
per-variable domain `[lb_i, ub_i]`, addressed by state index, are used. -/
structure Model where
  number_variables : Nat
  lower_bound_int : Nat → Int
  upper_bound_int : Nat → Int

/-- Operators of binary and n-ary expression nodes (`BinaryOpExpression::AND`, `GE`, `LE`, ...). -/
inductive Op
  | AND | OR | EQ | GE | LE | LT | GT | PLUS | MINUS | TIMES
  deriving DecidableEq, Repr

/-- Modelled from the spec: the expression tree is not under src/. Nodes are integer literal,
variable reference, binary operation, n-ary operation and negation. -/
inductive Expression
  | IntegerValue (value : Int)
  | Variable (var_index : Nat)
  | BinaryOp (op : Op) (left right : Expression)
  | Nary (op : Op) (subs : List Expression)
  | Not (operand : Expression)

mutual
/-- Modelled from the spec: evaluation of an expression over a state (`evaluate_integer`). Truth
values are 1 and 0, every non-zero value counts as true. The reference to model variable `j` reads
state index `j + 1` (index 0 is the location). An n-ary AND holds when all its operands hold, an
n-ary OR when one of them holds. -/
def Expression.evaluate_integer : Expression → StateBase → Int
  | .IntegerValue v, _ => v
  | .Variable j, s => s.get_int (j + 1)
  | .BinaryOp op l r, s =>
    let a := l.evaluate_integer s
    let b := r.evaluate_integer s
    match op with
    | .AND => if a ≠ 0 ∧ b ≠ 0 then 1 else 0
    | .OR => if a ≠ 0 ∨ b ≠ 0 then 1 else 0
    | .EQ => if a = b then 1 else 0
    | .GE => if a ≥ b then 1 else 0
    | .LE => if a ≤ b then 1 else 0
    | .LT => if a < b then 1 else 0
    | .GT => if a > b then 1 else 0
    | .PLUS => a + b
    | .MINUS => a - b
    | .TIMES => a * b
  | .Nary op subs, s =>
    match op with
    | .AND => if Expression.evaluate_all subs s then 1 else 0
    | .OR => if Expression.evaluate_any subs s then 1 else 0
    | _ => 0
  | .Not e, s => if e.evaluate_integer s = 0 then 1 else 0
/-- All operands of an n-ary node evaluate to a non-zero value. -/
def Expression.evaluate_all : List Expression → StateBase → Bool
  | [], _ => true
  | e :: es, s => decide (e.evaluate_integer s ≠ 0) && Expression.evaluate_all es s
/-- Some operand of an n-ary node evaluates to a non-zero value. -/
def Expression.evaluate_any : List Expression → StateBase → Bool
  | [], _ => false
  | e :: es, s => decide (e.evaluate_integer s ≠ 0) || Expression.evaluate_any es s
end

/-- The state satisfies the predicate: `evaluate_integer` used as a C++ condition. -/
def Expression.sat (e : Expression) (s : StateBase) : Bool :=
  decide (e.evaluate_integer s ≠ 0)

/-- Modelled from the spec: `Model::gen_var_expr`, the variable-reference expression of a model
variable. -/
def Model.gen_var_expr (_model : Model) (var_index : Nat) : Expression :=
  Expression.Variable var_index

/-- Modelled from the spec: `StateBase::to_condition(false, model)`, the point predicate
`P_s = AND_i x_i = s_i` over the data variables of the state (the location is left out). -/
def StateBase.to_condition (state : StateBase) (model : Model) : Expression :=
  Expression.Nary Op.AND
    ((List.range (state.get_int_state_size - 1)).map fun var_index =>
      Expression.BinaryOp Op.EQ (model.gen_var_expr var_index)
        (Expression.IntegerValue (state.get_int (var_index + 1))))

/-- A state lies in the model domain: every data value is within its declared bounds. -/
def Model.in_domain (model : Model) (state : StateBase) : Prop :=
  ∀ state_index, 1 ≤ state_index → state_index < state.get_int_state_size →
    model.lower_bound_int state_index ≤ state.get_int state_index ∧
    state.get_int state_index ≤ model.upper_bound_int state_index

/-- The normal-form visitor `TO_NORMALFORM` (parser/visitor/to_normalform) is not under src/; its
operations are taken as parameters. -/
structure ToNormalform where
  negate : Expression → Expression
  normalize : Expression → Expression
  specialize : Expression → Expression
  split_conjunction : Expression → List Expression
  split_disjunction : Expression → List Expression
  construct_conjunction : List Expression → Expression
  construct_disjunction : List Expression → Expression

/-- The operations of the normal-form visitor preserve meaning: `negate` complements the predicate,
`normalize` and `specialize` keep it, splitting and reassembling a conjunction (disjunction) keep
the conjunction (disjunction) of the parts. -/
structure ToNormalform.MeaningPreserving (nf : ToNormalform) : Prop where
  negate_sat : ∀ e s, (nf.negate e).sat s = !e.sat s
  normalize_sat : ∀ e s, (nf.normalize e).sat s = e.sat s
  specialize_sat : ∀ e s, (nf.specialize e).sat s = e.sat s
  split_conjunction_sat : ∀ e s, (nf.split_conjunction e).all (fun c => c.sat s) = e.sat s
  split_disjunction_sat : ∀ e s, (nf.split_disjunction e).any (fun c => c.sat s) = e.sat s
  construct_conjunction_sat : ∀ l s, (nf.construct_conjunction l).sat s = l.all (fun c => c.sat s)
  construct_disjunction_sat : ∀ l s, (nf.construct_disjunction l).sat s = l.any (fun c => c.sat s)

/-- Modelled from the spec: a plain realisation of the normal-form visitor, which is not under src/.
Negation wraps the tree in a negation node, normalisation and specialisation return the tree, a
conjunction (disjunction) is split into the operands of a top-level n-ary AND (OR) and reassembled
as an n-ary AND (OR). -/
def TO_NORMALFORM : ToNormalform where
  negate := fun e => Expression.Not e
  normalize := fun e => e
  specialize := fun e => e
  split_conjunction := fun e =>
    match e with
    | Expression.Nary Op.AND subs => subs
    | other => [other]
  split_disjunction := fun e =>
    match e with
    | Expression.Nary Op.OR subs => subs
    | other => [other]
  construct_conjunction := fun l => Expression.Nary Op.AND l
  construct_disjunction := fun l => Expression.Nary Op.OR l

/-! ## The type `double` -/

/-- A value of the type `double` (IEEE 754 binary64): a finite number, kept as the rational it
denotes, an infinity, or NaN. Every operation returns the correctly rounded result (round to
nearest, ties to even). The sign of a zero is not kept: every zero that is used as a divisor
below is the conversion of an integer or a sum of non-negative terms, that is, `+0`. -/
inductive Double
  | finite (value : ℚ)
  | infinity (negative : Bool)
  | nan
  deriving DecidableEq

namespace Double

/-- The loop that counts the binary digits of `n`. -/
def bit_length_loop : Nat → Nat → Nat
  | 0, _ => 0
  | fuel + 1, n => if n = 0 then 0 else bit_length_loop fuel (n / 2) + 1

/-- Number of binary digits of a natural number. -/
def bit_length (n : Nat) : Nat := bit_length_loop n n

/-- The binary exponent of the positive rational `p / q`: the integer `e` with
`2 ^ e <= p / q < 2 ^ (e + 1)`. -/
def exponent (p q : Nat) : Int :=
  let k : Int := (bit_length p : Int) - (bit_length q : Int)
  if (0 ≤ k ∧ q * 2 ^ k.toNat ≤ p) ∨ (k < 0 ∧ q ≤ p * 2 ^ (-k).toNat) then k else k - 1

/-- The integer nearest to `num / den`, the even one of the two when both are equally near. -/
def round_half_even (num den : Nat) : Nat :=
  let f := num / den
  let r := num % den
  if 2 * r < den then f else if den < 2 * r then f + 1 else if f % 2 = 0 then f else f + 1

/-- Rounding of the positive rational `p / q` to the nearest `double`, ties to even: 53
significant binary digits for a normal number (exponent at least -1022), multiples of
`2 ^ (-1074)` below; `none` stands for overflow. -/
def round_magnitude (p q : Nat) : Option ℚ :=
  let e := max (exponent p q) (-1022)
  let s : Int := 52 - e
  if 0 ≤ s then
    some ((round_half_even (p * 2 ^ s.toNat) q : ℚ) / ((2 ^ s.toNat : Nat) : ℚ))
  else
    let n := round_half_even p (q * 2 ^ (-s).toNat) * 2 ^ (-s).toNat
    if 2 ^ 1024 ≤ n then none else some (n : ℚ)

/-- The `double` nearest to a rational (round to nearest, ties to even), an infinity on
overflow. -/
def round (x : ℚ) : Double :=
  if x = 0 then finite 0
  else
    match round_magnitude x.num.natAbs x.den with
    | some v => finite (if x < 0 then -v else v)
    | none => infinity (decide (x < 0))

/-- Conversion of an `int` to `double`. -/
def of_int (v : Int) : Double := round v

/-- Conversion of a `size_t` to `double`. -/
def of_nat (n : Nat) : Double := round n

/-- The sum `a + b` of two values of type `double`. -/
def add : Double → Double → Double
  | finite a, finite b => round (a + b)
  | finite _, infinity s => infinity s
  | infinity s, finite _ => infinity s
  | infinity s, infinity t => if s = t then infinity s else nan
  | _, _ => nan

/-- The product `a * b` of two values of type `double`. -/
def mul : Double → Double → Double
  | finite a, finite b => round (a * b)
  | finite a, infinity s => if a = 0 then nan else infinity (s != decide (a < 0))
  | infinity s, finite b => if b = 0 then nan else infinity (s != decide (b < 0))
  | infinity s, infinity t => infinity (s != t)
  | _, _ => nan

/-- The quotient `a / b` of two values of type `double`. -/
def div : Double → Double → Double
  | finite a, finite b =>
    if b = 0 then (if a = 0 then nan else infinity (decide (a < 0))) else round (a / b)
  | finite _, infinity _ => finite 0
  | infinity s, finite b => infinity (s != decide (b < 0))
  | _, _ => nan

/-- The comparison `a <= b` of two values of type `double`; false when one of them is NaN. -/
def le : Double → Double → Bool
  | finite a, finite b => decide (a ≤ b)
  | finite _, infinity s => !s
  | infinity s, finite _ => s
  | infinity s, infinity t => s || !t
  | _, _ => false

end Double

/-! ## Bounding box (overapproximation) -/

/-- The constant `INT_MAX` of a 32-bit `int`. -/
def INT_MAX : Int := 2147483647

/-- The constant `INT_MIN` of a 32-bit `int`. -/
def INT_MIN : Int := -2147483648

/-- The value of an `int` expression whose mathematical result is `v`: the result modulo `2 ^ 32`
in the range of a 32-bit two's-complement `int`. -/
def wrap_int (v : Int) : Int := (v + 2147483648) % 4294967296 - 2147483648

namespace BoundingBox

/-- The map `bounds` from state index to `(lower, upper)`. -/
abbrev Bounds := Nat → Int × Int

/-- Initialisation of the map: `bounds[state_index] = {INT_MAX, INT_MIN}` for the indices
`1..var_num`; an index that was never written reads as the value-initialised pair. -/
def init_bounds (var_num : Nat) : Bounds :=
  fun state_index =>
    if 1 ≤ state_index ∧ state_index ≤ var_num then (INT_MAX, INT_MIN) else (0, 0)

/-- The two updates `if (value < bound.first) ...; if (value > bound.second) ...`. -/
def update_bound (bound : Int × Int) (value : Int) : Int × Int :=
  let bound1 := if value < bound.1 then (value, bound.2) else bound
  if value > bound1.2 then (bound1.1, value) else bound1

/-- The inner loop over `state_index = 1..var_num` for one state. -/
def update_bounds (var_num : Nat) (bounds : Bounds) (state : StateBase) : Bounds :=
  fun state_index =>
    if 1 ≤ state_index ∧ state_index ≤ var_num then
      update_bound (bounds state_index) (state.get_int state_index)
    else bounds state_index

/-- The loop `for (const auto& state: state_set)` that finds the bounds. -/
def find_bounds (state_set : List StateBase) (var_num : Nat) : Bounds :=
  state_set.foldl (update_bounds var_num) (init_bounds var_num)

/-- Box size relative to the domain size: the loop `box_size_rel *= var_box / var_dom` over the
entries of the hash map `bounds`, whose keys are visited in the order `order`. The two counts
`(ub - lb) + 1` and `(bound.second - bound.first) + 1` are `int` expressions, converted to
`double`. -/
def box_size_rel_in (order : List Nat) (bounds : Bounds) (model : Model) : Double :=
  order.foldl
    (fun acc var_index =>
      let var_dom := Double.of_int (wrap_int
        (wrap_int (model.upper_bound_int var_index - model.lower_bound_int var_index) + 1))
      let var_box := Double.of_int (wrap_int
        (wrap_int ((bounds var_index).2 - (bounds var_index).1) + 1))
      Double.mul acc (Double.div var_box var_dom))
    (Double.finite 1)

/-- Box size relative to the domain size, with the entries of the hash map visited in the order
of their keys, the state indices `1..var_num`. -/
def box_size_rel (bounds : Bounds) (model : Model) : Double :=
  box_size_rel_in ((List.range model.number_variables).map fun k => k + 1) bounds model

/-- The two conjuncts `var >= lower` and `var <= upper` emitted for one model variable. -/
def box_conjuncts (model : Model) (var_index : Nat) (lower upper : Int) : List Expression :=
  [Expression.BinaryOp Op.GE (model.gen_var_expr var_index) (Expression.IntegerValue lower),
   Expression.BinaryOp Op.LE (model.gen_var_expr var_index) (Expression.IntegerValue upper)]

/-- The box expression: for `var_index = 0..var_num-1` the conjuncts with the constants
`bounds[var_index + 1]`. -/
def box_expression (bounds : Bounds) (model : Model) : Expression :=
  Expression.Nary Op.AND
    ((List.range model.number_variables).flatMap fun var_index =>
      box_conjuncts model var_index (bounds (var_index + 1)).1 (bounds (var_index + 1)).2)

/-- `BoundingBox::compute_bounding_box`. -/
def compute_bounding_box (state_set : List StateBase) (model : Model) : Double × Expression :=
  let bounds := find_bounds state_set model.number_variables
  (box_size_rel bounds model, box_expression bounds model)

end BoundingBox

/-! ## Bounded box (underapproximation) -/

/-! The definitions of this section compute on mathematical integers: `current[dim]++`,
`min_corner[dim] -= 1`, `max_corner[dim] += 1` and the factors of the volume do not overflow.
They describe the source on every input on which no `int` operation overflows; the section on
32-bit `int` arithmetic below repeats them with overflow. -/

namespace BoundedBox

/-- `BoundedBox::get_state_vec`: the values at the state indices `1..size-1`. -/
def get_state_vec (state : StateBase) : List Int :=
  (List.range (state.get_int_state_size - 1)).map fun k => state.get_int (k + 1)

/-- Entry of a corner vector. -/
def at_dim (v : List Int) (dim : Nat) : Int := v.getD dim 0

/-- The domain bound check at the head of `is_bounded`: true when no dimension violates it. -/
def domain_check (min_corner max_corner : List Int) (model : Model) : Bool :=
  (List.range min_corner.length).all fun i =>
    !(decide (at_dim min_corner i < model.lower_bound_int (i + 1)) ||
      decide (at_dim max_corner i > model.upper_bound_int (i + 1)))

/-- The inner loop `while (dim-- > 0)` of `is_bounded`, entered with the counter at `dim`, on
mathematical integers. `some current` is the next point to check (the loop ended by `break`, or
was never entered); `none` stands for `return true` (all points processed). -/
def next_point (min_corner max_corner : List Int) : Nat → List Int → Option (List Int)
  | 0, current => some current
  | dim + 1, current =>
    let current1 := current.set dim (at_dim current dim + 1)
    if at_dim current1 dim ≤ at_dim max_corner dim then some current1
    else
      let current2 := current1.set dim (at_dim min_corner dim)
      if dim = 0 then none else next_point min_corner max_corner dim current2

/-- The outer loop `while (true)` of `is_bounded`: membership test of the current point, then the
step to the next point. -/
def check_points (min_corner max_corner : List Int) (point_set : List (List Int)) :
    Nat → List Int → Option Bool
  | 0, _ => none
  | fuel + 1, current =>
    if current ∉ point_set then some false
    else
      match next_point min_corner max_corner current.length current with
      | none => some true
      | some next => check_points min_corner max_corner point_set fuel next

/-- `BoundedBox::is_bounded` on mathematical integers. -/
def is_bounded (fuel : Nat) (min_corner max_corner : List Int) (point_set : List (List Int))
    (model : Model) : Option Bool :=
  if domain_check min_corner max_corner model then
    check_points min_corner max_corner point_set fuel min_corner
  else some false

/-- State of the expansion of one seed: the two corners and the flag `fixed_point`. -/
structure Corners where
  min_corner : List Int
  max_corner : List Int
  fixed_point : Bool
  deriving DecidableEq, Repr

/-- Body of the loop over `dim`: try `min_corner[dim] -= 1`, then `max_corner[dim] += 1`; the second
call passes `max_corner` first and `min_corner` second, as the source does. -/
def expand_dim (fuel : Nat) (val_set : List (List Int)) (model : Model) (c : Corners) (dim : Nat) :
    Option Corners :=
  let min1 := c.min_corner.set dim (at_dim c.min_corner dim - 1)
  match is_bounded fuel min1 c.max_corner val_set model with
  | none => none
  | some b1 =>
    let min2 := if !b1 then min1.set dim (at_dim min1 dim + 1) else min1
    let fp1 := if !b1 then c.fixed_point else false
    let max1 := c.max_corner.set dim (at_dim c.max_corner dim + 1)
    match is_bounded fuel max1 min2 val_set model with
    | none => none
    | some b2 =>
      let max2 := if !b2 then max1.set dim (at_dim max1 dim - 1) else max1
      let fp2 := if !b2 then fp1 else false
      some { min_corner := min2, max_corner := max2, fixed_point := fp2 }

/-- One sweep `for (dim = 0; dim < center.size(); dim++)`, listed by the dimensions still to do. -/
def sweep (fuel : Nat) (val_set : List (List Int)) (model : Model) :
    List Nat → Corners → Option Corners
  | [], c => some c
  | dim :: dims, c =>
    match expand_dim fuel val_set model c dim with
    | none => none
    | some c1 => sweep fuel val_set model dims c1

/-- The loop `while (!fixed_point)` for one seed; `point_fuel` bounds the loops of `is_bounded`,
the first argument bounds the number of sweeps. -/
def expand (point_fuel : Nat) (val_set : List (List Int)) (model : Model) (size : Nat) :
    Nat → List Int → List Int → Option (List Int × List Int)
  | 0, _, _ => none
  | fuel + 1, min_corner, max_corner =>
    match sweep point_fuel val_set model (List.range size)
        { min_corner := min_corner, max_corner := max_corner, fixed_point := true } with
    | none => none
    | some c =>
      if c.fixed_point then some (c.min_corner, c.max_corner)
      else expand point_fuel val_set model size fuel c.min_corner c.max_corner

/-- Conversion of an `int` to `size_t`. -/
def to_size_t (v : Int) : Nat := (v % (2 ^ 64 : Int)).toNat

/-- The volume loop `volume *= max_corner[dim] - min_corner[dim] + 1` in `size_t`. -/
def compute_volume (min_corner max_corner : List Int) (size : Nat) : Nat :=
  (List.range size).foldl
    (fun volume dim => (volume * to_size_t (at_dim max_corner dim - at_dim min_corner dim + 1)) % 2 ^ 64)
    1

/-- The best box so far: `max_volume`, `best_min`, `best_max`. -/
structure Best where
  max_volume : Nat
  best_min : List Int
  best_max : List Int
  deriving DecidableEq, Repr

/-- Body of the loop over the seeds: expand the seed, compute the volume, update the best box. -/
def seed_step (fuel : Nat) (val_set : List (List Int)) (model : Model) (best : Best)
    (state : StateBase) : Option Best :=
  let center := get_state_vec state
  match expand fuel val_set model center.length fuel center center with
  | none => none
  | some (min_corner, max_corner) =>
    let volume := compute_volume min_corner max_corner center.length
    if volume > best.max_volume then
      some { max_volume := volume, best_min := min_corner, best_max := max_corner }
    else some best

/-- The loop `for (const auto& state: state_set)` that finds the maximal bounded box. -/
def find_best (fuel : Nat) (val_set : List (List Int)) (model : Model) :
    List StateBase → Best → Option Best
  | [], best => some best
  | state :: rest, best =>
    match seed_step fuel val_set model best state with
    | none => none
    | some best1 => find_best fuel val_set model rest best1

/-- The box expression built from `best_min` and `best_max`. -/
def box_expression (best : Best) (model : Model) : Expression :=
  Expression.Nary Op.AND
    ((List.range best.best_min.length).flatMap fun var_index =>
      BoundingBox.box_conjuncts model var_index (at_dim best.best_min var_index)
        (at_dim best.best_max var_index))

/-- The search part of `compute_bounded_box`: the lookup set and the loop over the seeds. -/
def best_box (fuel : Nat) (state_set : List StateBase) (model : Model) : Option Best :=
  find_best fuel (state_set.map get_state_vec) model state_set
    { max_volume := 0, best_min := [], best_max := [] }

/-- `BoundedBox::compute_bounded_box`. -/
def compute_bounded_box (fuel : Nat) (state_set : List StateBase) (model : Model) :
    Option (Nat × Expression) :=
  match best_box fuel state_set model with
  | none => none
  | some best => some (best.max_volume, box_expression best model)

end BoundedBox

/-! ## Strengthening strategies -/

/-- `Approximation::Type`. -/
inductive ApproximationType
  | Overapproximation | Underapproximation | None
  deriving DecidableEq, Repr

/-- `VerificationMethods::Type`. -/
inductive VerificationType
  | INVARIANT_STRENGTHENING | START_CONDITION_STRENGTHENING
  deriving DecidableEq, Repr

/-- `StrengtheningStrategy`: the model, the approximation type and the normal-form visitor it
calls. The statistics sink `per_iter_stats` only counts and is left out: the functions of this
section give the predicates that the strategy computes, and the dereference of a null sink is
part of the call made by the driver (`SafeStartGenerator.update_conditions`). -/
structure StrengtheningStrategy where
  nf : ToNormalform
  model : Model
  approx : ApproximationType

namespace StrengtheningStrategy

/-- `StrengtheningStrategy::get_box_approximation`. The outer `none` is fuel exhaustion in the
bounded-box search, `some none` is the `nullptr` returned for approximation type `None`. -/
def get_box_approximation (self : StrengtheningStrategy) (fuel : Nat) (set : List StateBase) :
    Option (Option Expression) :=
  match self.approx with
  | ApproximationType.Overapproximation =>
    some (some (BoundingBox.compute_bounding_box set self.model).2)
  | ApproximationType.Underapproximation =>
    match BoundedBox.compute_bounded_box fuel set self.model with
    | none => none
    | some rlt => some (some rlt.2)
  | ApproximationType.None => some none

/-- The branch `if (approximate and approx != None)`: push the negated box to the conjuncts and the
box to the disjunctions. A null box cannot be copied, the result is `none`. -/
def add_box (self : StrengtheningStrategy) (fuel : Nat) (set : List StateBase)
    (conjuncts disjunctions : List Expression) : Option (List Expression × List Expression) :=
  match self.get_box_approximation fuel set with
  | some (some box) => some (conjuncts ++ [self.nf.negate box], disjunctions ++ [box])
  | _ => none

/-- The branch `for (const auto& state: unsafe_states)`: push the negated point predicate of every
state to the conjuncts and the point predicate to the disjunctions. -/
def add_states (self : StrengtheningStrategy) :
    List StateBase → List Expression → List Expression → List Expression × List Expression
  | [], conjuncts, disjunctions => (conjuncts, disjunctions)
  | state :: rest, conjuncts, disjunctions =>
    let state_condition := state.to_condition self.model
    add_states self rest (conjuncts ++ [self.nf.negate state_condition])
      (disjunctions ++ [state_condition])

/-- The tail shared by both strategies: reassemble, normalize and specialize both predicates. -/
def reassemble (self : StrengtheningStrategy) (lists : List Expression × List Expression) :
    Expression × Expression :=
  (self.nf.specialize (self.nf.normalize (self.nf.construct_conjunction lists.1)),
   self.nf.specialize (self.nf.normalize (self.nf.construct_disjunction lists.2)))

end StrengtheningStrategy

/-- `InvariantStrengtheningStrategy::update_conditions`. -/
def InvariantStrengtheningStrategy.update_conditions (self : StrengtheningStrategy) (fuel : Nat)
    (start_condition unsafety_condition : Expression) (approximate : Bool)
    (unsafe_states : List StateBase) : Option (Expression × Expression) :=
  let conjuncts := self.nf.split_conjunction start_condition
  let disjunctions := self.nf.split_disjunction unsafety_condition
  if approximate && decide (self.approx ≠ ApproximationType.None) then
    match self.add_box fuel unsafe_states conjuncts disjunctions with
    | none => none
    | some lists => some (self.reassemble lists)
  else some (self.reassemble (self.add_states unsafe_states conjuncts disjunctions))

/-- `StartConditionStrengtheningStrategy::update_conditions`. The states that satisfy the start
condition are moved to `unsafe_start_states`, here in the order of `unsafe_states`. -/
def StartConditionStrengtheningStrategy.update_conditions (self : StrengtheningStrategy)
    (fuel : Nat) (start_condition unsafety_condition : Expression) (approximate : Bool)
    (unsafe_states : List StateBase) : Option (Expression × Expression) :=
  let conjuncts := self.nf.split_conjunction start_condition
  let disjunctions := self.nf.split_disjunction unsafety_condition
  let unsafe_start_states := unsafe_states.filter fun state => start_condition.sat state
  if approximate && decide (self.approx ≠ ApproximationType.None) then
    match self.add_box fuel unsafe_start_states conjuncts disjunctions with
    | none => none
    | some lists => some (self.reassemble lists)
  else some (self.reassemble (self.add_states unsafe_start_states conjuncts disjunctions))

/-- The virtual call `strengthening_strategy->update_conditions`, dispatched on the strategy that
`StrengtheningStrategy::create` built for the verification type. -/
def StrengtheningStrategy.update_conditions (verification_type : VerificationType)
    (self : StrengtheningStrategy) (fuel : Nat) (start_condition unsafety_condition : Expression)
    (approximate : Bool) (unsafe_states : List StateBase) : Option (Expression × Expression) :=
  match verification_type with
  | VerificationType.INVARIANT_STRENGTHENING =>
    InvariantStrengtheningStrategy.update_conditions self fuel start_condition unsafety_condition
      approximate unsafe_states
  | VerificationType.START_CONDITION_STRENGTHENING =>
    StartConditionStrengtheningStrategy.update_conditions self fuel start_condition
      unsafety_condition approximate unsafe_states

/-! ## Refinement driver -/

/-- Result of a routine that runs a loop and dereferences pointers. -/
inductive Outcome (α : Type)
  | ok (value : α)
  | out_of_fuel
  | null_dereference
  deriving DecidableEq, Repr

/-- The value of a finished routine, `none` when it ran out of fuel or dereferenced a null pointer. -/
def Outcome.value {α : Type} : Outcome α → Option α
  | Outcome.ok v => some v
  | Outcome.out_of_fuel => none
  | Outcome.null_dereference => none

/-- The options and the property the constructor of the driver reads. `iteration_stats` is the
value of the option of that name when it is given. The two `uninitialized` fields stand for the
values the members `approximate_testing` and `approximate_verification` hold when the constructor
does not assign them. -/
structure Configuration where
  nf : ToNormalform
  model : Model
  verification_method : VerificationType
  alternate : Bool
  use_testing : Bool
  approximation_type : Option ApproximationType
  approximate : String
  reach : Expression
  start : Expression
  iteration_stats : Option String
  uninitialized_testing : Bool
  uninitialized_verification : Bool

/-- `SafeStartGenerator::Mode`. -/
inductive Mode
  | Testing | Verification | CheckStart
  deriving DecidableEq, Repr

/-- `SearchEngine::SearchStatus`, the values the driver returns. -/
inductive SearchStatus
  | IN_PROGRESS | SOLVED | FINISHED
  deriving DecidableEq, Repr

/-- The members of `SafeStartGenerator` that the step machine reads and writes.
`per_iteration_stats` is the owning pointer to the per-iteration statistics sink: `none` is the
null pointer, `some file` the sink that writes to the file. What the sinks count is left out. -/
structure SafeStartGenerator where
  verification_type : VerificationType
  strengthening_strategy : StrengtheningStrategy
  per_iteration_stats : Option String
  alternating_mode : Bool
  approximate_testing : Bool
  approximate_verification : Bool
  iteration_mode : Mode
  start_condition : Expression
  unsafety_condition : Expression
  use_testing : Bool

/-- What the collaborators answer during one step: the state IDs found by
`identify_unsafe_paths`, the state pool of the simulation environment, the states returned by the
verification method, and the state sampled by the enumerator. -/
structure StepAnswers where
  unsafe_states_ids : List Int
  get_state : Int → StateBase
  verification_result : List StateBase
  sampled_start_state : Option StateBase

namespace SafeStartGenerator

/-- The constructor `SafeStartGenerator::SafeStartGenerator`. The sink `per_iteration_stats` is
created only when the option `iteration_stats` is given, and stays null otherwise. -/
def create (config : Configuration) : SafeStartGenerator :=
  let unsafety_condition := config.reach
  let start_condition :=
    if config.verification_method = VerificationType.INVARIANT_STRENGTHENING then
      config.nf.specialize (config.nf.normalize (config.nf.negate unsafety_condition))
    else config.start
  let approximation_type :=
    match config.approximation_type with
    | some t => t
    | none => ApproximationType.None
  let approximate_testing :=
    if approximation_type ≠ ApproximationType.None then true else config.uninitialized_testing
  let approximate_verification :=
    if approximation_type ≠ ApproximationType.None then decide (config.approximate = "both")
    else config.uninitialized_verification
  { verification_type := config.verification_method
    strengthening_strategy :=
      { nf := config.nf, model := config.model, approx := approximation_type }
    per_iteration_stats := config.iteration_stats
    alternating_mode := config.alternate
    approximate_testing := approximate_testing
    approximate_verification := approximate_verification
    iteration_mode := if config.use_testing then Mode.Testing else Mode.Verification
    start_condition := start_condition
    unsafety_condition := unsafety_condition
    use_testing := config.use_testing }

/-- `SafeStartGenerator::get_unsafe_states`. -/
def get_unsafe_states (answers : StepAnswers) : List StateBase :=
  answers.unsafe_states_ids.map answers.get_state

/-- The call `strengthening_strategy->update_conditions(...)` of the driver. The strategy was
created with the pointer `per_iteration_stats.get()`. On the branch `approximate and approx !=
None` the strategy computes the box and then calls `per_iter_stats->inc_attr_double` without a
null check (`get_box_approximation`, strengthening_strategy.cpp lines 48 and 54), which
dereferences the null pointer when the driver has no sink. -/
def update_conditions (self : SafeStartGenerator) (fuel : Nat) (approximate : Bool)
    (unsafe_states : List StateBase) : Outcome (Expression × Expression) :=
  match StrengtheningStrategy.update_conditions self.verification_type
      self.strengthening_strategy fuel self.start_condition self.unsafety_condition approximate
      unsafe_states with
  | none => Outcome.out_of_fuel
  | some conditions =>
    if self.per_iteration_stats.isNone && approximate &&
        decide (self.strengthening_strategy.approx ≠ ApproximationType.None) then
      Outcome.null_dereference
    else Outcome.ok conditions

/-- `SafeStartGenerator::run_testing`: the next mode and the driver with its conditions after the
step. The first statement `per_iteration_stats->testing_iteration()` has no null check. -/
def run_testing (self : SafeStartGenerator) (fuel : Nat) (answers : StepAnswers) :
    Outcome (Mode × SafeStartGenerator) :=
  match self.per_iteration_stats with
  | none => Outcome.null_dereference
  | some _ =>
    if !answers.unsafe_states_ids.isEmpty then
      match self.update_conditions fuel self.approximate_testing (get_unsafe_states answers) with
      | Outcome.ok (new_start, new_unsafety) =>
        Outcome.ok (if self.alternating_mode then Mode.Verification else Mode.Testing,
          { self with start_condition := new_start, unsafety_condition := new_unsafety })
      | Outcome.out_of_fuel => Outcome.out_of_fuel
      | Outcome.null_dereference => Outcome.null_dereference
    else Outcome.ok (Mode.Verification, self)

/-- `SafeStartGenerator::run_verification`. The call `per_iteration_stats->verification_iteration()`
is guarded by a null check. -/
def run_verification (self : SafeStartGenerator) (fuel : Nat) (answers : StepAnswers) :
    Outcome (Mode × SafeStartGenerator) :=
  if answers.verification_result.isEmpty then Outcome.ok (Mode.CheckStart, self)
  else
    match self.update_conditions fuel self.approximate_verification
        answers.verification_result with
    | Outcome.ok (new_start, new_unsafety) =>
      Outcome.ok
        (if self.use_testing || self.alternating_mode then Mode.Testing else Mode.Verification,
          { self with start_condition := new_start, unsafety_condition := new_unsafety })
    | Outcome.out_of_fuel => Outcome.out_of_fuel
    | Outcome.null_dereference => Outcome.null_dereference

/-- `SafeStartGenerator::check_start_condition`. -/
def check_start_condition (_self : SafeStartGenerator) (answers : StepAnswers) : SearchStatus :=
  match answers.sampled_start_state with
  | some _ => SearchStatus.SOLVED
  | none => SearchStatus.FINISHED

/-- `SafeStartGenerator::step`. -/
def step (self : SafeStartGenerator) (fuel : Nat) (answers : StepAnswers) :
    Outcome (SearchStatus × SafeStartGenerator) :=
  match self.iteration_mode with
  | Mode.Testing =>
    match self.run_testing fuel answers with
    | Outcome.ok (mode, next) =>
      Outcome.ok (SearchStatus.IN_PROGRESS, { next with iteration_mode := mode })
    | Outcome.out_of_fuel => Outcome.out_of_fuel
    | Outcome.null_dereference => Outcome.null_dereference
  | Mode.Verification =>
    match self.run_verification fuel answers with
    | Outcome.ok (mode, next) =>
      Outcome.ok (SearchStatus.IN_PROGRESS, { next with iteration_mode := mode })
    | Outcome.out_of_fuel => Outcome.out_of_fuel
    | Outcome.null_dereference => Outcome.null_dereference
  | Mode.CheckStart => Outcome.ok (self.check_start_condition answers, self)

/-- A run of the step machine: the driver after the steps answered by the list. The run ends
before the list does at a step that returns `SOLVED` or `FINISHED`, and at a step that
dereferences a null pointer, which ends the process with the conditions as they were before that
step. -/
def run (fuel : Nat) : SafeStartGenerator → List StepAnswers → Option SafeStartGenerator
  | self, [] => some self
  | self, answers :: rest =>
    match self.step fuel answers with
    | Outcome.out_of_fuel => none
    | Outcome.null_dereference => some self
    | Outcome.ok (SearchStatus.IN_PROGRESS, next) => run fuel next rest
    | Outcome.ok (_, next) => some next

end SafeStartGenerator

/-! ## Unsafe-path identifier -/

/-- State identifiers minted by the simulation environment; `-1` marks an unset identifier. -/
abbrev StateID_type := Int

/-- Action labels. -/
abbrev ActionLabel_type := Int

/-- `StartGenerator::Transition`. -/
structure Transition where
  src : StateID_type
  label : ActionLabel_type
  successor : StateID_type
  deriving DecidableEq, Repr

/-- What chance and the clock contribute to one call of `sample_successor`: the draw
`rng->prob()`, the answer of `timer->is_almost_expired(1)`, the result `sample_run` gives for the
successor list if it is invoked, and the random outcome `compute_successor_if_applicable` uses. -/
structure Draw where
  p : ℚ
  almost_expired : Bool
  sample_run : List StateID_type → Option StateID_type × List StateID_type
  outcome : Nat

/-- Modelled from the spec: the simulation environment and the policy are not under src/. States
are addressed by their identifier. -/
structure SimulationEnvironment where
  get_state : StateID_type → StateBase
  extract_applicable_actions : StateID_type → List ActionLabel_type
  compute_successors : StateID_type → ActionLabel_type → List StateID_type
  compute_successor_if_applicable : StateID_type → ActionLabel_type → Nat → Option StateID_type

/-- The members of `UnsafePathIdentifier` that stay fixed during `identify_unsafe_paths`. -/
structure Setup where
  sim_env : SimulationEnvironment
  policy : StateID_type → ActionLabel_type
  unsafety_condition : Expression
  sampling_probability : ℚ
  terminate_on_cycles : Bool
  path_length_limit : Nat
  draws : Nat → Draw

/-- The members of `UnsafePathIdentifier` that change; `draw_count` counts the calls of
`sample_successor`, `cycles` and `dead_ends` are the statistics counters. -/
structure UnsafePathIdentifier where
  unsafe_path_found : Bool
  unsafe_state_ids : List StateID_type
  path_cache : List StateID_type
  source : StateID_type
  target : StateID_type
  transition_cache : List Transition
  cycles : Nat
  dead_ends : Nat
  draw_count : Nat
  deriving DecidableEq, Repr

/-- Insertion into an `std::unordered_set`: an element already present is not added again. -/
def set_insert {α : Type} [DecidableEq α] (set : List α) (a : α) : List α :=
  if a ∈ set then set else set ++ [a]

namespace UnsafePathIdentifier

/-- The identifier as constructed: empty caches, unset source and target. -/
def init : UnsafePathIdentifier :=
  { unsafe_path_found := false, unsafe_state_ids := [], path_cache := [], source := -1,
    target := -1, transition_cache := [], cycles := 0, dead_ends := 0, draw_count := 0 }

/-- `UnsafePathIdentifier::is_unsafe`. -/
def is_unsafe (setup : Setup) (state : StateID_type) : Bool :=
  setup.unsafety_condition.sat (setup.sim_env.get_state state)

/-- `UnsafePathIdentifier::is_terminal`: the answer and the identifier with its dead-end counter. -/
def is_terminal (setup : Setup) (self : UnsafePathIdentifier) (state : StateID_type) :
    Bool × UnsafePathIdentifier :=
  let dead_end := (setup.sim_env.extract_applicable_actions state).isEmpty
  (dead_end, if dead_end then { self with dead_ends := self.dead_ends + 1 } else self)

/-- `UnsafePathIdentifier::set_current_state`. -/
def set_current_state (self : UnsafePathIdentifier) (state : StateID_type) : UnsafePathIdentifier :=
  { self with source := state, target := -1 }

/-- `UnsafePathIdentifier::set_next_state`. -/
def set_next_state (self : UnsafePathIdentifier) (state : StateID_type) : UnsafePathIdentifier :=
  { self with target := state }

/-- `UnsafePathIdentifier::set_next_to_current_state`. -/
def set_next_to_current_state (self : UnsafePathIdentifier) : UnsafePathIdentifier :=
  { self with source := self.target, target := -1 }

/-- `UnsafePathIdentifier::cache_and_check_cycle`: whether the transition was inserted, and the
identifier after the call. The `assert` that source and target are set is a debugging aid and is
not modelled. -/
def cache_and_check_cycle (self : UnsafePathIdentifier) (action_label : ActionLabel_type) :
    Bool × UnsafePathIdentifier :=
  let transition : Transition :=
    { src := self.source, label := action_label, successor := self.target }
  if transition ∈ self.transition_cache then (false, { self with cycles := self.cycles + 1 })
  else (true, { self with transition_cache := self.transition_cache ++ [transition] })

/-- `UnsafePathIdentifier::sample_successor`: the successor (or `nullptr`) and the identifier after
the call. -/
def sample_successor (setup : Setup) (self : UnsafePathIdentifier) (state : StateID_type)
    (action_label : ActionLabel_type) : Option StateID_type × UnsafePathIdentifier :=
  let draw := setup.draws self.draw_count
  let self1 := { self with draw_count := self.draw_count + 1 }
  let successor_ids := setup.sim_env.compute_successors state action_label
  if successor_ids.length > 1 ∧ draw.p < setup.sampling_probability ∧ !draw.almost_expired then
    let rlt := draw.sample_run successor_ids
    (rlt.1, { self1 with path_cache := rlt.2.foldl set_insert self1.path_cache })
  else (setup.sim_env.compute_successor_if_applicable state action_label draw.outcome, self1)

/-- The loop of `simulate_until_choice`, entered with the current state and its applicable
actions. The result is the returned state (`none` for `nullptr`) and the identifier. -/
def simulate_loop (setup : Setup) :
    Nat → UnsafePathIdentifier → StateID_type → List ActionLabel_type →
      Outcome (Option StateID_type × UnsafePathIdentifier)
  | 0, _, _, _ => Outcome.out_of_fuel
  | fuel + 1, self, current_state, cachedApplicableActions =>
    if cachedApplicableActions.length ≤ 1 then
      match cachedApplicableActions with
      | [] => Outcome.ok (none, self)
      | next_action :: _ =>
        match sample_successor setup self current_state next_action with
        | (none, _) => Outcome.null_dereference
        | (some successor, self1) =>
          let self2 := self1.set_next_state successor
          let cycle := self2.cache_and_check_cycle next_action
          if !cycle.1 && setup.terminate_on_cycles then Outcome.ok (none, cycle.2)
          else if is_unsafe setup successor then Outcome.ok (some successor, cycle.2)
          else
            let self3 := { cycle.2 with path_cache := set_insert cycle.2.path_cache successor }
            let actions := setup.sim_env.extract_applicable_actions successor
            let self4 := self3.set_next_to_current_state
            if self4.path_cache.length ≥ setup.path_length_limit then Outcome.ok (none, self4)
            else simulate_loop setup fuel self4 successor actions
    else Outcome.ok (some current_state, self)

/-- `UnsafePathIdentifier::simulate_until_choice`. -/
def simulate_until_choice (setup : Setup) (fuel : Nat) (self : UnsafePathIdentifier)
    (state : StateID_type) : Outcome (Option StateID_type × UnsafePathIdentifier) :=
  simulate_loop setup fuel self state (setup.sim_env.extract_applicable_actions state)

/-- `UnsafePathIdentifier::execute_policy`: the loop `while (not is_terminal(current_state))`. The
first fuel bounds this loop, `inner_fuel` the loop of `simulate_until_choice`. -/
def execute_policy (setup : Setup) (inner_fuel : Nat) :
    Nat → UnsafePathIdentifier → StateID_type → Outcome (Bool × UnsafePathIdentifier)
  | 0, _, _ => Outcome.out_of_fuel
  | fuel + 1, self, current_state =>
    let terminal := is_terminal setup self current_state
    if terminal.1 then Outcome.ok (false, terminal.2)
    else
      match simulate_until_choice setup inner_fuel terminal.2 current_state with
      | Outcome.out_of_fuel => Outcome.out_of_fuel
      | Outcome.null_dereference => Outcome.null_dereference
      | Outcome.ok (none, self1) => Outcome.ok (false, self1)
      | Outcome.ok (some choice_state, self1) =>
        let self2 := self1.set_current_state choice_state
        if is_unsafe setup choice_state then Outcome.ok (true, self2)
        else
          let action_label := setup.policy choice_state
          match sample_successor setup self2 choice_state action_label with
          | (none, self3) => Outcome.ok (false, self3)
          | (some successor, self3) =>
            let self4 := self3.set_next_state successor
            let cycle := self4.cache_and_check_cycle action_label
            if !cycle.1 && setup.terminate_on_cycles then Outcome.ok (false, cycle.2)
            else
              let self5 := { cycle.2 with path_cache := set_insert cycle.2.path_cache successor }
              let self6 := self5.set_next_to_current_state
              if self6.path_cache.length ≥ setup.path_length_limit then Outcome.ok (false, self6)
              else execute_policy setup inner_fuel fuel self6 successor

/-- The loop of `identify_unsafe_paths`. The list holds what `start_sampler->sample_state()`
yields in the iterations that begin before the timer expires (`none`: no start state found). -/
def identify_loop (setup : Setup) (fuel : Nat) :
    List (Option StateID_type) → UnsafePathIdentifier → Outcome UnsafePathIdentifier
  | [], self => Outcome.ok self
  | none :: _, self => Outcome.ok self
  | some start_state :: rest, self =>
    let self1 := { self with path_cache := set_insert self.path_cache start_state }
    let self2 := self1.set_current_state start_state
    match execute_policy setup fuel fuel self2 start_state with
    | Outcome.out_of_fuel => Outcome.out_of_fuel
    | Outcome.null_dereference => Outcome.null_dereference
    | Outcome.ok (true, self3) =>
      identify_loop setup fuel rest
        { self3 with
          unsafe_path_found := true
          unsafe_state_ids := self3.path_cache.foldl set_insert self3.unsafe_state_ids
          path_cache := [] }
    | Outcome.ok (false, self3) => identify_loop setup fuel rest { self3 with path_cache := [] }

/-- `UnsafePathIdentifier::identify_unsafe_paths`: the returned set `unsafe_state_ids`. -/
def identify_unsafe_paths (setup : Setup) (fuel : Nat) (samples : List (Option StateID_type))
    (self : UnsafePathIdentifier) : Outcome (List StateID_type) :=
  match identify_loop setup fuel samples { self with transition_cache := [] } with
  | Outcome.ok final => Outcome.ok final.unsafe_state_ids
  | Outcome.out_of_fuel => Outcome.out_of_fuel
  | Outcome.null_dereference => Outcome.null_dereference

end UnsafePathIdentifier


/-! ## Auxiliary definitions for the termination arguments -/

/-- The step of `next_point` on whole vectors, by recursion on the vectors: the last dimension is
advanced first; a dimension that exceeds its bound is reset and the one before it is advanced.
`none` when every dimension was reset. -/
def odometer : List Int → List Int → List Int → Option (List Int)
  | _ :: lo, h :: hi, c :: cur =>
    match odometer lo hi cur with
    | some next => some (c :: next)
    | none => if c + 1 ≤ h then some ((c + 1) :: lo) else none
  | _, _, _ => none

/-- The three vectors have the same length and the current point is not below the lower corner. -/
def Above : List Int → List Int → List Int → Prop
  | [], [], [] => True
  | l :: lo, _ :: hi, c :: cur => l ≤ c ∧ Above lo hi cur
  | _, _, _ => False

/-- Number of points the containment check enumerates for the two corners. -/
def point_count : List Int → List Int → Nat
  | l :: lo, h :: hi => ((max l h - l).toNat + 1) * point_count lo hi
  | _, _ => 1

/-- Number of points the containment check still has to enumerate after the current one. -/
def points_left : List Int → List Int → List Int → Nat
  | l :: lo, h :: hi, c :: cur => (max l h - c).toNat * point_count lo hi + points_left lo hi cur
  | _, _, _ => 0

/-- A fuelled computation returns the value for every sufficiently large fuel. -/
def Terminates {α : Type} (f : Nat → Option α) (r : α) : Prop :=
  ∃ N, ∀ fuel, N ≤ fuel → f fuel = some r

/-- The quantity that every kept expansion lowers by one: the sum of the entries of the lower
corner minus the sum of the entries of the upper corner. -/
def corner_gap (c : BoundedBox.Corners) : Int :=
  c.min_corner.sum - c.max_corner.sum

/-- What one loop body of the expansion does to the corners once the fuel suffices. -/
structure ExpandsTo (val_set : List (List Int)) (c c1 : BoundedBox.Corners) : Prop where
  min_length : c1.min_corner.length = c.min_corner.length
  max_length : c1.max_corner.length = c.max_corner.length
  min_mem : c1.min_corner ∈ val_set
  max_mem : c1.max_corner ∈ val_set
  gap_le : corner_gap c1 ≤ corner_gap c
  progress : c1.fixed_point = c.fixed_point ∨ (c1.fixed_point = false ∧ corner_gap c1 < corner_gap c)


/-! ## Auxiliary definitions for the strengthening strategies -/

/-- The pair `r` refines `(start, unsafety)` by the region `region`: the new start is the old one
without the region, the new unsafety is the old one together with the region. -/
def Refines (start unsafety : Expression) (region : StateBase → Bool)
    (r : Expression × Expression) : Prop :=
  ∀ s, r.1.sat s = (start.sat s && !region s) ∧ r.2.sat s = (unsafety.sat s || region s)

/-- The region covered by the point predicates of the given states. -/
def point_region (model : Model) (states : List StateBase) : StateBase → Bool :=
  fun s => states.any fun t => (t.to_condition model).sat s

/-- The states that feed the refinement: all counterexamples under Invariant Strengthening, the
counterexamples that satisfy the start condition under Start-Condition Strengthening. -/
def refinement_states (verification_type : VerificationType) (start_condition : Expression)
    (unsafe_states : List StateBase) : List StateBase :=
  match verification_type with
  | VerificationType.INVARIANT_STRENGTHENING => unsafe_states
  | VerificationType.START_CONDITION_STRENGTHENING =>
    unsafe_states.filter fun state => start_condition.sat state


/-! ## Example inputs -/

namespace Example

/-- A model with two data variables, each with domain `[0, 1]`. -/
def unit_square : Model :=
  { number_variables := 2, lower_bound_int := fun _ => 0, upper_bound_int := fun _ => 1 }

/-- A model with one data variable, with the domain `[0, INT_MAX]`. -/
def wide_line : Model :=
  { number_variables := 1, lower_bound_int := fun _ => 0, upper_bound_int := fun _ => INT_MAX }

/-- The three states with data valuations `(0,0)`, `(1,0)`, `(1,1)`; the point `(0,1)` is missing. -/
def corner_states : List StateBase := [[0, 0, 0], [0, 1, 0], [0, 1, 1]]

/-- The six iteration orders of `corner_states`. -/
def corner_orders : List (List StateBase) :=
  [[[0, 0, 0], [0, 1, 0], [0, 1, 1]], [[0, 0, 0], [0, 1, 1], [0, 1, 0]],
   [[0, 1, 0], [0, 0, 0], [0, 1, 1]], [[0, 1, 0], [0, 1, 1], [0, 0, 0]],
   [[0, 1, 1], [0, 0, 0], [0, 1, 0]], [[0, 1, 1], [0, 1, 0], [0, 0, 0]]]

/-- A model with one data variable `x` with domain `[0, 10]`. -/
def line : Model :=
  { number_variables := 1, lower_bound_int := fun _ => 0, upper_bound_int := fun _ => 10 }

/-- The predicate `x >= 0`. -/
def x_ge_0 : Expression :=
  Expression.BinaryOp Op.GE (Expression.Variable 0) (Expression.IntegerValue 0)

/-- The predicate `x <= 3`. -/
def x_le_3 : Expression :=
  Expression.BinaryOp Op.LE (Expression.Variable 0) (Expression.IntegerValue 3)

/-- The predicate `x = 5`. -/
def x_eq_5 : Expression :=
  Expression.BinaryOp Op.EQ (Expression.Variable 0) (Expression.IntegerValue 5)

/-- A strategy over `line` with the plain normal-form visitor. -/
def strategy (approx : ApproximationType) : StrengtheningStrategy :=
  { nf := TO_NORMALFORM, model := line, approx := approx }

/-- The six iteration orders of the states `x = 0`, `x = 2`, `x = 3`. -/
def gap_orders : List (List StateBase) :=
  [[[0, 0], [0, 2], [0, 3]], [[0, 0], [0, 3], [0, 2]], [[0, 2], [0, 0], [0, 3]],
   [[0, 2], [0, 3], [0, 0]], [[0, 3], [0, 0], [0, 2]], [[0, 3], [0, 2], [0, 0]]]

end Example


namespace Example

/-- A configuration for Invariant Strengthening over `line` with unsafety `x = 5`, testing enabled,
per-iteration statistics written to a file, and box approximation of the given type for testing
and verification. -/
def config (approximation_type : ApproximationType) : Configuration :=
  { nf := TO_NORMALFORM
    model := line
    verification_method := VerificationType.INVARIANT_STRENGTHENING
    alternate := false
    use_testing := true
    approximation_type := some approximation_type
    approximate := "both"
    reach := x_eq_5
    start := x_ge_0
    iteration_stats := some "iteration_stats.csv"
    uninitialized_testing := false
    uninitialized_verification := false }

/-- Answers of one step: testing finds the state with identifier 4, whose value is `x = 4`; the
verifier returns the state `x = 6`; the enumerator samples no state. -/
def answers : StepAnswers :=
  { unsafe_states_ids := [4]
    get_state := fun id => [0, id]
    verification_result := [[0, 6]]
    sampled_start_state := none }

end Example


namespace Example

/-- A simulation environment with the states 0, 1, 2; the value of state `id` is `x = id`. State 0
has the two applicable actions 1 and 2, each leading to state 1. State 1 has the given applicable
actions, each leading to state 2. State 2 has no applicable action. Every action has one
successor. -/
def environment (actions_of_1 : List ActionLabel_type) : SimulationEnvironment :=
  { get_state := fun id => [0, id]
    extract_applicable_actions := fun id =>
      if id = 0 then [1, 2] else if id = 1 then actions_of_1 else []
    compute_successors := fun id label =>
      if id = 0 then (if label = 1 ∨ label = 2 then [1] else [])
      else if id = 1 then (if label ∈ actions_of_1 then [2] else [])
      else []
    compute_successor_if_applicable := fun id label _ =>
      if id = 0 then (if label = 1 ∨ label = 2 then some 1 else none)
      else if id = 1 then (if label ∈ actions_of_1 then some 2 else none)
      else none }

/-- The predicate `x = 1`: state 1 is the unsafe state. -/
def x_eq_1 : Expression :=
  Expression.BinaryOp Op.EQ (Expression.Variable 0) (Expression.IntegerValue 1)

/-- An identifier over `environment` with policy-run sampling switched off: the policy always
chooses action 1, the sampling probability is 0, cycles do not end a rollout. -/
def setup (actions_of_1 : List ActionLabel_type) : Setup :=
  { sim_env := environment actions_of_1
    policy := fun _ => 1
    unsafety_condition := x_eq_1
    sampling_probability := 0
    terminate_on_cycles := false
    path_length_limit := 1000
    draws := fun _ =>
      { p := 0, almost_expired := false, sample_run := fun _ => (none, []), outcome := 0 } }

/-- The identifier at the start of the rollout from state 0, as `identify_unsafe_paths` prepares
it: the start state is in the path cache and is the current source. -/
def at_start : UnsafePathIdentifier :=
  { UnsafePathIdentifier.init with path_cache := [0], source := 0 }

end Example

/-! ## Configuration strings -/

/-- The exception `std::invalid_argument` with its message. -/
inductive Exception
  | invalid_argument (what : String)
  deriving DecidableEq, Repr

namespace VerificationMethods

/-- `VerificationMethods::type_to_string`; the `default` branch is not reachable from a value of
the enumeration. -/
def type_to_string (type : VerificationType) : String :=
  match type with
  | VerificationType.INVARIANT_STRENGTHENING => "inv_str"
  | VerificationType.START_CONDITION_STRENGTHENING => "scs"

/-- `VerificationMethods::string_to_type`. -/
def string_to_type (type_str : String) : Except Exception VerificationType :=
  if type_str = "inv_str" then Except.ok VerificationType.INVARIANT_STRENGTHENING
  else if type_str = "scs" then Except.ok VerificationType.START_CONDITION_STRENGTHENING
  else Except.error (Exception.invalid_argument ("Invalid verification method string: " ++ type_str))

end VerificationMethods

namespace Approximation

/-- `Approximation::type_to_string`; the `default` branch is not reachable from a value of the
enumeration. -/
def type_to_string (type : ApproximationType) : String :=
  match type with
  | ApproximationType.Overapproximation => "over"
  | ApproximationType.Underapproximation => "under"
  | ApproximationType.None => "none"

/-- `Approximation::string_to_type`. -/
def string_to_type (type_str : String) : Except Exception ApproximationType :=
  if type_str = "over" then Except.ok ApproximationType.Overapproximation
  else if type_str = "under" then Except.ok ApproximationType.Underapproximation
  else if type_str = "none" then Except.ok ApproximationType.None
  else Except.error (Exception.invalid_argument ("Invalid approximation type string: " ++ type_str))

end Approximation

/-! ## Transition set -/

/-- `StartGenerator::TransitionEqual`. -/
def TransitionEqual (transition1 transition2 : Transition) : Bool :=
  decide (transition1.src = transition2.src) && decide (transition1.label = transition2.label) &&
    decide (transition1.successor = transition2.successor)

/-- `StartGenerator::TransitionHash`, in `size_t` arithmetic. -/
def TransitionHash (transition : Transition) : Nat :=
  let prime := 31
  let result := 1
  let result := (prime * result + BoundedBox.to_size_t transition.src) % 2 ^ 64
  let result := (prime * result + BoundedBox.to_size_t transition.label) % 2 ^ 64
  let result := (prime * result + BoundedBox.to_size_t transition.successor) % 2 ^ 64
  result

/-! ## Enumerator -/

/-- Modelled from the spec: the contract of `InitialStatesEnumerator::sample_state`, which is not
under src/. A sampled state is a state of the start condition. -/
def SampledFrom (start_condition : Expression) (sample : Option StateBase) : Prop :=
  ∀ state, sample = some state → start_condition.sat state = true

namespace Example

/-- The predicate `(x = 0) AND (x = 1)`, which no state satisfies. -/
def x_eq_0_and_x_eq_1 : Expression :=
  Expression.Nary Op.AND
    [Expression.BinaryOp Op.EQ (Expression.Variable 0) (Expression.IntegerValue 0),
     Expression.BinaryOp Op.EQ (Expression.Variable 0) (Expression.IntegerValue 1)]

/-- The predicate `x != 5`. -/
def x_ne_5 : Expression := Expression.Not x_eq_5

/-- The six iteration orders of the states with data valuations `(0,0)`, `(0,1)`, `(1,0)`; the
point `(1,1)` is missing. -/
def elbow_orders : List (List StateBase) :=
  [[[0, 0, 0], [0, 0, 1], [0, 1, 0]], [[0, 0, 0], [0, 1, 0], [0, 0, 1]],
   [[0, 0, 1], [0, 0, 0], [0, 1, 0]], [[0, 0, 1], [0, 1, 0], [0, 0, 0]],
   [[0, 1, 0], [0, 0, 0], [0, 0, 1]], [[0, 1, 0], [0, 0, 1], [0, 0, 0]]]

/-- A model with two data variables, each with domain `[-2, 3]`. -/
def wide_square : Model :=
  { number_variables := 2, lower_bound_int := fun _ => -2, upper_bound_int := fun _ => 3 }

/-- A simulation environment with the states 0, 1, 2; the value of state `id` is `x = id`. States
0 and 1 have the single applicable action 1. From state 0 the action leads to state 1 when the
random outcome is 0 and to state 2 otherwise; from state 1 it leads to state 0. State 2 has no
applicable action. -/
def loop_environment : SimulationEnvironment :=
  { get_state := fun id => [0, id]
    extract_applicable_actions := fun id => if id = 0 ∨ id = 1 then [1] else []
    compute_successors := fun id label =>
      if label = 1 then (if id = 0 then [1, 2] else if id = 1 then [0] else []) else []
    compute_successor_if_applicable := fun id label outcome =>
      if label = 1 then
        (if id = 0 then (if outcome = 0 then some 1 else some 2)
         else if id = 1 then some 0 else none)
      else none }

/-- An identifier over `loop_environment` with policy-run sampling switched off and no unsafe
state among 0, 1, 2. The random outcomes make the run `0 -> 1 -> 0 -> 1 -> 0 -> 2`. -/
def loop_setup (terminate_on_cycles : Bool) : Setup :=
  { sim_env := loop_environment
    policy := fun _ => 1
    unsafety_condition := x_eq_5
    sampling_probability := 0
    terminate_on_cycles := terminate_on_cycles
    path_length_limit := 1000
    draws := fun count =>
      { p := 0, almost_expired := false, sample_run := fun _ => (none, []),
        outcome := if count < 4 then 0 else 1 } }

end Example

/-! ## Auxiliary definitions for boxes of lattice points -/

/-- The three vectors have the same length and the point lies between the two corners in every
dimension. -/
def Within : List Int → List Int → List Int → Prop
  | [], [], [] => True
  | l :: lo, h :: hi, c :: cur => l ≤ c ∧ c ≤ h ∧ Within lo hi cur
  | _, _, _ => False

/-- The vector has the dimension of the box and lies between its corners in every dimension. -/
def InBox (lo hi v : List Int) : Prop :=
  v.length = lo.length ∧
    ∀ d, d < lo.length → BoundedBox.at_dim lo d ≤ BoundedBox.at_dim v d ∧
      BoundedBox.at_dim v d ≤ BoundedBox.at_dim hi d

/-- Number of lattice points of the box spanned by the two corners: the product of
`hi[d] - lo[d] + 1` over the dimensions. -/
def lattice_points (lo hi : List Int) : Nat :=
  ((List.range lo.length).map fun d =>
    (BoundedBox.at_dim hi d - BoundedBox.at_dim lo d + 1).toNat).prod

namespace Example

/-- A model with three data variables, each with domain `[0, 1]`. -/
def unit_cube : Model :=
  { number_variables := 3, lower_bound_int := fun _ => 0, upper_bound_int := fun _ => 1 }

/-- The eight states whose data valuations are the points of `{0,1}^3`. -/
def cube_states : List StateBase :=
  [[0, 0, 0, 0], [0, 0, 0, 1], [0, 0, 1, 0], [0, 0, 1, 1],
   [0, 1, 0, 0], [0, 1, 0, 1], [0, 1, 1, 0], [0, 1, 1, 1]]

end Example

/-- The point set is the set of lattice points of the box spanned by `lo` and `hi`, a non-empty
box that lies within the model domain. -/
structure FullBox (val_set : List (List Int)) (model : Model) (lo hi : List Int) : Prop where
  length_eq : hi.length = lo.length
  nonempty : ∀ d, d < lo.length → BoundedBox.at_dim lo d ≤ BoundedBox.at_dim hi d
  in_domain : ∀ d, d < lo.length → model.lower_bound_int (d + 1) ≤ BoundedBox.at_dim lo d ∧
    BoundedBox.at_dim hi d ≤ model.upper_bound_int (d + 1)
  points : ∀ v, v ∈ val_set ↔ InBox lo hi v

/-- Both corners of the expansion lie in the box, the lower one below the upper one. -/
def CornersInBox (lo hi : List Int) (c : BoundedBox.Corners) : Prop :=
  InBox lo hi c.min_corner ∧ InBox lo hi c.max_corner ∧
    ∀ d, d < lo.length → BoundedBox.at_dim c.min_corner d ≤ BoundedBox.at_dim c.max_corner d

/-! ## Auxiliary definitions for the enumeration order of the containment check -/

/-- The point comes at or after the current point in the order in which the containment check
enumerates the points: the first dimension in which the two differ is larger in the point. -/
def AtOrAfter : List Int → List Int → Prop
  | [], [] => True
  | c :: cur, x :: p => c < x ∨ (c = x ∧ AtOrAfter cur p)
  | _, _ => False

/-! ## Construction of the unsafe-path identifier -/

/-- The members the constructor `UnsafePathIdentifier::UnsafePathIdentifier` fixes for the
rollouts. The member `sampling_probability` keeps its default 0 unless `usePolicyRunSampling` is
set; only then it is read from the configuration and the policy-run sampler is created.
`path_length_limit` is the constant 1000. -/
def UnsafePathIdentifier.create (sim_env : SimulationEnvironment)
    (policy : StateID_type → ActionLabel_type) (unsafety_condition : Expression)
    (configured_sampling_probability : ℚ) (terminateCyclesFlag usePolicyRunSampling : Bool)
    (draws : Nat → Draw) : Setup :=
  { sim_env := sim_env
    policy := policy
    unsafety_condition := unsafety_condition
    sampling_probability := if usePolicyRunSampling then configured_sampling_probability else 0
    terminate_on_cycles := terminateCyclesFlag
    path_length_limit := 1000
    draws := draws }

namespace Example

/-- A deterministic simulation environment with the states 0 and 1; the value of state `id` is
`x = id`. Each state has the single applicable action 1, which leads from 0 to 1 and from 1 to 0;
every action has one successor. -/
def cycle_environment : SimulationEnvironment :=
  { get_state := fun id => [0, id]
    extract_applicable_actions := fun id => if id = 0 ∨ id = 1 then [1] else []
    compute_successors := fun id label =>
      if label = 1 then (if id = 0 then [1] else if id = 1 then [0] else []) else []
    compute_successor_if_applicable := fun id label _ =>
      if label = 1 then (if id = 0 then some 1 else if id = 1 then some 0 else none) else none }

/-- The identifier over `cycle_environment` as the constructor builds it with policy-run sampling
switched off and cycles not ending a rollout; neither state is unsafe. The policy run is
`0 -> 1 -> 0 -> 1 -> ...`. -/
def cycle_setup : Setup :=
  UnsafePathIdentifier.create cycle_environment (fun _ => 1) x_eq_5 (1 / 2) false false
    (fun _ => { p := 0, almost_expired := false, sample_run := fun _ => (none, []), outcome := 0 })

end Example

/-! ## Policy-run sampler -/

/-- Result of a routine of the sampler: a value, fuel exhaustion of the model, or undefined
behaviour of the source (an element of an empty vector or the target of a null pointer is
accessed). -/
inductive Sampled (α : Type)
  | ok (value : α)
  | out_of_fuel
  | undefined_behaviour
  deriving DecidableEq, Repr

/-- `PolicyRunSampler::SearchNode`: `root id` is the node `SearchNode(id, nullptr)`, `child id
parent` the node `SearchNode(id, parent_ptr)` with a non-null parent. -/
inductive SearchNode
  | root (id : StateID_type)
  | child (id : StateID_type) (parent : SearchNode)
  deriving DecidableEq, Repr

namespace SearchNode

/-- The member `id`. -/
def id : SearchNode → StateID_type
  | root id => id
  | child id _ => id

/-- The member `parent`, `none` for `nullptr`. -/
def parent : SearchNode → Option SearchNode
  | root _ => none
  | child _ parent => some parent

/-- The constructor `SearchNode(id, parent_ptr)`. -/
def create (id : StateID_type) : Option SearchNode → SearchNode
  | none => root id
  | some parent => child id parent

end SearchNode

/-- The members of `PolicyRunSampler` together with what the clock and chance contribute to one
call of `sample_run`: `distance_to_avoid id` is `distance_to_avoid->evaluate` on the state with
the identifier, `timer_expired k` the answer of `timer.is_expired()` at poll `k` of the call,
`rng_index n` the draw `rng->index(n)`, `rng_prob` the draw `rng->prob()`, and `exp_minus d` the
value that `std::exp` returns for `-d`. The statistics sinks only count and are left out. -/
structure PolicyRunSampler where
  simEnv : SimulationEnvironment
  policy : StateID_type → ActionLabel_type
  unsafety_condition : Expression
  distance_to_avoid : StateID_type → Int
  use_probabilistic_sampling : Bool
  max_policy_run_length : Int
  timer_expired : Nat → Bool
  rng_index : Nat → Nat
  rng_prob : Double
  exp_minus : Int → Double

namespace PolicyRunSampler

/-- The map `search_tree` from state identifier to search node, in insertion order. -/
abbrev SearchTree := List (StateID_type × SearchNode)

/-- The lookup `search_tree[id]`, `none` for an absent (null) entry. -/
def tree_find (search_tree : SearchTree) (id : StateID_type) : Option SearchNode :=
  match search_tree.find? fun entry => entry.1 = id with
  | some entry => some entry.2
  | none => none

/-- The test `search_tree.count(id)`. -/
def tree_count (search_tree : SearchTree) (id : StateID_type) : Bool :=
  search_tree.any fun entry => entry.1 = id

/-- The assignment `search_tree[id] = node`. -/
def tree_assign (search_tree : SearchTree) (id : StateID_type) (node : SearchNode) : SearchTree :=
  if tree_count search_tree id then
    search_tree.map fun entry => if entry.1 = id then (id, node) else entry
  else search_tree ++ [(id, node)]

/-- `PolicyRunSampler::check_timer`. -/
def check_timer (self : PolicyRunSampler) (poll : Nat) : Bool :=
  !self.timer_expired poll

/-- `PolicyRunSampler::is_terminal`. -/
def is_terminal (self : PolicyRunSampler) (state : StateID_type) : Bool :=
  (self.simEnv.extract_applicable_actions state).isEmpty

/-- `PolicyRunSampler::is_unsafe`. -/
def is_unsafe (self : PolicyRunSampler) (id : StateID_type) : Bool :=
  self.unsafety_condition.sat (self.simEnv.get_state id)

/-- `PolicyRunSampler::get_policy_successors`, as state identifiers. -/
def get_policy_successors (self : PolicyRunSampler) (state_id : StateID_type) :
    List StateID_type :=
  self.simEnv.compute_successors state_id (self.policy state_id)

/-- The loop `while (current_node)` of `reconstruct_path`, entered with a non-null node. -/
def reconstruct_loop : SearchNode → List StateID_type → List StateID_type
  | SearchNode.root id, path => path ++ [id]
  | SearchNode.child id parent, path => reconstruct_loop parent (path ++ [id])

/-- `PolicyRunSampler::reconstruct_path`. -/
def reconstruct_path (node : SearchNode) (unsafe_node : Bool) : List StateID_type :=
  let path := if !unsafe_node then [node.id] else []
  match node.parent with
  | none => path
  | some current_node => reconstruct_loop current_node path

/-- `PolicyRunSampler::unique_min_exists` on the entries of the map. -/
def unique_min_exists (successors_to_distance : List (StateID_type × Int)) : Bool :=
  let rlt := successors_to_distance.foldl
    (fun (acc : Int × List StateID_type) entry =>
      if entry.2 < acc.1 then (entry.2, [entry.1])
      else if entry.2 = acc.1 then (acc.1, set_insert acc.2 entry.1)
      else acc)
    (INT_MAX, [])
  decide (rlt.2.length = 1)

/-- The loop of `sample_from_distribution` from index `i` on, `cumulative_probability` so far,
and the fallback `states.back()` after it. -/
def distribution_loop (p : Double) (states : List StateID_type) :
    List Double → Nat → Double → Sampled StateID_type
  | [], _, _ =>
    match states.getLast? with
    | some state => Sampled.ok state
    | none => Sampled.undefined_behaviour
  | probability :: rest, i, cumulative_probability =>
    if Double.le p (Double.add cumulative_probability probability) then
      match states.get? i with
      | some state => Sampled.ok state
      | none => Sampled.undefined_behaviour
    else
      distribution_loop p states rest (i + 1) (Double.add cumulative_probability probability)

/-- `PolicyRunSampler::sample_from_distribution`. -/
def sample_from_distribution (self : PolicyRunSampler) (states : List StateID_type)
    (probabilities : List Double) : Sampled StateID_type :=
  distribution_loop self.rng_prob states probabilities 0 (Double.finite 0)

/-- The test of `sample_successor` that no two neighbouring distances differ
(`std::adjacent_find` with `std::not_equal_to` finds nothing). -/
def all_adjacent_equal : List Int → Bool
  | a :: b :: rest => decide (a = b) && all_adjacent_equal (b :: rest)
  | _ => true

/-- `PolicyRunSampler::sample_successor`. -/
def sample_successor (self : PolicyRunSampler) (successors : List StateID_type)
    (distances : List Int) : Sampled StateID_type :=
  if all_adjacent_equal distances then
    self.sample_from_distribution successors
      (List.replicate successors.length
        (Double.div (Double.finite 1) (Double.of_nat successors.length)))
  else
    let exp_values := distances.map self.exp_minus
    let sum_exp := exp_values.foldl (fun sum d => Double.add sum d) (Double.finite 0)
    let softmax_probabilities := exp_values.map fun d => Double.div d sum_exp
    self.sample_from_distribution successors softmax_probabilities

/-- `PolicyRunSampler::greedy_selection`. The two vectors are built side by side by the caller:
entry `i` of `distances` belongs to entry `i` of `successors`. `std::min_element` of an empty
vector returns the end iterator, which the source dereferences. -/
def greedy_selection (self : PolicyRunSampler) (successors : List StateID_type)
    (distances : List Int) : Sampled StateID_type :=
  match distances with
  | [] => Sampled.undefined_behaviour
  | first :: rest =>
    let min_distance := rest.foldl (fun m d => if d < m then d else m) first
    let minimal_states :=
      ((successors.zip distances).filter fun entry => entry.2 = min_distance).map fun entry =>
        entry.1
    let index := if minimal_states.length > 1 then self.rng_index minimal_states.length else 0
    match minimal_states.get? index with
    | some state => Sampled.ok state
    | none => Sampled.undefined_behaviour

/-- The loop `for (const auto& state: successors)` of `sample_run` for one frontier state `s`,
whose search node is `parent` (`search_tree[s].get()`). -/
def add_children (current_successors : List StateID_type) (parent : Option SearchNode) :
    List StateID_type → List StateID_type × SearchTree → List StateID_type × SearchTree
  | [], acc => acc
  | child_id :: rest, (new_successors, search_tree) =>
    if tree_count search_tree child_id ∨ child_id ∈ current_successors then
      add_children current_successors parent rest (new_successors, search_tree)
    else
      add_children current_successors parent rest
        (set_insert new_successors child_id,
          tree_assign search_tree child_id (SearchNode.create child_id parent))

/-- What the loop `for (auto s: current_successors)` of `sample_run` ends with: the return from
inside the loop at an unsafe state, or the new frontier and the search tree. -/
inductive Expansion
  | unsafe_leaf (state : StateID_type) (path : List StateID_type)
  | frontier (new_successors : List StateID_type) (search_tree : SearchTree)
  | undefined_behaviour
  deriving DecidableEq, Repr

/-- The loop `for (auto s: current_successors)` of `sample_run` ("expand all states"), listed by
the frontier states still to visit. -/
def expand_frontier (self : PolicyRunSampler) (current_successors : List StateID_type) :
    List StateID_type → List StateID_type → SearchTree → Expansion
  | [], new_successors, search_tree => Expansion.frontier new_successors search_tree
  | s :: rest, new_successors, search_tree =>
    if self.is_unsafe s then
      match tree_find search_tree s with
      | some node => Expansion.unsafe_leaf s (reconstruct_path node true)
      | none => Expansion.undefined_behaviour
    else
      let added := add_children current_successors (tree_find search_tree s)
        (self.get_policy_successors s) (new_successors, search_tree)
      expand_frontier self current_successors rest added.1 added.2

/-- The distances of the frontier states, the map `current_successors_distance`. -/
def current_successors_distance (self : PolicyRunSampler)
    (current_successors : List StateID_type) : List (StateID_type × Int) :=
  current_successors.map fun id => (id, self.distance_to_avoid id)

/-- The value of `min_distance` after the loop that evaluates the frontier. -/
def min_distance (self : PolicyRunSampler) (current_successors : List StateID_type) : Int :=
  (self.current_successors_distance current_successors).foldl
    (fun m entry => if entry.2 < m then entry.2 else m) INT_MAX

/-- The map `min_states_to_distance`: the entries whose distance is not above `min_distance`. -/
def min_states_to_distance (self : PolicyRunSampler) (current_successors : List StateID_type) :
    List (StateID_type × Int) :=
  (self.current_successors_distance current_successors).filter fun entry =>
    !decide (entry.2 > self.min_distance current_successors)

/-- The tail of `sample_run` after the loop: collect the candidates, select one, reconstruct the
path to it. -/
def select_leaf (self : PolicyRunSampler) (successors_to_distance : List (StateID_type × Int))
    (search_tree : SearchTree) : Sampled (StateID_type × List StateID_type) :=
  let state_ids := successors_to_distance.map fun entry => entry.1
  let distances := successors_to_distance.map fun entry => entry.2
  let selected_state :=
    if self.use_probabilistic_sampling then self.sample_successor state_ids distances
    else self.greedy_selection state_ids distances
  match selected_state with
  | Sampled.ok id =>
    match tree_find search_tree id with
    | some node => Sampled.ok (id, reconstruct_path node false)
    | none => Sampled.undefined_behaviour
  | Sampled.out_of_fuel => Sampled.out_of_fuel
  | Sampled.undefined_behaviour => Sampled.undefined_behaviour

/-- The loop `while (check_timer())` of `sample_run` followed by the tail of the function. The
arguments after the fuel are the number of timer polls so far, `num_steps`,
`successors_to_distance`, the frontier `current_successors` and `search_tree`. The hash
containers are iterated in insertion order. -/
def sample_loop (self : PolicyRunSampler) :
    Nat → Nat → Int → List (StateID_type × Int) → List StateID_type → SearchTree →
      Sampled (StateID_type × List StateID_type)
  | 0, _, _, _, _, _ => Sampled.out_of_fuel
  | fuel + 1, polls, num_steps, successors_to_distance, current_successors, search_tree =>
    if !self.check_timer polls then self.select_leaf successors_to_distance search_tree
    else
      let successors_to_distance1 := self.min_states_to_distance current_successors
      if unique_min_exists successors_to_distance1 then
        self.select_leaf successors_to_distance1 search_tree
      else if current_successors.all fun state => self.is_terminal state then
        self.select_leaf successors_to_distance1 search_tree
      else
        match self.expand_frontier current_successors current_successors [] search_tree with
        | Expansion.undefined_behaviour => Sampled.undefined_behaviour
        | Expansion.unsafe_leaf s path => Sampled.ok (s, path)
        | Expansion.frontier new_successors search_tree1 =>
          if new_successors.isEmpty then self.select_leaf successors_to_distance1 search_tree1
          else if self.max_policy_run_length = num_steps + 1 then
            self.select_leaf successors_to_distance1 search_tree1
          else
            sample_loop self fuel (polls + 1) (num_steps + 1) successors_to_distance1
              new_successors search_tree1

/-- `PolicyRunSampler::sample_run`: the returned state and path. -/
def sample_run (self : PolicyRunSampler) (fuel : Nat) (successor_ids : List StateID_type) :
    Sampled (StateID_type × List StateID_type) :=
  let init := successor_ids.foldl
    (fun (acc : List StateID_type × SearchTree) s =>
      (set_insert acc.1 s, tree_assign acc.2 s (SearchNode.root s)))
    ([], [])
  sample_loop self fuel 0 0 [] init.1 init.2

end PolicyRunSampler

/-- The chain of ancestors of a search node, nearest first. -/
def SearchNode.ancestors : SearchNode → List StateID_type
  | SearchNode.root _ => []
  | SearchNode.child _ parent => parent.id :: parent.ancestors

namespace Example

/-- A simulation environment with the states 1 to 9; the value of state `id` is `x = id`. The
states 1, 2, 3, 7, 8 have the single applicable action 1, the others none. The action leads from
1 to 1, from 2 to 2, from 3 to 4, from 7 to 8 or 9, and from 8 to 8. -/
def branch_environment : SimulationEnvironment :=
  { get_state := fun id => [0, id]
    extract_applicable_actions := fun id =>
      if id = 1 ∨ id = 2 ∨ id = 3 ∨ id = 7 ∨ id = 8 then [1] else []
    compute_successors := fun id label =>
      if label = 1 then
        (if id = 1 then [1] else if id = 2 then [2] else if id = 3 then [4]
         else if id = 7 then [8, 9] else if id = 8 then [8] else [])
      else []
    compute_successor_if_applicable := fun id label _ =>
      if label = 1 then
        (if id = 1 then some 1 else if id = 2 then some 2 else if id = 3 then some 4
         else if id = 7 then some 8 else if id = 8 then some 8 else none)
      else none }

/-- The predicate `x = 9`. -/
def x_eq_9 : Expression :=
  Expression.BinaryOp Op.EQ (Expression.Variable 0) (Expression.IntegerValue 9)

/-- A greedy sampler over `branch_environment` with run length limit 10 whose timer does not
expire; the distance of state 3 is 5, of state 4 it is 0, of every other state 1. -/
def sampler (unsafety_condition : Expression) : PolicyRunSampler :=
  { simEnv := branch_environment
    policy := fun _ => 1
    unsafety_condition := unsafety_condition
    distance_to_avoid := fun id => if id = 3 then 5 else if id = 4 then 0 else 1
    use_probabilistic_sampling := false
    max_policy_run_length := 10
    timer_expired := fun _ => false
    rng_index := fun _ => 0
    rng_prob := Double.finite 0
    exp_minus := fun _ => Double.finite 1 }

end Example

/-- The child is in the new frontier and in the search tree. -/
def ChildAdded (child : StateID_type) (acc : List StateID_type × PolicyRunSampler.SearchTree) :
    Prop :=
  child ∈ acc.1 ∧ PolicyRunSampler.tree_count acc.2 child = true

/-- The child is in the search tree only if it is in the new frontier too. -/
def ChildPending (child : StateID_type) (acc : List StateID_type × PolicyRunSampler.SearchTree) :
    Prop :=
  PolicyRunSampler.tree_count acc.2 child = false ∨ ChildAdded child acc

/-! ## Invariant Strengthening verifier -/

namespace InvariantStrengthening

/-- The two expressions `verify` hands to `add_to_solver`. -/
inductive Condition
  | start | unsafety
  deriving DecidableEq, Repr

/-- A call on a solver or on a model with the solver as argument, in the order of the source. -/
inductive SolverCall
  | push
  | pop
  | check
  | check_pop
  | reset
  | extract_solution
  | add_to_solver (condition : Condition) (step : Nat)
  | add_output_interface (action_label : ActionLabel_type) (step : Nat)
  | add_action_op (action_op_id update_index : Nat) (do_locs : Bool) (step : Nat)
  deriving DecidableEq, Repr

/-- An action op of the successor generator: its identifier and the update indexes that its
update iterator yields. -/
structure ActionOp where
  op_id : Nat
  update_indexes : List Nat
  deriving DecidableEq, Repr

/-- An action label of the successor generator with the answer of `is_learned` and its ops. -/
structure ActionLabel where
  action_label : ActionLabel_type
  is_learned : Bool
  action_ops : List ActionOp
  deriving DecidableEq, Repr

end InvariantStrengthening

/-- The members of `InvariantStrengthening` that stay fixed during `verify`, with the content of
the successor generator, and the answers of the solvers: `z3_answers k` is the answer of the check of `solver_z3` for the `k`-th pair of action
op and update that `verify` visits, `marabou_answers k` the answer of the check of
`solver_marabou` for that pair if it is made, `solutions k` the state extracted for it.
`model_marabou` and `solver_marabou` are non-null exactly when `has_nn` holds, as the constructor
leaves them. `NDEBUG` tells whether the build defines the macro `NDEBUG`, which makes the plain
`assert` at the end of `verify` expand to nothing. -/
structure InvariantStrengthening where
  has_nn : Bool
  do_locs : Bool
  suc_gen : List InvariantStrengthening.ActionLabel
  z3_answers : Nat → Bool
  marabou_answers : Nat → Bool
  solutions : Nat → StateBase
  NDEBUG : Bool

namespace InvariantStrengthening

/-- The members that change: the set `unsafe_states` (a set of owning pointers, every `emplace`
adds an element), the calls made on each solver so far, and the number of pairs of action op and
update visited so far. -/
structure Members where
  unsafe_states : List StateBase
  z3_calls : List SolverCall
  marabou_calls : List SolverCall
  visited : Nat
  deriving DecidableEq, Repr

/-- `InvariantStrengthening::exists_non_policy_transitions`. -/
def exists_non_policy_transitions (self : InvariantStrengthening) (members : Members)
    (action_op_id update_index : Nat) (do_locs : Bool) : Bool × Members :=
  (self.z3_answers members.visited,
    { members with
      z3_calls := members.z3_calls ++
        [SolverCall.push, SolverCall.add_action_op action_op_id update_index do_locs 0,
         SolverCall.check_pop] })

/-- `InvariantStrengthening::exists_policy_transitions`. -/
def exists_policy_transitions (self : InvariantStrengthening) (members : Members)
    (action_op_id update_index : Nat) (do_locs : Bool) : Bool × Members :=
  (self.marabou_answers members.visited,
    { members with
      marabou_calls := members.marabou_calls ++
        [SolverCall.push, SolverCall.add_action_op action_op_id update_index do_locs 0,
         SolverCall.check, SolverCall.pop] })

/-- `InvariantStrengthening::extract_solver_solution`; `model_marabou` is dereferenced without a
null check. -/
def extract_solver_solution (self : InvariantStrengthening) (members : Members) :
    Outcome Members :=
  if self.has_nn then
    Outcome.ok
      { members with
        unsafe_states := members.unsafe_states ++ [self.solutions members.visited]
        marabou_calls := members.marabou_calls ++
          [SolverCall.extract_solution, SolverCall.reset] }
  else Outcome.null_dereference

/-- The loop over the updates of one action op; the flag is `violation_found`. -/
def verify_updates (self : InvariantStrengthening) (action_op_id : Nat) :
    List Nat → Bool × Members → Outcome (Bool × Members)
  | [], acc => Outcome.ok acc
  | update_index :: rest, (violation_found, members) =>
    let non_policy :=
      self.exists_non_policy_transitions members action_op_id update_index self.do_locs
    if !non_policy.1 then
      verify_updates self action_op_id rest
        (violation_found, { non_policy.2 with visited := non_policy.2.visited + 1 })
    else
      let policy :=
        if self.has_nn then
          self.exists_policy_transitions non_policy.2 action_op_id update_index self.do_locs
        else (true, non_policy.2)
      if !policy.1 then
        verify_updates self action_op_id rest
          (violation_found, { policy.2 with visited := policy.2.visited + 1 })
      else
        match self.extract_solver_solution policy.2 with
        | Outcome.ok members1 =>
          verify_updates self action_op_id rest
            (true, { members1 with visited := members1.visited + 1 })
        | Outcome.out_of_fuel => Outcome.out_of_fuel
        | Outcome.null_dereference => Outcome.null_dereference

/-- The loop over the action ops of one label. -/
def verify_ops (self : InvariantStrengthening) :
    List ActionOp → Bool × Members → Outcome (Bool × Members)
  | [], acc => Outcome.ok acc
  | action_op :: rest, acc =>
    match self.verify_updates action_op.op_id action_op.update_indexes acc with
    | Outcome.ok acc1 => verify_ops self rest acc1
    | Outcome.out_of_fuel => Outcome.out_of_fuel
    | Outcome.null_dereference => Outcome.null_dereference

/-- The loop over the action labels. -/
def verify_labels (self : InvariantStrengthening) :
    List ActionLabel → Bool × Members → Outcome (Bool × Members)
  | [], acc => Outcome.ok acc
  | entry :: rest, (violation_found, members) =>
    let is_learned := self.has_nn && entry.is_learned
    let members1 :=
      if is_learned then
        { members with
          marabou_calls := members.marabou_calls ++
            [SolverCall.add_output_interface entry.action_label 0] }
      else members
    match self.verify_ops entry.action_ops (violation_found, members1) with
    | Outcome.ok acc1 => verify_labels self rest acc1
    | Outcome.out_of_fuel => Outcome.out_of_fuel
    | Outcome.null_dereference => Outcome.null_dereference

/-- What `verify` leaves behind when it returns: the members, the local `violation_found`, and the
value of the local `agree`, the argument of the final `assert`. -/
structure Verified where
  members : Members
  violation_found : Bool
  agree : Bool
  deriving DecidableEq, Repr

/-- Result of a routine that ends with an `assert`: it returns a value, the model runs out of
fuel, a null pointer is dereferenced, or the assertion fails and `abort` ends the process. -/
inductive Asserted (α : Type)
  | ok (value : α)
  | out_of_fuel
  | null_dereference
  | assertion_failure
  deriving DecidableEq, Repr

/-- The value of a routine that returned, `none` otherwise. -/
def Asserted.value {α : Type} : Asserted α → Option α
  | Asserted.ok v => some v
  | Asserted.out_of_fuel => none
  | Asserted.null_dereference => none
  | Asserted.assertion_failure => none

/-- `InvariantStrengthening::verify`. The last statement `assert(agree)` is evaluated unless the
build defines `NDEBUG`; when `agree` is false it aborts. -/
def verify (self : InvariantStrengthening) (members : Members) : Asserted Verified :=
  let members1 :=
    { members with
      z3_calls := members.z3_calls ++
        [SolverCall.push, SolverCall.add_to_solver Condition.start 0,
         SolverCall.add_to_solver Condition.unsafety 1]
      marabou_calls := members.marabou_calls ++
        (if self.has_nn then
          [SolverCall.push, SolverCall.add_to_solver Condition.start 0,
           SolverCall.add_to_solver Condition.unsafety 1]
         else []) }
  match self.verify_labels self.suc_gen (false, members1) with
  | Outcome.ok (violation_found, members2) =>
    let members3 :=
      { members2 with
        marabou_calls := members2.marabou_calls ++ (if self.has_nn then [SolverCall.pop] else [])
        z3_calls := members2.z3_calls ++ [SolverCall.pop] }
    let agree := decide (members3.unsafe_states.isEmpty = violation_found)
    if !self.NDEBUG && !agree then Asserted.assertion_failure
    else
      Asserted.ok { members := members3, violation_found := violation_found, agree := agree }
  | Outcome.out_of_fuel => Asserted.out_of_fuel
  | Outcome.null_dereference => Asserted.null_dereference

/-- `InvariantStrengthening::run`: the returned set. -/
def run (self : InvariantStrengthening) (members : Members) : Asserted (List StateBase) :=
  match self.verify members with
  | Asserted.ok verified => Asserted.ok verified.members.unsafe_states
  | Asserted.out_of_fuel => Asserted.out_of_fuel
  | Asserted.null_dereference => Asserted.null_dereference
  | Asserted.assertion_failure => Asserted.assertion_failure

/-- The pairs of action op identifier and update index in the order `verify` visits them. -/
def pairs (self : InvariantStrengthening) : List (Nat × Nat) :=
  self.suc_gen.flatMap fun entry =>
    entry.action_ops.flatMap fun action_op =>
      action_op.update_indexes.map fun update_index => (action_op.op_id, update_index)

/-- The `k`-th visited pair passes the solver checks that `verify` makes for it: the check of
`solver_z3` and, with a network, the check of `solver_marabou`. -/
def passes (self : InvariantStrengthening) (k : Nat) : Bool :=
  self.z3_answers k && (!self.has_nn || self.marabou_answers k)

/-- Some pair among the `n` pairs visited from the `start`-th on passes its checks. -/
def any_pass (self : InvariantStrengthening) : Nat → Nat → Bool
  | _, 0 => false
  | start, n + 1 => passes self start || any_pass self (start + 1) n

/-- What a loop of `verify` over `n` pairs makes of the flag `violation_found` and the members:
when no pair passes, the flag and the set are as before; when a pair passes, the flag is set and
the set is not empty with a network, and without a network the null `model_marabou` is
dereferenced. -/
def VerifySpec (self : InvariantStrengthening) (n : Nat) (acc : Bool × Members)
    (result : Outcome (Bool × Members)) : Prop :=
  (any_pass self acc.2.visited n = false →
    ∃ members1, result = Outcome.ok (acc.1, members1) ∧
      members1.unsafe_states = acc.2.unsafe_states ∧ members1.visited = acc.2.visited + n) ∧
  (any_pass self acc.2.visited n = true →
    (self.has_nn = true →
      ∃ members1, result = Outcome.ok (true, members1) ∧ members1.unsafe_states ≠ [] ∧
        members1.visited = acc.2.visited + n) ∧
    (self.has_nn = false → result = Outcome.null_dereference))

end InvariantStrengthening

/-! ## Auxiliary definitions for the choice among the seeds -/

/-- The finished box of a seed: the corners that the expansion of the seed returns for every
sufficiently large fuel. -/
def FinishedBox (val_set : List (List Int)) (model : Model) (state : StateBase)
    (box : List Int × List Int) : Prop :=
  Terminates
    (fun fuel => BoundedBox.expand fuel val_set model (BoundedBox.get_state_vec state).length fuel
      (BoundedBox.get_state_vec state) (BoundedBox.get_state_vec state))
    box

/-- Both corners have the given dimension count and the lower corner is below the upper one in
every dimension. -/
def OrderedCorners (size : Nat) (min_corner max_corner : List Int) : Prop :=
  min_corner.length = size ∧ max_corner.length = size ∧
    ∀ d, d < size → BoundedBox.at_dim min_corner d ≤ BoundedBox.at_dim max_corner d

namespace Example

/-- A deterministic simulation environment with the states 0, 1, 2, 3; the value of state `id` is
`x = id`. The states 0, 1 and 3 have the single applicable action 1, which leads from 0 to 1,
from 3 to 1 and from 1 to 2; state 2 has no applicable action. No policy run has a cycle. -/
def merge_environment : SimulationEnvironment :=
  { get_state := fun id => [0, id]
    extract_applicable_actions := fun id => if id = 0 ∨ id = 1 ∨ id = 3 then [1] else []
    compute_successors := fun id label =>
      if label = 1 then
        (if id = 0 then [1] else if id = 3 then [1] else if id = 1 then [2] else [])
      else []
    compute_successor_if_applicable := fun id label _ =>
      if label = 1 then
        (if id = 0 then some 1 else if id = 3 then some 1 else if id = 1 then some 2 else none)
      else none }

/-- The identifier over `merge_environment` as the constructor builds it with policy-run sampling
switched off; no state is unsafe. -/
def merge_setup (terminate_on_cycles : Bool) : Setup :=
  UnsafePathIdentifier.create merge_environment (fun _ => 1) x_eq_5 (1 / 2) terminate_on_cycles
    false
    (fun _ => { p := 0, almost_expired := false, sample_run := fun _ => (none, []), outcome := 0 })

end Example

/-! ## Auxiliary definitions for the loop of the policy-run sampler -/

/-- Depth of a search node below its initial successor: the number of its ancestors. -/
def SearchNode.depth : SearchNode → Nat
  | SearchNode.root _ => 0
  | SearchNode.child _ parent => parent.depth + 1

namespace PolicyRunSampler

/-- The value of `cumulative_probability` in `sample_from_distribution` after `k` passes of the
loop over a vector of equal probabilities: `0.0` and `k` additions in `double`. -/
def cumulative_probability (probability : Double) : Nat → Double
  | 0 => Double.finite 0
  | k + 1 => Double.add (cumulative_probability probability k) probability

/-- The candidate map `successors_to_distance` as a function of the frontier that the loop of
`sample_run` evaluated last; it is empty as long as no frontier was evaluated. -/
def candidates (self : PolicyRunSampler) : Option (List StateID_type) → List (StateID_type × Int)
  | none => []
  | some current_successors => self.min_states_to_distance current_successors

/-- The search tree with which the loop `for (auto s: current_successors)` is left: after the
last frontier state, or at the return from inside the loop at an unsafe state. -/
def expansion_tree (self : PolicyRunSampler) (current_successors : List StateID_type) :
    List StateID_type → List StateID_type → SearchTree → SearchTree
  | [], _, search_tree => search_tree
  | s :: rest, new_successors, search_tree =>
    if self.is_unsafe s then search_tree
    else
      let added := add_children current_successors (tree_find search_tree s)
        (self.get_policy_successors s) (new_successors, search_tree)
      expansion_tree self current_successors rest added.1 added.2

/-- How `sample_run` ends: the returned value, whether it was returned from inside the loop at an
unsafe state, the value of `num_steps` (the number of times the frontier was replaced), the
frontier that was evaluated last (`none` when none was), and the search tree at that point. -/
structure LoopExit where
  result : Sampled (StateID_type × List StateID_type)
  early : Bool
  num_steps : Int
  evaluated : Option (List StateID_type)
  search_tree : SearchTree

/-- The loop of `sample_run` with its bookkeeping made visible: the same steps as `sample_loop`,
entered with the frontier evaluated last in place of the candidate map. -/
def loop_exit (self : PolicyRunSampler) :
    Nat → Nat → Int → Option (List StateID_type) → List StateID_type → SearchTree → LoopExit
  | 0, _, num_steps, evaluated, _, search_tree =>
    { result := Sampled.out_of_fuel, early := false, num_steps := num_steps
      evaluated := evaluated, search_tree := search_tree }
  | fuel + 1, polls, num_steps, evaluated, current_successors, search_tree =>
    if !self.check_timer polls then
      { result := self.select_leaf (self.candidates evaluated) search_tree, early := false
        num_steps := num_steps, evaluated := evaluated, search_tree := search_tree }
    else if unique_min_exists (self.min_states_to_distance current_successors) then
      { result := self.select_leaf (self.min_states_to_distance current_successors) search_tree
        early := false, num_steps := num_steps, evaluated := some current_successors
        search_tree := search_tree }
    else if current_successors.all fun state => self.is_terminal state then
      { result := self.select_leaf (self.min_states_to_distance current_successors) search_tree
        early := false, num_steps := num_steps, evaluated := some current_successors
        search_tree := search_tree }
    else
      match self.expand_frontier current_successors current_successors [] search_tree with
      | Expansion.undefined_behaviour =>
        { result := Sampled.undefined_behaviour, early := false, num_steps := num_steps
          evaluated := some current_successors
          search_tree :=
            self.expansion_tree current_successors current_successors [] search_tree }
      | Expansion.unsafe_leaf s path =>
        { result := Sampled.ok (s, path), early := true, num_steps := num_steps
          evaluated := some current_successors
          search_tree :=
            self.expansion_tree current_successors current_successors [] search_tree }
      | Expansion.frontier new_successors search_tree1 =>
        if new_successors.isEmpty then
          { result :=
              self.select_leaf (self.min_states_to_distance current_successors) search_tree1
            early := false, num_steps := num_steps, evaluated := some current_successors
            search_tree := search_tree1 }
        else if self.max_policy_run_length = num_steps + 1 then
          { result :=
              self.select_leaf (self.min_states_to_distance current_successors) search_tree1
            early := false, num_steps := num_steps + 1, evaluated := some current_successors
            search_tree := search_tree1 }
        else
          loop_exit self fuel (polls + 1) (num_steps + 1) (some current_successors)
            new_successors search_tree1

/-- The frontier and the search tree that `sample_run` builds from its argument. -/
def initial_frontier (successor_ids : List StateID_type) : List StateID_type × SearchTree :=
  successor_ids.foldl
    (fun (acc : List StateID_type × SearchTree) s =>
      (set_insert acc.1 s, tree_assign acc.2 s (SearchNode.root s)))
    ([], [])

/-- How `sample_run` ends on the given successors. -/
def sample_exit (self : PolicyRunSampler) (fuel : Nat) (successor_ids : List StateID_type) :
    LoopExit :=
  loop_exit self fuel 0 0 none (initial_frontier successor_ids).1
    (initial_frontier successor_ids).2

end PolicyRunSampler
/-- In round `k` of the loop of `sample_run` every node of the search tree has depth at most
`k + 1`, and the nodes of the frontier states have depth at most `k`. -/
def RoundDepth (k : Nat) (current_successors : List StateID_type)
    (search_tree : PolicyRunSampler.SearchTree) : Prop :=
  (∀ entry ∈ search_tree, entry.2.depth ≤ k + 1) ∧
    ∀ entry ∈ search_tree, entry.1 ∈ current_successors → entry.2.depth ≤ k

/-! ## Solvers as stacks of assertion scopes -/

namespace InvariantStrengthening

/-- Modelled from the spec: the solver classes are not under src/. A solver is a stack of
assertion scopes, innermost first; `checks` records, for every check made, the assertions that
were in force, outermost scope first. -/
structure Scopes where
  stack : List (List SolverCall)
  checks : List (List SolverCall)
  deriving DecidableEq, Repr

namespace Scopes

/-- The assertions in force: those of all open scopes, outermost scope first. -/
def assertions (self : Scopes) : List SolverCall :=
  self.stack.reverse.flatten

/-- An assertion is added to the innermost scope. -/
def add_assertion (self : Scopes) (call : SolverCall) : Scopes :=
  { self with
    stack :=
      match self.stack with
      | top :: rest => (top ++ [call]) :: rest
      | [] => [[call]] }

/-- Modelled from the spec: the effect of one call. `push` opens a scope, `pop` drops the
innermost scope with its assertions, `check` leaves the scopes as they are, `check_pop` checks
and then pops; `reset` and `extract_solution` concern the last solution and leave the scopes as
they are. -/
def perform (self : Scopes) : SolverCall → Scopes
  | SolverCall.push => { self with stack := [] :: self.stack }
  | SolverCall.pop => { self with stack := self.stack.tail }
  | SolverCall.check => { self with checks := self.checks ++ [self.assertions] }
  | SolverCall.check_pop =>
    { stack := self.stack.tail, checks := self.checks ++ [self.assertions] }
  | SolverCall.reset => self
  | SolverCall.extract_solution => self
  | SolverCall.add_to_solver condition step =>
    self.add_assertion (SolverCall.add_to_solver condition step)
  | SolverCall.add_output_interface action_label step =>
    self.add_assertion (SolverCall.add_output_interface action_label step)
  | SolverCall.add_action_op action_op_id update_index do_locs step =>
    self.add_assertion (SolverCall.add_action_op action_op_id update_index do_locs step)

/-- The solver after a sequence of calls. -/
def replay (calls : List SolverCall) (self : Scopes) : Scopes :=
  calls.foldl perform self

end Scopes

end InvariantStrengthening

namespace Example

/-- A verifier with a network over two learned labels 1 and 2; label 1 has the action op 0 and
label 2 the action op 1, each with the single update 0. For both pairs the check of `solver_z3`
succeeds and the check of `solver_marabou` fails, so that no violation is found. The build defines
`NDEBUG`. -/
def two_label_verifier : InvariantStrengthening :=
  { has_nn := true
    do_locs := false
    suc_gen :=
      [{ action_label := 1, is_learned := true
         action_ops := [{ op_id := 0, update_indexes := [0] }] },
       { action_label := 2, is_learned := true
         action_ops := [{ op_id := 1, update_indexes := [0] }] }]
    z3_answers := fun _ => true
    marabou_answers := fun _ => false
    solutions := fun _ => [0, 0]
    NDEBUG := true }

/-- The members on entry to `verify`: no unsafe state, no call made, no pair visited. -/
def fresh_members : InvariantStrengthening.Members :=
  { unsafe_states := [], z3_calls := [], marabou_calls := [], visited := 0 }

/-- A solver with one open scope and no assertion. -/
def fresh_solver : InvariantStrengthening.Scopes :=
  { stack := [[]], checks := [] }

end Example

/-! ## Bounded box with 32-bit `int` arithmetic -/

/-! The loops of `bounded_box.cpp` with every `int` operation reduced to 32 bits: `current[dim]++`
at `INT_MAX` gives `INT_MIN`, `min_corner[dim] -= 1` at `INT_MIN` gives `INT_MAX`. The entries of
the vectors passed in are 32-bit `int` values. -/

namespace Machine

namespace BoundedBox

/-- The inner loop `while (dim-- > 0)` of `is_bounded` with `current[dim]++` computed in 32-bit
`int`: the increment of `INT_MAX` gives `INT_MIN`. `some current` is the next point to check,
`none` stands for `return true`. -/
def next_point (min_corner max_corner : List Int) : Nat → List Int → Option (List Int)
  | 0, current => some current
  | dim + 1, current =>
    let current1 := current.set dim (wrap_int (SSG.BoundedBox.at_dim current dim + 1))
    if SSG.BoundedBox.at_dim current1 dim ≤ SSG.BoundedBox.at_dim max_corner dim then
      some current1
    else
      let current2 := current1.set dim (SSG.BoundedBox.at_dim min_corner dim)
      if dim = 0 then none else next_point min_corner max_corner dim current2

/-- The outer loop `while (true)` of `is_bounded`: membership test of the current point, then the
step to the next point. -/
def check_points (min_corner max_corner : List Int) (point_set : List (List Int)) :
    Nat → List Int → Option Bool
  | 0, _ => none
  | fuel + 1, current =>
    if current ∉ point_set then some false
    else
      match next_point min_corner max_corner current.length current with
      | none => some true
      | some next => check_points min_corner max_corner point_set fuel next

/-- `BoundedBox::is_bounded` on vectors of 32-bit `int`. -/
def is_bounded (fuel : Nat) (min_corner max_corner : List Int) (point_set : List (List Int))
    (model : Model) : Option Bool :=
  if SSG.BoundedBox.domain_check min_corner max_corner model then
    check_points min_corner max_corner point_set fuel min_corner
  else some false

/-- Body of the loop over `dim` with `min_corner[dim] -= 1`, `max_corner[dim] += 1` and the two
reverts computed in 32-bit `int`; the second call passes `max_corner` first and `min_corner`
second, as the source does. -/
def expand_dim (fuel : Nat) (val_set : List (List Int)) (model : Model)
    (c : SSG.BoundedBox.Corners) (dim : Nat) : Option SSG.BoundedBox.Corners :=
  let min1 := c.min_corner.set dim (wrap_int (SSG.BoundedBox.at_dim c.min_corner dim - 1))
  match is_bounded fuel min1 c.max_corner val_set model with
  | none => none
  | some b1 =>
    let min2 := if !b1 then min1.set dim (wrap_int (SSG.BoundedBox.at_dim min1 dim + 1)) else min1
    let fp1 := if !b1 then c.fixed_point else false
    let max1 := c.max_corner.set dim (wrap_int (SSG.BoundedBox.at_dim c.max_corner dim + 1))
    match is_bounded fuel max1 min2 val_set model with
    | none => none
    | some b2 =>
      let max2 :=
        if !b2 then max1.set dim (wrap_int (SSG.BoundedBox.at_dim max1 dim - 1)) else max1
      let fp2 := if !b2 then fp1 else false
      some { min_corner := min2, max_corner := max2, fixed_point := fp2 }

/-- One sweep `for (dim = 0; dim < center.size(); dim++)`, listed by the dimensions still to do. -/
def sweep (fuel : Nat) (val_set : List (List Int)) (model : Model) :
    List Nat → SSG.BoundedBox.Corners → Option SSG.BoundedBox.Corners
  | [], c => some c
  | dim :: dims, c =>
    match expand_dim fuel val_set model c dim with
    | none => none
    | some c1 => sweep fuel val_set model dims c1

/-- The loop `while (!fixed_point)` for one seed; `point_fuel` bounds the loops of `is_bounded`,
the first argument bounds the number of sweeps. -/
def expand (point_fuel : Nat) (val_set : List (List Int)) (model : Model) (size : Nat) :
    Nat → List Int → List Int → Option (List Int × List Int)
  | 0, _, _ => none
  | fuel + 1, min_corner, max_corner =>
    match sweep point_fuel val_set model (List.range size)
        { min_corner := min_corner, max_corner := max_corner, fixed_point := true } with
    | none => none
    | some c =>
      if c.fixed_point then some (c.min_corner, c.max_corner)
      else expand point_fuel val_set model size fuel c.min_corner c.max_corner

/-- The volume loop `volume *= max_corner[dim] - min_corner[dim] + 1`: the factor is a 32-bit
`int` expression, converted to `size_t`; the product is taken in `size_t`. -/
def compute_volume (min_corner max_corner : List Int) (size : Nat) : Nat :=
  (List.range size).foldl
    (fun volume dim =>
      (volume * SSG.BoundedBox.to_size_t (wrap_int (wrap_int
        (SSG.BoundedBox.at_dim max_corner dim - SSG.BoundedBox.at_dim min_corner dim) + 1)))
        % 2 ^ 64)
    1

/-- Body of the loop over the seeds: expand the seed, compute the volume, update the best box. -/
def seed_step (fuel : Nat) (val_set : List (List Int)) (model : Model)
    (best : SSG.BoundedBox.Best) (state : StateBase) : Option SSG.BoundedBox.Best :=
  let center := SSG.BoundedBox.get_state_vec state
  match expand fuel val_set model center.length fuel center center with
  | none => none
  | some (min_corner, max_corner) =>
    let volume := compute_volume min_corner max_corner center.length
    if volume > best.max_volume then
      some { max_volume := volume, best_min := min_corner, best_max := max_corner }
    else some best

/-- The loop `for (const auto& state: state_set)` that finds the maximal bounded box. -/
def find_best (fuel : Nat) (val_set : List (List Int)) (model : Model) :
    List StateBase → SSG.BoundedBox.Best → Option SSG.BoundedBox.Best
  | [], best => some best
  | state :: rest, best =>
    match seed_step fuel val_set model best state with
    | none => none
    | some best1 => find_best fuel val_set model rest best1

/-- The search part of `compute_bounded_box`: the lookup set and the loop over the seeds. -/
def best_box (fuel : Nat) (state_set : List StateBase) (model : Model) :
    Option SSG.BoundedBox.Best :=
  find_best fuel (state_set.map SSG.BoundedBox.get_state_vec) model state_set
    { max_volume := 0, best_min := [], best_max := [] }

/-- `BoundedBox::compute_bounded_box` with 32-bit `int` arithmetic. -/
def compute_bounded_box (fuel : Nat) (state_set : List StateBase) (model : Model) :
    Option (Nat × Expression) :=
  match best_box fuel state_set model with
  | none => none
  | some best => some (best.max_volume, SSG.BoundedBox.box_expression best model)

end BoundedBox

/-- The finished box of a seed in 32-bit `int` arithmetic: the corners that the expansion of the
seed returns for every sufficiently large fuel. -/
def FinishedBox (val_set : List (List Int)) (model : Model) (state : StateBase)
    (box : List Int × List Int) : Prop :=
  Terminates
    (fun fuel => BoundedBox.expand fuel val_set model
      (SSG.BoundedBox.get_state_vec state).length fuel
      (SSG.BoundedBox.get_state_vec state) (SSG.BoundedBox.get_state_vec state))
    box

end Machine

/-- Every entry of every point of the set is a 32-bit `int` other than `INT_MAX`. -/
def BelowIntMax (val_set : List (List Int)) : Prop :=
  ∀ p ∈ val_set, ∀ d, INT_MIN ≤ BoundedBox.at_dim p d ∧ BoundedBox.at_dim p d < INT_MAX

/-- In every dimension the entries of the points of the set differ by less than `INT_MAX`. -/
def NarrowSpan (val_set : List (List Int)) : Prop :=
  ∀ p ∈ val_set, ∀ q ∈ val_set, ∀ d, BoundedBox.at_dim p d - BoundedBox.at_dim q d < INT_MAX

namespace Example

/-- The two states with the data values `INT_MAX - 1` and `INT_MAX`. -/
def top_states : List StateBase := [[0, 2147483646], [0, 2147483647]]

/-- A model with 64 data variables, each with the domain `[0, 1]`. -/
def binary_model : Model :=
  { number_variables := 64, lower_bound_int := fun _ => 0, upper_bound_int := fun _ => 1 }

/-- The point of `{0,1}^64` whose first `k` entries are 1 and whose other entries are 0. -/
def stair (k : Nat) : List Int := (List.range 64).map fun d => if d < k then 1 else 0

/-- The 65 states whose data valuations are the points `stair 0` to `stair 64`. -/
def staircase_states : List StateBase := (List.range 65).map fun k => 0 :: stair k

end Example

/-! # Theorems -/

/-! ## Evaluation of predicates -/

theorem evaluate_all_eq_all (l : List Expression) (s : StateBase) :
    Expression.evaluate_all l s = l.all (fun c => c.sat s) := by
  induction l with
  | nil => simp [Expression.evaluate_all]
  | cons e es ih => simp [Expression.evaluate_all, Expression.sat, ih]

theorem evaluate_any_eq_any (l : List Expression) (s : StateBase) :
    Expression.evaluate_any l s = l.any (fun c => c.sat s) := by
  induction l with
  | nil => simp [Expression.evaluate_any]
  | cons e es ih => simp [Expression.evaluate_any, Expression.sat, ih]

theorem sat_nary_and (l : List Expression) (s : StateBase) :
    (Expression.Nary Op.AND l).sat s = l.all (fun c => c.sat s) := by
  rw [← evaluate_all_eq_all]
  cases h : Expression.evaluate_all l s <;> simp [Expression.sat, Expression.evaluate_integer, h]

theorem sat_nary_or (l : List Expression) (s : StateBase) :
    (Expression.Nary Op.OR l).sat s = l.any (fun c => c.sat s) := by
  rw [← evaluate_any_eq_any]
  cases h : Expression.evaluate_any l s <;> simp [Expression.sat, Expression.evaluate_integer, h]

theorem sat_not (e : Expression) (s : StateBase) :
    (Expression.Not e).sat s = !e.sat s := by
  by_cases h : e.evaluate_integer s = 0 <;> simp [Expression.sat, Expression.evaluate_integer, h]

theorem sat_ge (model : Model) (j : Nat) (v : Int) (s : StateBase) :
    (Expression.BinaryOp Op.GE (model.gen_var_expr j) (Expression.IntegerValue v)).sat s
      = decide (v ≤ s.get_int (j + 1)) := by
  by_cases h : v ≤ s.get_int (j + 1) <;>
    simp [Expression.sat, Expression.evaluate_integer, Model.gen_var_expr, h]

theorem sat_le (model : Model) (j : Nat) (v : Int) (s : StateBase) :
    (Expression.BinaryOp Op.LE (model.gen_var_expr j) (Expression.IntegerValue v)).sat s
      = decide (s.get_int (j + 1) ≤ v) := by
  by_cases h : s.get_int (j + 1) ≤ v <;>
    simp [Expression.sat, Expression.evaluate_integer, Model.gen_var_expr, h]

theorem sat_eq (model : Model) (j : Nat) (v : Int) (s : StateBase) :
    (Expression.BinaryOp Op.EQ (model.gen_var_expr j) (Expression.IntegerValue v)).sat s
      = decide (s.get_int (j + 1) = v) := by
  by_cases h : s.get_int (j + 1) = v <;>
    simp [Expression.sat, Expression.evaluate_integer, Model.gen_var_expr, h]

/-- A box predicate holds on a state exactly when every listed variable is within its bounds. -/
theorem sat_box (model : Model) (n : Nat) (lower upper : Nat → Int) (s : StateBase) :
    (Expression.Nary Op.AND ((List.range n).flatMap fun j =>
      BoundingBox.box_conjuncts model j (lower j) (upper j))).sat s = true
      ↔ ∀ j, j < n → lower j ≤ s.get_int (j + 1) ∧ s.get_int (j + 1) ≤ upper j := by
  rw [sat_nary_and]
  simp only [List.all_eq_true, List.mem_flatMap, List.mem_range, BoundingBox.box_conjuncts]
  constructor
  · intro h j hj
    have h1 := h _ ⟨j, hj, List.mem_cons_self _ _⟩
    have h2 := h _ ⟨j, hj, List.mem_cons_of_mem _ (List.mem_cons_self _ _)⟩
    rw [sat_ge] at h1
    rw [sat_le] at h2
    exact ⟨of_decide_eq_true h1, of_decide_eq_true h2⟩
  · rintro h e ⟨j, hj, he⟩
    simp only [List.mem_cons, List.mem_singleton, List.not_mem_nil, or_false] at he
    rcases he with rfl | rfl
    · rw [sat_ge]; exact decide_eq_true (h j hj).1
    · rw [sat_le]; exact decide_eq_true (h j hj).2

/-- The point predicate of a state holds on that state. -/
theorem sat_to_condition_self (model : Model) (s : StateBase) :
    (s.to_condition model).sat s = true := by
  unfold StateBase.to_condition
  rw [sat_nary_and]
  simp only [List.all_eq_true, List.mem_map, List.mem_range]
  rintro e ⟨j, _, rfl⟩
  rw [sat_eq]
  exact decide_eq_true rfl

/-- The plain realisation of the normal-form visitor preserves meaning. -/
theorem TO_NORMALFORM_meaning_preserving : TO_NORMALFORM.MeaningPreserving where
  negate_sat := fun e s => sat_not e s
  normalize_sat := fun _ _ => rfl
  specialize_sat := fun _ _ => rfl
  split_conjunction_sat := by
    intro e s
    simp only [TO_NORMALFORM]
    split
    · rw [sat_nary_and]
    · simp
  split_disjunction_sat := by
    intro e s
    simp only [TO_NORMALFORM]
    split
    · rw [sat_nary_or]
    · simp
  construct_conjunction_sat := fun l s => sat_nary_and l s
  construct_disjunction_sat := fun l s => sat_nary_or l s

/-! ## Bounding box -/

theorem update_bound_fst_le (bound : Int × Int) (value : Int) :
    (BoundingBox.update_bound bound value).1 ≤ bound.1 ∧
    (BoundingBox.update_bound bound value).1 ≤ value := by
  unfold BoundingBox.update_bound
  dsimp only
  split_ifs <;> constructor <;> simp_all <;> omega

theorem update_bound_snd_ge (bound : Int × Int) (value : Int) :
    bound.2 ≤ (BoundingBox.update_bound bound value).2 ∧
    value ≤ (BoundingBox.update_bound bound value).2 := by
  unfold BoundingBox.update_bound
  dsimp only
  split_ifs <;> constructor <;> simp_all <;> omega

theorem foldl_update_bounds_mono (var_num : Nat) (state_set : List StateBase)
    (bounds : BoundingBox.Bounds) (i : Nat) :
    (state_set.foldl (BoundingBox.update_bounds var_num) bounds i).1 ≤ (bounds i).1 ∧
    (bounds i).2 ≤ (state_set.foldl (BoundingBox.update_bounds var_num) bounds i).2 := by
  induction state_set generalizing bounds with
  | nil => simp
  | cons s rest ih =>
    simp only [List.foldl_cons]
    have h := ih (BoundingBox.update_bounds var_num bounds s)
    have h1 : (BoundingBox.update_bounds var_num bounds s i).1 ≤ (bounds i).1 ∧
        (bounds i).2 ≤ (BoundingBox.update_bounds var_num bounds s i).2 := by
      unfold BoundingBox.update_bounds
      split_ifs
      · exact ⟨(update_bound_fst_le _ _).1, (update_bound_snd_ge _ _).1⟩
      · exact ⟨le_refl _, le_refl _⟩
    exact ⟨le_trans h.1 h1.1, le_trans h1.2 h.2⟩

theorem foldl_update_bounds_mem (var_num : Nat) (state_set : List StateBase)
    (bounds : BoundingBox.Bounds) (s : StateBase) (hs : s ∈ state_set) (i : Nat)
    (h1 : 1 ≤ i) (h2 : i ≤ var_num) :
    (state_set.foldl (BoundingBox.update_bounds var_num) bounds i).1 ≤ s.get_int i ∧
    s.get_int i ≤ (state_set.foldl (BoundingBox.update_bounds var_num) bounds i).2 := by
  induction state_set generalizing bounds with
  | nil => cases hs
  | cons t rest ih =>
    simp only [List.foldl_cons]
    rcases List.mem_cons.mp hs with rfl | hmem
    · have hm := foldl_update_bounds_mono var_num rest (BoundingBox.update_bounds var_num bounds s) i
      have hu : BoundingBox.update_bounds var_num bounds s i
          = BoundingBox.update_bound (bounds i) (s.get_int i) := by
        unfold BoundingBox.update_bounds
        rw [if_pos ⟨h1, h2⟩]
      rw [hu] at hm
      exact ⟨le_trans hm.1 (update_bound_fst_le _ _).2, le_trans (update_bound_snd_ge _ _).2 hm.2⟩
    · exact ih _ hmem

theorem find_bounds_mem (state_set : List StateBase) (var_num : Nat) (s : StateBase)
    (hs : s ∈ state_set) (i : Nat) (h1 : 1 ≤ i) (h2 : i ≤ var_num) :
    (BoundingBox.find_bounds state_set var_num i).1 ≤ s.get_int i ∧
    s.get_int i ≤ (BoundingBox.find_bounds state_set var_num i).2 :=
  foldl_update_bounds_mem var_num state_set _ s hs i h1 h2

/-- The bounding box predicate holds on every state of the set. -/
theorem sat_bounding_box (state_set : List StateBase) (model : Model) (s : StateBase)
    (hs : s ∈ state_set) :
    (BoundingBox.compute_bounding_box state_set model).2.sat s = true := by
  unfold BoundingBox.compute_bounding_box BoundingBox.box_expression
  exact (sat_box model model.number_variables
    (fun j => (BoundingBox.find_bounds state_set model.number_variables (j + 1)).1)
    (fun j => (BoundingBox.find_bounds state_set model.number_variables (j + 1)).2) s).mpr
    (fun j hj => find_bounds_mem state_set model.number_variables s hs (j + 1) (by omega) (by omega))


/-! ## Termination of the containment check -/

theorem odometer_cons (l h c : Int) (lo hi cur : List Int) :
    odometer (l :: lo) (h :: hi) (c :: cur)
      = match odometer lo hi cur with
        | some next => some (c :: next)
        | none => if c + 1 ≤ h then some ((c + 1) :: lo) else none := rfl

theorem odometer_snoc (lo hi cur : List Int) (l h c : Int)
    (h1 : lo.length = cur.length) (h2 : hi.length = cur.length) :
    odometer (lo ++ [l]) (hi ++ [h]) (cur ++ [c])
      = if c + 1 ≤ h then some (cur ++ [c + 1])
        else (odometer lo hi cur).map (fun next => next ++ [l]) := by
  induction cur generalizing lo hi with
  | nil =>
    cases lo with
    | nil =>
      cases hi with
      | nil => simp [odometer]
      | cons _ _ => simp at h2
    | cons _ _ => simp at h1
  | cons c0 cur ih =>
    cases lo with
    | nil => simp at h1
    | cons l0 lo =>
      cases hi with
      | nil => simp at h2
      | cons h0 hi =>
        simp only [List.length_cons, Nat.add_right_cancel_iff] at h1 h2
        rw [List.cons_append, List.cons_append, List.cons_append, odometer_cons, odometer_cons,
          ih lo hi h1 h2]
        by_cases hc : c + 1 ≤ h
        · simp [hc]
        · simp only [hc, if_false]
          cases hod : odometer lo hi cur with
          | some nx => simp
          | none =>
            by_cases hc0 : c0 + 1 ≤ h0 <;> simp [hc0]

theorem at_dim_append_length (pre suf : List Int) (x : Int) :
    BoundedBox.at_dim ((pre ++ [x]) ++ suf) pre.length = x := by
  induction pre with
  | nil => simp [BoundedBox.at_dim]
  | cons a pre ih => simpa [BoundedBox.at_dim] using ih

theorem set_append_length (pre suf : List Int) (x y : Int) :
    ((pre ++ [x]) ++ suf).set pre.length y = (pre ++ [y]) ++ suf := by
  induction pre with
  | nil => simp
  | cons a pre ih => simp

theorem exists_snoc_of_length_succ {α : Type} (l : List α) (n : Nat) (h : l.length = n + 1) :
    ∃ init last, l = init ++ [last] ∧ init.length = n := by
  rcases List.eq_nil_or_concat l with rfl | ⟨init, last, rfl⟩
  · simp at h
  · refine ⟨init, last, by simp, ?_⟩
    simpa using h

theorem next_point_eq_odometer_aux (dim : Nat) :
    ∀ (lo_pre hi_pre pre lo_suf hi_suf suf : List Int),
      lo_pre.length = dim + 1 → hi_pre.length = dim + 1 → pre.length = dim + 1 →
      BoundedBox.next_point (lo_pre ++ lo_suf) (hi_pre ++ hi_suf) (dim + 1) (pre ++ suf)
        = (odometer lo_pre hi_pre pre).map (fun next => next ++ suf) := by
  induction dim with
  | zero =>
    intro lo_pre hi_pre pre lo_suf hi_suf suf h1 h2 h3
    obtain ⟨l, rfl⟩ := List.length_eq_one.mp h1
    obtain ⟨h, rfl⟩ := List.length_eq_one.mp h2
    obtain ⟨c, rfl⟩ := List.length_eq_one.mp h3
    by_cases hc : c + 1 ≤ h <;>
      simp [BoundedBox.next_point, BoundedBox.at_dim, odometer, hc]
  | succ dim ih =>
    intro lo_pre hi_pre pre lo_suf hi_suf suf h1 h2 h3
    obtain ⟨lo0, l, rfl, hl⟩ := exists_snoc_of_length_succ lo_pre _ h1
    obtain ⟨hi0, h, rfl, hh⟩ := exists_snoc_of_length_succ hi_pre _ h2
    obtain ⟨pre0, c, rfl, hp⟩ := exists_snoc_of_length_succ pre _ h3
    rw [odometer_snoc lo0 hi0 pre0 l h c (by omega) (by omega)]
    rw [BoundedBox.next_point]
    simp only [← hp]
    rw [at_dim_append_length, set_append_length, at_dim_append_length]
    rw [show pre0.length = hi0.length by omega, at_dim_append_length,
      show hi0.length = pre0.length by omega, set_append_length,
      show pre0.length = lo0.length by omega, at_dim_append_length,
      show lo0.length = pre0.length by omega]
    by_cases hc : c + 1 ≤ h
    · simp [hc]
    · simp only [hc, if_false, Nat.add_one_ne_zero]
      have := ih lo0 hi0 pre0 ([l] ++ lo_suf) ([h] ++ hi_suf) ([l] ++ suf) hl hh hp
      simp only [List.append_assoc, hp] at this ⊢
      rw [this]
      cases odometer lo0 hi0 pre0 <;> simp

/-- On vectors of one common length of at least one, the inner loop of `is_bounded` is the
odometer step. -/
theorem next_point_eq_odometer (lo hi cur : List Int) (h1 : lo.length = cur.length)
    (h2 : hi.length = cur.length) (h3 : 1 ≤ cur.length) :
    BoundedBox.next_point lo hi cur.length cur = odometer lo hi cur := by
  obtain ⟨n, hn⟩ : ∃ n, cur.length = n + 1 := ⟨cur.length - 1, by omega⟩
  have := next_point_eq_odometer_aux n lo hi cur [] [] [] (by omega) (by omega) hn
  simp only [List.append_nil] at this
  rw [hn, this]
  cases odometer lo hi cur <;> simp

theorem above_self (lo hi : List Int) (h : lo.length = hi.length) : Above lo hi lo := by
  induction lo generalizing hi with
  | nil =>
    cases hi with
    | nil => trivial
    | cons _ _ => simp at h
  | cons l lo ih =>
    cases hi with
    | nil => simp at h
    | cons h0 hi =>
      simp only [List.length_cons, Nat.add_right_cancel_iff] at h
      exact ⟨le_refl _, ih hi h⟩

theorem above_length (lo hi cur : List Int) (h : Above lo hi cur) :
    lo.length = cur.length ∧ hi.length = cur.length := by
  induction cur generalizing lo hi with
  | nil =>
    cases lo <;> cases hi <;> simp_all [Above]
  | cons c cur ih =>
    cases lo with
    | nil => cases hi <;> simp [Above] at h
    | cons l lo =>
      cases hi with
      | nil => simp [Above] at h
      | cons h0 hi =>
        have := ih lo hi h.2
        simp [this.1, this.2]

theorem point_count_pos (lo hi : List Int) : 0 < point_count lo hi := by
  induction lo generalizing hi with
  | nil => simp [point_count]
  | cons l lo ih =>
    cases hi with
    | nil => simp [point_count]
    | cons h hi =>
      simp only [point_count]
      exact Nat.mul_pos (Nat.succ_pos _) (ih hi)

theorem points_left_self (lo hi : List Int) (h : lo.length = hi.length) :
    points_left lo hi lo + 1 = point_count lo hi := by
  induction lo generalizing hi with
  | nil =>
    cases hi with
    | nil => simp [points_left, point_count]
    | cons _ _ => simp at h
  | cons l lo ih =>
    cases hi with
    | nil => simp at h
    | cons h0 hi =>
      simp only [List.length_cons, Nat.add_right_cancel_iff] at h
      simp only [points_left, point_count]
      have := ih hi h
      rw [Nat.add_assoc, this, Nat.add_mul, Nat.one_mul]

theorem points_left_of_odometer_none (lo hi cur : List Int) (ha : Above lo hi cur)
    (ho : odometer lo hi cur = none) : points_left lo hi cur = 0 := by
  induction cur generalizing lo hi with
  | nil => cases lo <;> cases hi <;> simp [points_left]
  | cons c cur ih =>
    cases lo with
    | nil => cases hi <;> simp [points_left]
    | cons l lo =>
      cases hi with
      | nil => simp [points_left]
      | cons h hi =>
        simp only [odometer] at ho
        cases hod : odometer lo hi cur with
        | some nx => simp [hod] at ho
        | none =>
          simp only [hod] at ho
          have hc : ¬ c + 1 ≤ h := by
            intro hc
            simp [hc] at ho
          simp only [points_left, ih lo hi ha.2 hod, Nat.add_zero]
          have hl : l ≤ c := ha.1
          have : (max l h - c).toNat = 0 := by
            apply Int.toNat_eq_zero.mpr
            have := max_le hl (by omega : h ≤ c)
            omega
          simp [this]

theorem odometer_some (lo hi cur next : List Int) (ha : Above lo hi cur)
    (ho : odometer lo hi cur = some next) :
    Above lo hi next ∧ points_left lo hi next + 1 = points_left lo hi cur := by
  induction cur generalizing lo hi next with
  | nil => cases lo <;> cases hi <;> simp [odometer] at ho
  | cons c cur ih =>
    cases lo with
    | nil => cases hi <;> simp [odometer] at ho
    | cons l lo =>
      cases hi with
      | nil => simp [odometer] at ho
      | cons h hi =>
        simp only [odometer] at ho
        cases hod : odometer lo hi cur with
        | some nx =>
          simp only [hod, Option.some.injEq] at ho
          subst ho
          have := ih lo hi nx ha.2 hod
          refine ⟨⟨ha.1, this.1⟩, ?_⟩
          simp only [points_left]
          omega
        | none =>
          simp only [hod] at ho
          by_cases hc : c + 1 ≤ h
          · simp only [hc, if_true, Option.some.injEq] at ho
            subst ho
            have hlen := above_length lo hi cur ha.2
            have hl : l ≤ c := ha.1
            refine ⟨⟨by omega, above_self lo hi (by omega)⟩, ?_⟩
            simp only [points_left, points_left_of_odometer_none lo hi cur ha.2 hod, Nat.add_zero]
            have hself := points_left_self lo hi (by omega)
            have hmax : c + 1 ≤ max l h := le_trans hc (le_max_right _ _)
            have : (max l h - c).toNat = (max l h - (c + 1)).toNat + 1 := by omega
            rw [this, Nat.add_mul, Nat.one_mul, ← hself]
            omega
          · simp [hc] at ho

/-- The loop over the points of a box ends, with one answer for every sufficient fuel. -/
theorem check_points_terminates (lo hi : List Int) (point_set : List (List Int)) (n : Nat) :
    ∀ cur : List Int, Above lo hi cur → 1 ≤ cur.length → points_left lo hi cur = n →
      ∃ b, Terminates (fun fuel => BoundedBox.check_points lo hi point_set fuel cur) b := by
  induction n using Nat.strong_induction_on with
  | _ n ih =>
    intro cur ha hlen hn
    by_cases hmem : cur ∈ point_set
    · have hl := above_length lo hi cur ha
      cases hod : odometer lo hi cur with
      | none =>
        refine ⟨true, 1, ?_⟩
        intro fuel hf
        obtain ⟨k, rfl⟩ : ∃ k, fuel = k + 1 := ⟨fuel - 1, by omega⟩
        simp [BoundedBox.check_points, hmem, next_point_eq_odometer lo hi cur hl.1 hl.2 hlen, hod]
      | some next =>
        have hnext := odometer_some lo hi cur next ha hod
        have hl2 := above_length lo hi next hnext.1
        obtain ⟨b, N, hN⟩ := ih (points_left lo hi next) (by omega) next hnext.1 (by omega) rfl
        refine ⟨b, N + 1, ?_⟩
        intro fuel hf
        obtain ⟨k, rfl⟩ : ∃ k, fuel = k + 1 := ⟨fuel - 1, by omega⟩
        simp only [BoundedBox.check_points, hmem, not_true_eq_false, if_false,
          next_point_eq_odometer lo hi cur hl.1 hl.2 hlen, hod]
        exact hN k (by omega)
    · refine ⟨false, 1, ?_⟩
      intro fuel hf
      obtain ⟨k, rfl⟩ : ∃ k, fuel = k + 1 := ⟨fuel - 1, by omega⟩
      simp [BoundedBox.check_points, hmem]

/-- Every call of `is_bounded` on corners of one common length of at least one ends. -/
theorem is_bounded_terminates (a b : List Int) (point_set : List (List Int)) (model : Model)
    (h1 : a.length = b.length) (h2 : 1 ≤ a.length) :
    ∃ r, Terminates (fun fuel => BoundedBox.is_bounded fuel a b point_set model) r := by
  unfold BoundedBox.is_bounded
  cases BoundedBox.domain_check a b model with
  | false => exact ⟨false, 0, fun _ _ => by simp⟩
  | true =>
    obtain ⟨r, hr⟩ := check_points_terminates a b point_set _ a (above_self a b h1) h2 rfl
    exact ⟨r, by simpa using hr⟩

/-- A box that `is_bounded` accepts has its first corner in the point set. -/
theorem is_bounded_true_mem (fuel : Nat) (a b : List Int) (point_set : List (List Int))
    (model : Model) (h : BoundedBox.is_bounded fuel a b point_set model = some true) :
    a ∈ point_set := by
  unfold BoundedBox.is_bounded at h
  split at h
  · cases fuel with
    | zero => simp [BoundedBox.check_points] at h
    | succ k =>
      by_contra hmem
      simp [BoundedBox.check_points, hmem] at h
  · simp at h


/-! ## Termination of the seed-and-expand loop -/

theorem sum_set (l : List Int) (d : Nat) (x : Int) (h : d < l.length) :
    (l.set d x).sum = l.sum - BoundedBox.at_dim l d + x := by
  induction l generalizing d with
  | nil => simp at h
  | cons a l ih =>
    cases d with
    | zero => simp [BoundedBox.at_dim]; omega
    | succ d =>
      simp only [List.length_cons, Nat.add_lt_add_iff_right] at h
      have := ih d h
      simp only [BoundedBox.at_dim] at this
      simp [BoundedBox.at_dim, this]
      omega

theorem at_dim_set (l : List Int) (d : Nat) (x : Int) (h : d < l.length) :
    BoundedBox.at_dim (l.set d x) d = x := by
  induction l generalizing d with
  | nil => simp at h
  | cons a l ih =>
    cases d with
    | zero => simp [BoundedBox.at_dim]
    | succ d =>
      simp only [List.length_cons, Nat.add_lt_add_iff_right] at h
      have := ih d h
      simp only [BoundedBox.at_dim] at this
      simpa [BoundedBox.at_dim] using this

theorem set_at_dim_self (l : List Int) (d : Nat) (h : d < l.length) :
    l.set d (BoundedBox.at_dim l d) = l := by
  induction l generalizing d with
  | nil => simp at h
  | cons a l ih =>
    cases d with
    | zero => simp [BoundedBox.at_dim]
    | succ d =>
      simp only [List.length_cons, Nat.add_lt_add_iff_right] at h
      have := ih d h
      simp only [BoundedBox.at_dim] at this
      simpa [BoundedBox.at_dim] using this

/-- Reverting a tried expansion restores the corner. -/
theorem set_revert (l : List Int) (d : Nat) (x y : Int) (h : d < l.length)
    (hy : y = BoundedBox.at_dim l d) :
    (l.set d x).set d y = l := by
  rw [List.set_set, hy, set_at_dim_self l d h]

theorem ExpandsTo.refl (val_set : List (List Int)) (c : BoundedBox.Corners)
    (hmin : c.min_corner ∈ val_set) (hmax : c.max_corner ∈ val_set) : ExpandsTo val_set c c :=
  ⟨rfl, rfl, hmin, hmax, le_refl _, Or.inl rfl⟩

theorem ExpandsTo.trans (val_set : List (List Int)) (c c1 c2 : BoundedBox.Corners)
    (h1 : ExpandsTo val_set c c1) (h2 : ExpandsTo val_set c1 c2) : ExpandsTo val_set c c2 := by
  refine ⟨h2.min_length.trans h1.min_length, h2.max_length.trans h1.max_length, h2.min_mem,
    h2.max_mem, le_trans h2.gap_le h1.gap_le, ?_⟩
  rcases h2.progress with e2 | ⟨f2, g2⟩
  · rcases h1.progress with e1 | ⟨f1, g1⟩
    · exact Or.inl (e2.trans e1)
    · exact Or.inr ⟨e2.trans f1, lt_of_le_of_lt h2.gap_le g1⟩
  · exact Or.inr ⟨f2, lt_of_lt_of_le g2 h1.gap_le⟩

theorem expand_dim_terminates (val_set : List (List Int)) (model : Model) (c : BoundedBox.Corners)
    (dim : Nat) (hlen : c.min_corner.length = c.max_corner.length)
    (hd : dim < c.min_corner.length) (hmin : c.min_corner ∈ val_set)
    (hmax : c.max_corner ∈ val_set) :
    ∃ c1, Terminates (fun fuel => BoundedBox.expand_dim fuel val_set model c dim) c1 ∧
      ExpandsTo val_set c c1 := by
  have hd2 : dim < c.max_corner.length := by omega
  obtain ⟨b1, N1, hN1⟩ := is_bounded_terminates
    (c.min_corner.set dim (BoundedBox.at_dim c.min_corner dim - 1)) c.max_corner val_set model
    (by simp [hlen]) (by simp; omega)
  have hb1 : b1 = true →
      c.min_corner.set dim (BoundedBox.at_dim c.min_corner dim - 1) ∈ val_set := by
    intro hb
    subst hb
    exact is_bounded_true_mem N1 _ _ _ _ (hN1 N1 (le_refl _))
  obtain ⟨min2, hmin2, hmin2len, hmin2mem, hmin2sum⟩ : ∃ min2 : List Int,
      min2 = (if !b1 then
          (c.min_corner.set dim (BoundedBox.at_dim c.min_corner dim - 1)).set dim
            (BoundedBox.at_dim (c.min_corner.set dim (BoundedBox.at_dim c.min_corner dim - 1)) dim + 1)
        else c.min_corner.set dim (BoundedBox.at_dim c.min_corner dim - 1)) ∧
      min2.length = c.min_corner.length ∧ min2 ∈ val_set ∧
      min2.sum = c.min_corner.sum - (if b1 then 1 else 0) := by
    refine ⟨_, rfl, ?_, ?_, ?_⟩
    · cases b1 <;> simp
    · cases b1 with
      | false =>
        simp only [Bool.not_false, if_true]
        rw [set_revert _ _ _ _ hd (by rw [at_dim_set _ _ _ hd]; omega)]
        exact hmin
      | true => simpa using hb1 rfl
    · cases b1 with
      | false =>
        simp only [Bool.not_false, if_true]
        rw [set_revert _ _ _ _ hd (by rw [at_dim_set _ _ _ hd]; omega)]
        simp
      | true =>
        simp only [Bool.not_true, if_false, Bool.false_eq_true]
        rw [sum_set _ _ _ hd]
        simp only [if_true]
        omega
  obtain ⟨b2, N2, hN2⟩ := is_bounded_terminates
    (c.max_corner.set dim (BoundedBox.at_dim c.max_corner dim + 1)) min2 val_set model
    (by simp [hmin2len, hlen]) (by simp; omega)
  have hb2 : b2 = true →
      c.max_corner.set dim (BoundedBox.at_dim c.max_corner dim + 1) ∈ val_set := by
    intro hb
    subst hb
    exact is_bounded_true_mem N2 _ _ _ _ (hN2 N2 (le_refl _))
  obtain ⟨max2, hmax2, hmax2len, hmax2mem, hmax2sum⟩ : ∃ max2 : List Int,
      max2 = (if !b2 then
          (c.max_corner.set dim (BoundedBox.at_dim c.max_corner dim + 1)).set dim
            (BoundedBox.at_dim (c.max_corner.set dim (BoundedBox.at_dim c.max_corner dim + 1)) dim - 1)
        else c.max_corner.set dim (BoundedBox.at_dim c.max_corner dim + 1)) ∧
      max2.length = c.max_corner.length ∧ max2 ∈ val_set ∧
      max2.sum = c.max_corner.sum + (if b2 then 1 else 0) := by
    refine ⟨_, rfl, ?_, ?_, ?_⟩
    · cases b2 <;> simp
    · cases b2 with
      | false =>
        simp only [Bool.not_false, if_true]
        rw [set_revert _ _ _ _ hd2 (by rw [at_dim_set _ _ _ hd2]; omega)]
        exact hmax
      | true => simpa using hb2 rfl
    · cases b2 with
      | false =>
        simp only [Bool.not_false, if_true]
        rw [set_revert _ _ _ _ hd2 (by rw [at_dim_set _ _ _ hd2]; omega)]
        simp
      | true =>
        simp only [Bool.not_true, if_false, Bool.false_eq_true]
        rw [sum_set _ _ _ hd2]
        simp only [if_true]
        omega
  refine ⟨{ min_corner := min2, max_corner := max2,
            fixed_point := if !b2 then (if !b1 then c.fixed_point else false) else false }, ?_, ?_⟩
  · refine ⟨max N1 N2, ?_⟩
    intro fuel hf
    have e1 := hN1 fuel (le_trans (le_max_left _ _) hf)
    have e2 := hN2 fuel (le_trans (le_max_right _ _) hf)
    simp only at e1 e2
    unfold BoundedBox.expand_dim
    simp only [e1]
    rw [← hmin2]
    simp only [e2]
    rw [← hmax2]
  · refine ⟨hmin2len, hmax2len, hmin2mem, hmax2mem, ?_, ?_⟩
    · simp only [corner_gap, hmin2sum, hmax2sum]
      cases b1 <;> cases b2 <;> simp only [if_true, if_false, Bool.false_eq_true] <;> omega
    · simp only [corner_gap, hmin2sum, hmax2sum]
      cases b1 <;> cases b2
      · exact Or.inl rfl
      · exact Or.inr ⟨rfl, by simp only [if_true, if_false, Bool.false_eq_true]; omega⟩
      · exact Or.inr ⟨rfl, by simp only [if_true, if_false, Bool.false_eq_true]; omega⟩
      · exact Or.inr ⟨rfl, by simp only [if_true, if_false, Bool.false_eq_true]; omega⟩

theorem sweep_terminates (val_set : List (List Int)) (model : Model) (dims : List Nat) :
    ∀ c : BoundedBox.Corners, c.min_corner.length = c.max_corner.length →
      (∀ dim ∈ dims, dim < c.min_corner.length) → c.min_corner ∈ val_set →
      c.max_corner ∈ val_set →
      ∃ c1, Terminates (fun fuel => BoundedBox.sweep fuel val_set model dims c) c1 ∧
        ExpandsTo val_set c c1 := by
  induction dims with
  | nil =>
    intro c _ _ hmin hmax
    exact ⟨c, ⟨0, fun _ _ => rfl⟩, ExpandsTo.refl val_set c hmin hmax⟩
  | cons dim dims ih =>
    intro c hlen hd hmin hmax
    obtain ⟨c1, ⟨N1, hN1⟩, hc1⟩ := expand_dim_terminates val_set model c dim hlen
      (hd dim (List.mem_cons_self _ _)) hmin hmax
    obtain ⟨c2, ⟨N2, hN2⟩, hc2⟩ := ih c1 (by rw [hc1.min_length, hc1.max_length, hlen])
      (fun d hdm => by rw [hc1.min_length]; exact hd d (List.mem_cons_of_mem _ hdm))
      hc1.min_mem hc1.max_mem
    refine ⟨c2, ⟨max N1 N2, ?_⟩, ExpandsTo.trans val_set c c1 c2 hc1 hc2⟩
    intro fuel hf
    have e1 := hN1 fuel (le_trans (le_max_left _ _) hf)
    have e2 := hN2 fuel (le_trans (le_max_right _ _) hf)
    simp only at e1 e2
    simp only [BoundedBox.sweep, e1, e2]

theorem exists_sum_bounds (val_set : List (List Int)) :
    ∃ L U : Int, ∀ v ∈ val_set, L ≤ v.sum ∧ v.sum ≤ U := by
  induction val_set with
  | nil => exact ⟨0, 0, fun v hv => by cases hv⟩
  | cons w rest ih =>
    obtain ⟨L, U, h⟩ := ih
    refine ⟨min L w.sum, max U w.sum, ?_⟩
    intro v hv
    rcases List.mem_cons.mp hv with rfl | hmem
    · exact ⟨min_le_right _ _, le_max_right _ _⟩
    · exact ⟨le_trans (min_le_left _ _) (h v hmem).1, le_trans (h v hmem).2 (le_max_left _ _)⟩

/-- The loop `while (!fixed_point)` ends: both corners stay in the finite point set, and every
sweep that is not a fixed point lowers the gap between the corners. -/
theorem expand_terminates (val_set : List (List Int)) (model : Model) (size : Nat)
    (min_corner max_corner : List Int) (h1 : min_corner.length = size)
    (h2 : max_corner.length = size) (hmin : min_corner ∈ val_set) (hmax : max_corner ∈ val_set) :
    ∃ r N, ∀ point_fuel fuel, N ≤ point_fuel → N ≤ fuel →
      BoundedBox.expand point_fuel val_set model size fuel min_corner max_corner = some r := by
  obtain ⟨L, U, hLU⟩ := exists_sum_bounds val_set
  suffices H : ∀ n : Nat, ∀ mn mx : List Int, mn.length = size → mx.length = size →
      mn ∈ val_set → mx ∈ val_set → (mn.sum - mx.sum - (L - U)).toNat = n →
      ∃ r N, ∀ point_fuel fuel, N ≤ point_fuel → N ≤ fuel →
        BoundedBox.expand point_fuel val_set model size fuel mn mx = some r from
    H _ min_corner max_corner h1 h2 hmin hmax rfl
  intro n
  induction n using Nat.strong_induction_on with
  | _ n ih =>
    intro mn mx hl1 hl2 hm1 hm2 hn
    obtain ⟨c1, ⟨N1, hN1⟩, hc1⟩ := sweep_terminates val_set model (List.range size)
      { min_corner := mn, max_corner := mx, fixed_point := true } (by simp [hl1, hl2])
      (fun d hd => by simpa [hl1] using hd) hm1 hm2
    by_cases hfp : c1.fixed_point = true
    · refine ⟨(c1.min_corner, c1.max_corner), max N1 1, ?_⟩
      intro pf fuel hpf hf
      obtain ⟨k, rfl⟩ : ∃ k, fuel = k + 1 := ⟨fuel - 1, by omega⟩
      have e1 := hN1 pf (le_trans (le_max_left _ _) hpf)
      simp only at e1
      simp [BoundedBox.expand, e1, hfp]
    · have hprog : corner_gap c1 < mn.sum - mx.sum := by
        rcases hc1.progress with e | ⟨_, g⟩
        · exact absurd e hfp
        · exact g
      have hlow : L - U ≤ corner_gap c1 := by
        have a := (hLU _ hc1.min_mem).1
        have b := (hLU _ hc1.max_mem).2
        simp only [corner_gap]
        omega
      obtain ⟨r, N2, hN2⟩ := ih (corner_gap c1 - (L - U)).toNat (by omega) c1.min_corner
        c1.max_corner (by rw [hc1.min_length]; exact hl1) (by rw [hc1.max_length]; exact hl2)
        hc1.min_mem hc1.max_mem rfl
      refine ⟨r, max N1 (N2 + 1), ?_⟩
      intro pf fuel hpf hf
      obtain ⟨k, rfl⟩ : ∃ k, fuel = k + 1 := ⟨fuel - 1, by omega⟩
      have e1 := hN1 pf (le_trans (le_max_left _ _) hpf)
      simp only at e1
      simp only [BoundedBox.expand, e1, hfp, Bool.false_eq_true, if_false]
      exact hN2 pf k (by omega) (by omega)

theorem seed_step_terminates (val_set : List (List Int)) (model : Model) (best : BoundedBox.Best)
    (state : StateBase) (h : BoundedBox.get_state_vec state ∈ val_set) :
    ∃ best1, Terminates (fun fuel => BoundedBox.seed_step fuel val_set model best state) best1 := by
  obtain ⟨r, N, hN⟩ := expand_terminates val_set model (BoundedBox.get_state_vec state).length
    (BoundedBox.get_state_vec state) (BoundedBox.get_state_vec state) rfl rfl h h
  obtain ⟨mn, mx⟩ := r
  refine ⟨if BoundedBox.compute_volume mn mx (BoundedBox.get_state_vec state).length
      > best.max_volume then
      { max_volume := BoundedBox.compute_volume mn mx (BoundedBox.get_state_vec state).length
        best_min := mn, best_max := mx }
    else best, N, ?_⟩
  intro fuel hf
  simp only [BoundedBox.seed_step, hN fuel fuel hf hf]
  split_ifs <;> rfl

theorem find_best_terminates (val_set : List (List Int)) (model : Model)
    (states : List StateBase) :
    ∀ best : BoundedBox.Best, (∀ s ∈ states, BoundedBox.get_state_vec s ∈ val_set) →
      ∃ r, Terminates (fun fuel => BoundedBox.find_best fuel val_set model states best) r := by
  induction states with
  | nil => exact fun best _ => ⟨best, 0, fun _ _ => rfl⟩
  | cons s rest ih =>
    intro best h
    obtain ⟨b1, N1, hN1⟩ := seed_step_terminates val_set model best s (h s (List.mem_cons_self _ _))
    obtain ⟨r, N2, hN2⟩ := ih b1 (fun t ht => h t (List.mem_cons_of_mem _ ht))
    refine ⟨r, max N1 N2, ?_⟩
    intro fuel hf
    have e1 := hN1 fuel (le_trans (le_max_left _ _) hf)
    have e2 := hN2 fuel (le_trans (le_max_right _ _) hf)
    simp only at e1 e2
    simp only [BoundedBox.find_best, e1, e2]

/-- The bounded-box search ends on every finite state set. -/
theorem compute_bounded_box_terminates (state_set : List StateBase) (model : Model) :
    ∃ r, Terminates (fun fuel => BoundedBox.compute_bounded_box fuel state_set model) r := by
  obtain ⟨best, N, hN⟩ := find_best_terminates (state_set.map BoundedBox.get_state_vec) model
    state_set { max_volume := 0, best_min := [], best_max := [] }
    (fun s hs => List.mem_map_of_mem _ hs)
  refine ⟨(best.max_volume, BoundedBox.box_expression best model), N, ?_⟩
  intro fuel hf
  have e := hN fuel hf
  simp only at e
  simp only [BoundedBox.compute_bounded_box, BoundedBox.best_box, e]


/-! ## Meaning of the refined predicates -/

theorem terminates_unique {α : Type} (f : Nat → Option α) (r1 r2 : α) (h1 : Terminates f r1)
    (h2 : Terminates f r2) : r1 = r2 := by
  obtain ⟨N1, hN1⟩ := h1
  obtain ⟨N2, hN2⟩ := h2
  have e1 := hN1 (max N1 N2) (le_max_left _ _)
  have e2 := hN2 (max N1 N2) (le_max_right _ _)
  rw [e1] at e2
  exact Option.some.inj e2

theorem sat_reassemble (self : StrengtheningStrategy) (hmp : self.nf.MeaningPreserving)
    (lists : List Expression × List Expression) (s : StateBase) :
    (self.reassemble lists).1.sat s = lists.1.all (fun c => c.sat s) ∧
    (self.reassemble lists).2.sat s = lists.2.any (fun c => c.sat s) := by
  unfold StrengtheningStrategy.reassemble
  simp only [hmp.specialize_sat, hmp.normalize_sat, hmp.construct_conjunction_sat,
    hmp.construct_disjunction_sat, and_self]

theorem add_states_sat (self : StrengtheningStrategy) (hmp : self.nf.MeaningPreserving)
    (states : List StateBase) (s : StateBase) :
    ∀ conjuncts disjunctions : List Expression,
      (self.add_states states conjuncts disjunctions).1.all (fun c => c.sat s)
        = (conjuncts.all (fun c => c.sat s) && !point_region self.model states s) ∧
      (self.add_states states conjuncts disjunctions).2.any (fun c => c.sat s)
        = (disjunctions.any (fun c => c.sat s) || point_region self.model states s) := by
  induction states with
  | nil =>
    intro conjuncts disjunctions
    simp [StrengtheningStrategy.add_states, point_region]
  | cons t rest ih =>
    intro conjuncts disjunctions
    have h := ih (conjuncts ++ [self.nf.negate (t.to_condition self.model)])
      (disjunctions ++ [t.to_condition self.model])
    simp only [StrengtheningStrategy.add_states]
    rw [h.1, h.2]
    simp only [point_region, List.all_append, List.any_append, List.all_cons, List.all_nil,
      List.any_cons, List.any_nil, Bool.and_true, Bool.or_false, hmp.negate_sat]
    constructor
    · cases conjuncts.all (fun c => c.sat s) <;>
        cases (t.to_condition self.model).sat s <;> simp
    · cases disjunctions.any (fun c => c.sat s) <;>
        cases (t.to_condition self.model).sat s <;> simp

/-- Meaning of the pair returned by the Invariant Strengthening refinement: with box approximation
the region is the box, without it the region is the set of points of the states. -/
theorem invariant_update_refines (self : StrengtheningStrategy) (hmp : self.nf.MeaningPreserving)
    (fuel : Nat) (start unsafety : Expression) (approximate : Bool) (states : List StateBase)
    (r : Expression × Expression)
    (h : InvariantStrengtheningStrategy.update_conditions self fuel start unsafety approximate
      states = some r) :
    (approximate = true ∧ self.approx ≠ ApproximationType.None →
      ∃ box, self.get_box_approximation fuel states = some (some box) ∧
        Refines start unsafety (fun s => box.sat s) r) ∧
    (¬ (approximate = true ∧ self.approx ≠ ApproximationType.None) →
      Refines start unsafety (point_region self.model states) r) := by
  unfold InvariantStrengtheningStrategy.update_conditions at h
  constructor
  · intro hc
    have hc2 : (approximate && decide (self.approx ≠ ApproximationType.None)) = true := by
      simp [hc.1, hc.2]
    simp only [hc2, if_true] at h
    unfold StrengtheningStrategy.add_box at h
    cases hb : self.get_box_approximation fuel states with
    | none => simp [hb] at h
    | some ob =>
      cases ob with
      | none => simp [hb] at h
      | some box =>
        simp only [hb, Option.some.injEq] at h
        subst h
        refine ⟨box, rfl, ?_⟩
        intro s
        have hr := sat_reassemble self hmp
          (self.nf.split_conjunction start ++ [self.nf.negate box],
            self.nf.split_disjunction unsafety ++ [box]) s
        rw [hr.1, hr.2]
        simp only [List.all_append, List.any_append, List.all_cons, List.all_nil, List.any_cons,
          List.any_nil, Bool.and_true, Bool.or_false, hmp.negate_sat, hmp.split_conjunction_sat,
          hmp.split_disjunction_sat, and_self]
  · intro hc
    have hc2 : (approximate && decide (self.approx ≠ ApproximationType.None)) = false := by
      cases approximate <;> simp_all
    simp only [hc2, Bool.false_eq_true, if_false, Option.some.injEq] at h
    subst h
    intro s
    have hr := sat_reassemble self hmp
      (self.add_states states (self.nf.split_conjunction start)
        (self.nf.split_disjunction unsafety)) s
    have ha := add_states_sat self hmp states s (self.nf.split_conjunction start)
      (self.nf.split_disjunction unsafety)
    rw [hr.1, hr.2, ha.1, ha.2, hmp.split_conjunction_sat, hmp.split_disjunction_sat]
    exact ⟨rfl, rfl⟩

theorem update_conditions_eq_invariant (verification_type : VerificationType)
    (self : StrengtheningStrategy) (fuel : Nat) (start unsafety : Expression) (approximate : Bool)
    (unsafe_states : List StateBase) :
    StrengtheningStrategy.update_conditions verification_type self fuel start unsafety approximate
        unsafe_states
      = InvariantStrengtheningStrategy.update_conditions self fuel start unsafety approximate
        (refinement_states verification_type start unsafe_states) := by
  cases verification_type <;> rfl

theorem get_box_approximation_terminates (self : StrengtheningStrategy) (states : List StateBase)
    (h : self.approx ≠ ApproximationType.None) :
    ∃ box, Terminates (fun fuel => self.get_box_approximation fuel states) (some box) := by
  unfold StrengtheningStrategy.get_box_approximation
  cases happ : self.approx with
  | Overapproximation => exact ⟨_, 0, fun _ _ => rfl⟩
  | Underapproximation =>
    obtain ⟨r, N, hN⟩ := compute_bounded_box_terminates states self.model
    refine ⟨r.2, N, ?_⟩
    intro fuel hf
    have e := hN fuel hf
    simp only at e
    simp only [e]
  | None => exact absurd happ h

theorem invariant_update_terminates (self : StrengtheningStrategy) (start unsafety : Expression)
    (approximate : Bool) (states : List StateBase) :
    ∃ r, Terminates (fun fuel => InvariantStrengtheningStrategy.update_conditions self fuel start
      unsafety approximate states) r := by
  unfold InvariantStrengtheningStrategy.update_conditions
  by_cases hc : (approximate && decide (self.approx ≠ ApproximationType.None)) = true
  · simp only [hc, if_true]
    have happ : self.approx ≠ ApproximationType.None := by
      simp only [Bool.and_eq_true, decide_eq_true_eq] at hc
      exact hc.2
    obtain ⟨box, N, hN⟩ := get_box_approximation_terminates self states happ
    refine ⟨self.reassemble (self.nf.split_conjunction start ++ [self.nf.negate box],
      self.nf.split_disjunction unsafety ++ [box]), N, ?_⟩
    intro fuel hf
    have e := hN fuel hf
    simp only at e
    simp only [StrengtheningStrategy.add_box, e]
  · simp only [hc, if_false]
    exact ⟨_, 0, fun _ _ => rfl⟩

theorem update_conditions_terminates (verification_type : VerificationType)
    (self : StrengtheningStrategy) (start unsafety : Expression) (approximate : Bool)
    (unsafe_states : List StateBase) :
    ∃ r, Terminates (fun fuel => StrengtheningStrategy.update_conditions verification_type self
      fuel start unsafety approximate unsafe_states) r := by
  simp only [update_conditions_eq_invariant]
  exact invariant_update_terminates self start unsafety approximate _

/-- Whatever the strategy, the approximation and the fuel: a returned pair refines the input pair
by some region. -/
theorem update_conditions_refines (verification_type : VerificationType)
    (self : StrengtheningStrategy) (hmp : self.nf.MeaningPreserving) (fuel : Nat)
    (start unsafety : Expression) (approximate : Bool) (unsafe_states : List StateBase)
    (r : Expression × Expression)
    (h : StrengtheningStrategy.update_conditions verification_type self fuel start unsafety
      approximate unsafe_states = some r) :
    ∃ region, Refines start unsafety region r := by
  rw [update_conditions_eq_invariant] at h
  have hr := invariant_update_refines self hmp fuel start unsafety approximate _ r h
  by_cases hc : approximate = true ∧ self.approx ≠ ApproximationType.None
  · obtain ⟨box, _, hbox⟩ := hr.1 hc
    exact ⟨_, hbox⟩
  · exact ⟨_, hr.2 hc⟩


/-! ## Box approximators -/

/-- C1 (the code departs from the claim): on the states with data valuations `(0,0)`, `(1,0)`,
`(1,1)` over the domain `[0,1] x [0,1]`, in each of the six iteration orders,
`compute_bounded_box` returns volume 4 and a predicate that holds on the state with data
valuation `(0,1)`, while `(0,1)` is the data valuation of no state of the set: the expansion of
`max_corner` is kept after a check of the new corner point only. -/
theorem bounded_box_admits_point_outside_set :
    (Example.corner_orders.map fun order =>
      ((BoundedBox.compute_bounded_box 10 order Example.unit_square).map
          fun rlt => (rlt.1, rlt.2.sat [0, 0, 1]),
        decide (BoundedBox.get_state_vec [0, 0, 1] ∈ order.map BoundedBox.get_state_vec)))
      = List.replicate 6 (some (4, true), false) := by
  decide

/-- C2: every state of the set satisfies the predicate returned by `compute_bounding_box`: the
predicate is the conjunction, over the model variables `i - 1`, of `var >= lower` and
`var <= upper`, and the value of the state at state index `i` lies between the two constants. -/
theorem bounding_box_contains_every_state (state_set : List StateBase) (model : Model)
    (s : StateBase) (hs : s ∈ state_set) :
    ∃ lower upper : Nat → Int,
      (BoundingBox.compute_bounding_box state_set model).2
        = Expression.Nary Op.AND ((List.range model.number_variables).flatMap fun var_index =>
            [Expression.BinaryOp Op.GE (model.gen_var_expr var_index)
              (Expression.IntegerValue (lower var_index)),
             Expression.BinaryOp Op.LE (model.gen_var_expr var_index)
              (Expression.IntegerValue (upper var_index))]) ∧
      (∀ i, 1 ≤ i → i ≤ model.number_variables →
        lower (i - 1) ≤ s.get_int i ∧ s.get_int i ≤ upper (i - 1)) ∧
      (BoundingBox.compute_bounding_box state_set model).2.sat s = true := by
  refine ⟨fun j => (BoundingBox.find_bounds state_set model.number_variables (j + 1)).1,
    fun j => (BoundingBox.find_bounds state_set model.number_variables (j + 1)).2, rfl, ?_,
    sat_bounding_box state_set model s hs⟩
  intro i h1 h2
  have := find_bounds_mem state_set model.number_variables s hs i h1 h2
  have hi : i - 1 + 1 = i := by omega
  simpa only [hi] using this

/-- Witness for C2: the states `(1,5)` and `(3,2)` over a model with two variables. -/
theorem bounding_box_contains_every_state_witness :
    ∃ lower upper : Nat → Int,
      (BoundingBox.compute_bounding_box [[0, 1, 5], [0, 3, 2]] Example.unit_square).2
        = Expression.Nary Op.AND
          ((List.range Example.unit_square.number_variables).flatMap fun var_index =>
            [Expression.BinaryOp Op.GE (Example.unit_square.gen_var_expr var_index)
              (Expression.IntegerValue (lower var_index)),
             Expression.BinaryOp Op.LE (Example.unit_square.gen_var_expr var_index)
              (Expression.IntegerValue (upper var_index))]) ∧
      (∀ i, 1 ≤ i → i ≤ Example.unit_square.number_variables →
        lower (i - 1) ≤ StateBase.get_int [0, 1, 5] i ∧
          StateBase.get_int [0, 1, 5] i ≤ upper (i - 1)) ∧
      (BoundingBox.compute_bounding_box [[0, 1, 5], [0, 3, 2]] Example.unit_square).2.sat
        [0, 1, 5] = true :=
  bounding_box_contains_every_state [[0, 1, 5], [0, 3, 2]] Example.unit_square [0, 1, 5]
    (by decide)

/-! ## Strengthening strategies -/

theorem mem_refinement_states (verification_type : VerificationType) (start : Expression)
    (unsafe_states : List StateBase) (s : StateBase) (hs : s ∈ unsafe_states) :
    start.sat s = false ∨ s ∈ refinement_states verification_type start unsafe_states := by
  cases verification_type with
  | INVARIANT_STRENGTHENING => exact Or.inr hs
  | START_CONDITION_STRENGTHENING =>
    cases h : start.sat s with
    | false => exact Or.inl rfl
    | true => exact Or.inr (List.mem_filter.mpr ⟨hs, h⟩)

theorem point_region_mem (model : Model) (states : List StateBase) (s : StateBase)
    (hs : s ∈ states) : point_region model states s = true := by
  unfold point_region
  exact List.any_eq_true.mpr ⟨s, hs, sat_to_condition_self model s⟩

/-- C3 (counterexample): under Invariant Strengthening with under-approximation, for the
counterexample states `x = 0`, `x = 2`, `x = 3` in each of their six iteration orders, the state
`x = 0` belongs to the set and still satisfies the returned start predicate. -/
theorem under_approximation_keeps_counterexample :
    (Example.gap_orders.map fun order =>
      (decide ([0, 0] ∈ order),
        (StrengtheningStrategy.update_conditions VerificationType.INVARIANT_STRENGTHENING
          (Example.strategy ApproximationType.Underapproximation) 10 Example.x_ge_0
          Example.x_eq_5 true order).map fun r => r.1.sat [0, 0]))
      = List.replicate 6 (true, some true) := by
  decide

/-- C3 (amended): for both strategies, every counterexample set and a meaning-preserving
normal-form visitor, `update_conditions` returns a pair; unless the box is an under-approximation
(`approximate` set and type under), every state of the set fails the returned start predicate;
with an under-approximation the returned start predicate is the input start without the box that
`compute_bounded_box` returns for the states fed to the refinement, so the counterexample states
inside that box fail it. -/
theorem refinement_excludes_counterexamples (verification_type : VerificationType)
    (self : StrengtheningStrategy) (hmp : self.nf.MeaningPreserving)
    (start unsafety : Expression) (approximate : Bool) (unsafe_states : List StateBase) :
    ∃ r, Terminates (fun fuel => StrengtheningStrategy.update_conditions verification_type self
        fuel start unsafety approximate unsafe_states) r ∧
      (¬ (approximate = true ∧ self.approx = ApproximationType.Underapproximation) →
        ∀ s ∈ unsafe_states, r.1.sat s = false) ∧
      (approximate = true ∧ self.approx = ApproximationType.Underapproximation →
        ∃ box, Terminates (fun fuel => BoundedBox.compute_bounded_box fuel
            (refinement_states verification_type start unsafe_states) self.model) box ∧
          ∀ s, r.1.sat s = (start.sat s && !box.2.sat s)) := by
  obtain ⟨r, N, hN⟩ := update_conditions_terminates verification_type self start unsafety
    approximate unsafe_states
  refine ⟨r, ⟨N, hN⟩, ?_, ?_⟩
  · intro hnot s hs
    have hu := hN N (le_refl _)
    simp only at hu
    rw [update_conditions_eq_invariant] at hu
    have hr := invariant_update_refines self hmp N start unsafety approximate _ r hu
    rcases mem_refinement_states verification_type start unsafe_states s hs with hst | hmem
    · obtain ⟨region, hreg⟩ := update_conditions_refines verification_type self hmp N start
        unsafety approximate unsafe_states r (hN N (le_refl _))
      rw [(hreg s).1, hst]
      rfl
    · by_cases hc : approximate = true ∧ self.approx ≠ ApproximationType.None
      · obtain ⟨box, hbox, hreg⟩ := hr.1 hc
        have hover : self.approx = ApproximationType.Overapproximation := by
          cases happ : self.approx with
          | Overapproximation => rfl
          | Underapproximation => exact absurd ⟨hc.1, happ⟩ hnot
          | None => exact absurd happ hc.2
        unfold StrengtheningStrategy.get_box_approximation at hbox
        simp only [hover, Option.some.injEq] at hbox
        subst hbox
        rw [(hreg s).1]
        simp only [sat_bounding_box _ self.model s hmem]
        simp
      · rw [((hr.2 hc) s).1]
        simp only [point_region_mem self.model _ s hmem]
        simp
  · intro hunder
    obtain ⟨box, M, hM⟩ := compute_bounded_box_terminates
      (refinement_states verification_type start unsafe_states) self.model
    refine ⟨box, ⟨M, hM⟩, ?_⟩
    have hu := hN (max N M) (le_max_left _ _)
    have hb := hM (max N M) (le_max_right _ _)
    simp only at hu hb
    rw [update_conditions_eq_invariant] at hu
    have hr := invariant_update_refines self hmp (max N M) start unsafety approximate _ r hu
    obtain ⟨box1, hbox1, hreg⟩ := hr.1 ⟨hunder.1, by rw [hunder.2]; decide⟩
    unfold StrengtheningStrategy.get_box_approximation at hbox1
    simp only [hunder.2, hb, Option.some.injEq] at hbox1
    subst hbox1
    exact fun s => (hreg s).1

/-- Witness for C3 (amended): Start-Condition Strengthening with the plain normal-form visitor and
under-approximation on the states `x = 0`, `x = 2`, `x = 3`. -/
theorem refinement_excludes_counterexamples_witness :
    ∃ r, Terminates (fun fuel => StrengtheningStrategy.update_conditions
        VerificationType.START_CONDITION_STRENGTHENING
        (Example.strategy ApproximationType.Underapproximation) fuel Example.x_ge_0
        Example.x_eq_5 true [[0, 0], [0, 2], [0, 3]]) r ∧
      (¬ (true = true ∧ (Example.strategy ApproximationType.Underapproximation).approx
          = ApproximationType.Underapproximation) →
        ∀ s ∈ [[0, 0], [0, 2], [0, 3]], r.1.sat s = false) ∧
      (true = true ∧ (Example.strategy ApproximationType.Underapproximation).approx
          = ApproximationType.Underapproximation →
        ∃ box, Terminates (fun fuel => BoundedBox.compute_bounded_box fuel
            (refinement_states VerificationType.START_CONDITION_STRENGTHENING Example.x_ge_0
              [[0, 0], [0, 2], [0, 3]])
            (Example.strategy ApproximationType.Underapproximation).model) box ∧
          ∀ s, r.1.sat s = (Example.x_ge_0.sat s && !box.2.sat s)) :=
  refinement_excludes_counterexamples VerificationType.START_CONDITION_STRENGTHENING
    (Example.strategy ApproximationType.Underapproximation) TO_NORMALFORM_meaning_preserving
    Example.x_ge_0 Example.x_eq_5 true [[0, 0], [0, 2], [0, 3]]

/-- C4 (the code departs from the claim): Start-Condition Strengthening without box approximation,
called with start `x >= 0`, unsafety `x = 5` and the counterexample `x = 4`, returns a new
unsafety predicate that holds on the state `x = 4`, on which the input unsafety does not hold:
the point predicate of the counterexample was added to the unsafety. -/
theorem start_condition_strengthening_changes_unsafety :
    ((StartConditionStrengtheningStrategy.update_conditions
        (Example.strategy ApproximationType.None) 0 Example.x_ge_0 Example.x_eq_5 false
        [[0, 4]]).map fun r => r.2.sat [0, 4]) = some true ∧
      Example.x_eq_5.sat [0, 4] = false := by
  decide


/-! ## Refinement driver -/

theorem refines_disjoint (start unsafety : Expression) (region : StateBase → Bool)
    (r : Expression × Expression) (h : Refines start unsafety region r) (s : StateBase)
    (hs : ¬ (start.sat s = true ∧ unsafety.sat s = true)) :
    ¬ (r.1.sat s = true ∧ r.2.sat s = true) := by
  rw [(h s).1, (h s).2]
  revert hs
  cases start.sat s <;> cases unsafety.sat s <;> cases region s <;> simp

theorem refines_cover (start unsafety : Expression) (region : StateBase → Bool)
    (r : Expression × Expression) (h : Refines start unsafety region r) (s : StateBase)
    (hs : start.sat s = true ∨ unsafety.sat s = true) :
    r.1.sat s = true ∨ r.2.sat s = true := by
  rw [(h s).1, (h s).2]
  revert hs
  cases start.sat s <;> cases unsafety.sat s <;> cases region s <;> simp

/-- The call of `update_conditions` by the driver returns the pair that the strategy computes,
unless the sink is null and a box approximation is requested. -/
theorem driver_update_conditions_returns (g : SafeStartGenerator) (approximate : Bool)
    (states : List StateBase)
    (hc : (g.per_iteration_stats.isNone && approximate &&
      decide (g.strengthening_strategy.approx ≠ ApproximationType.None)) = false) :
    ∃ u, Terminates (fun fuel => StrengtheningStrategy.update_conditions g.verification_type
        g.strengthening_strategy fuel g.start_condition g.unsafety_condition approximate states)
        u ∧
      ∃ N, ∀ fuel, N ≤ fuel → g.update_conditions fuel approximate states = Outcome.ok u := by
  obtain ⟨u, N, hN⟩ := update_conditions_terminates g.verification_type
    g.strengthening_strategy g.start_condition g.unsafety_condition approximate states
  refine ⟨u, ⟨N, hN⟩, N, fun fuel hf => ?_⟩
  have e := hN fuel hf
  simp only at e
  simp only [SafeStartGenerator.update_conditions, e, hc, Bool.false_eq_true, if_false]

/-- With a null sink and a box approximation requested, the call of `update_conditions` by the
driver dereferences the null sink once the box is computed. -/
theorem driver_update_conditions_null (g : SafeStartGenerator) (approximate : Bool)
    (states : List StateBase)
    (hc : (g.per_iteration_stats.isNone && approximate &&
      decide (g.strengthening_strategy.approx ≠ ApproximationType.None)) = true) :
    ∃ N, ∀ fuel, N ≤ fuel →
      g.update_conditions fuel approximate states = Outcome.null_dereference := by
  obtain ⟨u, N, hN⟩ := update_conditions_terminates g.verification_type
    g.strengthening_strategy g.start_condition g.unsafety_condition approximate states
  refine ⟨N, fun fuel hf => ?_⟩
  have e := hN fuel hf
  simp only at e
  simp only [SafeStartGenerator.update_conditions, e, hc, if_true]

theorem run_testing_returns (g : SafeStartGenerator) (answers : StepAnswers) (file : String)
    (hst : g.per_iteration_stats = some file) :
    ∃ r, (∃ N, ∀ fuel, N ≤ fuel → g.run_testing fuel answers = Outcome.ok r) ∧
      r.1 = (if answers.unsafe_states_ids = [] then Mode.Verification
        else if g.alternating_mode = true then Mode.Verification else Mode.Testing) ∧
      (if answers.unsafe_states_ids = [] then r.2 = g
        else ∃ u, Terminates (fun fuel => StrengtheningStrategy.update_conditions
            g.verification_type g.strengthening_strategy fuel g.start_condition
            g.unsafety_condition g.approximate_testing
            (answers.unsafe_states_ids.map answers.get_state)) u ∧
          r.2 = { g with start_condition := u.1, unsafety_condition := u.2 }) := by
  by_cases he : answers.unsafe_states_ids = []
  · refine ⟨(Mode.Verification, g), ⟨0, fun fuel _ => ?_⟩, ?_, ?_⟩
    · simp [SafeStartGenerator.run_testing, he, hst]
    · simp [he]
    · simp [he]
  · have hc : (g.per_iteration_stats.isNone && g.approximate_testing &&
        decide (g.strengthening_strategy.approx ≠ ApproximationType.None)) = false := by
      simp [hst]
    obtain ⟨u, hu, N, hN⟩ := driver_update_conditions_returns g g.approximate_testing
      (answers.unsafe_states_ids.map answers.get_state) hc
    have hne : answers.unsafe_states_ids.isEmpty = false := by
      cases h : answers.unsafe_states_ids with
      | nil => exact absurd h he
      | cons _ _ => rfl
    refine ⟨(if g.alternating_mode then Mode.Verification else Mode.Testing,
      { g with start_condition := u.1, unsafety_condition := u.2 }), ⟨N, fun fuel hf => ?_⟩,
      ?_, ?_⟩
    · have e := hN fuel hf
      simp only [SafeStartGenerator.run_testing, hst, hne, Bool.not_false, if_true,
        SafeStartGenerator.get_unsafe_states, e]
    · simp [he]
    · simp only [he, if_false]
      exact ⟨u, hu, rfl⟩

theorem run_verification_returns (g : SafeStartGenerator) (answers : StepAnswers)
    (hcond : g.per_iteration_stats ≠ none ∨ answers.verification_result = [] ∨
      g.approximate_verification = false ∨
      g.strengthening_strategy.approx = ApproximationType.None) :
    ∃ r, (∃ N, ∀ fuel, N ≤ fuel → g.run_verification fuel answers = Outcome.ok r) ∧
      r.1 = (if answers.verification_result = [] then Mode.CheckStart
        else if g.use_testing = true ∨ g.alternating_mode = true then Mode.Testing
        else Mode.Verification) ∧
      (if answers.verification_result = [] then r.2 = g
        else ∃ u, Terminates (fun fuel => StrengtheningStrategy.update_conditions
            g.verification_type g.strengthening_strategy fuel g.start_condition
            g.unsafety_condition g.approximate_verification answers.verification_result) u ∧
          r.2 = { g with start_condition := u.1, unsafety_condition := u.2 }) := by
  by_cases he : answers.verification_result = []
  · refine ⟨(Mode.CheckStart, g), ⟨0, fun fuel _ => ?_⟩, ?_, ?_⟩
    · simp [SafeStartGenerator.run_verification, he]
    · simp [he]
    · simp [he]
  · have hc : (g.per_iteration_stats.isNone && g.approximate_verification &&
        decide (g.strengthening_strategy.approx ≠ ApproximationType.None)) = false := by
      rcases hcond with h | h | h | h
      · obtain ⟨file, hfile⟩ := Option.ne_none_iff_exists'.1 h
        simp [hfile]
      · exact absurd h he
      · simp [h]
      · simp [h]
    obtain ⟨u, hu, N, hN⟩ := driver_update_conditions_returns g g.approximate_verification
      answers.verification_result hc
    have hne : answers.verification_result.isEmpty = false := by
      cases h : answers.verification_result with
      | nil => exact absurd h he
      | cons _ _ => rfl
    refine ⟨(if g.use_testing || g.alternating_mode then Mode.Testing else Mode.Verification,
      { g with start_condition := u.1, unsafety_condition := u.2 }), ⟨N, fun fuel hf => ?_⟩,
      ?_, ?_⟩
    · have e := hN fuel hf
      simp only [SafeStartGenerator.run_verification, hne, Bool.false_eq_true, if_false, e]
    · simp [he]
    · simp only [he, if_false]
      exact ⟨u, hu, rfl⟩

theorem run_verification_null (g : SafeStartGenerator) (answers : StepAnswers)
    (hst : g.per_iteration_stats = none) (he : answers.verification_result ≠ [])
    (happ : g.approximate_verification = true)
    (hty : g.strengthening_strategy.approx ≠ ApproximationType.None) :
    ∃ N, ∀ fuel, N ≤ fuel → g.run_verification fuel answers = Outcome.null_dereference := by
  have hc : (g.per_iteration_stats.isNone && g.approximate_verification &&
      decide (g.strengthening_strategy.approx ≠ ApproximationType.None)) = true := by
    simp [hst, happ, hty]
  obtain ⟨N, hN⟩ := driver_update_conditions_null g g.approximate_verification
    answers.verification_result hc
  have hne : answers.verification_result.isEmpty = false := by
    cases h : answers.verification_result with
    | nil => exact absurd h he
    | cons _ _ => rfl
  refine ⟨N, fun fuel hf => ?_⟩
  have e := hN fuel hf
  simp only [SafeStartGenerator.run_verification, hne, Bool.false_eq_true, if_false, e]

theorem run_testing_settles (g : SafeStartGenerator) (answers : StepAnswers) :
    ∃ N r, (∀ fuel, N ≤ fuel → g.run_testing fuel answers = r) ∧ r ≠ Outcome.out_of_fuel := by
  cases hst : g.per_iteration_stats with
  | none =>
    refine ⟨0, Outcome.null_dereference, fun fuel _ => ?_, by simp⟩
    simp only [SafeStartGenerator.run_testing, hst]
  | some file =>
    obtain ⟨r, ⟨N, hN⟩, _⟩ := run_testing_returns g answers file hst
    exact ⟨N, Outcome.ok r, hN, by simp⟩

theorem run_verification_settles (g : SafeStartGenerator) (answers : StepAnswers) :
    ∃ N r, (∀ fuel, N ≤ fuel → g.run_verification fuel answers = r) ∧
      r ≠ Outcome.out_of_fuel := by
  by_cases hcond : g.per_iteration_stats ≠ none ∨ answers.verification_result = [] ∨
      g.approximate_verification = false ∨
      g.strengthening_strategy.approx = ApproximationType.None
  · obtain ⟨r, ⟨N, hN⟩, _⟩ := run_verification_returns g answers hcond
    exact ⟨N, Outcome.ok r, hN, by simp⟩
  · simp only [not_or, ne_eq, not_not, Bool.not_eq_false] at hcond
    obtain ⟨N, hN⟩ := run_verification_null g answers hcond.1 hcond.2.1 hcond.2.2.1 hcond.2.2.2
    exact ⟨N, Outcome.null_dereference, hN, by simp⟩

theorem step_settles (g : SafeStartGenerator) (answers : StepAnswers) :
    ∃ N r, (∀ fuel, N ≤ fuel → g.step fuel answers = r) ∧ r ≠ Outcome.out_of_fuel := by
  unfold SafeStartGenerator.step
  cases g.iteration_mode with
  | Testing =>
    obtain ⟨N, r, hN, hr⟩ := run_testing_settles g answers
    cases r with
    | ok v =>
      refine ⟨N, Outcome.ok (SearchStatus.IN_PROGRESS, { v.2 with iteration_mode := v.1 }),
        fun fuel hf => ?_, by simp⟩
      simp only [hN fuel hf]
    | out_of_fuel => exact absurd rfl hr
    | null_dereference =>
      refine ⟨N, Outcome.null_dereference, fun fuel hf => ?_, by simp⟩
      simp only [hN fuel hf]
  | Verification =>
    obtain ⟨N, r, hN, hr⟩ := run_verification_settles g answers
    cases r with
    | ok v =>
      refine ⟨N, Outcome.ok (SearchStatus.IN_PROGRESS, { v.2 with iteration_mode := v.1 }),
        fun fuel hf => ?_, by simp⟩
      simp only [hN fuel hf]
    | out_of_fuel => exact absurd rfl hr
    | null_dereference =>
      refine ⟨N, Outcome.null_dereference, fun fuel hf => ?_, by simp⟩
      simp only [hN fuel hf]
  | CheckStart => exact ⟨0, _, fun _ _ => rfl, by simp⟩

theorem run_terminates (answers : List StepAnswers) :
    ∀ g : SafeStartGenerator, ∃ r, Terminates (fun fuel => SafeStartGenerator.run fuel g answers) r := by
  induction answers with
  | nil => exact fun g => ⟨g, 0, fun _ _ => rfl⟩
  | cons a rest ih =>
    intro g
    obtain ⟨N1, r1, hN1, hr1⟩ := step_settles g a
    cases r1 with
    | out_of_fuel => exact absurd rfl hr1
    | null_dereference =>
      refine ⟨g, N1, ?_⟩
      intro fuel hf
      simp only [SafeStartGenerator.run, hN1 fuel hf]
    | ok v =>
      obtain ⟨status, g1⟩ := v
      cases status with
      | IN_PROGRESS =>
        obtain ⟨r, N2, hN2⟩ := ih g1
        refine ⟨r, max N1 N2, ?_⟩
        intro fuel hf
        have e1 := hN1 fuel (le_trans (le_max_left _ _) hf)
        have e2 := hN2 fuel (le_trans (le_max_right _ _) hf)
        simp only at e2
        simp only [SafeStartGenerator.run, e1, e2]
      | SOLVED =>
        refine ⟨g1, N1, ?_⟩
        intro fuel hf
        simp only [SafeStartGenerator.run, hN1 fuel hf]
      | FINISHED =>
        refine ⟨g1, N1, ?_⟩
        intro fuel hf
        simp only [SafeStartGenerator.run, hN1 fuel hf]

/-- What the driver gets from its call of `update_conditions` is what the strategy computed. -/
theorem driver_update_conditions_ok (g : SafeStartGenerator) (fuel : Nat) (approximate : Bool)
    (states : List StateBase) (u : Expression × Expression)
    (h : g.update_conditions fuel approximate states = Outcome.ok u) :
    StrengtheningStrategy.update_conditions g.verification_type g.strengthening_strategy fuel
      g.start_condition g.unsafety_condition approximate states = some u := by
  unfold SafeStartGenerator.update_conditions at h
  cases hu : StrengtheningStrategy.update_conditions g.verification_type g.strengthening_strategy
      fuel g.start_condition g.unsafety_condition approximate states with
  | none => simp [hu] at h
  | some c =>
    simp only [hu] at h
    split_ifs at h
    simp only [Outcome.ok.injEq] at h
    rw [h]

/-- A step keeps the strategy, and either keeps both conditions or replaces them by the pair that
`update_conditions` returned for them. -/
theorem step_conditions (g : SafeStartGenerator) (fuel : Nat) (answers : StepAnswers)
    (status : SearchStatus) (g1 : SafeStartGenerator)
    (h : g.step fuel answers = Outcome.ok (status, g1)) :
    g1.verification_type = g.verification_type ∧
    g1.strengthening_strategy = g.strengthening_strategy ∧
    ((g1.start_condition = g.start_condition ∧ g1.unsafety_condition = g.unsafety_condition) ∨
      ∃ approximate states, StrengtheningStrategy.update_conditions g.verification_type
        g.strengthening_strategy fuel g.start_condition g.unsafety_condition approximate states
          = some (g1.start_condition, g1.unsafety_condition)) := by
  unfold SafeStartGenerator.step at h
  cases hm : g.iteration_mode with
  | Testing =>
    simp only [hm] at h
    unfold SafeStartGenerator.run_testing at h
    cases hst : g.per_iteration_stats with
    | none => simp [hst] at h
    | some file =>
      simp only [hst] at h
      by_cases he : answers.unsafe_states_ids.isEmpty = true
      · simp only [he, Bool.not_true, Bool.false_eq_true, if_false, Outcome.ok.injEq,
          Prod.mk.injEq] at h
        obtain ⟨_, rfl⟩ := h
        exact ⟨rfl, rfl, Or.inl ⟨rfl, rfl⟩⟩
      · simp only [he, Bool.not_false, if_true] at h
        cases hu : g.update_conditions fuel g.approximate_testing
            (SafeStartGenerator.get_unsafe_states answers) with
        | out_of_fuel => simp [hu] at h
        | null_dereference => simp [hu] at h
        | ok u =>
          simp only [hu, Outcome.ok.injEq, Prod.mk.injEq] at h
          obtain ⟨_, rfl⟩ := h
          exact ⟨rfl, rfl, Or.inr ⟨_, _, driver_update_conditions_ok g fuel _ _ u hu⟩⟩
  | Verification =>
    simp only [hm] at h
    unfold SafeStartGenerator.run_verification at h
    by_cases he : answers.verification_result.isEmpty = true
    · simp only [he, if_true, Outcome.ok.injEq, Prod.mk.injEq] at h
      obtain ⟨_, rfl⟩ := h
      exact ⟨rfl, rfl, Or.inl ⟨rfl, rfl⟩⟩
    · simp only [he, Bool.false_eq_true, if_false] at h
      cases hu : g.update_conditions fuel g.approximate_verification
          answers.verification_result with
      | out_of_fuel => simp [hu] at h
      | null_dereference => simp [hu] at h
      | ok u =>
        simp only [hu, Outcome.ok.injEq, Prod.mk.injEq] at h
        obtain ⟨_, rfl⟩ := h
        exact ⟨rfl, rfl, Or.inr ⟨_, _, driver_update_conditions_ok g fuel _ _ u hu⟩⟩
  | CheckStart =>
    simp only [hm, Outcome.ok.injEq, Prod.mk.injEq] at h
    obtain ⟨_, rfl⟩ := h
    exact ⟨rfl, rfl, Or.inl ⟨rfl, rfl⟩⟩

/-- A property of the two conditions that every refinement preserves holds along every run. -/
theorem run_preserves (P : Expression → Expression → Prop) (fuel : Nat)
    (answers : List StepAnswers) :
    ∀ g g1 : SafeStartGenerator,
      (∀ start unsafety approximate states r, P start unsafety →
        StrengtheningStrategy.update_conditions g.verification_type g.strengthening_strategy fuel
          start unsafety approximate states = some r → P r.1 r.2) →
      P g.start_condition g.unsafety_condition →
      SafeStartGenerator.run fuel g answers = some g1 →
      P g1.start_condition g1.unsafety_condition := by
  induction answers with
  | nil =>
    intro g g1 _ hP hrun
    simp only [SafeStartGenerator.run, Option.some.injEq] at hrun
    subst hrun
    exact hP
  | cons a rest ih =>
    intro g g1 hpres hP hrun
    simp only [SafeStartGenerator.run] at hrun
    cases hs : g.step fuel a with
    | out_of_fuel => simp [hs] at hrun
    | null_dereference =>
      simp only [hs, Option.some.injEq] at hrun
      subst hrun
      exact hP
    | ok sg =>
      obtain ⟨status, g2⟩ := sg
      have hc := step_conditions g fuel a status g2 hs
      have hP2 : P g2.start_condition g2.unsafety_condition := by
        rcases hc.2.2 with ⟨e1, e2⟩ | ⟨approximate, states, hu⟩
        · rw [e1, e2]; exact hP
        · exact hpres _ _ _ _ _ hP hu
      cases status with
      | IN_PROGRESS =>
        simp only [hs] at hrun
        exact ih g2 g1 (by rw [hc.1, hc.2.1]; exact hpres) hP2 hrun
      | SOLVED =>
        simp only [hs, Option.some.injEq] at hrun
        subst hrun
        exact hP2
      | FINISHED =>
        simp only [hs, Option.some.injEq] at hrun
        subst hrun
        exact hP2

theorem create_start_invariant (config : Configuration) (hmp : config.nf.MeaningPreserving)
    (hvt : config.verification_method = VerificationType.INVARIANT_STRENGTHENING)
    (s : StateBase) :
    (SafeStartGenerator.create config).start_condition.sat s
      = !(SafeStartGenerator.create config).unsafety_condition.sat s := by
  simp only [SafeStartGenerator.create, hvt, if_true, hmp.specialize_sat, hmp.normalize_sat,
    hmp.negate_sat]

/-- C5: under Invariant Strengthening with a meaning-preserving normal-form visitor, no state
satisfies both conditions at construction; `update_conditions` returns a pair and maps every pair
whose conjunction is unsatisfiable over the model domain to such a pair; and after every run of
the step machine no state satisfies both conditions, for every approximation type and every
sequence of counterexample sets. -/
theorem invariant_strengthening_keeps_conditions_disjoint (config : Configuration)
    (hmp : config.nf.MeaningPreserving)
    (hvt : config.verification_method = VerificationType.INVARIANT_STRENGTHENING) :
    (∀ s, ¬ ((SafeStartGenerator.create config).start_condition.sat s = true ∧
        (SafeStartGenerator.create config).unsafety_condition.sat s = true)) ∧
    (∀ (start unsafety : Expression) (approximate : Bool) (unsafe_states : List StateBase),
      (∀ s, config.model.in_domain s → ¬ (start.sat s = true ∧ unsafety.sat s = true)) →
      ∃ r, Terminates (fun fuel => InvariantStrengtheningStrategy.update_conditions
          (SafeStartGenerator.create config).strengthening_strategy fuel start unsafety
          approximate unsafe_states) r ∧
        ∀ s, config.model.in_domain s → ¬ (r.1.sat s = true ∧ r.2.sat s = true)) ∧
    (∀ answers : List StepAnswers,
      ∃ g, Terminates (fun fuel => SafeStartGenerator.run fuel (SafeStartGenerator.create config)
          answers) g ∧
        ∀ s, ¬ (g.start_condition.sat s = true ∧ g.unsafety_condition.sat s = true)) := by
  have hmp2 : (SafeStartGenerator.create config).strengthening_strategy.nf.MeaningPreserving := hmp
  have h0 : ∀ s, ¬ ((SafeStartGenerator.create config).start_condition.sat s = true ∧
      (SafeStartGenerator.create config).unsafety_condition.sat s = true) := by
    intro s
    rw [create_start_invariant config hmp hvt s]
    cases (SafeStartGenerator.create config).unsafety_condition.sat s <;> simp
  refine ⟨h0, ?_, ?_⟩
  · intro start unsafety approximate unsafe_states hdis
    obtain ⟨r, N, hN⟩ := invariant_update_terminates
      (SafeStartGenerator.create config).strengthening_strategy start unsafety approximate
      unsafe_states
    refine ⟨r, ⟨N, hN⟩, ?_⟩
    intro s hs
    obtain ⟨region, hreg⟩ := update_conditions_refines VerificationType.INVARIANT_STRENGTHENING
      _ hmp2 N start unsafety approximate unsafe_states r (hN N (le_refl _))
    exact refines_disjoint start unsafety region r hreg s (hdis s hs)
  · intro answers
    obtain ⟨g, N, hN⟩ := run_terminates answers (SafeStartGenerator.create config)
    refine ⟨g, ⟨N, hN⟩, ?_⟩
    exact run_preserves
      (fun start unsafety => ∀ s, ¬ (start.sat s = true ∧ unsafety.sat s = true)) N answers
      (SafeStartGenerator.create config) g
      (fun start unsafety approximate states r hP hu s => by
        obtain ⟨region, hreg⟩ := update_conditions_refines _ _ hmp2 N start unsafety approximate
          states r hu
        exact refines_disjoint start unsafety region r hreg s (hP s))
      h0 (hN N (le_refl _))

/-- Witness for C5: the example configuration with under-approximation, after a testing step and a
verification step. -/
theorem invariant_strengthening_keeps_conditions_disjoint_witness :
    TO_NORMALFORM.MeaningPreserving ∧
    (Example.config ApproximationType.Underapproximation).verification_method
      = VerificationType.INVARIANT_STRENGTHENING ∧
    ∃ g, Terminates (fun fuel => SafeStartGenerator.run fuel
        (SafeStartGenerator.create (Example.config ApproximationType.Underapproximation))
        [Example.answers, Example.answers]) g ∧
      ∀ s, ¬ (g.start_condition.sat s = true ∧ g.unsafety_condition.sat s = true) :=
  ⟨TO_NORMALFORM_meaning_preserving, rfl,
    (invariant_strengthening_keeps_conditions_disjoint
      (Example.config ApproximationType.Underapproximation) TO_NORMALFORM_meaning_preserving
      rfl).2.2 [Example.answers, Example.answers]⟩

/-- C6: under Invariant Strengthening with a meaning-preserving normal-form visitor, every state
satisfies one of the two conditions at construction; `update_conditions` returns a pair and maps
every pair whose disjunction covers the model domain to such a pair; and after every run of the
step machine every state satisfies one of the two conditions, for every approximation type and
every sequence of counterexample sets. -/
theorem invariant_strengthening_keeps_conditions_covering (config : Configuration)
    (hmp : config.nf.MeaningPreserving)
    (hvt : config.verification_method = VerificationType.INVARIANT_STRENGTHENING) :
    (∀ s, (SafeStartGenerator.create config).start_condition.sat s = true ∨
        (SafeStartGenerator.create config).unsafety_condition.sat s = true) ∧
    (∀ (start unsafety : Expression) (approximate : Bool) (unsafe_states : List StateBase),
      (∀ s, config.model.in_domain s → start.sat s = true ∨ unsafety.sat s = true) →
      ∃ r, Terminates (fun fuel => InvariantStrengtheningStrategy.update_conditions
          (SafeStartGenerator.create config).strengthening_strategy fuel start unsafety
          approximate unsafe_states) r ∧
        ∀ s, config.model.in_domain s → r.1.sat s = true ∨ r.2.sat s = true) ∧
    (∀ answers : List StepAnswers,
      ∃ g, Terminates (fun fuel => SafeStartGenerator.run fuel (SafeStartGenerator.create config)
          answers) g ∧
        ∀ s, g.start_condition.sat s = true ∨ g.unsafety_condition.sat s = true) := by
  have hmp2 : (SafeStartGenerator.create config).strengthening_strategy.nf.MeaningPreserving := hmp
  have h0 : ∀ s, (SafeStartGenerator.create config).start_condition.sat s = true ∨
      (SafeStartGenerator.create config).unsafety_condition.sat s = true := by
    intro s
    rw [create_start_invariant config hmp hvt s]
    cases (SafeStartGenerator.create config).unsafety_condition.sat s <;> simp
  refine ⟨h0, ?_, ?_⟩
  · intro start unsafety approximate unsafe_states hcov
    obtain ⟨r, N, hN⟩ := invariant_update_terminates
      (SafeStartGenerator.create config).strengthening_strategy start unsafety approximate
      unsafe_states
    refine ⟨r, ⟨N, hN⟩, ?_⟩
    intro s hs
    obtain ⟨region, hreg⟩ := update_conditions_refines VerificationType.INVARIANT_STRENGTHENING
      _ hmp2 N start unsafety approximate unsafe_states r (hN N (le_refl _))
    exact refines_cover start unsafety region r hreg s (hcov s hs)
  · intro answers
    obtain ⟨g, N, hN⟩ := run_terminates answers (SafeStartGenerator.create config)
    refine ⟨g, ⟨N, hN⟩, ?_⟩
    exact run_preserves
      (fun start unsafety => ∀ s, start.sat s = true ∨ unsafety.sat s = true) N answers
      (SafeStartGenerator.create config) g
      (fun start unsafety approximate states r hP hu s => by
        obtain ⟨region, hreg⟩ := update_conditions_refines _ _ hmp2 N start unsafety approximate
          states r hu
        exact refines_cover start unsafety region r hreg s (hP s))
      h0 (hN N (le_refl _))

/-- Witness for C6: the example configuration with over-approximation, after a testing step and a
verification step. -/
theorem invariant_strengthening_keeps_conditions_covering_witness :
    TO_NORMALFORM.MeaningPreserving ∧
    (Example.config ApproximationType.Overapproximation).verification_method
      = VerificationType.INVARIANT_STRENGTHENING ∧
    ∃ g, Terminates (fun fuel => SafeStartGenerator.run fuel
        (SafeStartGenerator.create (Example.config ApproximationType.Overapproximation))
        [Example.answers, Example.answers]) g ∧
      ∀ s, g.start_condition.sat s = true ∨ g.unsafety_condition.sat s = true :=
  ⟨TO_NORMALFORM_meaning_preserving, rfl,
    (invariant_strengthening_keeps_conditions_covering
      (Example.config ApproximationType.Overapproximation) TO_NORMALFORM_meaning_preserving
      rfl).2.2 [Example.answers, Example.answers]⟩

/-- C7 (the code departs from the claim): with under-approximation and `approximate` set, the
refinement by no state is not the identity. Invariant Strengthening called with start `x >= 0`,
unsafety `x = 5` and the empty counterexample set, and Start-Condition Strengthening called with
start `x <= 3`, unsafety `x = 5` and the counterexample `x = 7`, which does not satisfy the start,
both return a start predicate that fails and an unsafety predicate that holds on the state
`x = 1`, on which the input start holds and the input unsafety fails. -/
theorem empty_refinement_is_not_identity :
    ((InvariantStrengtheningStrategy.update_conditions
        (Example.strategy ApproximationType.Underapproximation) 10 Example.x_ge_0
        Example.x_eq_5 true []).map fun r => (r.1.sat [0, 1], r.2.sat [0, 1]))
      = some (false, true) ∧
    ((StartConditionStrengtheningStrategy.update_conditions
        (Example.strategy ApproximationType.Underapproximation) 10 Example.x_le_3
        Example.x_eq_5 true [[0, 7]]).map fun r => (r.1.sat [0, 1], r.2.sat [0, 1]))
      = some (false, true) ∧
    Example.x_le_3.sat [0, 7] = false ∧
    Example.x_ge_0.sat [0, 1] = true ∧ Example.x_le_3.sat [0, 1] = true ∧
    Example.x_eq_5.sat [0, 1] = false := by
  decide


/-! ## Unsafe-path identifier -/

/-- C8 (the code departs from the claim): state 0 is a choice point whose policy action leads to
state 1, which is unsafe and has two applicable actions. The rollout from state 0 ends at state 1
with result true, and `identify_unsafe_paths` returns the set `{0, 1}`: the terminal unsafe state
was inserted into the path cache by `execute_policy` before its unsafety was tested. -/
theorem terminal_unsafe_state_is_reported :
    UnsafePathIdentifier.is_unsafe (Example.setup [1, 2]) 1 = true ∧
    ((UnsafePathIdentifier.execute_policy (Example.setup [1, 2]) 10 10 Example.at_start 0).value.map
        fun r => (r.1, r.2.source, r.2.path_cache)) = some (true, 1, [0, 1]) ∧
    UnsafePathIdentifier.identify_unsafe_paths (Example.setup [1, 2]) 10 [some 0]
        UnsafePathIdentifier.init = Outcome.ok [0, 1] := by
  decide

/-- C9 (the code departs from the claim): state 0 is a choice point whose policy action leads to
the unsafe state 1. When state 1 has no applicable action, and when it has exactly one, the
rollout takes the transition from state 0 into state 1 and `execute_policy` returns false;
`identify_unsafe_paths` returns the empty set. -/
theorem unsafe_successor_at_choice_point_is_missed :
    UnsafePathIdentifier.is_unsafe (Example.setup []) 1 = true ∧
    ((UnsafePathIdentifier.execute_policy (Example.setup []) 10 10 Example.at_start 0).value.map
        fun r => (r.1, r.2.transition_cache))
      = some (false, [{ src := 0, label := 1, successor := 1 }]) ∧
    UnsafePathIdentifier.identify_unsafe_paths (Example.setup []) 10 [some 0]
        UnsafePathIdentifier.init = Outcome.ok [] ∧
    UnsafePathIdentifier.is_unsafe (Example.setup [1]) 1 = true ∧
    ((UnsafePathIdentifier.execute_policy (Example.setup [1]) 10 10 Example.at_start 0).value.map
        fun r => (r.1, r.2.transition_cache))
      = some (false, [{ src := 0, label := 1, successor := 1 },
          { src := 1, label := 1, successor := 2 }]) ∧
    UnsafePathIdentifier.identify_unsafe_paths (Example.setup [1]) 10 [some 0]
        UnsafePathIdentifier.init = Outcome.ok [] := by
  decide

/-! ## Next-mode table of the driver -/

/-- C10 (the code departs from the claim): `run_testing` starts with
`per_iteration_stats->testing_iteration()`, and the sink exists only when the option
`iteration_stats` was given; without it every call of `run_testing` dereferences the null pointer
and yields no next mode, as for the example configuration without that option. With the sink
`run_testing` returns, and the next mode follows the table: no unsafe state goes to Verification
and leaves the driver unchanged; unsafe states go to Verification if alternating and to Testing
otherwise, with the two conditions replaced by the pair `update_conditions` returns.
`run_verification` guards its use of the sink; it returns and follows the table (an empty result
goes to CheckStart and leaves the driver unchanged, a non-empty one goes to Testing if
`use_testing` or alternating is set and to Verification otherwise, with the conditions replaced)
unless the sink is null, the result is not empty and a box approximation is requested: then the
strategy dereferences the null sink in `get_box_approximation`. -/
theorem run_testing_dereferences_null_statistics (g : SafeStartGenerator)
    (answers : StepAnswers) :
    (g.per_iteration_stats = none →
      ∀ fuel, g.run_testing fuel answers = Outcome.null_dereference) ∧
    (g.per_iteration_stats ≠ none →
      ∃ r, Terminates (fun fuel => (g.run_testing fuel answers).value) r ∧
        r.1 = (if answers.unsafe_states_ids = [] then Mode.Verification
          else if g.alternating_mode = true then Mode.Verification else Mode.Testing) ∧
        (if answers.unsafe_states_ids = [] then r.2 = g
          else ∃ u, Terminates (fun fuel => StrengtheningStrategy.update_conditions
              g.verification_type g.strengthening_strategy fuel g.start_condition
              g.unsafety_condition g.approximate_testing
              (answers.unsafe_states_ids.map answers.get_state)) u ∧
            r.2 = { g with start_condition := u.1, unsafety_condition := u.2 })) ∧
    ((g.per_iteration_stats ≠ none ∨ answers.verification_result = [] ∨
        g.approximate_verification = false ∨
        g.strengthening_strategy.approx = ApproximationType.None) →
      ∃ r, Terminates (fun fuel => (g.run_verification fuel answers).value) r ∧
        r.1 = (if answers.verification_result = [] then Mode.CheckStart
          else if g.use_testing = true ∨ g.alternating_mode = true then Mode.Testing
          else Mode.Verification) ∧
        (if answers.verification_result = [] then r.2 = g
          else ∃ u, Terminates (fun fuel => StrengtheningStrategy.update_conditions
              g.verification_type g.strengthening_strategy fuel g.start_condition
              g.unsafety_condition g.approximate_verification answers.verification_result) u ∧
            r.2 = { g with start_condition := u.1, unsafety_condition := u.2 })) ∧
    (g.per_iteration_stats = none → answers.verification_result ≠ [] →
      g.approximate_verification = true →
      g.strengthening_strategy.approx ≠ ApproximationType.None →
      ∃ N, ∀ fuel, N ≤ fuel → g.run_verification fuel answers = Outcome.null_dereference) ∧
    (SafeStartGenerator.create
        { Example.config ApproximationType.None with iteration_stats := none }).run_testing 0
      Example.answers = Outcome.null_dereference ∧
    ((SafeStartGenerator.create (Example.config ApproximationType.None)).run_testing 0
      Example.answers).value.map (fun r => r.1) = some Mode.Testing := by
  refine ⟨?_, ?_, ?_, ?_, rfl, by decide⟩
  · intro hst fuel
    simp only [SafeStartGenerator.run_testing, hst]
  · intro hst
    obtain ⟨file, hfile⟩ := Option.ne_none_iff_exists'.1 hst
    obtain ⟨r, ⟨N, hN⟩, h1, h2⟩ := run_testing_returns g answers file hfile
    refine ⟨r, ⟨N, fun fuel hf => ?_⟩, h1, h2⟩
    simp only [hN fuel hf, Outcome.value]
  · intro hcond
    obtain ⟨r, ⟨N, hN⟩, h1, h2⟩ := run_verification_returns g answers hcond
    refine ⟨r, ⟨N, fun fuel hf => ?_⟩, h1, h2⟩
    simp only [hN fuel hf, Outcome.value]
  · intro hst he happ hty
    exact run_verification_null g answers hst he happ hty

/-! ## Final check of the driver -/

/-- C11 (the code departs from the claim): in mode CheckStart, `step` returns SOLVED exactly when
the enumerator yields a state and FINISHED otherwise, and leaves the driver unchanged; an
enumerator that yields only states of the start condition yields none for a start condition that
no state satisfies, such as `(x = 0) AND (x = 1)`, and the step returns FINISHED. Whenever a step
in mode Testing or Verification returns, its status is IN_PROGRESS. But a step in mode Testing
returns only if the driver has the statistics sink of the option `iteration_stats`: without it
the step dereferences the null pointer `per_iteration_stats` and returns nothing, as the first
step of the driver built from the example configuration without that option does. A step in mode
Verification returns if the sink exists, the result of the verifier is empty, or no box
approximation is requested. -/
theorem step_in_testing_mode_dereferences_null_statistics (g : SafeStartGenerator)
    (answers : StepAnswers) :
    (g.iteration_mode = Mode.CheckStart → ∀ fuel,
      ∃ status, g.step fuel answers = Outcome.ok (status, g) ∧
        (status = SearchStatus.SOLVED ↔ ∃ state, answers.sampled_start_state = some state) ∧
        (status = SearchStatus.FINISHED ↔ answers.sampled_start_state = none) ∧
        ((∀ state, g.start_condition.sat state = false) →
          SampledFrom g.start_condition answers.sampled_start_state →
          status = SearchStatus.FINISHED)) ∧
    (g.iteration_mode = Mode.CheckStart → g.start_condition = Example.x_eq_0_and_x_eq_1 →
      SampledFrom g.start_condition answers.sampled_start_state →
      ∀ fuel, g.step fuel answers = Outcome.ok (SearchStatus.FINISHED, g)) ∧
    (g.iteration_mode = Mode.Testing → g.per_iteration_stats = none →
      ∀ fuel, g.step fuel answers = Outcome.null_dereference) ∧
    (g.iteration_mode = Mode.Testing → g.per_iteration_stats ≠ none →
      ∃ r, Terminates (fun fuel => (g.step fuel answers).value) r ∧
        r.1 = SearchStatus.IN_PROGRESS) ∧
    (g.iteration_mode = Mode.Verification →
      (g.per_iteration_stats ≠ none ∨ answers.verification_result = [] ∨
        g.approximate_verification = false ∨
        g.strengthening_strategy.approx = ApproximationType.None) →
      ∃ r, Terminates (fun fuel => (g.step fuel answers).value) r ∧
        r.1 = SearchStatus.IN_PROGRESS) ∧
    (g.iteration_mode ≠ Mode.CheckStart → ∀ fuel r,
      g.step fuel answers = Outcome.ok r → r.1 = SearchStatus.IN_PROGRESS) ∧
    (SafeStartGenerator.create
        { Example.config ApproximationType.None with iteration_stats := none }).iteration_mode
      = Mode.Testing ∧
    (SafeStartGenerator.create
        { Example.config ApproximationType.None with iteration_stats := none }).step 0
      Example.answers = Outcome.null_dereference := by
  have hunsat : ∀ state : StateBase, Example.x_eq_0_and_x_eq_1.sat state = false := by
    intro state
    unfold Example.x_eq_0_and_x_eq_1
    rw [sat_nary_and]
    simp only [List.all_cons, List.all_nil, Bool.and_true]
    have h0 := sat_eq Example.line 0 0 state
    have h1 := sat_eq Example.line 0 1 state
    simp only [Model.gen_var_expr] at h0 h1
    rw [h0, h1]
    by_cases h : state.get_int (0 + 1) = 0
    · simp [h]
    · simp [h]
  have hcheck : g.iteration_mode = Mode.CheckStart → ∀ fuel,
      g.step fuel answers = Outcome.ok (g.check_start_condition answers, g) := by
    intro hm fuel
    simp only [SafeStartGenerator.step, hm]
  have hprogress : ∀ fuel r, g.iteration_mode ≠ Mode.CheckStart →
      g.step fuel answers = Outcome.ok r → r.1 = SearchStatus.IN_PROGRESS := by
    intro fuel r hm e
    simp only [SafeStartGenerator.step] at e
    cases hmode : g.iteration_mode with
    | Testing =>
      simp only [hmode] at e
      cases ht : g.run_testing fuel answers with
      | out_of_fuel => simp [ht] at e
      | null_dereference => simp [ht] at e
      | ok p => simp only [ht, Outcome.ok.injEq] at e; rw [← e]
    | Verification =>
      simp only [hmode] at e
      cases ht : g.run_verification fuel answers with
      | out_of_fuel => simp [ht] at e
      | null_dereference => simp [ht] at e
      | ok p => simp only [ht, Outcome.ok.injEq] at e; rw [← e]
    | CheckStart => exact absurd hmode hm
  refine ⟨?_, ?_, ?_, ?_, ?_, fun hm fuel r e => hprogress fuel r hm e, rfl, rfl⟩
  · intro hm fuel
    refine ⟨g.check_start_condition answers, hcheck hm fuel, ?_, ?_, ?_⟩
    · unfold SafeStartGenerator.check_start_condition
      cases answers.sampled_start_state <;> simp
    · unfold SafeStartGenerator.check_start_condition
      cases answers.sampled_start_state <;> simp
    · intro hno hs
      unfold SafeStartGenerator.check_start_condition
      cases hst : answers.sampled_start_state with
      | none => rfl
      | some state =>
        have := hs state hst
        rw [hno state] at this
        exact absurd this (by decide)
  · intro hm hstart hs fuel
    rw [hcheck hm fuel]
    unfold SafeStartGenerator.check_start_condition
    cases hst : answers.sampled_start_state with
    | none => rfl
    | some state =>
      have := hs state hst
      rw [hstart, hunsat state] at this
      exact absurd this (by decide)
  · intro hm hst fuel
    simp only [SafeStartGenerator.step, hm, SafeStartGenerator.run_testing, hst]
  · intro hm hst
    obtain ⟨file, hfile⟩ := Option.ne_none_iff_exists'.1 hst
    obtain ⟨r, ⟨N, hN⟩, _⟩ := run_testing_returns g answers file hfile
    refine ⟨(SearchStatus.IN_PROGRESS, { r.2 with iteration_mode := r.1 }),
      ⟨N, fun fuel hf => ?_⟩, rfl⟩
    simp only [SafeStartGenerator.step, hm, hN fuel hf, Outcome.value]
  · intro hm hcond
    obtain ⟨r, ⟨N, hN⟩, _⟩ := run_verification_returns g answers hcond
    refine ⟨(SearchStatus.IN_PROGRESS, { r.2 with iteration_mode := r.1 }),
      ⟨N, fun fuel hf => ?_⟩, rfl⟩
    simp only [SafeStartGenerator.step, hm, hN fuel hf, Outcome.value]

/-! ## Bounded box on the empty set -/

/-- C14 (the code departs from the claim): for the empty state set `compute_bounded_box` returns
volume 0 together with the n-ary AND that has no operand, and this predicate holds on every
state; the claim asks for a predicate that no state satisfies. -/
theorem bounded_box_of_empty_set_is_true (fuel : Nat) (model : Model) (state : StateBase) :
    BoundedBox.compute_bounded_box fuel [] model = some (0, Expression.Nary Op.AND []) ∧
    (Expression.Nary Op.AND []).sat state = true := by
  refine ⟨rfl, ?_⟩
  rw [sat_nary_and]
  rfl

/-! ## Transition cache -/

/-- C15: `cache_and_check_cycle` on the triple `(source, label, target)`: when the triple is in
the transition cache the call returns false, raises the cycle counter by one and changes nothing
else; otherwise it returns true, appends the triple to the cache and changes nothing else. The
equality of the set compares the three components, so two triples are the same exactly when all
three components are equal, and equal triples have equal hashes. -/
theorem cache_and_check_cycle_deduplicates (self : UnsafePathIdentifier)
    (action_label : ActionLabel_type) :
    (({ src := self.source, label := action_label, successor := self.target } : Transition)
        ∈ self.transition_cache →
      self.cache_and_check_cycle action_label
        = (false, { self with cycles := self.cycles + 1 })) ∧
    (({ src := self.source, label := action_label, successor := self.target } : Transition)
        ∉ self.transition_cache →
      self.cache_and_check_cycle action_label
        = (true, { self with transition_cache := self.transition_cache ++
            [{ src := self.source, label := action_label, successor := self.target }] })) ∧
    (∀ t1 t2 : Transition, TransitionEqual t1 t2 = true ↔ t1 = t2) ∧
    (∀ t1 t2 : Transition,
      t1 = t2 ↔ t1.src = t2.src ∧ t1.label = t2.label ∧ t1.successor = t2.successor) ∧
    (∀ t1 t2 : Transition, TransitionEqual t1 t2 = true → TransitionHash t1 = TransitionHash t2) := by
  have heq : ∀ t1 t2 : Transition,
      t1 = t2 ↔ t1.src = t2.src ∧ t1.label = t2.label ∧ t1.successor = t2.successor := by
    intro t1 t2
    cases t1
    cases t2
    simp
  have hte : ∀ t1 t2 : Transition, TransitionEqual t1 t2 = true ↔ t1 = t2 := by
    intro t1 t2
    rw [heq]
    simp [TransitionEqual, and_assoc]
  refine ⟨?_, ?_, hte, heq, ?_⟩
  · intro h
    simp only [UnsafePathIdentifier.cache_and_check_cycle, h, if_true]
  · intro h
    simp only [UnsafePathIdentifier.cache_and_check_cycle, h, if_false]
  · intro t1 t2 h
    rw [(hte t1 t2).mp h]

/-! ## Configuration strings -/

/-- C17: `VerificationMethods::string_to_type` succeeds exactly on "inv_str" and "scs" and
`Approximation::string_to_type` exactly on "over", "under" and "none"; on every other string each
throws `invalid_argument`; and `string_to_type (type_to_string t) = t` for every value of either
enumeration. -/
theorem string_to_type_accepts_exactly_the_names :
    (∀ s t, VerificationMethods.string_to_type s = Except.ok t ↔
      (s = "inv_str" ∧ t = VerificationType.INVARIANT_STRENGTHENING) ∨
      (s = "scs" ∧ t = VerificationType.START_CONDITION_STRENGTHENING)) ∧
    (∀ s, s ≠ "inv_str" → s ≠ "scs" →
      VerificationMethods.string_to_type s = Except.error
        (Exception.invalid_argument ("Invalid verification method string: " ++ s))) ∧
    (∀ s t, Approximation.string_to_type s = Except.ok t ↔
      (s = "over" ∧ t = ApproximationType.Overapproximation) ∨
      (s = "under" ∧ t = ApproximationType.Underapproximation) ∨
      (s = "none" ∧ t = ApproximationType.None)) ∧
    (∀ s, s ≠ "over" → s ≠ "under" → s ≠ "none" →
      Approximation.string_to_type s = Except.error
        (Exception.invalid_argument ("Invalid approximation type string: " ++ s))) ∧
    (∀ t, VerificationMethods.string_to_type (VerificationMethods.type_to_string t)
      = Except.ok t) ∧
    (∀ t, Approximation.string_to_type (Approximation.type_to_string t) = Except.ok t) := by
  refine ⟨?_, ?_, ?_, ?_, ?_, ?_⟩
  · intro s t
    unfold VerificationMethods.string_to_type
    by_cases h1 : s = "inv_str"
    · subst h1
      simp [eq_comm]
    · by_cases h2 : s = "scs"
      · subst h2
        simp [eq_comm]
      · simp [h1, h2]
  · intro s h1 h2
    simp [VerificationMethods.string_to_type, h1, h2]
  · intro s t
    unfold Approximation.string_to_type
    by_cases h1 : s = "over"
    · subst h1
      simp [eq_comm]
    · by_cases h2 : s = "under"
      · subst h2
        simp [eq_comm]
      · by_cases h3 : s = "none"
        · subst h3
          simp [eq_comm]
        · simp [h1, h2, h3]
  · intro s h1 h2 h3
    simp [Approximation.string_to_type, h1, h2, h3]
  · intro t
    cases t <;> simp [VerificationMethods.string_to_type, VerificationMethods.type_to_string]
  · intro t
    cases t <;> simp [Approximation.string_to_type, Approximation.type_to_string]

/-! ## Bounded box on the elbow -/

/-- C18 (counterexample): for the states with data valuations `(0,0)`, `(0,1)`, `(1,0)` in this
order over the domain `[0,1] x [0,1]`, the volume returned by `compute_bounded_box` is 2. -/
theorem bounded_box_of_elbow_has_volume_two :
    (BoundedBox.compute_bounded_box 10 [[0, 0, 0], [0, 0, 1], [0, 1, 0]]
      Example.unit_square).map (fun rlt => rlt.1) = some 2 := by
  decide

/-- C18 (amended): for the states with data valuations `(0,0)`, `(0,1)`, `(1,0)`, over the domain
`[0,1] x [0,1]` and over the domain `[-2,3] x [-2,3]`, `compute_bounded_box` finds a box of two
points in each of the six seed orders: the box from `(0,0)` to `(0,1)` when the seed `(0,1)`
comes first, the box from `(0,0)` to `(1,0)` otherwise; it never finds the 2x2 box. -/
theorem bounded_box_of_elbow_is_a_domino :
    (Example.elbow_orders.map fun order => BoundedBox.best_box 10 order Example.unit_square)
      = [some { max_volume := 2, best_min := [0, 0], best_max := [1, 0] },
         some { max_volume := 2, best_min := [0, 0], best_max := [1, 0] },
         some { max_volume := 2, best_min := [0, 0], best_max := [0, 1] },
         some { max_volume := 2, best_min := [0, 0], best_max := [0, 1] },
         some { max_volume := 2, best_min := [0, 0], best_max := [1, 0] },
         some { max_volume := 2, best_min := [0, 0], best_max := [1, 0] }] ∧
    (Example.elbow_orders.map fun order => BoundedBox.best_box 10 order Example.wide_square)
      = (Example.elbow_orders.map fun order => BoundedBox.best_box 10 order Example.unit_square) ∧
    (Example.elbow_orders.map fun order =>
      (BoundedBox.compute_bounded_box 10 order Example.unit_square).map
        fun rlt => (rlt.1, rlt.2.sat [0, 1, 1]))
      = List.replicate 6 (some (2, false)) := by
  decide

/-! ## Refinement by points -/

theorem sat_to_condition_iff (model : Model) (s t : StateBase) :
    (s.to_condition model).sat t = true
      ↔ ∀ j, j < s.get_int_state_size - 1 → t.get_int (j + 1) = s.get_int (j + 1) := by
  unfold StateBase.to_condition
  rw [sat_nary_and]
  simp only [List.all_eq_true, List.mem_map, List.mem_range]
  constructor
  · intro h j hj
    have := h _ ⟨j, hj, rfl⟩
    rw [sat_eq] at this
    exact of_decide_eq_true this
  · rintro h e ⟨j, hj, rfl⟩
    rw [sat_eq]
    exact decide_eq_true (h j hj)

theorem get_state_vec_eq_iff (s t : StateBase)
    (hsize : s.get_int_state_size = t.get_int_state_size) :
    BoundedBox.get_state_vec t = BoundedBox.get_state_vec s
      ↔ ∀ j, j < s.get_int_state_size - 1 → t.get_int (j + 1) = s.get_int (j + 1) := by
  unfold BoundedBox.get_state_vec
  rw [hsize]
  constructor
  · intro h j hj
    have := List.map_inj_left.mp h j (List.mem_range.mpr hj)
    exact this
  · intro h
    exact List.map_inj_left.mpr (fun j hj => h j (List.mem_range.mp hj))

theorem point_region_iff (model : Model) (states : List StateBase) (t : StateBase)
    (hsize : ∀ s ∈ states, s.get_int_state_size = t.get_int_state_size) :
    point_region model states t = true
      ↔ ∃ s ∈ states, BoundedBox.get_state_vec t = BoundedBox.get_state_vec s := by
  unfold point_region
  rw [List.any_eq_true]
  constructor
  · rintro ⟨s, hs, h⟩
    exact ⟨s, hs, (get_state_vec_eq_iff s t (hsize s hs)).mpr ((sat_to_condition_iff model s t).mp h)⟩
  · rintro ⟨s, hs, h⟩
    exact ⟨s, hs, (sat_to_condition_iff model s t).mpr ((get_state_vec_eq_iff s t (hsize s hs)).mp h)⟩

/-- C20: Invariant Strengthening without box approximation, with a meaning-preserving normal-form
visitor, returns a pair for every counterexample set; a state `t` of the size of the counterexample
states satisfies the new start exactly when it satisfies start and its data valuation differs
from that of every counterexample, and it satisfies the new unsafety exactly when it satisfies
unsafety or its data valuation equals that of some counterexample. -/
theorem invariant_strengthening_removes_exactly_the_points (self : StrengtheningStrategy)
    (hmp : self.nf.MeaningPreserving) (start unsafety : Expression) (approximate : Bool)
    (hno : ¬ (approximate = true ∧ self.approx ≠ ApproximationType.None))
    (unsafe_states : List StateBase) (t : StateBase)
    (hsize : ∀ s ∈ unsafe_states, s.get_int_state_size = t.get_int_state_size) :
    ∃ r, (∀ fuel, InvariantStrengtheningStrategy.update_conditions self fuel start unsafety
        approximate unsafe_states = some r) ∧
      (r.1.sat t = true ↔ start.sat t = true ∧
        ∀ s ∈ unsafe_states, BoundedBox.get_state_vec t ≠ BoundedBox.get_state_vec s) ∧
      (r.2.sat t = true ↔ unsafety.sat t = true ∨
        ∃ s ∈ unsafe_states, BoundedBox.get_state_vec t = BoundedBox.get_state_vec s) := by
  have hc2 : (approximate && decide (self.approx ≠ ApproximationType.None)) = false := by
    cases approximate <;> simp_all
  have hall : ∀ fuel, InvariantStrengtheningStrategy.update_conditions self fuel start unsafety
      approximate unsafe_states = some (self.reassemble (self.add_states unsafe_states
        (self.nf.split_conjunction start) (self.nf.split_disjunction unsafety))) := by
    intro fuel
    simp only [InvariantStrengtheningStrategy.update_conditions, hc2, Bool.false_eq_true, if_false]
  refine ⟨_, hall, ?_, ?_⟩
  · have hr := (invariant_update_refines self hmp 0 start unsafety approximate unsafe_states _
      (hall 0)).2 hno t
    rw [hr.1]
    have hp := point_region_iff self.model unsafe_states t hsize
    constructor
    · intro h
      simp only [Bool.and_eq_true, Bool.not_eq_true', ← Bool.not_eq_true] at h
      refine ⟨h.1, fun s hs heq => h.2 (hp.mpr ⟨s, hs, heq⟩)⟩
    · rintro ⟨h1, h2⟩
      have : ¬ point_region self.model unsafe_states t = true := by
        intro hpr
        obtain ⟨s, hs, heq⟩ := hp.mp hpr
        exact h2 s hs heq
      simp [h1, this]
  · have hr := (invariant_update_refines self hmp 0 start unsafety approximate unsafe_states _
      (hall 0)).2 hno t
    rw [hr.2]
    have hp := point_region_iff self.model unsafe_states t hsize
    simp only [Bool.or_eq_true, hp]

/-- Witness for C20: domain `[0, 10]`, unsafety `x = 5`, start `x != 5` and the counterexample
`x = 4`; the new start holds on the values of `[0, 10]` other than 4 and 5. -/
theorem invariant_strengthening_removes_exactly_the_points_witness :
    (∃ r, (∀ fuel, InvariantStrengtheningStrategy.update_conditions
        (Example.strategy ApproximationType.None) fuel Example.x_ne_5 Example.x_eq_5 false
        [[0, 4]] = some r) ∧
      (r.1.sat [0, 7] = true ↔ Example.x_ne_5.sat [0, 7] = true ∧
        ∀ s ∈ [[0, 4]], BoundedBox.get_state_vec [0, 7] ≠ BoundedBox.get_state_vec s) ∧
      (r.2.sat [0, 7] = true ↔ Example.x_eq_5.sat [0, 7] = true ∨
        ∃ s ∈ [[0, 4]], BoundedBox.get_state_vec [0, 7] = BoundedBox.get_state_vec s)) ∧
    (InvariantStrengtheningStrategy.update_conditions (Example.strategy ApproximationType.None)
        0 Example.x_ne_5 Example.x_eq_5 false [[0, 4]]).map
      (fun r => (List.range 11).map fun v => r.1.sat [0, (v : Int)])
      = some [true, true, true, true, false, false, true, true, true, true, true] :=
  ⟨invariant_strengthening_removes_exactly_the_points (Example.strategy ApproximationType.None)
    TO_NORMALFORM_meaning_preserving Example.x_ne_5 Example.x_eq_5 false (by decide) [[0, 4]]
    [0, 7] (by decide), by decide⟩

/-! ## Cycles in a rollout -/

theorem sample_successor_frame (setup : Setup) (self : UnsafePathIdentifier)
    (state : StateID_type) (action_label : ActionLabel_type) :
    (UnsafePathIdentifier.sample_successor setup self state action_label).2.source = self.source ∧
    (UnsafePathIdentifier.sample_successor setup self state action_label).2.transition_cache
      = self.transition_cache ∧
    (UnsafePathIdentifier.sample_successor setup self state action_label).2.cycles = self.cycles ∧
    (UnsafePathIdentifier.sample_successor setup self state action_label).2.draw_count
      = self.draw_count + 1 := by
  unfold UnsafePathIdentifier.sample_successor
  dsimp only
  split_ifs <;> exact ⟨rfl, rfl, rfl, rfl⟩

/-- C16: with `terminate_on_cycles` set, a transition whose triple is already in the transition
cache ends the rollout with result false and no further call of `sample_successor`, in
`simulate_until_choice` (one applicable action) and at a choice point of `execute_policy` alike.
In the run `0 -> 1 -> 0 -> 1` under action 1 the first two transitions are inserted and the
third one ends the rollout with false after three transitions; with `terminate_on_cycles` unset
the same rollout counts the cycle and goes on to its fifth transition. -/
theorem rollout_ends_at_first_repeated_transition :
    (∀ (setup : Setup) (self self1 : UnsafePathIdentifier) (state successor : StateID_type)
        (action : ActionLabel_type) (inner_fuel fuel : Nat),
      setup.terminate_on_cycles = true →
      setup.sim_env.extract_applicable_actions state = [action] →
      UnsafePathIdentifier.sample_successor setup self state action = (some successor, self1) →
      ({ src := self.source, label := action, successor := successor } : Transition)
        ∈ self.transition_cache →
      UnsafePathIdentifier.execute_policy setup (inner_fuel + 1) (fuel + 1) self state
        = Outcome.ok (false, { self1 with target := successor, cycles := self.cycles + 1 }) ∧
      self1.draw_count = self.draw_count + 1) ∧
    (∀ (setup : Setup) (self self1 : UnsafePathIdentifier) (state successor : StateID_type)
        (inner_fuel fuel : Nat),
      setup.terminate_on_cycles = true →
      2 ≤ (setup.sim_env.extract_applicable_actions state).length →
      UnsafePathIdentifier.is_unsafe setup state = false →
      UnsafePathIdentifier.sample_successor setup (self.set_current_state state) state
        (setup.policy state) = (some successor, self1) →
      ({ src := state, label := setup.policy state, successor := successor } : Transition)
        ∈ self.transition_cache →
      UnsafePathIdentifier.execute_policy setup (inner_fuel + 1) (fuel + 1) self state
        = Outcome.ok (false, { self1 with target := successor, cycles := self.cycles + 1 }) ∧
      self1.draw_count = self.draw_count + 1) ∧
    ((UnsafePathIdentifier.execute_policy (Example.loop_setup true) 10 10 Example.at_start
        0).value.map fun r => (r.1, r.2.transition_cache, r.2.cycles, r.2.draw_count))
      = some (false, [{ src := 0, label := 1, successor := 1 },
          { src := 1, label := 1, successor := 0 }], 1, 3) ∧
    ((UnsafePathIdentifier.execute_policy (Example.loop_setup false) 10 10 Example.at_start
        0).value.map fun r => (r.1, r.2.transition_cache, r.2.cycles, r.2.draw_count))
      = some (false, [{ src := 0, label := 1, successor := 1 },
          { src := 1, label := 1, successor := 0 }, { src := 0, label := 1, successor := 2 }],
          2, 5) := by
  refine ⟨?_, ?_, by decide, by decide⟩
  · intro setup self self1 state successor action inner_fuel fuel hterm hact hsucc hmem
    have hframe := sample_successor_frame setup self state action
    rw [hsucc] at hframe
    dsimp only at hframe
    have hmem2 : ({ src := self1.source, label := action, successor := successor } : Transition)
        ∈ self1.transition_cache := by
      rw [hframe.1, hframe.2.1]
      exact hmem
    refine ⟨?_, hframe.2.2.2⟩
    simp [UnsafePathIdentifier.execute_policy, UnsafePathIdentifier.is_terminal, hact,
      UnsafePathIdentifier.simulate_until_choice, UnsafePathIdentifier.simulate_loop, hsucc,
      UnsafePathIdentifier.set_next_state, UnsafePathIdentifier.cache_and_check_cycle, hmem2,
      hterm, hframe.2.2.1]
  · intro setup self self1 state successor inner_fuel fuel hterm hact hsafe hsucc hmem
    have hframe := sample_successor_frame setup (self.set_current_state state) state
      (setup.policy state)
    rw [hsucc] at hframe
    dsimp only [UnsafePathIdentifier.set_current_state] at hframe
    have hmem2 : ({ src := self1.source, label := setup.policy state, successor := successor }
        : Transition) ∈ self1.transition_cache := by
      rw [hframe.1, hframe.2.1]
      exact hmem
    refine ⟨?_, hframe.2.2.2⟩
    have hne : setup.sim_env.extract_applicable_actions state ≠ [] := by
      intro h
      rw [h] at hact
      simp at hact
    have hnle : ¬ (setup.sim_env.extract_applicable_actions state).length ≤ 1 := by omega
    simp [UnsafePathIdentifier.execute_policy, UnsafePathIdentifier.is_terminal, hne,
      UnsafePathIdentifier.simulate_until_choice, UnsafePathIdentifier.simulate_loop, hnle,
      hsafe, hsucc, UnsafePathIdentifier.set_next_state,
      UnsafePathIdentifier.cache_and_check_cycle, hmem2, hterm, hframe.2.2.1]

/-! ## Exact bounds of the bounding box -/

theorem update_bound_eq (bound : Int × Int) (value : Int) :
    BoundingBox.update_bound bound value = (min bound.1 value, max bound.2 value) := by
  unfold BoundingBox.update_bound
  dsimp only
  split_ifs with h1 h2 h2
  · simp only at h2
    rw [min_eq_right (le_of_lt h1), max_eq_right (le_of_lt h2)]
  · simp only at h2
    rw [min_eq_right (le_of_lt h1), max_eq_left (not_lt.mp h2)]
  · rw [min_eq_left (not_lt.mp h1), max_eq_right (le_of_lt h2)]
  · rw [min_eq_left (not_lt.mp h1), max_eq_left (not_lt.mp h2)]

theorem foldl_update_bounds_attained (var_num : Nat) (state_set : List StateBase) (i : Nat)
    (h1 : 1 ≤ i) (h2 : i ≤ var_num) :
    ∀ bounds : BoundingBox.Bounds,
      ((state_set.foldl (BoundingBox.update_bounds var_num) bounds i).1 = (bounds i).1 ∨
        ∃ s ∈ state_set, s.get_int i
          = (state_set.foldl (BoundingBox.update_bounds var_num) bounds i).1) ∧
      ((state_set.foldl (BoundingBox.update_bounds var_num) bounds i).2 = (bounds i).2 ∨
        ∃ s ∈ state_set, s.get_int i
          = (state_set.foldl (BoundingBox.update_bounds var_num) bounds i).2) := by
  induction state_set with
  | nil => exact fun bounds => ⟨Or.inl rfl, Or.inl rfl⟩
  | cons t rest ih =>
    intro bounds
    simp only [List.foldl_cons]
    have hu : BoundingBox.update_bounds var_num bounds t i
        = (min (bounds i).1 (t.get_int i), max (bounds i).2 (t.get_int i)) := by
      unfold BoundingBox.update_bounds
      rw [if_pos ⟨h1, h2⟩, update_bound_eq]
    have h := ih (BoundingBox.update_bounds var_num bounds t)
    rw [hu] at h
    constructor
    · rcases h.1 with e | ⟨s, hs, e⟩
      · rw [e]
        rcases min_choice (bounds i).1 (t.get_int i) with m | m
        · exact Or.inl m
        · exact Or.inr ⟨t, List.mem_cons_self _ _, m.symm⟩
      · exact Or.inr ⟨s, List.mem_cons_of_mem _ hs, e⟩
    · rcases h.2 with e | ⟨s, hs, e⟩
      · rw [e]
        rcases max_choice (bounds i).2 (t.get_int i) with m | m
        · exact Or.inl m
        · exact Or.inr ⟨t, List.mem_cons_self _ _, m.symm⟩
      · exact Or.inr ⟨s, List.mem_cons_of_mem _ hs, e⟩

/-- For a non-empty set of states whose values are `int` values, the bounds found for a data
variable are attained by states of the set. -/
theorem find_bounds_attained (state_set : List StateBase) (var_num : Nat) (s0 : StateBase)
    (hs0 : s0 ∈ state_set) (i : Nat) (h1 : 1 ≤ i) (h2 : i ≤ var_num)
    (hint : ∀ s ∈ state_set, INT_MIN ≤ s.get_int i ∧ s.get_int i ≤ INT_MAX) :
    (∃ s ∈ state_set, s.get_int i = (BoundingBox.find_bounds state_set var_num i).1) ∧
    (∃ s ∈ state_set, s.get_int i = (BoundingBox.find_bounds state_set var_num i).2) := by
  have hb := find_bounds_mem state_set var_num s0 hs0 i h1 h2
  have ha := foldl_update_bounds_attained var_num state_set i h1 h2
    (BoundingBox.init_bounds var_num)
  have hinit : BoundingBox.init_bounds var_num i = (INT_MAX, INT_MIN) := by
    unfold BoundingBox.init_bounds
    rw [if_pos ⟨h1, h2⟩]
  rw [hinit] at ha
  have hr := hint s0 hs0
  unfold BoundingBox.find_bounds at hb ⊢
  constructor
  · rcases ha.1 with e | h
    · exact ⟨s0, hs0, by rw [e]; simp only at e ⊢; rw [e] at hb; omega⟩
    · exact h
  · rcases ha.2 with e | h
    · exact ⟨s0, hs0, by rw [e]; simp only at e ⊢; rw [e] at hb; omega⟩
    · exact h

/-- C13: for a non-empty set of states with `int` values, `compute_bounding_box` returns the
conjunction of `var >= lower` and `var <= upper` per model variable, where `lower` is the least
and `upper` the greatest value of that variable over the set; hence every axis-aligned box that
contains all states of the set contains the returned box. -/
theorem bounding_box_is_smallest (state_set : List StateBase) (model : Model) (s0 : StateBase)
    (hs0 : s0 ∈ state_set)
    (hint : ∀ s ∈ state_set, ∀ i, 1 ≤ i → i ≤ model.number_variables →
      INT_MIN ≤ s.get_int i ∧ s.get_int i ≤ INT_MAX) :
    ∃ lower upper : Nat → Int,
      (BoundingBox.compute_bounding_box state_set model).2
        = Expression.Nary Op.AND ((List.range model.number_variables).flatMap fun var_index =>
            [Expression.BinaryOp Op.GE (model.gen_var_expr var_index)
              (Expression.IntegerValue (lower var_index)),
             Expression.BinaryOp Op.LE (model.gen_var_expr var_index)
              (Expression.IntegerValue (upper var_index))]) ∧
      (∀ i, 1 ≤ i → i ≤ model.number_variables →
        (∀ s ∈ state_set, lower (i - 1) ≤ s.get_int i ∧ s.get_int i ≤ upper (i - 1)) ∧
        (∃ s ∈ state_set, s.get_int i = lower (i - 1)) ∧
        (∃ s ∈ state_set, s.get_int i = upper (i - 1))) ∧
      (∀ box_lower box_upper : Nat → Int,
        (∀ s ∈ state_set, ∀ i, 1 ≤ i → i ≤ model.number_variables →
          box_lower (i - 1) ≤ s.get_int i ∧ s.get_int i ≤ box_upper (i - 1)) →
        ∀ i, 1 ≤ i → i ≤ model.number_variables →
          box_lower (i - 1) ≤ lower (i - 1) ∧ upper (i - 1) ≤ box_upper (i - 1)) := by
  have key : ∀ i, 1 ≤ i → i ≤ model.number_variables →
      (∀ s ∈ state_set,
        (BoundingBox.find_bounds state_set model.number_variables (i - 1 + 1)).1 ≤ s.get_int i ∧
        s.get_int i ≤ (BoundingBox.find_bounds state_set model.number_variables (i - 1 + 1)).2) ∧
      (∃ s ∈ state_set, s.get_int i
        = (BoundingBox.find_bounds state_set model.number_variables (i - 1 + 1)).1) ∧
      (∃ s ∈ state_set, s.get_int i
        = (BoundingBox.find_bounds state_set model.number_variables (i - 1 + 1)).2) := by
    intro i h1 h2
    have hi : i - 1 + 1 = i := by omega
    rw [hi]
    have ha := find_bounds_attained state_set model.number_variables s0 hs0 i h1 h2
      (fun s hs => hint s hs i h1 h2)
    exact ⟨fun s hs => find_bounds_mem state_set model.number_variables s hs i h1 h2, ha.1, ha.2⟩
  refine ⟨fun j => (BoundingBox.find_bounds state_set model.number_variables (j + 1)).1,
    fun j => (BoundingBox.find_bounds state_set model.number_variables (j + 1)).2, rfl, key, ?_⟩
  intro box_lower box_upper hbox i h1 h2
  obtain ⟨_, ⟨s1, hs1, e1⟩, ⟨s2, hs2, e2⟩⟩ := key i h1 h2
  dsimp only
  rw [← e1, ← e2]
  exact ⟨(hbox s1 hs1 i h1 h2).1, (hbox s2 hs2 i h1 h2).2⟩

/-- Witness for C13: the states `(1,5)` and `(3,2)` over a model with two variables. -/
theorem bounding_box_is_smallest_witness :
    ([0, 1, 5] : StateBase) ∈ [[0, 1, 5], [0, 3, 2]] ∧
    ∃ lower upper : Nat → Int,
      (BoundingBox.compute_bounding_box [[0, 1, 5], [0, 3, 2]] Example.unit_square).2
        = Expression.Nary Op.AND
          ((List.range Example.unit_square.number_variables).flatMap fun var_index =>
            [Expression.BinaryOp Op.GE (Example.unit_square.gen_var_expr var_index)
              (Expression.IntegerValue (lower var_index)),
             Expression.BinaryOp Op.LE (Example.unit_square.gen_var_expr var_index)
              (Expression.IntegerValue (upper var_index))]) ∧
      (∀ i, 1 ≤ i → i ≤ Example.unit_square.number_variables →
        (∀ s ∈ [[0, 1, 5], [0, 3, 2]],
          lower (i - 1) ≤ StateBase.get_int s i ∧ StateBase.get_int s i ≤ upper (i - 1)) ∧
        (∃ s ∈ [[0, 1, 5], [0, 3, 2]], StateBase.get_int s i = lower (i - 1)) ∧
        (∃ s ∈ [[0, 1, 5], [0, 3, 2]], StateBase.get_int s i = upper (i - 1))) ∧
      (∀ box_lower box_upper : Nat → Int,
        (∀ s ∈ [[0, 1, 5], [0, 3, 2]], ∀ i, 1 ≤ i → i ≤ Example.unit_square.number_variables →
          box_lower (i - 1) ≤ StateBase.get_int s i ∧
            StateBase.get_int s i ≤ box_upper (i - 1)) →
        ∀ i, 1 ≤ i → i ≤ Example.unit_square.number_variables →
          box_lower (i - 1) ≤ lower (i - 1) ∧ upper (i - 1) ≤ box_upper (i - 1)) :=
  ⟨by decide, bounding_box_is_smallest [[0, 1, 5], [0, 3, 2]] Example.unit_square [0, 1, 5]
    (by decide) (by
      intro s hs i h1 h2
      have hi : i = 1 ∨ i = 2 := by
        have : i ≤ 2 := h2
        omega
      simp only [List.mem_cons, List.mem_singleton, List.not_mem_nil, or_false] at hs
      rcases hs with rfl | rfl <;> rcases hi with rfl | rfl <;> decide)⟩

/-! ## Rounding to `double` -/

theorem bit_length_loop_spec (fuel : Nat) :
    ∀ n, n ≤ fuel → n < 2 ^ Double.bit_length_loop fuel n ∧
      (0 < n → 2 ^ (Double.bit_length_loop fuel n - 1) ≤ n ∧ 0 < Double.bit_length_loop fuel n) := by
  induction fuel with
  | zero =>
    intro n hn
    have : n = 0 := by omega
    subst this
    simp [Double.bit_length_loop]
  | succ fuel ih =>
    intro n hn
    by_cases h0 : n = 0
    · subst h0
      simp [Double.bit_length_loop]
    · simp only [Double.bit_length_loop, h0, if_false]
      have hhalf : n / 2 ≤ fuel := by omega
      obtain ⟨h1, h2⟩ := ih (n / 2) hhalf
      refine ⟨?_, fun _ => ⟨?_, by omega⟩⟩
      · rw [pow_succ]
        omega
      · simp only [Nat.add_sub_cancel]
        by_cases hh : n / 2 = 0
        · rw [hh]
          have hz : Double.bit_length_loop fuel 0 = 0 := by
            cases fuel <;> simp [Double.bit_length_loop]
          rw [hz]
          simp only [pow_zero]
          omega
        · obtain ⟨h3, h4⟩ := h2 (by omega)
          have : Double.bit_length_loop fuel (n / 2) = (Double.bit_length_loop fuel (n / 2) - 1) + 1 := by
            omega
          rw [this, pow_succ]
          omega

theorem bit_length_spec (n : Nat) (hn : 0 < n) :
    2 ^ (Double.bit_length n - 1) ≤ n ∧ n < 2 ^ Double.bit_length n ∧ 0 < Double.bit_length n := by
  obtain ⟨h1, h2⟩ := bit_length_loop_spec n n (le_refl _)
  obtain ⟨h3, h4⟩ := h2 hn
  exact ⟨h3, h1, h4⟩


theorem round_half_even_spec (num den : Nat) (hden : 0 < den) :
    2 * (den * Double.round_half_even num den) ≤ 2 * num + den ∧
    2 * num ≤ 2 * (den * Double.round_half_even num den) + den := by
  have hdm := Nat.div_add_mod num den
  have hr := Nat.mod_lt num hden
  unfold Double.round_half_even
  simp only
  generalize num / den = f at *
  generalize num % den = r at *
  obtain ⟨m, hm⟩ : ∃ m, m = den * f := ⟨_, rfl⟩
  have e1 : den * (f + 1) = m + den := by rw [hm]; ring
  rw [← hm] at hdm
  split_ifs
  · rw [← hm]; omega
  · rw [e1]; omega
  · rw [← hm]; omega
  · rw [e1]; omega

theorem exponent_spec (p q : Nat) (hp : 0 < p) (hq : 0 < q) :
    (2 : ℚ) ^ (Double.exponent p q) ≤ (p : ℚ) / q ∧
    (p : ℚ) / q < (2 : ℚ) ^ (Double.exponent p q + 1) := by
  obtain ⟨hp1, hp2, hp3⟩ := bit_length_spec p hp
  obtain ⟨hq1, hq2, hq3⟩ := bit_length_spec q hq
  obtain ⟨A, hA⟩ : ∃ A, Double.bit_length p = A + 1 := ⟨Double.bit_length p - 1, by omega⟩
  obtain ⟨B, hB⟩ : ∃ B, Double.bit_length q = B + 1 := ⟨Double.bit_length q - 1, by omega⟩
  rw [hA] at hp1 hp2
  rw [hB] at hq1 hq2
  simp only [Nat.add_sub_cancel] at hp1 hq1
  have hqpos : (0 : ℚ) < q := by exact_mod_cast hq
  have hp1q : (2 : ℚ) ^ A ≤ p := by exact_mod_cast hp1
  have hp2q : (p : ℚ) < 2 ^ (A + 1) := by exact_mod_cast hp2
  have hq1q : (2 : ℚ) ^ B ≤ q := by exact_mod_cast hq1
  have hq2q : (q : ℚ) < 2 ^ (B + 1) := by exact_mod_cast hq2
  have h2A : (0 : ℚ) < 2 ^ A := by positivity
  have h2B : (0 : ℚ) < 2 ^ B := by positivity
  have hk : ((Double.bit_length p : Int) - (Double.bit_length q : Int)) = (A : Int) - B := by
    rw [hA, hB]; push_cast; ring
  have hzk : (2 : ℚ) ^ ((A : Int) - B) = 2 ^ A / 2 ^ B := by
    rw [zpow_sub₀ (by norm_num : (2 : ℚ) ≠ 0), zpow_natCast, zpow_natCast]
  have hzk1 : (2 : ℚ) ^ ((A : Int) - B + 1) = 2 ^ (A + 1) / 2 ^ B := by
    rw [zpow_add_one₀ (by norm_num : (2 : ℚ) ≠ 0), hzk, pow_succ]; ring
  have hzkm : (2 : ℚ) ^ ((A : Int) - B - 1) = 2 ^ A / 2 ^ (B + 1) := by
    rw [zpow_sub_one₀ (by norm_num : (2 : ℚ) ≠ 0), hzk, pow_succ]; field_simp
  unfold Double.exponent
  simp only [hk]
  split_ifs with hc
  · refine ⟨?_, ?_⟩
    · rw [hzk, div_le_div_iff₀ h2B hqpos]
      rcases hc with ⟨hk0, hle⟩ | ⟨hk0, hle⟩
      · have hAB : B ≤ A := by omega
        have hto : ((A : Int) - B).toNat = A - B := by omega
        rw [hto] at hle
        have hle2 : (q : ℚ) * 2 ^ (A - B) ≤ p := by exact_mod_cast hle
        have hsplit : (2 : ℚ) ^ A = 2 ^ (A - B) * 2 ^ B := by
          rw [← pow_add]; congr 1; omega
        rw [hsplit]
        nlinarith
      · have hAB : A < B := by omega
        have hto : (-((A : Int) - B)).toNat = B - A := by omega
        rw [hto] at hle
        have hle2 : (q : ℚ) ≤ p * 2 ^ (B - A) := by exact_mod_cast hle
        have hsplit : (2 : ℚ) ^ B = 2 ^ (B - A) * 2 ^ A := by
          rw [← pow_add]; congr 1; omega
        rw [hsplit]
        nlinarith
    · rw [hzk1, div_lt_div_iff₀ hqpos h2B]
      nlinarith [pow_pos (by norm_num : (0 : ℚ) < 2) (A + 1)]
  · refine ⟨?_, ?_⟩
    · rw [hzkm, div_le_div_iff₀ (by positivity) hqpos]
      nlinarith [pow_pos (by norm_num : (0 : ℚ) < 2) (B + 1)]
    · have e : (A : Int) - B - 1 + 1 = (A : Int) - B := by ring
      rw [e, hzk, div_lt_div_iff₀ hqpos h2B]
      simp only [not_or, not_and, not_le] at hc
      by_cases hk0 : (0 : Int) ≤ (A : Int) - B
      · have hlt := hc.1 hk0
        have hAB : B ≤ A := by omega
        have hto : ((A : Int) - B).toNat = A - B := by omega
        rw [hto] at hlt
        have hlt2 : (p : ℚ) < q * 2 ^ (A - B) := by exact_mod_cast hlt
        have hsplit : (2 : ℚ) ^ A = 2 ^ (A - B) * 2 ^ B := by
          rw [← pow_add]; congr 1; omega
        rw [hsplit]
        nlinarith
      · have hlt := hc.2 (by omega)
        have hAB : A < B := by omega
        have hto : (-((A : Int) - B)).toNat = B - A := by omega
        rw [hto] at hlt
        have hlt2 : (p : ℚ) * 2 ^ (B - A) < q := by exact_mod_cast hlt
        have hsplit : (2 : ℚ) ^ B = 2 ^ (B - A) * 2 ^ A := by
          rw [← pow_add]; congr 1; omega
        rw [hsplit]
        nlinarith

theorem two_pow_le_cast (k m : Nat) (h : 2 ^ k ≤ m) : (2 : ℚ) ^ k ≤ (m : ℚ) := by
  exact_mod_cast h

theorem round_magnitude_spec (p q : Nat) (hq : 0 < q) :
    (∃ v : ℚ, Double.round_magnitude p q = some v ∧ 0 ≤ v ∧
      |v - (p : ℚ) / q| ≤ (2 : ℚ) ^ (max (Double.exponent p q) (-1022) - 53)) ∨
    (Double.round_magnitude p q = none ∧
      (2 : ℚ) ^ (1024 : ℕ) ≤ (p : ℚ) / q + (2 : ℚ) ^ (max (Double.exponent p q) (-1022) - 53)) := by
  have hqpos : (0 : ℚ) < q := by exact_mod_cast hq
  unfold Double.round_magnitude
  simp only
  generalize max (Double.exponent p q) (-1022) = E
  by_cases hs : (0 : Int) ≤ 52 - E
  · left
    simp only [hs, if_true]
    obtain ⟨t, ht⟩ : ∃ t : Nat, (52 - E).toNat = t := ⟨_, rfl⟩
    have hE : E - 53 = -((t : Int) + 1) := by omega
    rw [ht, hE]
    obtain ⟨h1, h2⟩ := round_half_even_spec (p * 2 ^ t) q hq
    generalize Double.round_half_even (p * 2 ^ t) q = n at h1 h2
    have h1q : 2 * ((q : ℚ) * n) ≤ 2 * ((p : ℚ) * 2 ^ t) + q := by exact_mod_cast h1
    have h2q : 2 * ((p : ℚ) * 2 ^ t) ≤ 2 * ((q : ℚ) * n) + q := by exact_mod_cast h2
    have h2t : (0 : ℚ) < 2 ^ t := by positivity
    refine ⟨_, rfl, by positivity, ?_⟩
    have hz : (2 : ℚ) ^ (-((t : Int) + 1)) = 1 / (2 * 2 ^ t) := by
      rw [zpow_neg, ← Nat.cast_succ, zpow_natCast, pow_succ]
      field_simp
      ring
    rw [hz]
    push_cast
    generalize (2 : ℚ) ^ t = T at *
    have hden : (0 : ℚ) < 2 * T * q := by positivity
    have hv : (n : ℚ) / T - (p : ℚ) / q = (2 * (q * n) - 2 * (p * T)) / (2 * T * q) := by
      field_simp
      ring
    have hd : 1 / (2 * T) = (q : ℚ) / (2 * T * q) := by
      field_simp
    rw [hv, hd, abs_div, abs_of_pos hden, div_le_div_iff_of_pos_right hden, abs_le]
    constructor <;> linarith
  · simp only [hs, if_false]
    obtain ⟨t, ht⟩ : ∃ t : Nat, (-(52 - E)).toNat = t := ⟨_, rfl⟩
    have hE : E - 53 = (t : Int) - 1 := by omega
    have htpos : 0 < t := by omega
    rw [ht, hE]
    have hqt : 0 < q * 2 ^ t := by positivity
    obtain ⟨h1, h2⟩ := round_half_even_spec p (q * 2 ^ t) hqt
    generalize Double.round_half_even p (q * 2 ^ t) = n at h1 h2
    have h1q : 2 * ((q : ℚ) * 2 ^ t * n) ≤ 2 * (p : ℚ) + q * 2 ^ t := by exact_mod_cast h1
    have h2q : 2 * (p : ℚ) ≤ 2 * ((q : ℚ) * 2 ^ t * n) + q * 2 ^ t := by exact_mod_cast h2
    have h2t : (0 : ℚ) < 2 ^ t := by positivity
    have hz : (2 : ℚ) ^ ((t : Int) - 1) = 2 ^ t / 2 := by
      rw [zpow_sub_one₀ (by norm_num : (2 : ℚ) ≠ 0), zpow_natCast]; ring
    rw [hz]
    have herr : |((n * 2 ^ t : ℕ) : ℚ) - (p : ℚ) / q| ≤ 2 ^ t / 2 := by
      push_cast
      generalize (2 : ℚ) ^ t = T at *
      have hden : (0 : ℚ) < 2 * q := by positivity
      have hv : (n : ℚ) * T - (p : ℚ) / q = (2 * (q * T * n) - 2 * p) / (2 * q) := by
        field_simp
        ring
      have hd : T / 2 = (q * T : ℚ) / (2 * q) := by
        field_simp
        ring
      rw [hv, hd, abs_div, abs_of_pos hden, div_le_div_iff_of_pos_right hden, abs_le]
      constructor <;> linarith
    by_cases hov : 2 ^ 1024 ≤ n * 2 ^ t
    · right
      simp only [hov, if_true, true_and]
      have hovq := two_pow_le_cast 1024 _ hov
      have := (abs_le.1 herr).2
      linarith
    · left
      simp only [hov, if_false]
      exact ⟨_, rfl, by positivity, herr⟩


theorem rat_eq_natAbs_div (x : ℚ) (hx : 0 < x) : ((x.num.natAbs : ℕ) : ℚ) / (x.den : ℚ) = x := by
  have hnum : 0 < x.num := Rat.num_pos.2 hx
  have e : ((x.num.natAbs : ℕ) : ℚ) = (x.num : ℚ) := by
    have : ((x.num.natAbs : ℕ) : ℤ) = x.num := Int.natAbs_of_nonneg (le_of_lt hnum)
    rw [← Int.cast_natCast, this]
  rw [e]
  exact Rat.num_div_den x

theorem round_of_pos (x : ℚ) (hx : 0 < x) :
    Double.round x
      = match Double.round_magnitude x.num.natAbs x.den with
        | some v => Double.finite v
        | none => Double.infinity false := by
  unfold Double.round
  simp only [ne_of_gt hx, if_false, not_lt.2 (le_of_lt hx), decide_False]

/-- Rounding of a number in the normal range: the relative error is at most `2 ^ (-53)`. -/
theorem round_normal (x : ℚ) (h1 : (2 : ℚ) ^ (-1022 : ℤ) ≤ x) (h2 : x ≤ (2 : ℚ) ^ (1023 : ℕ)) :
    ∃ v, Double.round x = Double.finite v ∧ |v - x| ≤ x / 2 ^ (53 : ℕ) := by
  have hx : 0 < x := lt_of_lt_of_le (by positivity) h1
  have hp : 0 < x.num.natAbs := Int.natAbs_pos.2 (ne_of_gt (Rat.num_pos.2 hx))
  have hq : 0 < x.den := x.den_pos
  obtain ⟨he1, he2⟩ := exponent_spec x.num.natAbs x.den hp hq
  rw [rat_eq_natAbs_div x hx] at he1 he2
  have hE : (-1022 : ℤ) ≤ Double.exponent x.num.natAbs x.den := by
    have := lt_of_le_of_lt h1 he2
    have := (zpow_lt_zpow_iff_right₀ (by norm_num : (1 : ℚ) < 2)).1 this
    omega
  have hbound : (2 : ℚ) ^ (max (Double.exponent x.num.natAbs x.den) (-1022) - 53)
      ≤ x / 2 ^ (53 : ℕ) := by
    have e53 : (2 : ℚ) ^ (53 : ℤ) = 2 ^ (53 : ℕ) := by norm_cast
    rw [max_eq_left hE, zpow_sub₀ (by norm_num : (2 : ℚ) ≠ 0), e53]
    exact div_le_div_of_nonneg_right he1 (by positivity)
  rw [round_of_pos x hx]
  rcases round_magnitude_spec x.num.natAbs x.den hq with ⟨v, hv, _, herr⟩ | ⟨_, hov⟩
  · rw [rat_eq_natAbs_div x hx] at herr
    exact ⟨v, by rw [hv], le_trans herr hbound⟩
  · rw [rat_eq_natAbs_div x hx] at hov
    exfalso
    have h3 : x + x / 2 ^ (53 : ℕ) < (2 : ℚ) ^ (1024 : ℕ) := by
      have e : (2 : ℚ) ^ (1024 : ℕ) = 2 * 2 ^ (1023 : ℕ) := by
        rw [show (1024 : ℕ) = 1023 + 1 from rfl, pow_succ]; ring
      have h4 : x / 2 ^ (53 : ℕ) < x := div_lt_self hx (by norm_num)
      rw [e]; linarith
    linarith

/-- A rounded probability is a probability. -/
theorem round_unit_interval (x : ℚ) (h0 : 0 ≤ x) (h1 : x ≤ 1) :
    ∃ v, Double.round x = Double.finite v ∧ 0 ≤ v ∧ v ≤ 1 := by
  rcases eq_or_lt_of_le h0 with h | hx
  · refine ⟨0, ?_, le_refl _, by norm_num⟩
    simp [Double.round, ← h]
  have hp : 0 < x.num.natAbs := Int.natAbs_pos.2 (ne_of_gt (Rat.num_pos.2 hx))
  have hq : 0 < x.den := x.den_pos
  have hqpos : (0 : ℚ) < x.den := by exact_mod_cast hq
  obtain ⟨he1, _⟩ := exponent_spec x.num.natAbs x.den hp hq
  rw [rat_eq_natAbs_div x hx] at he1
  have hE : Double.exponent x.num.natAbs x.den ≤ 0 := by
    have h2 : (2 : ℚ) ^ (Double.exponent x.num.natAbs x.den) ≤ 2 ^ (0 : ℤ) := by
      rw [zpow_zero]; exact le_trans he1 h1
    exact (zpow_le_zpow_iff_right₀ (by norm_num : (1 : ℚ) < 2)).1 h2
  have hpq : x.num.natAbs ≤ x.den := by
    have h3 := rat_eq_natAbs_div x hx
    have h4 : ((x.num.natAbs : ℕ) : ℚ) / (x.den : ℚ) ≤ 1 := by rw [h3]; exact h1
    rw [div_le_one hqpos] at h4
    exact_mod_cast h4
  rw [round_of_pos x hx]
  unfold Double.round_magnitude
  simp only
  have hs : (0 : Int) ≤ 52 - max (Double.exponent x.num.natAbs x.den) (-1022) := by
    have : max (Double.exponent x.num.natAbs x.den) (-1022) ≤ 0 := max_le hE (by norm_num)
    omega
  simp only [hs, if_true]
  generalize (52 - max (Double.exponent x.num.natAbs x.den) (-1022)).toNat = t
  obtain ⟨hr1, _⟩ := round_half_even_spec (x.num.natAbs * 2 ^ t) x.den hq
  generalize Double.round_half_even (x.num.natAbs * 2 ^ t) x.den = n at hr1
  refine ⟨_, rfl, by positivity, ?_⟩
  rw [div_le_one (by positivity)]
  have hn : n ≤ 2 ^ t := by
    by_contra hcon
    have hgt : 2 ^ t + 1 ≤ n := by omega
    have h5 : x.den * (2 ^ t + 1) ≤ x.den * n := Nat.mul_le_mul_left _ hgt
    have h6 : x.num.natAbs * 2 ^ t ≤ x.den * 2 ^ t := Nat.mul_le_mul_right _ hpq
    have h7 : x.den * (2 ^ t + 1) = x.den * 2 ^ t + x.den := by ring
    omega
  exact_mod_cast hn

/-- An integer below `2 ^ 53` is a `double`. -/
theorem round_nat (m : Nat) (hm : m < 2 ^ 53) : Double.round (m : ℚ) = Double.finite (m : ℚ) := by
  rcases Nat.eq_zero_or_pos m with h | hpos
  · subst h
    simp [Double.round]
  have hx : (0 : ℚ) < (m : ℚ) := by exact_mod_cast hpos
  rw [round_of_pos _ hx]
  have hnum : ((m : ℚ)).num.natAbs = m := by simp
  have hden : ((m : ℚ)).den = 1 := by simp
  rw [hnum, hden]
  obtain ⟨he1, _⟩ := exponent_spec m 1 hpos (by norm_num)
  have hE : Double.exponent m 1 ≤ 52 := by
    have h2 : (2 : ℚ) ^ (Double.exponent m 1) < 2 ^ (53 : ℤ) := by
      have h3 : ((m : ℚ)) < 2 ^ (53 : ℤ) := by
        have e53 : (2 : ℚ) ^ (53 : ℤ) = 2 ^ (53 : ℕ) := by norm_cast
        rw [e53]
        exact_mod_cast hm
      have h4 : ((m : ℕ) : ℚ) / ((1 : ℕ) : ℚ) = (m : ℚ) := by simp
      rw [h4] at he1
      exact lt_of_le_of_lt he1 h3
    have := (zpow_lt_zpow_iff_right₀ (by norm_num : (1 : ℚ) < 2)).1 h2
    omega
  unfold Double.round_magnitude
  simp only
  have hs : (0 : Int) ≤ 52 - max (Double.exponent m 1) (-1022) := by
    have : max (Double.exponent m 1) (-1022) ≤ 52 := max_le hE (by norm_num)
    omega
  simp only [hs, if_true]
  generalize (52 - max (Double.exponent m 1) (-1022)).toNat = t
  have hr : Double.round_half_even (m * 2 ^ t) 1 = m * 2 ^ t := by
    simp [Double.round_half_even, Nat.mod_one, Nat.div_one]
  rw [hr]
  congr 1
  push_cast
  field_simp

theorem round_neg (x : ℚ) (v : ℚ) (h : Double.round x = Double.finite v) :
    Double.round (-x) = Double.finite (-v) := by
  unfold Double.round at h ⊢
  by_cases h0 : x = 0
  · simp only [h0, if_true, Double.finite.injEq] at h
    simp [h0, ← h]
  · have h0n : ¬ -x = 0 := by simpa using h0
    simp only [h0, h0n, if_false, Rat.neg_num, Int.natAbs_neg, Rat.neg_den] at h ⊢
    cases hm : Double.round_magnitude x.num.natAbs x.den with
    | none => simp [hm] at h
    | some w =>
      simp only [hm, Double.finite.injEq] at h ⊢
      rcases lt_or_gt_of_ne h0 with hlt | hgt
      · have : ¬ -x < 0 := by linarith
        simp only [hlt, if_true] at h
        simp only [this, if_false]
        linarith
      · have : -x < 0 := by linarith
        have h2 : ¬ x < 0 := by linarith
        simp only [h2, if_false] at h
        simp only [this, if_true]
        linarith

/-- A 32-bit `int` converts to `double` without rounding. -/
theorem of_int_exact (v : Int) (h1 : -(2 : Int) ^ 53 < v) (h2 : v < (2 : Int) ^ 53) :
    Double.of_int v = Double.finite (v : ℚ) := by
  unfold Double.of_int
  rcases le_or_lt 0 v with hv | hv
  · obtain ⟨m, rfl⟩ := Int.eq_ofNat_of_zero_le hv
    have hm : m < 2 ^ 53 := by exact_mod_cast h2
    simpa using round_nat m hm
  · obtain ⟨m, hm⟩ := Int.eq_ofNat_of_zero_le (by omega : 0 ≤ -v)
    have hm2 : m < 2 ^ 53 := by
      have : (m : Int) < 2 ^ 53 := by omega
      exact_mod_cast this
    have e : (v : ℚ) = -((m : ℚ)) := by
      have : v = -(m : Int) := by omega
      rw [this]; push_cast; ring
    rw [e]
    exact round_neg _ _ (round_nat m hm2)

theorem wrap_int_of_range (v : Int) (h1 : INT_MIN ≤ v) (h2 : v ≤ INT_MAX) : wrap_int v = v := by
  unfold wrap_int
  unfold INT_MIN at h1
  unfold INT_MAX at h2
  omega

theorem double_mul_unit (a b : ℚ) (ha0 : 0 ≤ a) (ha1 : a ≤ 1) (hb0 : 0 ≤ b) (hb1 : b ≤ 1) :
    ∃ v, Double.mul (Double.finite a) (Double.finite b) = Double.finite v ∧ 0 ≤ v ∧ v ≤ 1 := by
  have h1 : a * b ≤ 1 := by nlinarith
  exact round_unit_interval (a * b) (mul_nonneg ha0 hb0) h1

/-- Rounding a rational of the unit interval that is not below `2 ^ (-1022)`: the result is in
the unit interval and its relative error is at most `2 ^ (-53)`. -/
theorem round_unit_normal (x : ℚ) (h1 : (2 : ℚ) ^ (-1022 : ℤ) ≤ x) (h2 : x ≤ 1) :
    ∃ v, Double.round x = Double.finite v ∧ 0 ≤ v ∧ v ≤ 1 ∧
      x * (1 - 1 / 2 ^ (53 : ℕ)) ≤ v ∧ v ≤ x * (1 + 1 / 2 ^ (53 : ℕ)) := by
  have hx : 0 < x := lt_of_lt_of_le (by positivity) h1
  obtain ⟨v, hv, herr⟩ := round_normal x h1 (le_trans h2 (one_le_pow₀ (by norm_num)))
  obtain ⟨w, hw, hw0, hw1⟩ := round_unit_interval x (le_of_lt hx) h2
  have e : v = w := by
    rw [hv] at hw
    exact Double.finite.inj hw
  subst e
  have := abs_le.1 herr
  refine ⟨v, hv, hw0, hw1, ?_, ?_⟩
  · have e1 : x * (1 - 1 / 2 ^ (53 : ℕ)) = x - x / 2 ^ (53 : ℕ) := by ring
    rw [e1]; linarith [this.1]
  · have e1 : x * (1 + 1 / 2 ^ (53 : ℕ)) = x + x / 2 ^ (53 : ℕ) := by ring
    rw [e1]; linarith [this.2]

/-- The quotient `var_box / var_dom` of two counts of at most `2 ^ 31`. -/
theorem double_div_counts (a b : Int) (ha : 0 < a) (hab : a ≤ b) (hb : b ≤ 2147483648) :
    Double.div (Double.of_int a) (Double.of_int b) = Double.round ((a : ℚ) / (b : ℚ)) ∧
    (2 : ℚ) ^ (-1022 : ℤ) ≤ (a : ℚ) / (b : ℚ) ∧ (a : ℚ) / (b : ℚ) ≤ 1 := by
  have hbpos : 0 < b := lt_of_lt_of_le ha hab
  have haq : (1 : ℚ) ≤ (a : ℚ) := by exact_mod_cast ha
  have hbq : (0 : ℚ) < (b : ℚ) := by exact_mod_cast hbpos
  have habq : (a : ℚ) ≤ (b : ℚ) := by exact_mod_cast hab
  have hb2 : (b : ℚ) ≤ 2147483648 := by exact_mod_cast hb
  refine ⟨?_, ?_, (div_le_one hbq).2 habq⟩
  · rw [of_int_exact a (by omega) (by omega), of_int_exact b (by omega) (by omega)]
    show (if (b : ℚ) = 0 then _ else Double.round ((a : ℚ) / (b : ℚ))) = _
    rw [if_neg (ne_of_gt hbq)]
  · rw [le_div_iff₀ hbq]
    have h3 : (2 : ℚ) ^ (-1022 : ℤ) ≤ 1 / 2147483648 := by
      rw [zpow_neg, ← one_div]
      apply one_div_le_one_div_of_le (by norm_num)
      have : (2147483648 : ℚ) = 2 ^ (31 : ℤ) := by norm_num
      rw [this]
      exact zpow_le_zpow_right₀ (by norm_num) (by norm_num)
    have h4 : (2 : ℚ) ^ (-1022 : ℤ) * (b : ℚ) ≤ 1 / 2147483648 * 2147483648 :=
      mul_le_mul h3 hb2 (le_of_lt hbq) (by norm_num)
    have h5 : (1 : ℚ) / 2147483648 * 2147483648 = 1 := by norm_num
    rw [h5] at h4
    linarith

/-- The loop `acc *= q` over correctly rounded factors of the unit interval stays in the unit
interval. -/
theorem foldl_mul_round_unit (e : Nat → ℚ) (order : List Nat)
    (he : ∀ i ∈ order, 0 ≤ e i ∧ e i ≤ 1) :
    ∀ a : ℚ, 0 ≤ a → a ≤ 1 →
      ∃ v, order.foldl (fun acc i => Double.mul acc (Double.round (e i))) (Double.finite a)
        = Double.finite v ∧ 0 ≤ v ∧ v ≤ 1 := by
  induction order with
  | nil => intro a h0 h1; exact ⟨a, rfl, h0, h1⟩
  | cons i rest ih =>
    intro a h0 h1
    obtain ⟨q, hq, hq0, hq1⟩ := round_unit_interval (e i) (he i (List.mem_cons_self _ _)).1
      (he i (List.mem_cons_self _ _)).2
    obtain ⟨w, hw, hw0, hw1⟩ := double_mul_unit a q h0 h1 hq0 hq1
    simp only [List.foldl_cons, hq, hw]
    exact ih (fun j hj => he j (List.mem_cons_of_mem _ hj)) w hw0 hw1

/-- The loop `acc *= q` over correctly rounded factors: as long as the exact product does not
fall below the least normal `double`, every multiplication and every factor changes the exact
value by a factor between `1 - 2 ^ (-53)` and `1 + 2 ^ (-53)`. -/
theorem foldl_mul_round_error (e : Nat → ℚ) (order : List Nat)
    (he : ∀ i ∈ order, (2 : ℚ) ^ (-1022 : ℤ) ≤ e i ∧ e i ≤ 1) :
    ∀ (a P : ℚ) (k : Nat), 0 ≤ a → a ≤ 1 → 0 < P →
      P * (1 - 1 / 2 ^ (53 : ℕ)) ^ k ≤ a → a ≤ P * (1 + 1 / 2 ^ (53 : ℕ)) ^ k →
      (2 : ℚ) ^ (-1022 : ℤ)
        ≤ P * (order.map e).prod * (1 - 1 / 2 ^ (53 : ℕ)) ^ (k + 2 * order.length) →
      ∃ v, order.foldl (fun acc i => Double.mul acc (Double.round (e i))) (Double.finite a)
          = Double.finite v ∧
        P * (order.map e).prod * (1 - 1 / 2 ^ (53 : ℕ)) ^ (k + 2 * order.length) ≤ v ∧
        v ≤ P * (order.map e).prod * (1 + 1 / 2 ^ (53 : ℕ)) ^ (k + 2 * order.length) := by
  have hu0 : (0 : ℚ) < 1 - 1 / 2 ^ (53 : ℕ) := by norm_num
  have hu1 : (1 : ℚ) - 1 / 2 ^ (53 : ℕ) ≤ 1 := by norm_num
  have hU0 : (0 : ℚ) < 1 + 1 / 2 ^ (53 : ℕ) := by norm_num
  induction order with
  | nil =>
    intro a P k h0 h1 hP hlo hhi _
    refine ⟨a, rfl, ?_, ?_⟩
    · simpa using hlo
    · simpa using hhi
  | cons i rest ih =>
    intro a P k h0 h1 hP hlo hhi hnorm
    have hei := he i (List.mem_cons_self _ _)
    have hepos : 0 < e i := lt_of_lt_of_le (by positivity) hei.1
    have hrest : ∀ j ∈ rest, 0 < e j ∧ e j ≤ 1 := fun j hj =>
      ⟨lt_of_lt_of_le (by positivity) (he j (List.mem_cons_of_mem _ hj)).1,
        (he j (List.mem_cons_of_mem _ hj)).2⟩
    have hprod : 0 < (rest.map e).prod ∧ (rest.map e).prod ≤ 1 := by
      clear ih hnorm he
      induction rest with
      | nil => simp
      | cons j rest ih2 =>
        simp only [List.map_cons, List.prod_cons]
        have hj := hrest j (List.mem_cons_self _ _)
        have hr := ih2 (fun t ht => hrest t (List.mem_cons_of_mem _ ht))
        exact ⟨mul_pos hj.1 hr.1, by nlinarith⟩
    obtain ⟨q, hq, hq0, hq1, hqlo, hqhi⟩ := round_unit_normal (e i) hei.1 hei.2
    -- the exact product `a * q` is a normal number of the unit interval
    have haq0 : 0 ≤ a * q := mul_nonneg h0 hq0
    have haq1 : a * q ≤ 1 := by nlinarith
    have hpk : 0 < (1 - 1 / 2 ^ (53 : ℕ) : ℚ) ^ k := pow_pos hu0 k
    have hPk : 0 < (1 + 1 / 2 ^ (53 : ℕ) : ℚ) ^ k := pow_pos hU0 k
    have hlo1 : P * e i * (1 - 1 / 2 ^ (53 : ℕ)) ^ (k + 1) ≤ a * q := by
      have : P * e i * (1 - 1 / 2 ^ (53 : ℕ)) ^ (k + 1)
          = (P * (1 - 1 / 2 ^ (53 : ℕ)) ^ k) * (e i * (1 - 1 / 2 ^ (53 : ℕ))) := by ring
      rw [this]
      exact mul_le_mul hlo hqlo (le_of_lt (mul_pos hepos hu0)) h0
    have hhi1 : a * q ≤ P * e i * (1 + 1 / 2 ^ (53 : ℕ)) ^ (k + 1) := by
      have : P * e i * (1 + 1 / 2 ^ (53 : ℕ)) ^ (k + 1)
          = (P * (1 + 1 / 2 ^ (53 : ℕ)) ^ k) * (e i * (1 + 1 / 2 ^ (53 : ℕ))) := by ring
      rw [this]
      exact mul_le_mul hhi hqhi hq0 (le_of_lt (mul_pos hP hPk))
    have hlen : (i :: rest).length = rest.length + 1 := rfl
    have hnorm1 : (2 : ℚ) ^ (-1022 : ℤ) ≤ a * q := by
      refine le_trans hnorm (le_trans ?_ hlo1)
      simp only [List.map_cons, List.prod_cons, hlen]
      have e1 : P * (e i * (rest.map e).prod)
            * (1 - 1 / 2 ^ (53 : ℕ)) ^ (k + 2 * (rest.length + 1))
          = (P * e i * (1 - 1 / 2 ^ (53 : ℕ)) ^ (k + 1))
            * ((rest.map e).prod * (1 - 1 / 2 ^ (53 : ℕ)) ^ (2 * rest.length + 1)) := by ring
      rw [e1]
      have h2 : (rest.map e).prod * (1 - 1 / 2 ^ (53 : ℕ)) ^ (2 * rest.length + 1) ≤ 1 := by
        have h3 : (1 - 1 / 2 ^ (53 : ℕ) : ℚ) ^ (2 * rest.length + 1) ≤ 1 :=
          pow_le_one₀ (le_of_lt hu0) hu1
        calc (rest.map e).prod * (1 - 1 / 2 ^ (53 : ℕ)) ^ (2 * rest.length + 1)
            ≤ 1 * 1 := mul_le_mul hprod.2 h3 (le_of_lt (pow_pos hu0 _)) (by norm_num)
          _ = 1 := by norm_num
      have h4 : 0 ≤ P * e i * (1 - 1 / 2 ^ (53 : ℕ)) ^ (k + 1) :=
        le_of_lt (mul_pos (mul_pos hP hepos) (pow_pos hu0 _))
      calc (P * e i * (1 - 1 / 2 ^ (53 : ℕ)) ^ (k + 1))
            * ((rest.map e).prod * (1 - 1 / 2 ^ (53 : ℕ)) ^ (2 * rest.length + 1))
          ≤ (P * e i * (1 - 1 / 2 ^ (53 : ℕ)) ^ (k + 1)) * 1 := mul_le_mul_of_nonneg_left h2 h4
        _ = P * e i * (1 - 1 / 2 ^ (53 : ℕ)) ^ (k + 1) := by ring
    obtain ⟨w, hw, hw0, hw1, hwlo, hwhi⟩ := round_unit_normal (a * q) hnorm1 haq1
    have hmul : Double.mul (Double.finite a) (Double.finite q) = Double.finite w := hw
    have hlo2 : P * e i * (1 - 1 / 2 ^ (53 : ℕ)) ^ (k + 2) ≤ w := by
      have : P * e i * (1 - 1 / 2 ^ (53 : ℕ)) ^ (k + 2)
          = (P * e i * (1 - 1 / 2 ^ (53 : ℕ)) ^ (k + 1)) * (1 - 1 / 2 ^ (53 : ℕ)) := by ring
      rw [this]
      exact le_trans (mul_le_mul_of_nonneg_right hlo1 (le_of_lt hu0)) hwlo
    have hhi2 : w ≤ P * e i * (1 + 1 / 2 ^ (53 : ℕ)) ^ (k + 2) := by
      have : P * e i * (1 + 1 / 2 ^ (53 : ℕ)) ^ (k + 2)
          = (P * e i * (1 + 1 / 2 ^ (53 : ℕ)) ^ (k + 1)) * (1 + 1 / 2 ^ (53 : ℕ)) := by ring
      rw [this]
      exact le_trans hwhi (mul_le_mul_of_nonneg_right hhi1 (le_of_lt hU0))
    have hexp : k + 2 * (i :: rest).length = k + 2 + 2 * rest.length := by
      rw [hlen]; ring
    have hprodc : P * ((i :: rest).map e).prod = P * e i * (rest.map e).prod := by
      simp only [List.map_cons, List.prod_cons]; ring
    rw [hexp, hprodc] at hnorm ⊢
    simp only [List.foldl_cons, hq, hmul]
    exact ih (fun j hj => he j (List.mem_cons_of_mem _ hj)) w (P * e i) (k + 2) hw0 hw1
      (mul_pos hP hepos) hlo2 hhi2 hnorm

/-! ## Relative volume of the bounding box -/

/-- C12: for a non-empty set of states whose data values lie within a model domain of `int`
bounds that has fewer than `INT_MAX` values above the lower bound of every variable (so that the
`int` expression `(ub - lb) + 1` does not overflow), the relative volume returned by
`compute_bounding_box` is computed in `double` arithmetic: starting from `1.0`, the running
product is multiplied, for one variable after the other in the iteration order of the hash map,
by the correctly rounded quotient of `max - min + 1` and `UB - LB + 1`, where `min` and `max`
are the least and the greatest value of the variable over the set, and is rounded after every
multiplication. In every iteration order the result is a finite number of the interval
`[0, 1]`, and as long as the exact product `P` of the `m` quotients stays a normal `double`
after `2 m` roundings, the result lies between `P (1 - 2 ^ (-53)) ^ (2 m)` and
`P (1 + 2 ^ (-53)) ^ (2 m)`. -/
theorem bounding_box_relative_volume_in_double (state_set : List StateBase) (model : Model)
    (s0 : StateBase) (hs0 : s0 ∈ state_set)
    (hdom : ∀ s ∈ state_set, ∀ i, 1 ≤ i → i ≤ model.number_variables →
      model.lower_bound_int i ≤ s.get_int i ∧ s.get_int i ≤ model.upper_bound_int i)
    (hint : ∀ i, 1 ≤ i → i ≤ model.number_variables →
      INT_MIN ≤ model.lower_bound_int i ∧ model.upper_bound_int i ≤ INT_MAX)
    (hwidth : ∀ i, 1 ≤ i → i ≤ model.number_variables →
      model.upper_bound_int i - model.lower_bound_int i < INT_MAX) :
    ∃ least greatest : Nat → Int,
      (∀ i, 1 ≤ i → i ≤ model.number_variables →
        (∀ s ∈ state_set, least i ≤ s.get_int i ∧ s.get_int i ≤ greatest i) ∧
        (∃ s ∈ state_set, s.get_int i = least i) ∧
        (∃ s ∈ state_set, s.get_int i = greatest i)) ∧
      (BoundingBox.compute_bounding_box state_set model).1
        = BoundingBox.box_size_rel_in ((List.range model.number_variables).map fun k => k + 1)
            (BoundingBox.find_bounds state_set model.number_variables) model ∧
      ∀ order : List Nat, (∀ i ∈ order, 1 ≤ i ∧ i ≤ model.number_variables) →
        BoundingBox.box_size_rel_in order
            (BoundingBox.find_bounds state_set model.number_variables) model
          = order.foldl (fun acc i => Double.mul acc (Double.round
              (((greatest i - least i + 1 : Int) : ℚ)
                / ((model.upper_bound_int i - model.lower_bound_int i + 1 : Int) : ℚ))))
              (Double.finite 1) ∧
        ∃ v : ℚ, BoundingBox.box_size_rel_in order
            (BoundingBox.find_bounds state_set model.number_variables) model = Double.finite v ∧
          0 ≤ v ∧ v ≤ 1 ∧
          ((2 : ℚ) ^ (-1022 : ℤ)
              ≤ (order.map fun i => ((greatest i - least i + 1 : Int) : ℚ)
                  / ((model.upper_bound_int i - model.lower_bound_int i + 1 : Int) : ℚ)).prod
                * (1 - 1 / 2 ^ (53 : ℕ)) ^ (2 * order.length) →
            (order.map fun i => ((greatest i - least i + 1 : Int) : ℚ)
                  / ((model.upper_bound_int i - model.lower_bound_int i + 1 : Int) : ℚ)).prod
                * (1 - 1 / 2 ^ (53 : ℕ)) ^ (2 * order.length) ≤ v ∧
            v ≤ (order.map fun i => ((greatest i - least i + 1 : Int) : ℚ)
                  / ((model.upper_bound_int i - model.lower_bound_int i + 1 : Int) : ℚ)).prod
                * (1 + 1 / 2 ^ (53 : ℕ)) ^ (2 * order.length)) := by
  have key : ∀ i, 1 ≤ i → i ≤ model.number_variables →
      (∀ s ∈ state_set,
        (BoundingBox.find_bounds state_set model.number_variables i).1 ≤ s.get_int i ∧
        s.get_int i ≤ (BoundingBox.find_bounds state_set model.number_variables i).2) ∧
      (∃ s ∈ state_set, s.get_int i
        = (BoundingBox.find_bounds state_set model.number_variables i).1) ∧
      (∃ s ∈ state_set, s.get_int i
        = (BoundingBox.find_bounds state_set model.number_variables i).2) := by
    intro i h1 h2
    have ha := find_bounds_attained state_set model.number_variables s0 hs0 i h1 h2
      (fun s hs => ⟨le_trans (hint i h1 h2).1 (hdom s hs i h1 h2).1,
        le_trans (hdom s hs i h1 h2).2 (hint i h1 h2).2⟩)
    exact ⟨fun s hs => find_bounds_mem state_set model.number_variables s hs i h1 h2, ha.1, ha.2⟩
  refine ⟨fun i => (BoundingBox.find_bounds state_set model.number_variables i).1,
    fun i => (BoundingBox.find_bounds state_set model.number_variables i).2, key, rfl, ?_⟩
  intro order horder
  -- the two counts of a variable of the model
  have hcount : ∀ i ∈ order,
      wrap_int (wrap_int ((BoundingBox.find_bounds state_set model.number_variables i).2
          - (BoundingBox.find_bounds state_set model.number_variables i).1) + 1)
        = (BoundingBox.find_bounds state_set model.number_variables i).2
          - (BoundingBox.find_bounds state_set model.number_variables i).1 + 1 ∧
      wrap_int (wrap_int (model.upper_bound_int i - model.lower_bound_int i) + 1)
        = model.upper_bound_int i - model.lower_bound_int i + 1 ∧
      0 < (BoundingBox.find_bounds state_set model.number_variables i).2
          - (BoundingBox.find_bounds state_set model.number_variables i).1 + 1 ∧
      (BoundingBox.find_bounds state_set model.number_variables i).2
          - (BoundingBox.find_bounds state_set model.number_variables i).1 + 1
        ≤ model.upper_bound_int i - model.lower_bound_int i + 1 ∧
      model.upper_bound_int i - model.lower_bound_int i + 1 ≤ 2147483648 := by
    intro i hi
    obtain ⟨h1, h2⟩ := horder i hi
    obtain ⟨_, ⟨s1, hs1, e1⟩, ⟨s2, hs2, e2⟩⟩ := key i h1 h2
    have hb := (key i h1 h2).1 s0 hs0
    have d1 := hdom s1 hs1 i h1 h2
    have d2 := hdom s2 hs2 i h1 h2
    have hw := hwidth i h1 h2
    unfold INT_MAX at hw
    have hin1 : wrap_int ((BoundingBox.find_bounds state_set model.number_variables i).2
        - (BoundingBox.find_bounds state_set model.number_variables i).1)
        = (BoundingBox.find_bounds state_set model.number_variables i).2
          - (BoundingBox.find_bounds state_set model.number_variables i).1 :=
      wrap_int_of_range _ (by unfold INT_MIN; omega) (by unfold INT_MAX; omega)
    have hin2 : wrap_int (model.upper_bound_int i - model.lower_bound_int i)
        = model.upper_bound_int i - model.lower_bound_int i :=
      wrap_int_of_range _ (by unfold INT_MIN; omega) (by unfold INT_MAX; omega)
    refine ⟨?_, ?_, by omega, by omega, by omega⟩
    · rw [hin1, wrap_int_of_range _ (by unfold INT_MIN; omega) (by unfold INT_MAX; omega)]
    · rw [hin2, wrap_int_of_range _ (by unfold INT_MIN; omega) (by unfold INT_MAX; omega)]
  have hratio : ∀ i ∈ order,
      (2 : ℚ) ^ (-1022 : ℤ)
        ≤ (((BoundingBox.find_bounds state_set model.number_variables i).2
            - (BoundingBox.find_bounds state_set model.number_variables i).1 + 1 : Int) : ℚ)
          / ((model.upper_bound_int i - model.lower_bound_int i + 1 : Int) : ℚ) ∧
      (((BoundingBox.find_bounds state_set model.number_variables i).2
            - (BoundingBox.find_bounds state_set model.number_variables i).1 + 1 : Int) : ℚ)
          / ((model.upper_bound_int i - model.lower_bound_int i + 1 : Int) : ℚ) ≤ 1 := by
    intro i hi
    obtain ⟨_, _, h3, h4, h5⟩ := hcount i hi
    exact (double_div_counts _ _ h3 h4 h5).2
  have hfold : BoundingBox.box_size_rel_in order
      (BoundingBox.find_bounds state_set model.number_variables) model
      = order.foldl (fun acc i => Double.mul acc (Double.round
          ((((BoundingBox.find_bounds state_set model.number_variables i).2
            - (BoundingBox.find_bounds state_set model.number_variables i).1 + 1 : Int) : ℚ)
            / ((model.upper_bound_int i - model.lower_bound_int i + 1 : Int) : ℚ))))
          (Double.finite 1) := by
    unfold BoundingBox.box_size_rel_in
    apply List.foldl_ext
    intro acc i hi
    obtain ⟨h1, h2, h3, h4, h5⟩ := hcount i hi
    simp only [h1, h2]
    rw [(double_div_counts _ _ h3 h4 h5).1]
  refine ⟨hfold, ?_⟩
  obtain ⟨v, hv, hv0, hv1⟩ := foldl_mul_round_unit
    (fun i => (((BoundingBox.find_bounds state_set model.number_variables i).2
        - (BoundingBox.find_bounds state_set model.number_variables i).1 + 1 : Int) : ℚ)
      / ((model.upper_bound_int i - model.lower_bound_int i + 1 : Int) : ℚ)) order
    (fun i hi => ⟨le_trans (by positivity) (hratio i hi).1, (hratio i hi).2⟩) 1 (by norm_num)
    (le_refl _)
  refine ⟨v, hfold.trans hv, hv0, hv1, ?_⟩
  intro hnorm
  obtain ⟨w, hw, hwlo, hwhi⟩ := foldl_mul_round_error
    (fun i => (((BoundingBox.find_bounds state_set model.number_variables i).2
        - (BoundingBox.find_bounds state_set model.number_variables i).1 + 1 : Int) : ℚ)
      / ((model.upper_bound_int i - model.lower_bound_int i + 1 : Int) : ℚ)) order
    hratio 1 1 0 (by norm_num) (le_refl _) (by norm_num) (by simp) (by simp)
    (by simpa using hnorm)
  have e : v = w := by
    rw [hv] at hw
    exact Double.finite.inj hw
  subst e
  simp only [one_mul, Nat.zero_add] at hwlo hwhi
  exact ⟨hwlo, hwhi⟩

/-- Witness for C12: the states `(0,0)` and `(1,1)` over the domain `[0,1] x [0,1]`. -/
theorem bounding_box_relative_volume_in_double_witness :
    ([0, 0, 0] : StateBase) ∈ [[0, 0, 0], [0, 1, 1]] ∧
    ∃ v : ℚ, (BoundingBox.compute_bounding_box [[0, 0, 0], [0, 1, 1]] Example.unit_square).1
      = Double.finite v ∧ 0 ≤ v ∧ v ≤ 1 :=
  ⟨by decide,
    (bounding_box_relative_volume_in_double [[0, 0, 0], [0, 1, 1]] Example.unit_square [0, 0, 0]
      (by decide)
      (by
        intro s hs i h1 h2
        have hi : i = 1 ∨ i = 2 := by
          have : i ≤ 2 := h2
          omega
        simp only [List.mem_cons, List.mem_singleton, List.not_mem_nil, or_false] at hs
        rcases hs with rfl | rfl <;> rcases hi with rfl | rfl <;> decide)
      (by
        intro i _ _
        show INT_MIN ≤ (0 : Int) ∧ (1 : Int) ≤ INT_MAX
        exact ⟨by decide, by decide⟩)
      (by
        intro i _ _
        show (1 : Int) - 0 < INT_MAX
        decide)).elim fun _ h => h.elim fun _ h =>
          (h.2.2 [1, 2] (by decide)).2.elim fun v hv => ⟨v, h.2.1.trans hv.1, hv.2.1, hv.2.2.1⟩⟩

/-- C12 (counterexample): one variable with the domain `[0, INT_MAX]` and the single state with
the value 0. The `int` expression `(ub - lb) + 1` overflows to `INT_MIN`, so `var_dom` is
`-2147483648.0` and the returned relative volume is `-2 ^ (-31)`: it is negative, while the exact
quotient `1 / 2147483648` is positive. -/
theorem relative_volume_of_wide_domain_is_negative :
    Example.wide_line.lower_bound_int 1 ≤ StateBase.get_int [0, 0] 1 ∧
    StateBase.get_int [0, 0] 1 ≤ Example.wide_line.upper_bound_int 1 ∧
    (BoundingBox.compute_bounding_box [[0, 0]] Example.wide_line).1
      = Double.finite (-1 / 2147483648) ∧
    ¬ (0 : ℚ) < -1 / 2147483648 ∧
    (((0 - 0 + 1 : Int) : ℚ) / ((INT_MAX - 0 + 1 : Int) : ℚ)) = 1 / 2147483648 := by
  refine ⟨by decide, by decide, by decide!, by norm_num, by norm_num [INT_MAX]⟩

/-! ## The containment check on a box inside the set -/

theorem within_iff_in_box (lo hi v : List Int) (hlen : hi.length = lo.length) :
    Within lo hi v ↔ InBox lo hi v := by
  induction lo generalizing hi v with
  | nil =>
    cases hi with
    | nil =>
      cases v with
      | nil => simp [Within, InBox]
      | cons _ _ => simp [Within, InBox]
    | cons _ _ => simp at hlen
  | cons l lo ih =>
    cases hi with
    | nil => simp at hlen
    | cons h hi =>
      simp only [List.length_cons, Nat.add_right_cancel_iff] at hlen
      cases v with
      | nil => simp [Within, InBox]
      | cons c v =>
        simp only [Within, ih hi v hlen, InBox, List.length_cons, Nat.add_right_cancel_iff]
        constructor
        · rintro ⟨h1, h2, h3, h4⟩
          refine ⟨h3, ?_⟩
          intro d hd
          cases d with
          | zero => exact ⟨h1, h2⟩
          | succ d => exact h4 d (by omega)
        · rintro ⟨h3, h4⟩
          have h0 := h4 0 (by omega)
          refine ⟨h0.1, h0.2, h3, ?_⟩
          intro d hd
          exact h4 (d + 1) (by omega)

theorem within_above (lo hi cur : List Int) (h : Within lo hi cur) : Above lo hi cur := by
  induction cur generalizing lo hi with
  | nil => cases lo <;> cases hi <;> simp_all [Within, Above]
  | cons c cur ih =>
    cases lo with
    | nil => cases hi <;> simp [Within] at h
    | cons l lo =>
      cases hi with
      | nil => simp [Within] at h
      | cons h0 hi => exact ⟨h.1, ih lo hi h.2.2⟩

theorem within_lower_corner (lo hi cur : List Int) (h : Within lo hi cur) : Within lo hi lo := by
  induction cur generalizing lo hi with
  | nil => cases lo <;> cases hi <;> simp_all [Within]
  | cons c cur ih =>
    cases lo with
    | nil => cases hi <;> simp [Within] at h
    | cons l lo =>
      cases hi with
      | nil => simp [Within] at h
      | cons h0 hi => exact ⟨le_refl _, le_trans h.1 h.2.1, ih lo hi h.2.2⟩

theorem odometer_within (lo hi cur next : List Int) (hw : Within lo hi cur)
    (ho : odometer lo hi cur = some next) : Within lo hi next := by
  induction cur generalizing lo hi next with
  | nil => cases lo <;> cases hi <;> simp [odometer] at ho
  | cons c cur ih =>
    cases lo with
    | nil => cases hi <;> simp [odometer] at ho
    | cons l lo =>
      cases hi with
      | nil => simp [odometer] at ho
      | cons h hi =>
        simp only [odometer] at ho
        cases hod : odometer lo hi cur with
        | some nx =>
          simp only [hod, Option.some.injEq] at ho
          subst ho
          exact ⟨hw.1, hw.2.1, ih lo hi nx hw.2.2 hod⟩
        | none =>
          simp only [hod] at ho
          by_cases hc : c + 1 ≤ h
          · simp only [hc, if_true, Option.some.injEq] at ho
            subst ho
            have hl : l ≤ c := hw.1
            exact ⟨by omega, hc, within_lower_corner lo hi cur hw.2.2⟩
          · simp [hc] at ho

/-- When every point of the box is in the set, the loop over the points cannot answer false. -/
theorem check_points_of_subset (lo hi : List Int) (point_set : List (List Int))
    (hsub : ∀ p, Within lo hi p → p ∈ point_set) (fuel : Nat) :
    ∀ (cur : List Int) (b : Bool), Within lo hi cur → 1 ≤ cur.length →
      BoundedBox.check_points lo hi point_set fuel cur = some b → b = true := by
  induction fuel with
  | zero =>
    intro cur b _ _ h
    simp [BoundedBox.check_points] at h
  | succ fuel ih =>
    intro cur b hw hlen h
    have hl := above_length lo hi cur (within_above lo hi cur hw)
    simp only [BoundedBox.check_points, hsub cur hw, not_true_eq_false, if_false,
      next_point_eq_odometer lo hi cur hl.1 hl.2 hlen] at h
    cases hod : odometer lo hi cur with
    | none =>
      simp only [hod, Option.some.injEq] at h
      exact h.symm
    | some next =>
      simp only [hod] at h
      have hw2 := odometer_within lo hi cur next hw hod
      have hl2 := above_length lo hi next (within_above lo hi next hw2)
      exact ih next b hw2 (by omega) h

theorem domain_check_iff (a b : List Int) (model : Model) :
    BoundedBox.domain_check a b model = true
      ↔ ∀ i, i < a.length → model.lower_bound_int (i + 1) ≤ BoundedBox.at_dim a i ∧
          BoundedBox.at_dim b i ≤ model.upper_bound_int (i + 1) := by
  unfold BoundedBox.domain_check
  simp only [List.all_eq_true, List.mem_range, Bool.not_eq_true', Bool.or_eq_false_iff,
    decide_eq_false_iff_not, not_lt]

/-- The call `is_bounded(min_corner, max_corner, ...)` on a box inside the domain all of whose
points are in the set cannot answer false. -/
theorem is_bounded_of_subset (fuel : Nat) (a b : List Int) (point_set : List (List Int))
    (model : Model) (r : Bool) (hlen : b.length = a.length) (hpos : 1 ≤ a.length)
    (hab : InBox a b a)
    (hdom : ∀ i, i < a.length → model.lower_bound_int (i + 1) ≤ BoundedBox.at_dim a i ∧
      BoundedBox.at_dim b i ≤ model.upper_bound_int (i + 1))
    (hsub : ∀ p, InBox a b p → p ∈ point_set)
    (h : BoundedBox.is_bounded fuel a b point_set model = some r) : r = true := by
  unfold BoundedBox.is_bounded at h
  rw [(domain_check_iff a b model).mpr hdom] at h
  simp only [if_true] at h
  exact check_points_of_subset a b point_set
    (fun p hp => hsub p ((within_iff_in_box a b p hlen).mp hp)) fuel a r
    ((within_iff_in_box a b a hlen).mpr hab) hpos h

theorem odometer_none_of_ge (lo hi : List Int) (hlen : hi.length = lo.length)
    (hge : ∀ d, d < lo.length → BoundedBox.at_dim hi d ≤ BoundedBox.at_dim lo d) :
    odometer lo hi lo = none := by
  induction lo generalizing hi with
  | nil => cases hi <;> simp [odometer]
  | cons l lo ih =>
    cases hi with
    | nil => simp [odometer]
    | cons h hi =>
      simp only [List.length_cons, Nat.add_right_cancel_iff] at hlen
      have h0 := hge 0 (by simp)
      simp only [BoundedBox.at_dim, List.getD_cons_zero] at h0
      have htail := ih hi hlen (fun d hd => by
        have := hge (d + 1) (by simp; omega)
        simpa [BoundedBox.at_dim] using this)
      simp only [odometer, htail]
      have : ¬ l + 1 ≤ h := by omega
      simp [this]

/-- The call `is_bounded(max_corner, min_corner, ...)` with the corners in swapped order answers
true as soon as the bounds it compares hold and the first corner is in the set. -/
theorem is_bounded_swapped (fuel : Nat) (a b : List Int) (point_set : List (List Int))
    (model : Model) (r : Bool) (hlen : b.length = a.length) (hpos : 1 ≤ a.length)
    (hge : ∀ d, d < a.length → BoundedBox.at_dim b d ≤ BoundedBox.at_dim a d)
    (hdom : ∀ i, i < a.length → model.lower_bound_int (i + 1) ≤ BoundedBox.at_dim a i ∧
      BoundedBox.at_dim b i ≤ model.upper_bound_int (i + 1))
    (hmem : a ∈ point_set)
    (h : BoundedBox.is_bounded fuel a b point_set model = some r) : r = true := by
  unfold BoundedBox.is_bounded at h
  rw [(domain_check_iff a b model).mpr hdom] at h
  simp only [if_true] at h
  cases fuel with
  | zero => simp [BoundedBox.check_points] at h
  | succ fuel =>
    simp only [BoundedBox.check_points, hmem, not_true_eq_false, if_false,
      next_point_eq_odometer a b a rfl hlen hpos, odometer_none_of_ge a b hlen hge,
      Option.some.injEq] at h
    exact h.symm

/-! ## The seed-and-expand loop on a full box -/

theorem at_dim_set_eq (l : List Int) (d e : Nat) (x : Int) :
    BoundedBox.at_dim (l.set d x) e
      = if d = e ∧ d < l.length then x else BoundedBox.at_dim l e := by
  unfold BoundedBox.at_dim
  rw [List.getD_eq_getElem?_getD, List.getD_eq_getElem?_getD, List.getElem?_set]
  by_cases hde : d = e
  · subst hde
    by_cases hd : d < l.length
    · simp [hd]
    · simp [hd, List.getElem?_eq_none (not_lt.mp hd)]
  · simp [hde]

theorem list_eq_of_at_dim (a b : List Int) (hlen : a.length = b.length)
    (h : ∀ d, d < a.length → BoundedBox.at_dim a d = BoundedBox.at_dim b d) : a = b := by
  apply List.ext_getElem hlen
  intro d h1 h2
  have := h d h1
  simp only [BoundedBox.at_dim, List.getD_eq_getElem?_getD, List.getElem?_eq_getElem h1,
    List.getElem?_eq_getElem h2, Option.getD_some] at this
  exact this

theorem min_step_full_box (val_set : List (List Int)) (model : Model) (lo hi : List Int)
    (fb : FullBox val_set model lo hi) (fuel : Nat) (c : BoundedBox.Corners) (dim : Nat)
    (hd : dim < lo.length) (hinv : CornersInBox lo hi c) (b : Bool)
    (h : BoundedBox.is_bounded fuel
      (c.min_corner.set dim (BoundedBox.at_dim c.min_corner dim - 1)) c.max_corner val_set model
        = some b) :
    (b = true →
      InBox lo hi (c.min_corner.set dim (BoundedBox.at_dim c.min_corner dim - 1))) ∧
    (b = false → BoundedBox.at_dim c.min_corner dim = BoundedBox.at_dim lo dim) := by
  obtain ⟨⟨hminlen, hmin⟩, ⟨hmaxlen, hmax⟩, hmm⟩ := hinv
  constructor
  · intro hb
    subst hb
    exact (fb.points _).mp (is_bounded_true_mem fuel _ _ _ _ h)
  · intro hb
    subst hb
    by_contra hne
    have hgt : BoundedBox.at_dim lo dim < BoundedBox.at_dim c.min_corner dim :=
      lt_of_le_of_ne (hmin dim hd).1 (fun e => hne e.symm)
    have hset : ∀ e, e < lo.length →
        BoundedBox.at_dim lo e
          ≤ BoundedBox.at_dim (c.min_corner.set dim (BoundedBox.at_dim c.min_corner dim - 1)) e ∧
        BoundedBox.at_dim (c.min_corner.set dim (BoundedBox.at_dim c.min_corner dim - 1)) e
          ≤ BoundedBox.at_dim c.min_corner e := by
      intro e he
      rw [at_dim_set_eq]
      have := hmin e he
      split_ifs with hc
      · obtain ⟨rfl, _⟩ := hc
        omega
      · omega
    have hlen1 : (c.min_corner.set dim (BoundedBox.at_dim c.min_corner dim - 1)).length
        = lo.length := by simp [hminlen]
    have := is_bounded_of_subset fuel _ c.max_corner val_set model false
      (by rw [hlen1, hmaxlen]) (by rw [hlen1]; omega)
      ⟨rfl, fun e he => by
        rw [hlen1] at he
        exact ⟨le_refl _, le_trans (hset e he).2 (hmm e he)⟩⟩
      (fun i hi => by
        rw [hlen1] at hi
        exact ⟨le_trans (fb.in_domain i hi).1 (hset i hi).1,
          le_trans (hmax i hi).2 (fb.in_domain i hi).2⟩)
      (fun p hp => (fb.points p).mpr ⟨by rw [hp.1, hlen1], fun e he => by
        have := hp.2 e (by rw [hlen1]; exact he)
        exact ⟨le_trans (hset e he).1 this.1, le_trans this.2 (hmax e he).2⟩⟩)
      h
    exact absurd this (by decide)

theorem max_step_full_box (val_set : List (List Int)) (model : Model) (lo hi : List Int)
    (fb : FullBox val_set model lo hi) (fuel : Nat) (mn mx : List Int) (dim : Nat)
    (hd : dim < lo.length) (hinv : CornersInBox lo hi
      { min_corner := mn, max_corner := mx, fixed_point := true }) (b : Bool)
    (h : BoundedBox.is_bounded fuel (mx.set dim (BoundedBox.at_dim mx dim + 1)) mn val_set model
        = some b) :
    (b = true → InBox lo hi (mx.set dim (BoundedBox.at_dim mx dim + 1))) ∧
    (b = false → BoundedBox.at_dim mx dim = BoundedBox.at_dim hi dim) := by
  obtain ⟨⟨hminlen, hmin⟩, ⟨hmaxlen, hmax⟩, hmm⟩ := hinv
  simp only at hminlen hmin hmaxlen hmax hmm
  constructor
  · intro hb
    subst hb
    exact (fb.points _).mp (is_bounded_true_mem fuel _ _ _ _ h)
  · intro hb
    subst hb
    by_contra hne
    have hlt : BoundedBox.at_dim mx dim < BoundedBox.at_dim hi dim :=
      lt_of_le_of_ne (hmax dim hd).2 hne
    have hset : ∀ e, e < lo.length →
        BoundedBox.at_dim mx e ≤ BoundedBox.at_dim (mx.set dim (BoundedBox.at_dim mx dim + 1)) e ∧
        BoundedBox.at_dim (mx.set dim (BoundedBox.at_dim mx dim + 1)) e
          ≤ BoundedBox.at_dim hi e := by
      intro e he
      rw [at_dim_set_eq]
      have := hmax e he
      split_ifs with hc
      · obtain ⟨rfl, _⟩ := hc
        omega
      · omega
    have hlen1 : (mx.set dim (BoundedBox.at_dim mx dim + 1)).length = lo.length := by
      simp [hmaxlen]
    have := is_bounded_swapped fuel _ mn val_set model false
      (by rw [hlen1, hminlen]) (by rw [hlen1]; omega)
      (fun e he => by
        rw [hlen1] at he
        exact le_trans (hmm e he) (hset e he).1)
      (fun i hi => by
        rw [hlen1] at hi
        exact ⟨le_trans (fb.in_domain i hi).1 (le_trans (hmax i hi).1 (hset i hi).1),
          le_trans (hmin i hi).2 (fb.in_domain i hi).2⟩)
      ((fb.points _).mpr ⟨hlen1, fun e he =>
        ⟨le_trans (hmax e he).1 (hset e he).1, (hset e he).2⟩⟩)
      h
    exact absurd this (by decide)

theorem in_box_set (lo hi v : List Int) (dim : Nat) (x : Int) (hv : InBox lo hi v)
    (hx : BoundedBox.at_dim lo dim ≤ x ∧ x ≤ BoundedBox.at_dim hi dim) :
    InBox lo hi (v.set dim x) := by
  refine ⟨by simp [hv.1], ?_⟩
  intro e he
  rw [at_dim_set_eq]
  split_ifs with hc
  · obtain ⟨rfl, _⟩ := hc
    exact hx
  · exact hv.2 e he

/-- On a full box one loop body of the expansion keeps both corners in the box, and leaves the
flag `fixed_point` set only if nothing changed and both corners have reached the faces of the box
in this dimension. -/
theorem expand_dim_full_box (val_set : List (List Int)) (model : Model) (lo hi : List Int)
    (fb : FullBox val_set model lo hi) (fuel : Nat) (c c1 : BoundedBox.Corners) (dim : Nat)
    (hd : dim < lo.length) (hinv : CornersInBox lo hi c)
    (h : BoundedBox.expand_dim fuel val_set model c dim = some c1) :
    CornersInBox lo hi c1 ∧
    (c1.fixed_point = true → c.fixed_point = true ∧ c1.min_corner = c.min_corner ∧
      c1.max_corner = c.max_corner ∧
      BoundedBox.at_dim c.min_corner dim = BoundedBox.at_dim lo dim ∧
      BoundedBox.at_dim c.max_corner dim = BoundedBox.at_dim hi dim) := by
  have hinv0 := hinv
  obtain ⟨⟨hminlen, hmin⟩, ⟨hmaxlen, hmax⟩, hmm⟩ := hinv
  have hdmin : dim < c.min_corner.length := by omega
  have hdmax : dim < c.max_corner.length := by omega
  unfold BoundedBox.expand_dim at h
  cases hb1 : BoundedBox.is_bounded fuel
      (c.min_corner.set dim (BoundedBox.at_dim c.min_corner dim - 1)) c.max_corner val_set
      model with
  | none => simp [hb1] at h
  | some b1 =>
    have hstep1 := min_step_full_box val_set model lo hi fb fuel c dim hd hinv0 b1 hb1
    simp only [hb1] at h
    obtain ⟨min2, hmin2⟩ : ∃ min2 : List Int, min2 = (if !b1 then
        (c.min_corner.set dim (BoundedBox.at_dim c.min_corner dim - 1)).set dim
          (BoundedBox.at_dim (c.min_corner.set dim (BoundedBox.at_dim c.min_corner dim - 1)) dim
            + 1)
      else c.min_corner.set dim (BoundedBox.at_dim c.min_corner dim - 1)) := ⟨_, rfl⟩
    rw [← hmin2] at h
    have hmin2props : InBox lo hi min2 ∧
        (∀ d, d < lo.length → BoundedBox.at_dim min2 d ≤ BoundedBox.at_dim c.min_corner d) ∧
        (b1 = false → min2 = c.min_corner) := by
      cases b1 with
      | false =>
        simp only [Bool.not_false, if_true] at hmin2
        rw [set_revert _ _ _ _ hdmin (by rw [at_dim_set _ _ _ hdmin]; omega)] at hmin2
        subst hmin2
        exact ⟨⟨hminlen, hmin⟩, fun d _ => le_refl _, fun _ => rfl⟩
      | true =>
        simp only [Bool.not_true, Bool.false_eq_true, if_false] at hmin2
        subst hmin2
        refine ⟨hstep1.1 rfl, ?_, fun hf => absurd hf (by decide)⟩
        intro d _
        rw [at_dim_set_eq]
        split_ifs with hc
        · obtain ⟨rfl, _⟩ := hc
          omega
        · exact le_refl _
    obtain ⟨hmin2box, hmin2le, hmin2eq⟩ := hmin2props
    have hinv2 : CornersInBox lo hi
        { min_corner := min2, max_corner := c.max_corner, fixed_point := true } :=
      ⟨hmin2box, ⟨hmaxlen, hmax⟩, fun d hd2 => le_trans (hmin2le d hd2) (hmm d hd2)⟩
    cases hb2 : BoundedBox.is_bounded fuel
        (c.max_corner.set dim (BoundedBox.at_dim c.max_corner dim + 1)) min2 val_set model with
    | none => simp [hb2] at h
    | some b2 =>
      have hstep2 := max_step_full_box val_set model lo hi fb fuel min2 c.max_corner dim hd
        hinv2 b2 hb2
      simp only [hb2, Option.some.injEq] at h
      subst h
      cases b2 with
      | false =>
        simp only [Bool.not_false, if_true]
        rw [set_revert _ _ _ _ hdmax (by rw [at_dim_set _ _ _ hdmax]; omega)]
        refine ⟨hinv2, ?_⟩
        intro hfp
        cases b1 with
        | false =>
          simp only [Bool.not_false, if_true] at hfp
          exact ⟨hfp, hmin2eq rfl, rfl, hstep1.2 rfl, hstep2.2 rfl⟩
        | true => simp at hfp
      | true =>
        simp only [Bool.not_true, Bool.false_eq_true, if_false]
        refine ⟨⟨hmin2box, hstep2.1 rfl, ?_⟩, fun hf => absurd hf (by decide)⟩
        intro d hd2
        dsimp only
        rw [at_dim_set_eq]
        have := le_trans (hmin2le d hd2) (hmm d hd2)
        split_ifs with hc
        · obtain ⟨rfl, _⟩ := hc
          omega
        · exact this

theorem sweep_full_box (val_set : List (List Int)) (model : Model) (lo hi : List Int)
    (fb : FullBox val_set model lo hi) (fuel : Nat) (dims : List Nat) :
    ∀ c c1 : BoundedBox.Corners, (∀ d ∈ dims, d < lo.length) → CornersInBox lo hi c →
      BoundedBox.sweep fuel val_set model dims c = some c1 →
      CornersInBox lo hi c1 ∧
      (c1.fixed_point = true → c.fixed_point = true ∧ c1.min_corner = c.min_corner ∧
        c1.max_corner = c.max_corner ∧
        ∀ d ∈ dims, BoundedBox.at_dim c.min_corner d = BoundedBox.at_dim lo d ∧
          BoundedBox.at_dim c.max_corner d = BoundedBox.at_dim hi d) := by
  induction dims with
  | nil =>
    intro c c1 _ hinv h
    simp only [BoundedBox.sweep, Option.some.injEq] at h
    subst h
    exact ⟨hinv, fun hfp => ⟨hfp, rfl, rfl, fun d hd => absurd hd (List.not_mem_nil d)⟩⟩
  | cons dim dims ih =>
    intro c c1 hd hinv h
    simp only [BoundedBox.sweep] at h
    cases he : BoundedBox.expand_dim fuel val_set model c dim with
    | none => simp [he] at h
    | some c2 =>
      simp only [he] at h
      have h2 := expand_dim_full_box val_set model lo hi fb fuel c c2 dim
        (hd dim (List.mem_cons_self _ _)) hinv he
      have h3 := ih c2 c1 (fun d hdm => hd d (List.mem_cons_of_mem _ hdm)) h2.1 h
      refine ⟨h3.1, ?_⟩
      intro hfp
      obtain ⟨hfp2, e1, e2, hrest⟩ := h3.2 hfp
      obtain ⟨hfp0, e3, e4, hd1, hd2⟩ := h2.2 hfp2
      refine ⟨hfp0, e1.trans e3, e2.trans e4, ?_⟩
      intro d hdm
      rcases List.mem_cons.mp hdm with rfl | hdm
      · exact ⟨hd1, hd2⟩
      · have := hrest d hdm
        rw [e3, e4] at this
        exact this

/-- On a full box the loop `while (!fixed_point)` can only end with the corners of the box. -/
theorem expand_full_box (val_set : List (List Int)) (model : Model) (lo hi : List Int)
    (fb : FullBox val_set model lo hi) (point_fuel : Nat) (fuel : Nat) :
    ∀ (mn mx : List Int) (r : List Int × List Int),
      CornersInBox lo hi { min_corner := mn, max_corner := mx, fixed_point := true } →
      BoundedBox.expand point_fuel val_set model lo.length fuel mn mx = some r → r = (lo, hi) := by
  induction fuel with
  | zero =>
    intro mn mx r _ h
    simp [BoundedBox.expand] at h
  | succ fuel ih =>
    intro mn mx r hinv h
    simp only [BoundedBox.expand] at h
    cases hs : BoundedBox.sweep point_fuel val_set model (List.range lo.length)
        { min_corner := mn, max_corner := mx, fixed_point := true } with
    | none => simp [hs] at h
    | some c =>
      simp only [hs] at h
      have hsw := sweep_full_box val_set model lo hi fb point_fuel (List.range lo.length) _ c
        (fun d hd => List.mem_range.mp hd) hinv hs
      by_cases hfp : c.fixed_point = true
      · simp only [hfp, if_true, Option.some.injEq] at h
        obtain ⟨_, e1, e2, hall⟩ := hsw.2 hfp
        simp only at e1 e2 hall
        have hmn : c.min_corner = lo := by
          rw [e1]
          exact list_eq_of_at_dim mn lo hinv.1.1
            (fun d hd => (hall d (List.mem_range.mpr (by rw [← hinv.1.1]; exact hd))).1)
        have hmx : c.max_corner = hi := by
          rw [e2]
          exact list_eq_of_at_dim mx hi (by rw [hinv.2.1.1, fb.length_eq])
            (fun d hd => (hall d (List.mem_range.mpr (by rw [← hinv.2.1.1]; exact hd))).2)
        rw [← h, hmn, hmx]
      · simp only [hfp, Bool.false_eq_true, if_false] at h
        exact ih c.min_corner c.max_corner r ⟨hsw.1.1, hsw.1.2.1, hsw.1.2.2⟩ h

theorem range_map_prod_succ (f : Nat → Nat) (k : Nat) :
    ((List.range (k + 1)).map f).prod = ((List.range k).map f).prod * f k := by
  rw [List.range_succ, List.map_append, List.prod_append]
  simp

theorem range_map_prod_le (f : Nat → Nat) (hf : ∀ d, 1 ≤ f d) (k n : Nat) (hkn : k ≤ n) :
    ((List.range k).map f).prod ≤ ((List.range n).map f).prod := by
  induction n with
  | zero =>
    have : k = 0 := by omega
    subst this
    exact le_refl _
  | succ n ih =>
    rcases Nat.lt_or_ge k (n + 1) with hlt | hge
    · rw [range_map_prod_succ]
      exact le_trans (ih (by omega)) (Nat.le_mul_of_pos_right _ (hf n))
    · have : k = n + 1 := by omega
      subst this
      exact le_refl _

/-- The volume loop computes the number of lattice points of the box when that number fits into
`size_t`. -/
theorem compute_volume_eq (lo hi : List Int)
    (hle : ∀ d, d < lo.length → BoundedBox.at_dim lo d ≤ BoundedBox.at_dim hi d)
    (hvol : lattice_points lo hi < 2 ^ 64) :
    BoundedBox.compute_volume lo hi lo.length = lattice_points lo hi := by
  have hone : ∀ d, 1 ≤ (fun d => if d < lo.length then
      (BoundedBox.at_dim hi d - BoundedBox.at_dim lo d + 1).toNat else 1) d := by
    intro d
    dsimp only
    split_ifs with hd
    · have := hle d hd
      omega
    · exact le_refl _
  have hlat : ∀ k, k ≤ lo.length →
      ((List.range k).map fun d => (BoundedBox.at_dim hi d - BoundedBox.at_dim lo d + 1).toNat).prod
        = ((List.range k).map fun d => if d < lo.length then
          (BoundedBox.at_dim hi d - BoundedBox.at_dim lo d + 1).toNat else 1).prod := by
    intro k hk
    congr 1
    apply List.map_congr_left
    intro d hd
    have := List.mem_range.mp hd
    rw [if_pos (by omega)]
  have hpart : ∀ k, k ≤ lo.length →
      ((List.range k).map fun d => (BoundedBox.at_dim hi d - BoundedBox.at_dim lo d + 1).toNat).prod
        < 2 ^ 64 := by
    intro k hk
    rw [hlat k hk]
    have := range_map_prod_le _ hone k lo.length hk
    rw [← hlat lo.length (le_refl _)] at this
    exact lt_of_le_of_lt this hvol
  have key : ∀ k, k ≤ lo.length →
      (List.range k).foldl (fun volume dim => (volume * BoundedBox.to_size_t
        (BoundedBox.at_dim hi dim - BoundedBox.at_dim lo dim + 1)) % 2 ^ 64) 1
      = ((List.range k).map fun d =>
          (BoundedBox.at_dim hi d - BoundedBox.at_dim lo d + 1).toNat).prod := by
    intro k
    induction k with
    | zero => intro _; simp
    | succ k ih =>
      intro hk
      have hfac : BoundedBox.to_size_t (BoundedBox.at_dim hi k - BoundedBox.at_dim lo k + 1)
          = (BoundedBox.at_dim hi k - BoundedBox.at_dim lo k + 1).toNat := by
        have h1 := hle k (by omega)
        have h2 := hpart (k + 1) hk
        rw [range_map_prod_succ] at h2
        have h3 : 1 ≤ ((List.range k).map fun d =>
            (BoundedBox.at_dim hi d - BoundedBox.at_dim lo d + 1).toNat).prod := by
          rw [hlat k (by omega)]
          exact List.one_le_prod_of_one_le (fun x hx => by
            obtain ⟨d, _, rfl⟩ := List.mem_map.mp hx
            exact hone d)
        have h4 : (BoundedBox.at_dim hi k - BoundedBox.at_dim lo k + 1).toNat < 2 ^ 64 :=
          lt_of_le_of_lt (Nat.le_mul_of_pos_left _ h3) h2
        unfold BoundedBox.to_size_t
        have h5 : (BoundedBox.at_dim hi k - BoundedBox.at_dim lo k + 1) % (2 ^ 64 : Int)
            = BoundedBox.at_dim hi k - BoundedBox.at_dim lo k + 1 := by
          apply Int.emod_eq_of_lt (by omega)
          have : ((BoundedBox.at_dim hi k - BoundedBox.at_dim lo k + 1).toNat : Int)
              < ((2 ^ 64 : Nat) : Int) := by exact_mod_cast h4
          rw [Int.toNat_of_nonneg (by omega)] at this
          simpa using this
        rw [h5]
      rw [List.range_succ, List.foldl_append, ih (by omega)]
      simp only [List.foldl_cons, List.foldl_nil]
      rw [hfac, ← range_map_prod_succ, ← List.range_succ]
      exact Nat.mod_eq_of_lt (hpart (k + 1) hk)
  unfold BoundedBox.compute_volume lattice_points
  exact key lo.length (le_refl _)

theorem get_state_vec_length (s : StateBase) :
    (BoundedBox.get_state_vec s).length = s.get_int_state_size - 1 := by
  simp [BoundedBox.get_state_vec]

theorem at_dim_get_state_vec (s : StateBase) (d : Nat) (hd : d < s.get_int_state_size - 1) :
    BoundedBox.at_dim (BoundedBox.get_state_vec s) d = s.get_int (d + 1) := by
  unfold BoundedBox.at_dim BoundedBox.get_state_vec
  rw [List.getD_eq_getElem?_getD, List.getElem?_map, List.getElem?_range hd]
  rfl

theorem lattice_points_pos (lo hi : List Int)
    (hle : ∀ d, d < lo.length → BoundedBox.at_dim lo d ≤ BoundedBox.at_dim hi d) :
    0 < lattice_points lo hi := by
  unfold lattice_points
  apply Nat.lt_of_lt_of_le Nat.zero_lt_one
  apply List.one_le_prod_of_one_le
  intro x hx
  obtain ⟨d, hd, rfl⟩ := List.mem_map.mp hx
  have := hle d (List.mem_range.mp hd)
  omega

theorem in_box_lower_corner (lo hi : List Int)
    (hle : ∀ d, d < lo.length → BoundedBox.at_dim lo d ≤ BoundedBox.at_dim hi d) :
    InBox lo hi lo :=
  ⟨rfl, fun d hd => ⟨le_refl _, hle d hd⟩⟩

theorem in_box_upper_corner (lo hi : List Int) (hlen : hi.length = lo.length)
    (hle : ∀ d, d < lo.length → BoundedBox.at_dim lo d ≤ BoundedBox.at_dim hi d) :
    InBox lo hi hi :=
  ⟨hlen, fun d hd => ⟨hle d hd, le_refl _⟩⟩

theorem seed_step_full_box (val_set : List (List Int)) (model : Model) (lo hi : List Int)
    (fb : FullBox val_set model lo hi) (hvol : lattice_points lo hi < 2 ^ 64) (fuel : Nat)
    (best best1 : BoundedBox.Best) (state : StateBase)
    (hs : BoundedBox.get_state_vec state ∈ val_set)
    (h : BoundedBox.seed_step fuel val_set model best state = some best1) :
    best1 = if lattice_points lo hi > best.max_volume then
        { max_volume := lattice_points lo hi, best_min := lo, best_max := hi }
      else best := by
  have hbox := (fb.points _).mp hs
  unfold BoundedBox.seed_step at h
  simp only [hbox.1] at h
  cases he : BoundedBox.expand fuel val_set model lo.length fuel
      (BoundedBox.get_state_vec state) (BoundedBox.get_state_vec state) with
  | none => simp [he] at h
  | some r =>
    have hr := expand_full_box val_set model lo hi fb fuel fuel _ _ r
      ⟨hbox, hbox, fun d _ => le_refl _⟩ he
    subst hr
    simp only [he, compute_volume_eq lo hi fb.nonempty hvol] at h
    split_ifs at h with hc
    · rw [if_pos hc]
      exact (Option.some.inj h).symm
    · rw [if_neg hc]
      exact (Option.some.inj h).symm

theorem find_best_full_box (val_set : List (List Int)) (model : Model) (lo hi : List Int)
    (fb : FullBox val_set model lo hi) (hvol : lattice_points lo hi < 2 ^ 64) (fuel : Nat)
    (states : List StateBase) :
    ∀ best r : BoundedBox.Best, (∀ s ∈ states, BoundedBox.get_state_vec s ∈ val_set) →
      BoundedBox.find_best fuel val_set model states best = some r →
      (best = { max_volume := lattice_points lo hi, best_min := lo, best_max := hi } →
        r = { max_volume := lattice_points lo hi, best_min := lo, best_max := hi }) ∧
      (best.max_volume = 0 → states ≠ [] →
        r = { max_volume := lattice_points lo hi, best_min := lo, best_max := hi }) := by
  induction states with
  | nil =>
    intro best r _ h
    simp only [BoundedBox.find_best, Option.some.injEq] at h
    subst h
    exact ⟨fun e => e, fun _ hne => absurd rfl hne⟩
  | cons s rest ih =>
    intro best r hmem h
    simp only [BoundedBox.find_best] at h
    cases hs : BoundedBox.seed_step fuel val_set model best s with
    | none => simp [hs] at h
    | some best1 =>
      simp only [hs] at h
      have h1 := seed_step_full_box val_set model lo hi fb hvol fuel best best1 s
        (hmem s (List.mem_cons_self _ _)) hs
      have h2 := ih best1 r (fun t ht => hmem t (List.mem_cons_of_mem _ ht)) h
      constructor
      · intro hb
        apply h2.1
        rw [h1, hb]
        simp
      · intro hz _
        apply h2.1
        rw [h1, hz, if_pos (lattice_points_pos lo hi fb.nonempty)]

theorem flatMap_congr_mem {α β : Type} (l : List α) (f g : α → List β)
    (h : ∀ a ∈ l, f a = g a) : l.flatMap f = l.flatMap g := by
  induction l with
  | nil => rfl
  | cons a l ih =>
    simp only [List.flatMap_cons]
    rw [h a (List.mem_cons_self _ _), ih (fun b hb => h b (List.mem_cons_of_mem _ hb))]

/-- On a full box with `int` corners the bounds found by the bounding box are the corners. -/
theorem find_bounds_full_box (state_set : List StateBase) (model : Model) (lo hi : List Int)
    (fb : FullBox (state_set.map BoundedBox.get_state_vec) model lo hi)
    (hint : ∀ d, d < lo.length → INT_MIN ≤ BoundedBox.at_dim lo d ∧
      BoundedBox.at_dim hi d ≤ INT_MAX)
    (j : Nat) (hj : j < lo.length) :
    BoundingBox.find_bounds state_set lo.length (j + 1)
      = (BoundedBox.at_dim lo j, BoundedBox.at_dim hi j) := by
  have hval : ∀ s ∈ state_set, ∀ d, d < lo.length →
      BoundedBox.at_dim lo d ≤ s.get_int (d + 1) ∧ s.get_int (d + 1) ≤ BoundedBox.at_dim hi d := by
    intro s hs d hd
    have hb := (fb.points _).mp (List.mem_map_of_mem BoundedBox.get_state_vec hs)
    have hlen : s.get_int_state_size - 1 = lo.length := by
      rw [← get_state_vec_length]
      exact hb.1
    have := hb.2 d hd
    rw [at_dim_get_state_vec s d (by omega)] at this
    exact this
  have hcorner : ∀ v, InBox lo hi v → ∃ s ∈ state_set, ∀ d, d < lo.length →
      s.get_int (d + 1) = BoundedBox.at_dim v d := by
    intro v hv
    obtain ⟨s, hs, e⟩ := List.mem_map.mp ((fb.points v).mpr hv)
    refine ⟨s, hs, ?_⟩
    intro d hd
    have hlen : s.get_int_state_size - 1 = lo.length := by
      rw [← get_state_vec_length, e]
      exact hv.1
    rw [← e, at_dim_get_state_vec s d (by omega)]
  obtain ⟨slo, hslo, elo⟩ := hcorner lo (in_box_lower_corner lo hi fb.nonempty)
  obtain ⟨shi, hshi, ehi⟩ := hcorner hi (in_box_upper_corner lo hi fb.length_eq fb.nonempty)
  have hb1 := find_bounds_mem state_set lo.length slo hslo (j + 1) (by omega) (by omega)
  have hb2 := find_bounds_mem state_set lo.length shi hshi (j + 1) (by omega) (by omega)
  obtain ⟨⟨s1, hs1, e1⟩, ⟨s2, hs2, e2⟩⟩ := find_bounds_attained state_set lo.length slo hslo
    (j + 1) (by omega) (by omega) (fun s hs => by
      have := hval s hs j hj
      have := hint j hj
      omega)
  have v1 := hval s1 hs1 j hj
  have v2 := hval s2 hs2 j hj
  rw [elo j hj] at hb1
  rw [ehi j hj] at hb2
  apply Prod.ext
  · simp only
    omega
  · simp only
    omega

/-- On mathematical integers: when the data valuations of the state set are exactly the lattice
points of a non-empty axis-aligned box with `int` corners that lies within the model domain and
has fewer than `2 ^ 64` points, the bounded-box search ends, for every seed order, with that box
as `best_min` and `best_max` and with its number of points as volume; and over a model with as
many variables as the box has dimensions the predicate of the box is the predicate returned by
`compute_bounding_box` and holds exactly on the states inside the box. -/
theorem bounded_box_of_full_box_on_integers (state_set : List StateBase) (model : Model)
    (lo hi : List Int)
    (fb : FullBox (state_set.map BoundedBox.get_state_vec) model lo hi)
    (hvol : lattice_points lo hi < 2 ^ 64)
    (hvars : model.number_variables = lo.length)
    (hint : ∀ d, d < lo.length → INT_MIN ≤ BoundedBox.at_dim lo d ∧
      BoundedBox.at_dim hi d ≤ INT_MAX) :
    Terminates (fun fuel => BoundedBox.best_box fuel state_set model)
      { max_volume := lattice_points lo hi, best_min := lo, best_max := hi } ∧
    Terminates (fun fuel => BoundedBox.compute_bounded_box fuel state_set model)
      (lattice_points lo hi, (BoundingBox.compute_bounding_box state_set model).2) ∧
    (∀ t : StateBase, (BoundingBox.compute_bounding_box state_set model).2.sat t = true ↔
      ∀ d, d < lo.length → BoundedBox.at_dim lo d ≤ t.get_int (d + 1) ∧
        t.get_int (d + 1) ≤ BoundedBox.at_dim hi d) := by
  have hne : state_set ≠ [] := by
    intro h
    have := (fb.points lo).mpr (in_box_lower_corner lo hi fb.nonempty)
    rw [h] at this
    simp at this
  have hbest : Terminates (fun fuel => BoundedBox.best_box fuel state_set model)
      { max_volume := lattice_points lo hi, best_min := lo, best_max := hi } := by
    obtain ⟨r, N, hN⟩ := find_best_terminates (state_set.map BoundedBox.get_state_vec) model
      state_set { max_volume := 0, best_min := [], best_max := [] }
      (fun s hs => List.mem_map_of_mem _ hs)
    have hr := (find_best_full_box _ model lo hi fb hvol N state_set _ r
      (fun s hs => List.mem_map_of_mem _ hs) (hN N (le_refl _))).2 rfl hne
    subst hr
    exact ⟨N, hN⟩
  have hexpr : BoundedBox.box_expression
      { max_volume := lattice_points lo hi, best_min := lo, best_max := hi } model
      = (BoundingBox.compute_bounding_box state_set model).2 := by
    simp only [BoundedBox.box_expression, BoundingBox.compute_bounding_box,
      BoundingBox.box_expression, hvars]
    congr 1
    apply flatMap_congr_mem
    intro j hj
    rw [find_bounds_full_box state_set model lo hi fb hint j (List.mem_range.mp hj)]
  refine ⟨hbest, ?_, ?_⟩
  · obtain ⟨N, hN⟩ := hbest
    refine ⟨N, ?_⟩
    intro fuel hf
    have e := hN fuel hf
    simp only at e
    simp only [BoundedBox.compute_bounded_box, e, hexpr]
  · intro t
    rw [← hexpr]
    simp only [BoundedBox.box_expression]
    exact sat_box model lo.length (fun j => BoundedBox.at_dim lo j)
      (fun j => BoundedBox.at_dim hi j) t

/-- The eight states of the example are the lattice points of the unit cube. -/
theorem cube_states_full_box :
    FullBox (Example.cube_states.map BoundedBox.get_state_vec) Example.unit_cube [0, 0, 0]
      [1, 1, 1] where
  length_eq := rfl
  nonempty := by
    intro d hd
    have hd3 : d < 3 := hd
    interval_cases d <;> decide
  in_domain := by
    intro d hd
    have hd3 : d < 3 := hd
    interval_cases d <;> decide
  points := by
    intro v
    constructor
    · intro hv
      have hv2 : v ∈ ([[0, 0, 0], [0, 0, 1], [0, 1, 0], [0, 1, 1], [1, 0, 0], [1, 0, 1],
          [1, 1, 0], [1, 1, 1]] : List (List Int)) := hv
      simp only [List.mem_cons, List.mem_singleton, List.not_mem_nil, or_false] at hv2
      refine ⟨?_, ?_⟩
      · rcases hv2 with rfl | rfl | rfl | rfl | rfl | rfl | rfl | rfl <;> rfl
      · intro d hd
        have hd3 : d < 3 := hd
        rcases hv2 with rfl | rfl | rfl | rfl | rfl | rfl | rfl | rfl <;>
          interval_cases d <;> decide
    · rintro ⟨hlen, hb⟩
      match v, hlen with
      | [a, b, c], _ =>
        have h0 := hb 0 (by decide)
        have h1 := hb 1 (by decide)
        have h2 := hb 2 (by decide)
        simp only [BoundedBox.at_dim, List.getD_cons_zero, List.getD_cons_succ] at h0 h1 h2
        have ha : a = 0 ∨ a = 1 := by omega
        have hb2 : b = 0 ∨ b = 1 := by omega
        have hc : c = 0 ∨ c = 1 := by omega
        rcases ha with rfl | rfl <;> rcases hb2 with rfl | rfl <;> rcases hc with rfl | rfl <;>
          decide

/-! ## Monotonicity of the start condition -/

/-- C27: for both strengthening strategies, all three approximation types and both values of
`approximate`, with a meaning-preserving normal-form visitor `update_conditions` returns a pair for
every counterexample set, and every state that satisfies the returned start condition satisfies
the start condition that was passed in. -/
theorem update_conditions_only_shrinks_start (verification_type : VerificationType)
    (self : StrengtheningStrategy) (hmp : self.nf.MeaningPreserving)
    (start unsafety : Expression) (approximate : Bool) (unsafe_states : List StateBase) :
    ∃ r, Terminates (fun fuel => StrengtheningStrategy.update_conditions verification_type self
        fuel start unsafety approximate unsafe_states) r ∧
      ∀ s, r.1.sat s = true → start.sat s = true := by
  obtain ⟨r, N, hN⟩ := update_conditions_terminates verification_type self start unsafety
    approximate unsafe_states
  refine ⟨r, ⟨N, hN⟩, ?_⟩
  intro s hs
  obtain ⟨region, hreg⟩ := update_conditions_refines verification_type self hmp N start unsafety
    approximate unsafe_states r (hN N (le_refl _))
  rw [(hreg s).1] at hs
  cases h : start.sat s
  · rw [h] at hs; simp at hs
  · rfl

/-- Witness for C27: Start-Condition Strengthening over the domain `[0, 10]` with the plain
normal-form visitor and under-approximation. -/
theorem update_conditions_only_shrinks_start_witness :
    ∃ r, Terminates (fun fuel => StrengtheningStrategy.update_conditions
        VerificationType.START_CONDITION_STRENGTHENING
        (Example.strategy ApproximationType.Underapproximation) fuel Example.x_ge_0 Example.x_eq_5
        true [[0, 2], [0, 3]]) r ∧
      ∀ s, r.1.sat s = true → Example.x_ge_0.sat s = true :=
  update_conditions_only_shrinks_start VerificationType.START_CONDITION_STRENGTHENING
    (Example.strategy ApproximationType.Underapproximation) TO_NORMALFORM_meaning_preserving
    Example.x_ge_0 Example.x_eq_5 true [[0, 2], [0, 3]]

/-! ## The containment check visits every point of the box -/

theorem at_or_after_lower_corner (lo hi p : List Int) (h : Within lo hi p) : AtOrAfter lo p := by
  induction lo generalizing hi p with
  | nil =>
    cases hi <;> cases p <;> simp_all [Within, AtOrAfter]
  | cons l lo ih =>
    cases hi with
    | nil => cases p <;> simp [Within] at h
    | cons h0 hi =>
      cases p with
      | nil => simp [Within] at h
      | cons x p =>
        simp only [Within] at h
        simp only [AtOrAfter]
        rcases lt_or_eq_of_le h.1 with hlt | heq
        · exact Or.inl hlt
        · exact Or.inr ⟨heq, ih hi p h.2.2⟩

theorem odometer_covers (lo hi : List Int) :
    ∀ (cur p : List Int), Within lo hi p → AtOrAfter cur p →
      match odometer lo hi cur with
      | some next => p = cur ∨ AtOrAfter next p
      | none => p = cur := by
  induction lo generalizing hi with
  | nil =>
    intro cur p hw ha
    cases hi <;> cases p <;> cases cur <;> simp_all [Within, AtOrAfter, odometer]
  | cons l lo ih =>
    intro cur p hw ha
    cases hi with
    | nil => cases p <;> simp [Within] at hw
    | cons h0 hi =>
      cases p with
      | nil => simp [Within] at hw
      | cons x p =>
        cases cur with
        | nil => simp [AtOrAfter] at ha
        | cons c cur =>
          simp only [Within] at hw
          simp only [AtOrAfter] at ha
          have hrec := ih hi cur p hw.2.2
          simp only [odometer]
          cases hod : odometer lo hi cur with
          | some next =>
            simp only [hod] at hrec ⊢
            rcases ha with hlt | ⟨heq, hrest⟩
            · exact Or.inr (Or.inl hlt)
            · rcases hrec hrest with hp | hp
              · exact Or.inl (by rw [heq, hp])
              · exact Or.inr (Or.inr ⟨heq, hp⟩)
          | none =>
            simp only [hod] at hrec ⊢
            by_cases hc : c + 1 ≤ h0
            · simp only [hc, if_true]
              rcases ha with hlt | ⟨heq, hrest⟩
              · rcases lt_or_eq_of_le (show c + 1 ≤ x by omega) with h1 | h1
                · exact Or.inr (Or.inl h1)
                · exact Or.inr (Or.inr ⟨h1, at_or_after_lower_corner lo hi p hw.2.2⟩)
              · exact Or.inl (by rw [heq, hrec hrest])
            · simp only [hc, if_false]
              rcases ha with hlt | ⟨heq, hrest⟩
              · omega
              · rw [heq, hrec hrest]

theorem check_points_true_covers (lo hi : List Int) (point_set : List (List Int)) (fuel : Nat) :
    ∀ cur : List Int, Above lo hi cur → 1 ≤ cur.length →
      BoundedBox.check_points lo hi point_set fuel cur = some true →
      ∀ p, Within lo hi p → AtOrAfter cur p → p ∈ point_set := by
  induction fuel with
  | zero => intro cur _ _ h; simp [BoundedBox.check_points] at h
  | succ k ih =>
    intro cur ha hlen h p hw hp
    have hl := above_length lo hi cur ha
    by_cases hmem : cur ∈ point_set
    · simp only [BoundedBox.check_points, hmem, not_true_eq_false, if_false,
        next_point_eq_odometer lo hi cur hl.1 hl.2 hlen] at h
      have hcov := odometer_covers lo hi cur p hw hp
      cases hod : odometer lo hi cur with
      | none =>
        simp only [hod] at hcov
        rw [hcov]; exact hmem
      | some next =>
        simp only [hod] at hcov h
        rcases hcov with hc | hc
        · rw [hc]; exact hmem
        · have hnext := odometer_some lo hi cur next ha hod
          have hl2 := above_length lo hi next hnext.1
          exact ih next hnext.1 (by omega) h p hw hc
    · simp [BoundedBox.check_points, hmem] at h

/-- A box that `is_bounded` accepts lies in the model domain and has all its points in the set. -/
theorem is_bounded_true_covers (fuel : Nat) (a b : List Int) (point_set : List (List Int))
    (model : Model) (hlen : b.length = a.length) (hpos : 1 ≤ a.length)
    (h : BoundedBox.is_bounded fuel a b point_set model = some true) :
    BoundedBox.domain_check a b model = true ∧ ∀ p, InBox a b p → p ∈ point_set := by
  unfold BoundedBox.is_bounded at h
  cases hd : BoundedBox.domain_check a b model with
  | false => simp [hd] at h
  | true =>
    simp only [hd, if_true] at h
    refine ⟨rfl, ?_⟩
    intro p hp
    have hw := (within_iff_in_box a b p hlen).2 hp
    exact check_points_true_covers a b point_set fuel a (above_self a b hlen.symm) hpos h p hw
      (at_or_after_lower_corner a b p hw)

/-- On mathematical integers: for corners of one common dimension count of at least one with
`min_corner[d] <= max_corner[d]` in every dimension, every point set and every model domain, the
containment check returns, and it returns true exactly when the box lies in the model domain in
every dimension and every lattice point of the box is in the set. -/
theorem is_bounded_iff_on_integers (min_corner max_corner : List Int)
    (point_set : List (List Int)) (model : Model)
    (hlen : max_corner.length = min_corner.length) (hpos : 1 ≤ min_corner.length)
    (hle : ∀ d, d < min_corner.length →
      BoundedBox.at_dim min_corner d ≤ BoundedBox.at_dim max_corner d) :
    ∃ r, Terminates (fun fuel =>
        BoundedBox.is_bounded fuel min_corner max_corner point_set model) r ∧
      (r = true ↔
        (∀ d, d < min_corner.length →
          model.lower_bound_int (d + 1) ≤ BoundedBox.at_dim min_corner d ∧
            BoundedBox.at_dim max_corner d ≤ model.upper_bound_int (d + 1)) ∧
        ∀ p, InBox min_corner max_corner p → p ∈ point_set) := by
  obtain ⟨r, N, hN⟩ := is_bounded_terminates min_corner max_corner point_set model hlen.symm hpos
  refine ⟨r, ⟨N, hN⟩, ?_⟩
  have hr := hN N (le_refl _)
  simp only at hr
  constructor
  · intro hrt
    rw [hrt] at hr
    have hc := is_bounded_true_covers N min_corner max_corner point_set model hlen hpos hr
    exact ⟨(domain_check_iff min_corner max_corner model).1 hc.1, hc.2⟩
  · intro hbox
    exact is_bounded_of_subset N min_corner max_corner point_set model r hlen hpos
      (in_box_lower_corner min_corner max_corner hle) hbox.1 hbox.2 hr

/-! ## Successor sampling and rollouts -/

/-- C26: for an identifier as its constructor builds it and a draw `p >= 0`, `sample_successor`
takes the branch that invokes `sample_run` exactly when policy-run sampling is enabled, there is
more than one successor, `p` is below the configured sampling probability and the timer is not
almost expired; in every other case, in particular whenever policy-run sampling is off, the
successor comes from `compute_successor_if_applicable`. -/
theorem sample_run_is_invoked_only_when_enabled (sim_env : SimulationEnvironment)
    (policy : StateID_type → ActionLabel_type) (unsafety_condition : Expression)
    (configured_sampling_probability : ℚ) (terminateCyclesFlag usePolicyRunSampling : Bool)
    (draws : Nat → Draw) (self : UnsafePathIdentifier) (state : StateID_type)
    (action_label : ActionLabel_type) (hp : 0 ≤ (draws self.draw_count).p) :
    UnsafePathIdentifier.sample_successor
        (UnsafePathIdentifier.create sim_env policy unsafety_condition
          configured_sampling_probability terminateCyclesFlag usePolicyRunSampling draws)
        self state action_label
      = if usePolicyRunSampling = true ∧
            (sim_env.compute_successors state action_label).length > 1 ∧
            (draws self.draw_count).p < configured_sampling_probability ∧
            (draws self.draw_count).almost_expired = false then
          (((draws self.draw_count).sample_run (sim_env.compute_successors state action_label)).1,
            { self with
              draw_count := self.draw_count + 1
              path_cache :=
                ((draws self.draw_count).sample_run
                  (sim_env.compute_successors state action_label)).2.foldl set_insert
                  self.path_cache })
        else
          (sim_env.compute_successor_if_applicable state action_label
              (draws self.draw_count).outcome,
            { self with draw_count := self.draw_count + 1 }) := by
  cases usePolicyRunSampling with
  | true =>
    simp only [UnsafePathIdentifier.sample_successor, UnsafePathIdentifier.create, if_true,
      true_and, Bool.not_eq_true']
  | false =>
    have hnot : ¬ (draws self.draw_count).p < 0 := not_lt.mpr hp
    simp [UnsafePathIdentifier.sample_successor, UnsafePathIdentifier.create, hnot]

/-- Witness for C26: policy-run sampling off, state 0 of `loop_environment` with its two
successors, and the draw `p = 0`: the successor comes from `compute_successor_if_applicable`. -/
theorem sample_run_is_invoked_only_when_enabled_witness :
    UnsafePathIdentifier.sample_successor
        (UnsafePathIdentifier.create Example.loop_environment (fun _ => 1) Example.x_eq_5 (1 / 2)
          false false
          (fun _ =>
            { p := 0, almost_expired := false, sample_run := fun _ => (none, []), outcome := 0 }))
        Example.at_start 0 1
      = (some 1, { Example.at_start with draw_count := 1 }) :=
  sample_run_is_invoked_only_when_enabled Example.loop_environment (fun _ => 1) Example.x_eq_5
    (1 / 2) false false
    (fun _ => { p := 0, almost_expired := false, sample_run := fun _ => (none, []), outcome := 0 })
    Example.at_start 0 1 (le_refl _)

theorem cycle_simulate_loop_never_returns (fuel : Nat) :
    ∀ (self : UnsafePathIdentifier) (current_state : StateID_type),
      (current_state = 0 ∨ current_state = 1) →
      (self.path_cache = [0] ∨ self.path_cache = [0, 1]) →
      UnsafePathIdentifier.simulate_loop Example.cycle_setup fuel self current_state [1]
        = Outcome.out_of_fuel := by
  induction fuel with
  | zero => intro self current_state _ _; rfl
  | succ k ih =>
    intro self current_state hcur hpc
    have hun : ∀ id : StateID_type, (id = 0 ∨ id = 1) →
        UnsafePathIdentifier.is_unsafe Example.cycle_setup id = false := by
      intro id hid
      rcases hid with h | h <;> subst h <;> decide
    rcases hcur with h | h <;> subst h
    · have hs : UnsafePathIdentifier.sample_successor Example.cycle_setup self 0 1
          = (some 1, { self with draw_count := self.draw_count + 1 }) := by
        simp [UnsafePathIdentifier.sample_successor, Example.cycle_setup,
          UnsafePathIdentifier.create, Example.cycle_environment]
      simp only [UnsafePathIdentifier.simulate_loop, List.length_singleton, le_refl, if_true, hs]
      have hterm : Example.cycle_setup.terminate_on_cycles = false := rfl
      have hlim : Example.cycle_setup.path_length_limit = 1000 := rfl
      have hact : Example.cycle_setup.sim_env.extract_applicable_actions 1 = [1] := by decide
      simp only [hterm, Bool.and_false, Bool.false_eq_true, if_false, hun 1 (Or.inr rfl), hlim,
        hact]
      rw [if_neg]
      · apply ih
        · exact Or.inr rfl
        · simp only [UnsafePathIdentifier.set_next_to_current_state,
            UnsafePathIdentifier.cache_and_check_cycle, UnsafePathIdentifier.set_next_state]
          split <;> rcases hpc with h | h <;> simp [h, set_insert]
      · simp only [UnsafePathIdentifier.set_next_to_current_state,
          UnsafePathIdentifier.cache_and_check_cycle, UnsafePathIdentifier.set_next_state]
        split <;> rcases hpc with h | h <;> simp [h, set_insert]
    · have hs : UnsafePathIdentifier.sample_successor Example.cycle_setup self 1 1
          = (some 0, { self with draw_count := self.draw_count + 1 }) := by
        simp [UnsafePathIdentifier.sample_successor, Example.cycle_setup,
          UnsafePathIdentifier.create, Example.cycle_environment]
      simp only [UnsafePathIdentifier.simulate_loop, List.length_singleton, le_refl, if_true, hs]
      have hterm : Example.cycle_setup.terminate_on_cycles = false := rfl
      have hlim : Example.cycle_setup.path_length_limit = 1000 := rfl
      have hact : Example.cycle_setup.sim_env.extract_applicable_actions 0 = [1] := by decide
      simp only [hterm, Bool.and_false, Bool.false_eq_true, if_false, hun 0 (Or.inl rfl), hlim,
        hact]
      rw [if_neg]
      · apply ih
        · exact Or.inl rfl
        · simp only [UnsafePathIdentifier.set_next_to_current_state,
            UnsafePathIdentifier.cache_and_check_cycle, UnsafePathIdentifier.set_next_state]
          split <;> rcases hpc with h | h <;> simp [h, set_insert]
      · simp only [UnsafePathIdentifier.set_next_to_current_state,
          UnsafePathIdentifier.cache_and_check_cycle, UnsafePathIdentifier.set_next_state]
        split <;> rcases hpc with h | h <;> simp [h, set_insert]

/-- C23 (the code departs from the claim): over the deterministic `cycle_environment` with
`terminate_on_cycles` unset and no unsafe state, the policy run is `0 -> 1 -> 0 -> 1 -> ...` and
the rollout from state 0 returns for no amount of fuel: `path_length_limit` is compared with the size of the set
`path_cache`, which stays at two states, and not with the number of transitions. -/
theorem rollout_on_a_cycle_never_returns (inner_fuel fuel : Nat) :
    UnsafePathIdentifier.execute_policy Example.cycle_setup inner_fuel fuel Example.at_start 0
      = Outcome.out_of_fuel := by
  cases fuel with
  | zero => rfl
  | succ k =>
    have hT : UnsafePathIdentifier.is_terminal Example.cycle_setup Example.at_start 0
        = (false, Example.at_start) := by decide
    have hact : Example.cycle_setup.sim_env.extract_applicable_actions 0 = [1] := by decide
    simp only [UnsafePathIdentifier.execute_policy, hT, Bool.false_eq_true, if_false,
      UnsafePathIdentifier.simulate_until_choice, hact,
      cycle_simulate_loop_never_returns inner_fuel Example.at_start 0 (Or.inl rfl) (Or.inl rfl)]

/-! ## Iteration order of the counterexample set -/

theorem find_bounds_congr (states1 states2 : List StateBase)
    (hmem : ∀ s, s ∈ states1 ↔ s ∈ states2) (var_num i : Nat) (h1 : 1 ≤ i) (h2 : i ≤ var_num) :
    BoundingBox.find_bounds states1 var_num i = BoundingBox.find_bounds states2 var_num i := by
  have key : ∀ (a b : List StateBase), (∀ s, s ∈ a → s ∈ b) →
      (BoundingBox.find_bounds b var_num i).1 ≤ (BoundingBox.find_bounds a var_num i).1 ∧
      (BoundingBox.find_bounds a var_num i).2 ≤ (BoundingBox.find_bounds b var_num i).2 := by
    intro a b hab
    have hatt := foldl_update_bounds_attained var_num a i h1 h2 (BoundingBox.init_bounds var_num)
    have hmono := foldl_update_bounds_mono var_num b (BoundingBox.init_bounds var_num) i
    unfold BoundingBox.find_bounds
    constructor
    · rcases hatt.1 with he | ⟨s, hs, he⟩
      · rw [he]; exact hmono.1
      · rw [← he]
        exact (foldl_update_bounds_mem var_num b (BoundingBox.init_bounds var_num) s (hab s hs) i
          h1 h2).1
    · rcases hatt.2 with he | ⟨s, hs, he⟩
      · rw [he]; exact hmono.2
      · rw [← he]
        exact (foldl_update_bounds_mem var_num b (BoundingBox.init_bounds var_num) s (hab s hs) i
          h1 h2).2
  have k1 := key states1 states2 (fun s hs => (hmem s).1 hs)
  have k2 := key states2 states1 (fun s hs => (hmem s).2 hs)
  exact Prod.ext (le_antisymm k2.1 k1.1) (le_antisymm k1.2 k2.2)

theorem sat_bounding_box_congr (states1 states2 : List StateBase)
    (hmem : ∀ s, s ∈ states1 ↔ s ∈ states2) (model : Model) (s : StateBase) :
    (BoundingBox.compute_bounding_box states1 model).2.sat s
      = (BoundingBox.compute_bounding_box states2 model).2.sat s := by
  have hb : BoundingBox.box_expression (BoundingBox.find_bounds states1 model.number_variables)
      model = BoundingBox.box_expression (BoundingBox.find_bounds states2 model.number_variables)
      model := by
    unfold BoundingBox.box_expression
    congr 1
    apply flatMap_congr_mem
    intro j hj
    rw [find_bounds_congr states1 states2 hmem model.number_variables (j + 1) (by omega)
      (by have := List.mem_range.1 hj; omega)]
  simp only [BoundingBox.compute_bounding_box, hb]

theorem point_region_congr (model : Model) (states1 states2 : List StateBase)
    (hmem : ∀ s, s ∈ states1 ↔ s ∈ states2) (s : StateBase) :
    point_region model states1 s = point_region model states2 s := by
  unfold point_region
  rw [Bool.eq_iff_iff]
  simp only [List.any_eq_true]
  constructor
  · rintro ⟨t, ht, h⟩; exact ⟨t, (hmem t).1 ht, h⟩
  · rintro ⟨t, ht, h⟩; exact ⟨t, (hmem t).2 ht, h⟩

/-- C25 (counterexample): Invariant Strengthening with under-approximation over the domain
`[0, 10]`, start `x >= 0`, unsafety `x = 5` and the counterexample set `{x = 0, x = 2}`. Both
seeds give a box of volume 1 and the first one found is kept: in the order `x = 0, x = 2` the new
start condition excludes the state `x = 0`, in the order `x = 2, x = 0` it holds on it. -/
theorem under_approximation_depends_on_seed_order :
    ([[[0, 0], [0, 2]], [[0, 2], [0, 0]]].map fun order =>
      (InvariantStrengtheningStrategy.update_conditions
        (Example.strategy ApproximationType.Underapproximation) 10 Example.x_ge_0 Example.x_eq_5
        true order).map fun r => r.1.sat [0, 0])
      = [some false, some true] := by
  decide

/-- C25 (amended): for both strengthening strategies with a meaning-preserving normal-form
visitor, whenever the update does not go through the under-approximating box (the approximation
type is over-approximation or none, or `approximate` is false), `update_conditions` returns a pair
for each of two lists with the same members, in particular for two iteration orders of one
counterexample set, and the two pairs are logically equivalent. -/
theorem update_conditions_independent_of_order (verification_type : VerificationType)
    (self : StrengtheningStrategy) (hmp : self.nf.MeaningPreserving)
    (start unsafety : Expression) (approximate : Bool) (states1 states2 : List StateBase)
    (hmem : ∀ s, s ∈ states1 ↔ s ∈ states2)
    (happ : ¬ (approximate = true ∧ self.approx = ApproximationType.Underapproximation)) :
    ∃ r1 r2,
      Terminates (fun fuel => StrengtheningStrategy.update_conditions verification_type self fuel
        start unsafety approximate states1) r1 ∧
      Terminates (fun fuel => StrengtheningStrategy.update_conditions verification_type self fuel
        start unsafety approximate states2) r2 ∧
      ∀ s, r1.1.sat s = r2.1.sat s ∧ r1.2.sat s = r2.2.sat s := by
  obtain ⟨r1, N1, hN1⟩ := update_conditions_terminates verification_type self start unsafety
    approximate states1
  obtain ⟨r2, N2, hN2⟩ := update_conditions_terminates verification_type self start unsafety
    approximate states2
  refine ⟨r1, r2, ⟨N1, hN1⟩, ⟨N2, hN2⟩, ?_⟩
  have e1 := hN1 N1 (le_refl _)
  have e2 := hN2 N2 (le_refl _)
  simp only at e1 e2
  rw [update_conditions_eq_invariant] at e1 e2
  have hmem2 : ∀ s, s ∈ refinement_states verification_type start states1
      ↔ s ∈ refinement_states verification_type start states2 := by
    intro s
    cases verification_type
    · exact hmem s
    · simp only [refinement_states, List.mem_filter, hmem s]
  have hr1 := invariant_update_refines self hmp N1 start unsafety approximate _ r1 e1
  have hr2 := invariant_update_refines self hmp N2 start unsafety approximate _ r2 e2
  by_cases hc : approximate = true ∧ self.approx ≠ ApproximationType.None
  · obtain ⟨box1, hb1, hreg1⟩ := hr1.1 hc
    obtain ⟨box2, hb2, hreg2⟩ := hr2.1 hc
    have hover : self.approx = ApproximationType.Overapproximation := by
      cases h : self.approx with
      | Overapproximation => rfl
      | Underapproximation => exact absurd ⟨hc.1, h⟩ happ
      | None => exact absurd h hc.2
    simp only [StrengtheningStrategy.get_box_approximation, hover, Option.some.injEq] at hb1 hb2
    intro s
    have hbox : box1.sat s = box2.sat s := by
      rw [← hb1, ← hb2]
      exact sat_bounding_box_congr _ _ hmem2 self.model s
    rw [(hreg1 s).1, (hreg1 s).2, (hreg2 s).1, (hreg2 s).2]
    simp only [hbox, and_self]
  · have hreg1 := hr1.2 hc
    have hreg2 := hr2.2 hc
    intro s
    rw [(hreg1 s).1, (hreg1 s).2, (hreg2 s).1, (hreg2 s).2,
      point_region_congr self.model _ _ hmem2 s]
    exact ⟨rfl, rfl⟩

/-- Witness for C25 (amended): Start-Condition Strengthening with over-approximation over the
domain `[0, 10]` on the two orders of the counterexample set `{x = 0, x = 2}`. -/
theorem update_conditions_independent_of_order_witness :
    ∃ r1 r2,
      Terminates (fun fuel => StrengtheningStrategy.update_conditions
        VerificationType.START_CONDITION_STRENGTHENING
        (Example.strategy ApproximationType.Overapproximation) fuel Example.x_ge_0 Example.x_eq_5
        true [[0, 0], [0, 2]]) r1 ∧
      Terminates (fun fuel => StrengtheningStrategy.update_conditions
        VerificationType.START_CONDITION_STRENGTHENING
        (Example.strategy ApproximationType.Overapproximation) fuel Example.x_ge_0 Example.x_eq_5
        true [[0, 2], [0, 0]]) r2 ∧
      ∀ s, r1.1.sat s = r2.1.sat s ∧ r1.2.sat s = r2.2.sat s :=
  update_conditions_independent_of_order VerificationType.START_CONDITION_STRENGTHENING
    (Example.strategy ApproximationType.Overapproximation) TO_NORMALFORM_meaning_preserving
    Example.x_ge_0 Example.x_eq_5 true [[0, 0], [0, 2]] [[0, 2], [0, 0]]
    (by intro s; simp only [List.mem_cons, List.mem_singleton, List.not_mem_nil, or_false]; tauto)
    (by decide)

/-! ## Policy-run sampler -/

theorem reconstruct_loop_eq (node : SearchNode) :
    ∀ path : List StateID_type,
      PolicyRunSampler.reconstruct_loop node path = path ++ node.id :: node.ancestors := by
  induction node with
  | root id => intro path; simp [PolicyRunSampler.reconstruct_loop, SearchNode.id, SearchNode.ancestors]
  | child id parent ih =>
    intro path
    simp [PolicyRunSampler.reconstruct_loop, SearchNode.id, SearchNode.ancestors, ih]

/-- C21 (counterexample): the search node of state 9 with parent 7, passed with the flag
`unsafe_node` set, gives the path `[7]` without the leaf. In `sample_run` from the successors 7
and 1 the unsafe state 9 is returned from inside the loop with the path `[7]`, which leaves the
unsafe leaf out; from the successors 1, 2 and 3 the selected leaf 4, which is not unsafe, is the
first element of the path `[4, 3]`. -/
theorem unsafe_leaf_is_left_out_of_the_path :
    PolicyRunSampler.reconstruct_path (SearchNode.child 9 (SearchNode.root 7)) true = [7] ∧
    PolicyRunSampler.is_unsafe (Example.sampler Example.x_eq_9) 9 = true ∧
    PolicyRunSampler.sample_run (Example.sampler Example.x_eq_9) 10 [7, 1] = Sampled.ok (9, [7]) ∧
    PolicyRunSampler.is_unsafe (Example.sampler Example.x_eq_5) 4 = false ∧
    PolicyRunSampler.sample_run (Example.sampler Example.x_eq_5) 10 [1, 2, 3]
      = Sampled.ok (4, [4, 3]) := by
  decide

/-- C21 (amended): `reconstruct_path` returns the chain of ancestors of the node, nearest first,
preceded by the node itself exactly when the flag `unsafe_node` is not set: the leaf is left out
when it is flagged as unsafe and is the first element otherwise. -/
theorem reconstruct_path_leaves_out_flagged_leaf (node : SearchNode) (unsafe_node : Bool) :
    PolicyRunSampler.reconstruct_path node unsafe_node
      = (if unsafe_node then [] else [node.id]) ++ node.ancestors := by
  cases node with
  | root id => cases unsafe_node <;> rfl
  | child id parent =>
    cases unsafe_node <;>
      simp [PolicyRunSampler.reconstruct_path, SearchNode.parent, reconstruct_loop_eq,
        SearchNode.id, SearchNode.ancestors]

/-- C22 (the code departs from the claim): when the timer is expired at the first poll,
`sample_run` does not return: the candidate vectors are empty, greedy selection dereferences
`std::min_element` of an empty vector and probabilistic selection takes `back()` of an empty
vector. This holds for every sampler, successor list and selection mode. -/
theorem sample_run_with_expired_timer_is_undefined (self : PolicyRunSampler) (fuel : Nat)
    (successor_ids : List StateID_type) :
    PolicyRunSampler.sample_run { self with timer_expired := fun _ => true } (fuel + 1)
      successor_ids = Sampled.undefined_behaviour := by
  cases h : self.use_probabilistic_sampling <;>
    simp [PolicyRunSampler.sample_run, PolicyRunSampler.sample_loop,
      PolicyRunSampler.check_timer, PolicyRunSampler.select_leaf, h,
      PolicyRunSampler.greedy_selection, PolicyRunSampler.sample_successor,
      PolicyRunSampler.all_adjacent_equal, PolicyRunSampler.sample_from_distribution,
      PolicyRunSampler.distribution_loop]

theorem tree_count_assign (search_tree : PolicyRunSampler.SearchTree) (id c : StateID_type)
    (node : SearchNode) :
    PolicyRunSampler.tree_count (PolicyRunSampler.tree_assign search_tree id node) c
      = (PolicyRunSampler.tree_count search_tree c || decide (c = id)) := by
  unfold PolicyRunSampler.tree_assign
  by_cases h : PolicyRunSampler.tree_count search_tree id = true
  · simp only [h, if_true]
    unfold PolicyRunSampler.tree_count at h ⊢
    rw [Bool.eq_iff_iff]
    simp only [List.any_eq_true, List.mem_map, decide_eq_true_eq, Bool.or_eq_true]
    constructor
    · rintro ⟨e, ⟨e0, he0, rfl⟩, he⟩
      by_cases h0 : e0.1 = id
      · simp only [h0, if_true] at he
        exact Or.inr he.symm
      · simp only [h0, if_false] at he
        exact Or.inl ⟨e0, he0, he⟩
    · rintro (⟨e, he, hc⟩ | hc)
      · by_cases h0 : e.1 = id
        · exact ⟨(id, node), ⟨e, he, by simp [h0]⟩, by rw [← hc, h0]⟩
        · exact ⟨e, ⟨e, he, by simp [h0]⟩, hc⟩
      · obtain ⟨e, he, hid⟩ := List.any_eq_true.1 h
        simp only [decide_eq_true_eq] at hid
        exact ⟨(id, node), ⟨e, he, by simp [hid]⟩, hc.symm⟩
  · simp only [h, Bool.false_eq_true, if_false]
    unfold PolicyRunSampler.tree_count
    simp only [List.any_append, List.any_cons, List.any_nil, Bool.or_false]
    congr 1
    simp only [eq_comm]

theorem mem_set_insert {α : Type} [DecidableEq α] (set : List α) (a c : α) :
    c ∈ set_insert set a ↔ c ∈ set ∨ c = a := by
  unfold set_insert
  by_cases h : a ∈ set
  · simp only [h, if_true]
    constructor
    · exact Or.inl
    · rintro (h1 | h1)
      · exact h1
      · rw [h1]; exact h
  · simp [h]

theorem add_children_spec (current_successors : List StateID_type) (parent : Option SearchNode)
    (child : StateID_type) (children : List StateID_type) :
    ∀ acc : List StateID_type × PolicyRunSampler.SearchTree,
      (ChildAdded child acc →
        ChildAdded child (PolicyRunSampler.add_children current_successors parent children acc)) ∧
      (ChildPending child acc →
        ChildPending child
          (PolicyRunSampler.add_children current_successors parent children acc)) ∧
      (child ∈ children → child ∉ current_successors → ChildPending child acc →
        ChildAdded child
          (PolicyRunSampler.add_children current_successors parent children acc)) := by
  induction children with
  | nil =>
    intro acc
    refine ⟨fun h => h, fun h => h, fun h => ?_⟩
    simp at h
  | cons c rest ih =>
    intro acc
    obtain ⟨new_successors, search_tree⟩ := acc
    have hadd : ChildAdded child (new_successors, search_tree) →
        ChildAdded child (set_insert new_successors c,
          PolicyRunSampler.tree_assign search_tree c (SearchNode.create c parent)) := by
      intro h
      exact ⟨(mem_set_insert _ _ _).2 (Or.inl h.1), by
        rw [tree_count_assign]; simp only [ChildAdded] at h; simp [h.2]⟩
    have hpend : ChildPending child (new_successors, search_tree) →
        ChildPending child (set_insert new_successors c,
          PolicyRunSampler.tree_assign search_tree c (SearchNode.create c parent)) := by
      intro h
      rcases h with h | h
      · by_cases hc : child = c
        · refine Or.inr ⟨(mem_set_insert _ _ _).2 (Or.inr hc), ?_⟩
          rw [tree_count_assign]; simp [hc]
        · refine Or.inl ?_
          rw [tree_count_assign]
          simp only at h
          simp [h, hc]
      · exact Or.inr (hadd h)
    simp only [PolicyRunSampler.add_children]
    by_cases hskip : PolicyRunSampler.tree_count search_tree c = true ∨ c ∈ current_successors
    · simp only [hskip, if_true]
      refine ⟨(ih _).1, (ih _).2.1, ?_⟩
      intro hmem hcur hp
      rcases List.mem_cons.1 hmem with h | h
      · subst h
        rcases hp with hp | hp
        · rcases hskip with h1 | h1
          · simp only at hp
            rw [hp] at h1
            exact absurd h1 (by simp)
          · exact absurd h1 hcur
        · exact (ih _).1 hp
      · exact (ih _).2.2 h hcur hp
    · simp only [hskip, if_false]
      refine ⟨fun h => (ih _).1 (hadd h), fun h => (ih _).2.1 (hpend h), ?_⟩
      intro hmem hcur hp
      rcases List.mem_cons.1 hmem with h | h
      · subst h
        refine (ih _).1 ⟨(mem_set_insert _ _ _).2 (Or.inr rfl), ?_⟩
        rw [tree_count_assign]; simp
      · exact (ih _).2.2 h hcur (hpend hp)

theorem expand_frontier_spec (self : PolicyRunSampler) (current_successors : List StateID_type)
    (s child : StateID_type) (hchild : child ∈ self.get_policy_successors s)
    (hcur : child ∉ current_successors) (rest : List StateID_type) :
    ∀ (new_successors : List StateID_type) (search_tree : PolicyRunSampler.SearchTree),
      (∀ t ∈ rest, PolicyRunSampler.is_unsafe self t = false) →
      ∃ new_successors1 search_tree1,
        PolicyRunSampler.expand_frontier self current_successors rest new_successors search_tree
          = PolicyRunSampler.Expansion.frontier new_successors1 search_tree1 ∧
        (ChildAdded child (new_successors, search_tree) →
          ChildAdded child (new_successors1, search_tree1)) ∧
        (s ∈ rest → ChildPending child (new_successors, search_tree) →
          ChildAdded child (new_successors1, search_tree1)) := by
  induction rest with
  | nil =>
    intro new_successors search_tree _
    exact ⟨new_successors, search_tree, rfl, fun h => h, fun h => by simp at h⟩
  | cons t rest ih =>
    intro new_successors search_tree hsafe
    have ht := hsafe t (List.mem_cons_self _ _)
    have hrest : ∀ u ∈ rest, PolicyRunSampler.is_unsafe self u = false :=
      fun u hu => hsafe u (List.mem_cons_of_mem _ hu)
    have hspec := fun children => add_children_spec current_successors
      (PolicyRunSampler.tree_find search_tree t) child children (new_successors, search_tree)
    obtain ⟨n1, t1, he, hadd, hpend⟩ := ih
      (PolicyRunSampler.add_children current_successors (PolicyRunSampler.tree_find search_tree t)
        (self.get_policy_successors t) (new_successors, search_tree)).1
      (PolicyRunSampler.add_children current_successors (PolicyRunSampler.tree_find search_tree t)
        (self.get_policy_successors t) (new_successors, search_tree)).2 hrest
    refine ⟨n1, t1, ?_, ?_, ?_⟩
    · simp only [PolicyRunSampler.expand_frontier, ht, Bool.false_eq_true, if_false]
      exact he
    · intro h
      exact hadd ((hspec _).1 h)
    · intro hmem hp
      rcases List.mem_cons.1 hmem with h | h
      · subst h
        exact hadd ((hspec _).2.2 hchild hcur hp)
      · exact hpend h ((hspec _).2.1 hp)

theorem mem_min_states_to_distance (self : PolicyRunSampler)
    (current_successors : List StateID_type) (entry : StateID_type × Int) :
    entry ∈ self.min_states_to_distance current_successors
      ↔ entry.1 ∈ current_successors ∧ entry.2 = self.distance_to_avoid entry.1 ∧
        entry.2 ≤ self.min_distance current_successors := by
  unfold PolicyRunSampler.min_states_to_distance PolicyRunSampler.current_successors_distance
  simp only [List.mem_filter, List.mem_map, gt_iff_lt, Bool.not_eq_true', decide_eq_false_iff_not,
    not_lt]
  constructor
  · rintro ⟨⟨id, hid, rfl⟩, hle⟩
    exact ⟨hid, rfl, hle⟩
  · rintro ⟨hid, hd, hle⟩
    exact ⟨⟨entry.1, hid, by rw [← hd]⟩, hle⟩

/-- C30 (counterexample): in `sample_run` from the successors 1, 2 and 3 the frontier state 3
has distance 5, above the minimum 1 of its frontier, and is left out of the candidate map; its
policy successor 4 still enters the next frontier and the search tree, and is the leaf that
`sample_run` returns, with the path `[4, 3]`. -/
theorem state_above_minimum_is_expanded :
    (Example.sampler Example.x_eq_5).distance_to_avoid 3 = 5 ∧
    PolicyRunSampler.min_distance (Example.sampler Example.x_eq_5) [1, 2, 3] = 1 ∧
    PolicyRunSampler.min_states_to_distance (Example.sampler Example.x_eq_5) [1, 2, 3]
      = [(1, 1), (2, 1)] ∧
    PolicyRunSampler.get_policy_successors (Example.sampler Example.x_eq_5) 3 = [4] ∧
    PolicyRunSampler.expand_frontier (Example.sampler Example.x_eq_5) [1, 2, 3] [1, 2, 3] []
        [(1, SearchNode.root 1), (2, SearchNode.root 2), (3, SearchNode.root 3)]
      = PolicyRunSampler.Expansion.frontier [4]
          [(1, SearchNode.root 1), (2, SearchNode.root 2), (3, SearchNode.root 3),
           (4, SearchNode.child 4 (SearchNode.root 3))] ∧
    PolicyRunSampler.sample_run (Example.sampler Example.x_eq_5) 10 [1, 2, 3]
      = Sampled.ok (4, [4, 3]) := by
  decide

/-- C30 (amended): in an iteration of `sample_run` only the candidate map handed to the leaf
selection is pruned to the frontier states whose distance is not above the minimum; the frontier
is not. When no frontier state is unsafe, the expansion visits every frontier state, whatever its
distance, and every policy successor of a frontier state that is neither in the search tree nor
in the frontier is in the next frontier and in the search tree afterwards. -/
theorem frontier_is_expanded_whatever_the_distance (self : PolicyRunSampler)
    (current_successors : List StateID_type) (search_tree : PolicyRunSampler.SearchTree)
    (s child : StateID_type) (hs : s ∈ current_successors)
    (hsafe : ∀ t ∈ current_successors, PolicyRunSampler.is_unsafe self t = false)
    (hchild : child ∈ self.get_policy_successors s)
    (hnew : PolicyRunSampler.tree_count search_tree child = false)
    (hcur : child ∉ current_successors) :
    (∀ entry, entry ∈ self.min_states_to_distance current_successors
      ↔ entry.1 ∈ current_successors ∧ entry.2 = self.distance_to_avoid entry.1 ∧
        entry.2 ≤ self.min_distance current_successors) ∧
    ∃ new_successors search_tree1,
      PolicyRunSampler.expand_frontier self current_successors current_successors [] search_tree
        = PolicyRunSampler.Expansion.frontier new_successors search_tree1 ∧
      child ∈ new_successors ∧ PolicyRunSampler.tree_count search_tree1 child = true := by
  refine ⟨mem_min_states_to_distance self current_successors, ?_⟩
  obtain ⟨n1, t1, he, _, hpend⟩ := expand_frontier_spec self current_successors s child hchild
    hcur current_successors [] search_tree hsafe
  exact ⟨n1, t1, he, hpend hs (Or.inl hnew)⟩

/-- Witness for C30 (amended): the frontier 1, 2, 3 of the example, where state 3 has distance 5
and the policy successor 4. -/
theorem frontier_is_expanded_whatever_the_distance_witness :
    (∀ entry, entry ∈ PolicyRunSampler.min_states_to_distance (Example.sampler Example.x_eq_5)
        [1, 2, 3]
      ↔ entry.1 ∈ [(1 : StateID_type), 2, 3] ∧
        entry.2 = (Example.sampler Example.x_eq_5).distance_to_avoid entry.1 ∧
        entry.2 ≤ PolicyRunSampler.min_distance (Example.sampler Example.x_eq_5) [1, 2, 3]) ∧
    ∃ new_successors search_tree1,
      PolicyRunSampler.expand_frontier (Example.sampler Example.x_eq_5) [1, 2, 3] [1, 2, 3] []
          [(1, SearchNode.root 1), (2, SearchNode.root 2), (3, SearchNode.root 3)]
        = PolicyRunSampler.Expansion.frontier new_successors search_tree1 ∧
      4 ∈ new_successors ∧ PolicyRunSampler.tree_count search_tree1 4 = true :=
  frontier_is_expanded_whatever_the_distance (Example.sampler Example.x_eq_5) [1, 2, 3]
    [(1, SearchNode.root 1), (2, SearchNode.root 2), (3, SearchNode.root 3)] 3 4 (by decide)
    (by decide) (by decide) (by decide) (by decide)

/-! ## Invariant Strengthening verifier -/

theorem any_pass_add (self : InvariantStrengthening) (a b : Nat) :
    ∀ start, InvariantStrengthening.any_pass self start (a + b)
      = (InvariantStrengthening.any_pass self start a ||
          InvariantStrengthening.any_pass self (start + a) b) := by
  induction a with
  | zero => intro start; simp [InvariantStrengthening.any_pass]
  | succ a ih =>
    intro start
    have e : a + 1 + b = (a + b) + 1 := by omega
    rw [e]
    simp only [InvariantStrengthening.any_pass, ih, Bool.or_assoc]
    have e2 : start + 1 + a = start + (a + 1) := by omega
    rw [e2]

theorem any_pass_eq_false_iff (self : InvariantStrengthening) (n : Nat) :
    ∀ start, InvariantStrengthening.any_pass self start n = false
      ↔ ∀ k, k < n → InvariantStrengthening.passes self (start + k) = false := by
  induction n with
  | zero => intro start; simp [InvariantStrengthening.any_pass]
  | succ n ih =>
    intro start
    simp only [InvariantStrengthening.any_pass, Bool.or_eq_false_iff, ih]
    constructor
    · rintro ⟨h0, h1⟩ k hk
      cases k with
      | zero => exact h0
      | succ k =>
        have := h1 k (by omega)
        have e : start + 1 + k = start + (k + 1) := by omega
        rw [e] at this
        exact this
    · intro h
      refine ⟨h 0 (by omega), fun k hk => ?_⟩
      have := h (k + 1) (by omega)
      have e : start + 1 + k = start + (k + 1) := by omega
      rw [e]
      exact this

theorem verify_spec_bind (self : InvariantStrengthening) (n1 n2 : Nat)
    (acc : Bool × InvariantStrengthening.Members)
    (r1 : Outcome (Bool × InvariantStrengthening.Members))
    (f : Bool × InvariantStrengthening.Members →
      Outcome (Bool × InvariantStrengthening.Members)) :
    InvariantStrengthening.VerifySpec self n1 acc r1 →
    (∀ acc1, r1 = Outcome.ok acc1 → InvariantStrengthening.VerifySpec self n2 acc1 (f acc1)) →
    InvariantStrengthening.VerifySpec self (n1 + n2) acc
      (match r1 with
       | Outcome.ok acc1 => f acc1
       | Outcome.out_of_fuel => Outcome.out_of_fuel
       | Outcome.null_dereference => Outcome.null_dereference) := by
  intro h1 h2
  unfold InvariantStrengthening.VerifySpec at h1 h2 ⊢
  rw [any_pass_add]
  cases hp1 : InvariantStrengthening.any_pass self acc.2.visited n1 with
  | false =>
    obtain ⟨m1, hr1, hu1, hv1⟩ := h1.1 hp1
    have h2a := h2 (acc.1, m1) hr1
    simp only [hr1, Bool.false_or]
    simp only [hv1] at h2a
    constructor
    · intro hp2
      obtain ⟨m2, hr2, hu2, hv2⟩ := h2a.1 hp2
      exact ⟨m2, hr2, by rw [hu2, hu1], by rw [hv2]; omega⟩
    · intro hp2
      constructor
      · intro hnn
        obtain ⟨m2, hr2, hu2, hv2⟩ := (h2a.2 hp2).1 hnn
        exact ⟨m2, hr2, hu2, by rw [hv2]; omega⟩
      · intro hnn
        exact (h2a.2 hp2).2 hnn
  | true =>
    simp only [Bool.true_or, Bool.true_eq_false, false_implies, true_implies, true_and]
    constructor
    · intro hnn
      obtain ⟨m1, hr1, hu1, hv1⟩ := (h1.2 hp1).1 hnn
      have h2a := h2 (true, m1) hr1
      simp only [hr1]
      simp only [hv1] at h2a
      cases hp2 : InvariantStrengthening.any_pass self (acc.2.visited + n1) n2 with
      | false =>
        obtain ⟨m2, hr2, hu2, hv2⟩ := h2a.1 hp2
        exact ⟨m2, hr2, by rw [hu2]; exact hu1, by rw [hv2]; omega⟩
      | true =>
        obtain ⟨m2, hr2, hu2, hv2⟩ := (h2a.2 hp2).1 hnn
        exact ⟨m2, hr2, hu2, by rw [hv2]; omega⟩
    · intro hnn
      rw [(h1.2 hp1).2 hnn]

theorem verify_updates_spec (self : InvariantStrengthening) (action_op_id : Nat)
    (updates : List Nat) :
    ∀ acc : Bool × InvariantStrengthening.Members,
      InvariantStrengthening.VerifySpec self updates.length acc
        (self.verify_updates action_op_id updates acc) := by
  induction updates with
  | nil =>
    intro acc
    obtain ⟨violation_found, members⟩ := acc
    unfold InvariantStrengthening.VerifySpec
    simp [InvariantStrengthening.any_pass, InvariantStrengthening.verify_updates]
  | cons update_index rest ih =>
    intro acc
    obtain ⟨violation_found, members⟩ := acc
    have e : (update_index :: rest).length = 1 + rest.length := by
      simp only [List.length_cons]; omega
    rw [e]
    have hone : ∀ r1 : Outcome (Bool × InvariantStrengthening.Members),
        InvariantStrengthening.VerifySpec self 1 (violation_found, members) r1 →
        self.verify_updates action_op_id (update_index :: rest) (violation_found, members)
          = (match r1 with
             | Outcome.ok acc1 => self.verify_updates action_op_id rest acc1
             | Outcome.out_of_fuel => Outcome.out_of_fuel
             | Outcome.null_dereference => Outcome.null_dereference) →
        InvariantStrengthening.VerifySpec self (1 + rest.length) (violation_found, members)
          (self.verify_updates action_op_id (update_index :: rest) (violation_found, members)) := by
      intro r1 hs he
      rw [he]
      exact verify_spec_bind self 1 rest.length _ r1 _ hs (fun acc1 _ => ih acc1)
    cases hz : self.z3_answers members.visited with
    | false =>
      refine hone (Outcome.ok (violation_found,
        { (self.exists_non_policy_transitions members action_op_id update_index self.do_locs).2
          with visited := members.visited + 1 })) ?_ ?_
      · unfold InvariantStrengthening.VerifySpec
        simp [InvariantStrengthening.any_pass, InvariantStrengthening.passes, hz,
          InvariantStrengthening.exists_non_policy_transitions]
      · simp [InvariantStrengthening.verify_updates,
          InvariantStrengthening.exists_non_policy_transitions, hz]
    | true =>
      cases hnn : self.has_nn with
      | false =>
        refine hone Outcome.null_dereference ?_ ?_
        · unfold InvariantStrengthening.VerifySpec
          simp [InvariantStrengthening.any_pass, InvariantStrengthening.passes, hz, hnn]
        · simp [InvariantStrengthening.verify_updates,
            InvariantStrengthening.exists_non_policy_transitions, hz, hnn,
            InvariantStrengthening.extract_solver_solution]
      | true =>
        cases hm : self.marabou_answers members.visited with
        | false =>
          refine hone (Outcome.ok (violation_found,
            { (self.exists_policy_transitions
                (self.exists_non_policy_transitions members action_op_id update_index
                  self.do_locs).2 action_op_id update_index self.do_locs).2
              with visited := members.visited + 1 })) ?_ ?_
          · unfold InvariantStrengthening.VerifySpec
            simp [InvariantStrengthening.any_pass, InvariantStrengthening.passes, hz, hnn, hm,
              InvariantStrengthening.exists_non_policy_transitions,
              InvariantStrengthening.exists_policy_transitions]
          · simp [InvariantStrengthening.verify_updates,
              InvariantStrengthening.exists_non_policy_transitions,
              InvariantStrengthening.exists_policy_transitions, hz, hnn, hm]
        | true =>
          refine hone (Outcome.ok (true,
            { unsafe_states := members.unsafe_states ++ [self.solutions members.visited]
              z3_calls := (self.exists_non_policy_transitions members action_op_id update_index
                self.do_locs).2.z3_calls
              marabou_calls := (self.exists_policy_transitions
                (self.exists_non_policy_transitions members action_op_id update_index
                  self.do_locs).2 action_op_id update_index self.do_locs).2.marabou_calls ++
                [InvariantStrengthening.SolverCall.extract_solution,
                 InvariantStrengthening.SolverCall.reset]
              visited := members.visited + 1 })) ?_ ?_
          · unfold InvariantStrengthening.VerifySpec
            simp [InvariantStrengthening.any_pass, InvariantStrengthening.passes, hz, hnn, hm]
          · simp [InvariantStrengthening.verify_updates,
              InvariantStrengthening.exists_non_policy_transitions,
              InvariantStrengthening.exists_policy_transitions, hz, hnn, hm,
              InvariantStrengthening.extract_solver_solution]

theorem verify_ops_spec (self : InvariantStrengthening)
    (action_ops : List InvariantStrengthening.ActionOp) :
    ∀ acc : Bool × InvariantStrengthening.Members,
      InvariantStrengthening.VerifySpec self
        (action_ops.flatMap fun action_op =>
          action_op.update_indexes.map fun update_index => (action_op.op_id, update_index)).length
        acc (self.verify_ops action_ops acc) := by
  induction action_ops with
  | nil =>
    intro acc
    obtain ⟨violation_found, members⟩ := acc
    unfold InvariantStrengthening.VerifySpec
    simp [InvariantStrengthening.any_pass, InvariantStrengthening.verify_ops]
  | cons action_op rest ih =>
    intro acc
    simp only [List.flatMap_cons, List.length_append, List.length_map,
      InvariantStrengthening.verify_ops]
    exact verify_spec_bind self _ _ acc _ _
      (verify_updates_spec self action_op.op_id action_op.update_indexes acc)
      (fun acc1 _ => ih acc1)

theorem verify_labels_spec (self : InvariantStrengthening)
    (labels : List InvariantStrengthening.ActionLabel) :
    ∀ acc : Bool × InvariantStrengthening.Members,
      InvariantStrengthening.VerifySpec self
        (labels.flatMap fun entry =>
          entry.action_ops.flatMap fun action_op =>
            action_op.update_indexes.map fun update_index =>
              (action_op.op_id, update_index)).length
        acc (self.verify_labels labels acc) := by
  induction labels with
  | nil =>
    intro acc
    obtain ⟨violation_found, members⟩ := acc
    unfold InvariantStrengthening.VerifySpec
    simp [InvariantStrengthening.any_pass, InvariantStrengthening.verify_labels]
  | cons entry rest ih =>
    intro acc
    obtain ⟨violation_found, members⟩ := acc
    simp only [List.flatMap_cons, List.length_append, InvariantStrengthening.verify_labels]
    have hops := verify_ops_spec self entry.action_ops (violation_found,
      if (self.has_nn && entry.is_learned) = true then
        { members with
          marabou_calls := members.marabou_calls ++
            [InvariantStrengthening.SolverCall.add_output_interface entry.action_label 0] }
      else members)
    have hops2 : InvariantStrengthening.VerifySpec self
        (entry.action_ops.flatMap fun action_op =>
          action_op.update_indexes.map fun update_index =>
            (action_op.op_id, update_index)).length (violation_found, members)
        (self.verify_ops entry.action_ops (violation_found,
          if (self.has_nn && entry.is_learned) = true then
            { members with
              marabou_calls := members.marabou_calls ++
                [InvariantStrengthening.SolverCall.add_output_interface entry.action_label 0] }
          else members)) := by
      unfold InvariantStrengthening.VerifySpec at hops ⊢
      by_cases hc : (self.has_nn && entry.is_learned) = true
      · simp only [hc, if_true] at hops ⊢
        exact hops
      · simp only [hc, if_false] at hops ⊢
        exact hops
    exact verify_spec_bind self _ _ (violation_found, members) _ _ hops2 (fun acc1 _ => ih acc1)
/-- C24 (the code departs from the claim): the argument `agree` of the final `assert` of `verify`
is `unsafe_states.empty() == violation_found`, and on every path to the end of `verify`, entered
with an empty set, the set is empty exactly when `violation_found` is false. In a build that
evaluates assertions no call of `verify` returns: it aborts at the assertion, or dereferences the
null `model_marabou` before it, and `run` returns no set. Only in a build with `NDEBUG` does the
claim hold: the set is empty exactly when no violation was found, that is, when no visited pair
of action op and update passed its solver checks, `run` returns the empty set exactly then, and
with a network `verify` returns. In the example with two learned labels, built without `NDEBUG`,
`verify` and `run` abort. -/
theorem verify_aborts_at_its_final_assertion (self : InvariantStrengthening)
    (members : InvariantStrengthening.Members) :
    (self.NDEBUG = false →
      (∀ verified, self.verify { members with unsafe_states := [] }
        ≠ InvariantStrengthening.Asserted.ok verified) ∧
      (∀ set, self.run { members with unsafe_states := [] }
        ≠ InvariantStrengthening.Asserted.ok set) ∧
      (self.has_nn = true →
        self.verify { members with unsafe_states := [] }
          = InvariantStrengthening.Asserted.assertion_failure ∧
        self.run { members with unsafe_states := [] }
          = InvariantStrengthening.Asserted.assertion_failure)) ∧
    (self.NDEBUG = true →
      (∀ verified, self.verify { members with unsafe_states := [] }
          = InvariantStrengthening.Asserted.ok verified →
        (verified.members.unsafe_states = [] ↔ verified.violation_found = false) ∧
        (verified.violation_found = false ↔
          ∀ k, k < self.pairs.length →
            InvariantStrengthening.passes self (members.visited + k) = false) ∧
        verified.agree = false) ∧
      (self.run { members with unsafe_states := [] } = InvariantStrengthening.Asserted.ok [] ↔
        ∀ k, k < self.pairs.length →
          InvariantStrengthening.passes self (members.visited + k) = false) ∧
      (self.has_nn = true →
        ∃ verified, self.verify { members with unsafe_states := [] }
          = InvariantStrengthening.Asserted.ok verified)) ∧
    InvariantStrengthening.verify { Example.two_label_verifier with NDEBUG := false }
        Example.fresh_members = InvariantStrengthening.Asserted.assertion_failure ∧
    InvariantStrengthening.run { Example.two_label_verifier with NDEBUG := false }
        Example.fresh_members = InvariantStrengthening.Asserted.assertion_failure := by
  refine ⟨?_, ?_, by decide, by decide⟩
  all_goals
    have hspec := verify_labels_spec self self.suc_gen
      (false,
        { unsafe_states := []
          z3_calls := members.z3_calls ++
            [InvariantStrengthening.SolverCall.push,
             InvariantStrengthening.SolverCall.add_to_solver
               InvariantStrengthening.Condition.start 0,
             InvariantStrengthening.SolverCall.add_to_solver
               InvariantStrengthening.Condition.unsafety 1]
          marabou_calls := members.marabou_calls ++
            (if self.has_nn then
              [InvariantStrengthening.SolverCall.push,
               InvariantStrengthening.SolverCall.add_to_solver
                 InvariantStrengthening.Condition.start 0,
               InvariantStrengthening.SolverCall.add_to_solver
                 InvariantStrengthening.Condition.unsafety 1]
             else [])
          visited := members.visited })
    unfold InvariantStrengthening.VerifySpec at hspec
    have hlen : (self.suc_gen.flatMap fun entry =>
        entry.action_ops.flatMap fun action_op =>
          action_op.update_indexes.map fun update_index =>
            (action_op.op_id, update_index)).length = self.pairs.length := rfl
    rw [hlen] at hspec
    simp only at hspec
    intro hnd
  · cases hp : InvariantStrengthening.any_pass self members.visited self.pairs.length with
    | false =>
      obtain ⟨m1, hr, hu, _⟩ := hspec.1 hp
      have hv : self.verify { members with unsafe_states := [] }
          = InvariantStrengthening.Asserted.assertion_failure := by
        simp only [InvariantStrengthening.verify, hr, hu, hnd, List.isEmpty_nil]
        simp
      refine ⟨?_, ?_, fun _ => ⟨hv, ?_⟩⟩
      · intro verified; rw [hv]; simp
      · intro set; simp [InvariantStrengthening.run, hv]
      · simp [InvariantStrengthening.run, hv]
    | true =>
      cases hnn : self.has_nn with
      | true =>
        obtain ⟨m1, hr, hu, _⟩ := (hspec.2 hp).1 hnn
        have hne : m1.unsafe_states.isEmpty = false := by
          cases h : m1.unsafe_states with
          | nil => exact absurd h hu
          | cons a l => rfl
        have hv : self.verify { members with unsafe_states := [] }
            = InvariantStrengthening.Asserted.assertion_failure := by
          simp only [InvariantStrengthening.verify, hnn, if_true] at hr ⊢
          simp only [hr, hne, hnd]
          simp
        refine ⟨?_, ?_, fun _ => ⟨hv, ?_⟩⟩
        · intro verified; rw [hv]; simp
        · intro set; simp [InvariantStrengthening.run, hv]
        · simp [InvariantStrengthening.run, hv]
      | false =>
        have hr := (hspec.2 hp).2 hnn
        have hv : self.verify { members with unsafe_states := [] }
            = InvariantStrengthening.Asserted.null_dereference := by
          simp only [InvariantStrengthening.verify, hnn] at hr ⊢
          simp only [hr]
        refine ⟨?_, ?_, fun h => by simp at h⟩
        · intro verified; rw [hv]; simp
        · intro set; simp [InvariantStrengthening.run, hv]
  · rw [← any_pass_eq_false_iff]
    cases hp : InvariantStrengthening.any_pass self members.visited self.pairs.length with
    | false =>
      obtain ⟨m1, hr, hu, _⟩ := hspec.1 hp
      have hv : self.verify { members with unsafe_states := [] }
          = InvariantStrengthening.Asserted.ok
            { members :=
                { m1 with
                  marabou_calls := m1.marabou_calls ++
                    (if self.has_nn then [InvariantStrengthening.SolverCall.pop] else [])
                  z3_calls := m1.z3_calls ++ [InvariantStrengthening.SolverCall.pop] }
              violation_found := false
              agree := false } := by
        simp only [InvariantStrengthening.verify, hr, hu, hnd, List.isEmpty_nil]
        simp
      refine ⟨?_, ?_, fun _ => ⟨_, hv⟩⟩
      · intro verified hverified
        rw [hv] at hverified
        cases hverified
        simp [hu]
      · simp [InvariantStrengthening.run, hv, hu]
    | true =>
      cases hnn : self.has_nn with
      | true =>
        obtain ⟨m1, hr, hu, _⟩ := (hspec.2 hp).1 hnn
        have hne : m1.unsafe_states.isEmpty = false := by
          cases h : m1.unsafe_states with
          | nil => exact absurd h hu
          | cons a l => rfl
        have hv : self.verify { members with unsafe_states := [] }
            = InvariantStrengthening.Asserted.ok
              { members :=
                  { m1 with
                    marabou_calls := m1.marabou_calls ++ [InvariantStrengthening.SolverCall.pop]
                    z3_calls := m1.z3_calls ++ [InvariantStrengthening.SolverCall.pop] }
                violation_found := true
                agree := false } := by
          simp only [InvariantStrengthening.verify, hnn, if_true] at hr ⊢
          simp only [hr, hne, hnd]
          simp
        refine ⟨?_, ?_, fun _ => ⟨_, hv⟩⟩
        · intro verified hverified
          rw [hv] at hverified
          cases hverified
          simp [hu]
        · simp [InvariantStrengthening.run, hv, hu]
      | false =>
        have hr := (hspec.2 hp).2 hnn
        have hv : self.verify { members with unsafe_states := [] }
            = InvariantStrengthening.Asserted.null_dereference := by
          simp only [InvariantStrengthening.verify, hnn] at hr ⊢
          simp only [hr]
        refine ⟨?_, ?_, fun h => by simp at h⟩
        · intro verified hverified
          rw [hv] at hverified
          cases hverified
        · simp [InvariantStrengthening.run, hv]

/-! ## Choice among the seeds -/

theorem expand_dim_ordered (fuel : Nat) (val_set : List (List Int)) (model : Model)
    (c c1 : BoundedBox.Corners) (dim size : Nat)
    (h : BoundedBox.expand_dim fuel val_set model c dim = some c1)
    (ho : OrderedCorners size c.min_corner c.max_corner) :
    OrderedCorners size c1.min_corner c1.max_corner := by
  unfold BoundedBox.expand_dim at h
  obtain ⟨hl1, hl2, hle⟩ := ho
  cases hb1 : BoundedBox.is_bounded fuel
      (c.min_corner.set dim (BoundedBox.at_dim c.min_corner dim - 1)) c.max_corner val_set
      model with
  | none => simp [hb1] at h
  | some b1 =>
    simp only [hb1] at h
    split at h
    · simp at h
    · rename_i b2 hb2
      simp only [Option.some.injEq] at h
      subst h
      refine ⟨?_, ?_, ?_⟩
      · cases b1 <;> simp [hl1]
      · cases b2 <;> simp [hl2]
      · intro d hd
        have h0 := hle d hd
        have hmin : BoundedBox.at_dim
            (if (!b1) = true then
              (c.min_corner.set dim (BoundedBox.at_dim c.min_corner dim - 1)).set dim
                (BoundedBox.at_dim
                  (c.min_corner.set dim (BoundedBox.at_dim c.min_corner dim - 1)) dim + 1)
            else c.min_corner.set dim (BoundedBox.at_dim c.min_corner dim - 1)) d
            ≤ BoundedBox.at_dim c.min_corner d := by
          cases b1 <;>
            simp only [Bool.not_false, Bool.not_true, Bool.false_eq_true, if_true, if_false,
              at_dim_set_eq, List.length_set] <;>
            (rcases eq_or_ne dim d with rfl | hd1) <;>
            by_cases hd2 : dim < c.min_corner.length <;> simp [*]
        have hmax : BoundedBox.at_dim c.max_corner d ≤ BoundedBox.at_dim
            (if (!b2) = true then
              (c.max_corner.set dim (BoundedBox.at_dim c.max_corner dim + 1)).set dim
                (BoundedBox.at_dim
                  (c.max_corner.set dim (BoundedBox.at_dim c.max_corner dim + 1)) dim - 1)
            else c.max_corner.set dim (BoundedBox.at_dim c.max_corner dim + 1)) d := by
          cases b2 <;>
            simp only [Bool.not_false, Bool.not_true, Bool.false_eq_true, if_true, if_false,
              at_dim_set_eq, List.length_set] <;>
            (rcases eq_or_ne dim d with rfl | hd1) <;>
            by_cases hd2 : dim < c.max_corner.length <;> simp [*]
        exact le_trans hmin (le_trans h0 hmax)

theorem sweep_ordered (fuel : Nat) (val_set : List (List Int)) (model : Model) (size : Nat)
    (dims : List Nat) :
    ∀ c c1 : BoundedBox.Corners, BoundedBox.sweep fuel val_set model dims c = some c1 →
      OrderedCorners size c.min_corner c.max_corner →
      OrderedCorners size c1.min_corner c1.max_corner := by
  induction dims with
  | nil =>
    intro c c1 h ho
    simp only [BoundedBox.sweep, Option.some.injEq] at h
    subst h
    exact ho
  | cons dim dims ih =>
    intro c c1 h ho
    simp only [BoundedBox.sweep] at h
    cases he : BoundedBox.expand_dim fuel val_set model c dim with
    | none => simp [he] at h
    | some c2 =>
      simp only [he] at h
      exact ih c2 c1 h (expand_dim_ordered fuel val_set model c c2 dim size he ho)

theorem expand_ordered (point_fuel : Nat) (val_set : List (List Int)) (model : Model)
    (size fuel : Nat) :
    ∀ (min_corner max_corner : List Int) (box : List Int × List Int),
      BoundedBox.expand point_fuel val_set model size fuel min_corner max_corner = some box →
      OrderedCorners size min_corner max_corner → OrderedCorners size box.1 box.2 := by
  induction fuel with
  | zero => intro mn mx box h; simp [BoundedBox.expand] at h
  | succ k ih =>
    intro mn mx box h ho
    simp only [BoundedBox.expand] at h
    cases hs : BoundedBox.sweep point_fuel val_set model (List.range size)
        { min_corner := mn, max_corner := mx, fixed_point := true } with
    | none => simp [hs] at h
    | some c =>
      simp only [hs] at h
      have hc := sweep_ordered point_fuel val_set model size (List.range size) _ c hs ho
      by_cases hfp : c.fixed_point = true
      · simp only [hfp, if_true, Option.some.injEq] at h
        subst h
        exact hc
      · simp only [hfp, Bool.false_eq_true, if_false] at h
        exact ih c.min_corner c.max_corner box h hc

theorem find_best_first_maximum (fuel : Nat) (val_set : List (List Int)) (model : Model)
    (states : List StateBase) :
    ∀ best result : BoundedBox.Best,
      BoundedBox.find_best fuel val_set model states best = some result →
      (result = best ∧
        ∀ t ∈ states, ∀ b : List Int × List Int,
          BoundedBox.expand fuel val_set model (BoundedBox.get_state_vec t).length fuel
            (BoundedBox.get_state_vec t) (BoundedBox.get_state_vec t) = some b →
          BoundedBox.compute_volume b.1 b.2 (BoundedBox.get_state_vec t).length
            ≤ best.max_volume) ∨
      (∃ (pre : List StateBase) (s : StateBase) (post : List StateBase)
          (box : List Int × List Int),
        states = pre ++ s :: post ∧
        BoundedBox.expand fuel val_set model (BoundedBox.get_state_vec s).length fuel
          (BoundedBox.get_state_vec s) (BoundedBox.get_state_vec s) = some box ∧
        result = { max_volume :=
                     BoundedBox.compute_volume box.1 box.2 (BoundedBox.get_state_vec s).length
                   best_min := box.1, best_max := box.2 } ∧
        best.max_volume
          < BoundedBox.compute_volume box.1 box.2 (BoundedBox.get_state_vec s).length ∧
        (∀ t ∈ pre, ∀ b : List Int × List Int,
          BoundedBox.expand fuel val_set model (BoundedBox.get_state_vec t).length fuel
            (BoundedBox.get_state_vec t) (BoundedBox.get_state_vec t) = some b →
          BoundedBox.compute_volume b.1 b.2 (BoundedBox.get_state_vec t).length
            < BoundedBox.compute_volume box.1 box.2 (BoundedBox.get_state_vec s).length) ∧
        (∀ t ∈ post, ∀ b : List Int × List Int,
          BoundedBox.expand fuel val_set model (BoundedBox.get_state_vec t).length fuel
            (BoundedBox.get_state_vec t) (BoundedBox.get_state_vec t) = some b →
          BoundedBox.compute_volume b.1 b.2 (BoundedBox.get_state_vec t).length
            ≤ BoundedBox.compute_volume box.1 box.2 (BoundedBox.get_state_vec s).length)) := by
  induction states with
  | nil =>
    intro best result h
    simp only [BoundedBox.find_best, Option.some.injEq] at h
    exact Or.inl ⟨h.symm, fun t ht => by simp at ht⟩
  | cons s rest ih =>
    intro best result h
    simp only [BoundedBox.find_best] at h
    cases hstep : BoundedBox.seed_step fuel val_set model best s with
    | none => simp [hstep] at h
    | some best1 =>
      simp only [hstep] at h
      unfold BoundedBox.seed_step at hstep
      cases hbox : BoundedBox.expand fuel val_set model (BoundedBox.get_state_vec s).length fuel
          (BoundedBox.get_state_vec s) (BoundedBox.get_state_vec s) with
      | none => simp [hbox] at hstep
      | some box =>
        obtain ⟨mn, mx⟩ := box
        simp only [hbox] at hstep
        by_cases hgt : BoundedBox.compute_volume mn mx (BoundedBox.get_state_vec s).length
            > best.max_volume
        · simp only [hgt, if_true, Option.some.injEq] at hstep
          subst hstep
          rcases ih _ result h with ⟨hres, hall⟩ | ⟨pre, s1, post, box1, hsplit, hb1, hres, hlt,
            hpre, hpost⟩
          · refine Or.inr ⟨[], s, rest, (mn, mx), rfl, hbox, hres, hgt, ?_, ?_⟩
            · intro t ht; simp at ht
            · exact hall
          · refine Or.inr ⟨s :: pre, s1, post, box1, by rw [hsplit]; rfl, hb1, hres, ?_, ?_,
              hpost⟩
            · exact lt_trans hgt hlt
            · intro t ht b hb
              rcases List.mem_cons.1 ht with e | e
              · subst e
                rw [hbox] at hb
                cases hb
                exact hlt
              · exact hpre t e b hb
        · simp only [hgt, if_false, Option.some.injEq] at hstep
          subst hstep
          rcases ih _ result h with ⟨hres, hall⟩ | ⟨pre, s1, post, box1, hsplit, hb1, hres, hlt,
            hpre, hpost⟩
          · refine Or.inl ⟨hres, ?_⟩
            intro t ht b hb
            rcases List.mem_cons.1 ht with e | e
            · subst e
              rw [hbox] at hb
              cases hb
              exact not_lt.1 hgt
            · exact hall t e b hb
          · refine Or.inr ⟨s :: pre, s1, post, box1, by rw [hsplit]; rfl, hb1, hres, hlt, ?_,
              hpost⟩
            intro t ht b hb
            rcases List.mem_cons.1 ht with e | e
            · subst e
              rw [hbox] at hb
              cases hb
              exact lt_of_le_of_lt (not_lt.1 hgt) hlt
            · exact hpre t e b hb

theorem finished_box_exists (val_set : List (List Int)) (model : Model) (state : StateBase)
    (h : BoundedBox.get_state_vec state ∈ val_set) :
    ∃ box N, (∀ fuel, N ≤ fuel →
        BoundedBox.expand fuel val_set model (BoundedBox.get_state_vec state).length fuel
          (BoundedBox.get_state_vec state) (BoundedBox.get_state_vec state) = some box) ∧
      FinishedBox val_set model state box ∧
      OrderedCorners (BoundedBox.get_state_vec state).length box.1 box.2 := by
  obtain ⟨r, N, hN⟩ := expand_terminates val_set model (BoundedBox.get_state_vec state).length
    (BoundedBox.get_state_vec state) (BoundedBox.get_state_vec state) rfl rfl h h
  refine ⟨r, N, fun fuel hf => hN fuel fuel hf hf, ⟨N, fun fuel hf => hN fuel fuel hf hf⟩, ?_⟩
  exact expand_ordered N val_set model _ N _ _ r (hN N N (le_refl _) (le_refl _))
    ⟨rfl, rfl, fun d _ => le_refl _⟩

theorem finished_boxes_uniform (val_set : List (List Int)) (model : Model)
    (states : List StateBase) (h : ∀ s ∈ states, BoundedBox.get_state_vec s ∈ val_set) :
    ∃ M, ∀ s ∈ states, ∀ fuel, M ≤ fuel → ∀ b : List Int × List Int,
      (BoundedBox.expand fuel val_set model (BoundedBox.get_state_vec s).length fuel
          (BoundedBox.get_state_vec s) (BoundedBox.get_state_vec s) = some b
        ↔ FinishedBox val_set model s b) := by
  induction states with
  | nil => exact ⟨0, fun s hs => by simp at hs⟩
  | cons s rest ih =>
    obtain ⟨M, hM⟩ := ih (fun t ht => h t (List.mem_cons_of_mem _ ht))
    obtain ⟨box, N, hN, hfin, _⟩ := finished_box_exists val_set model s
      (h s (List.mem_cons_self _ _))
    refine ⟨max M N, ?_⟩
    intro t ht fuel hf b
    rcases List.mem_cons.1 ht with e | e
    · subst e
      have he := hN fuel (le_trans (le_max_right _ _) hf)
      constructor
      · intro hb
        rw [he] at hb
        cases hb
        exact hfin
      · intro hb
        rw [he, terminates_unique _ _ _ hfin hb]
    · exact hM t e fuel (le_trans (le_max_left _ _) hf) b
theorem expand_dim_mem (fuel : Nat) (val_set : List (List Int)) (model : Model)
    (c c1 : BoundedBox.Corners) (dim size : Nat)
    (h : BoundedBox.expand_dim fuel val_set model c dim = some c1)
    (ho : OrderedCorners size c.min_corner c.max_corner) (hd : dim < size)
    (hmin : c.min_corner ∈ val_set) (hmax : c.max_corner ∈ val_set) :
    c1.min_corner ∈ val_set ∧ c1.max_corner ∈ val_set := by
  unfold BoundedBox.expand_dim at h
  obtain ⟨hl1, hl2, _⟩ := ho
  have hd1 : dim < c.min_corner.length := by rw [hl1]; exact hd
  have hd2 : dim < c.max_corner.length := by rw [hl2]; exact hd
  cases hb1 : BoundedBox.is_bounded fuel
      (c.min_corner.set dim (BoundedBox.at_dim c.min_corner dim - 1)) c.max_corner val_set
      model with
  | none => simp [hb1] at h
  | some b1 =>
    simp only [hb1] at h
    split at h
    · simp at h
    · rename_i b2 hb2
      simp only [Option.some.injEq] at h
      subst h
      constructor
      · cases b1 with
        | false =>
          simp only [Bool.not_false, if_true]
          rw [set_revert _ _ _ _ hd1 (by rw [at_dim_set _ _ _ hd1]; omega)]
          exact hmin
        | true =>
          simp only [Bool.not_true, Bool.false_eq_true, if_false]
          exact is_bounded_true_mem fuel _ _ _ _ hb1
      · cases b2 with
        | false =>
          simp only [Bool.not_false, if_true]
          rw [set_revert _ _ _ _ hd2 (by rw [at_dim_set _ _ _ hd2]; omega)]
          exact hmax
        | true =>
          simp only [Bool.not_true, Bool.false_eq_true, if_false]
          exact is_bounded_true_mem fuel _ _ _ _ hb2

theorem sweep_mem (fuel : Nat) (val_set : List (List Int)) (model : Model) (size : Nat)
    (dims : List Nat) :
    ∀ c c1 : BoundedBox.Corners, BoundedBox.sweep fuel val_set model dims c = some c1 →
      OrderedCorners size c.min_corner c.max_corner → (∀ dim ∈ dims, dim < size) →
      c.min_corner ∈ val_set → c.max_corner ∈ val_set →
      c1.min_corner ∈ val_set ∧ c1.max_corner ∈ val_set := by
  induction dims with
  | nil =>
    intro c c1 h _ _ hmin hmax
    simp only [BoundedBox.sweep, Option.some.injEq] at h
    subst h
    exact ⟨hmin, hmax⟩
  | cons dim dims ih =>
    intro c c1 h ho hdims hmin hmax
    simp only [BoundedBox.sweep] at h
    cases he : BoundedBox.expand_dim fuel val_set model c dim with
    | none => simp [he] at h
    | some c2 =>
      simp only [he] at h
      have hm := expand_dim_mem fuel val_set model c c2 dim size he ho
        (hdims dim (List.mem_cons_self _ _)) hmin hmax
      exact ih c2 c1 h (expand_dim_ordered fuel val_set model c c2 dim size he ho)
        (fun d hd => hdims d (List.mem_cons_of_mem _ hd)) hm.1 hm.2

theorem expand_mem (point_fuel : Nat) (val_set : List (List Int)) (model : Model)
    (size fuel : Nat) :
    ∀ (min_corner max_corner : List Int) (box : List Int × List Int),
      BoundedBox.expand point_fuel val_set model size fuel min_corner max_corner = some box →
      OrderedCorners size min_corner max_corner →
      min_corner ∈ val_set → max_corner ∈ val_set → box.1 ∈ val_set ∧ box.2 ∈ val_set := by
  induction fuel with
  | zero => intro mn mx box h; simp [BoundedBox.expand] at h
  | succ k ih =>
    intro mn mx box h ho hmin hmax
    simp only [BoundedBox.expand] at h
    cases hs : BoundedBox.sweep point_fuel val_set model (List.range size)
        { min_corner := mn, max_corner := mx, fixed_point := true } with
    | none => simp [hs] at h
    | some c =>
      simp only [hs] at h
      have hc := sweep_ordered point_fuel val_set model size (List.range size) _ c hs ho
      have hm := sweep_mem point_fuel val_set model size (List.range size) _ c hs ho
        (fun d hd => List.mem_range.1 hd) hmin hmax
      by_cases hfp : c.fixed_point = true
      · simp only [hfp, if_true, Option.some.injEq] at h
        subst h
        exact hm
      · simp only [hfp, Bool.false_eq_true, if_false] at h
        exact ih c.min_corner c.max_corner box h hc hm.1 hm.2

/-- Both corners of a finished box are points of the set, and the box is ordered. -/
theorem finished_box_corners (val_set : List (List Int)) (model : Model) (state : StateBase)
    (box : List Int × List Int) (h : BoundedBox.get_state_vec state ∈ val_set)
    (hfin : FinishedBox val_set model state box) :
    box.1 ∈ val_set ∧ box.2 ∈ val_set ∧
      OrderedCorners (BoundedBox.get_state_vec state).length box.1 box.2 := by
  obtain ⟨N, hN⟩ := hfin
  have e := hN N (le_refl _)
  simp only at e
  have ho : OrderedCorners (BoundedBox.get_state_vec state).length
      (BoundedBox.get_state_vec state) (BoundedBox.get_state_vec state) :=
    ⟨rfl, rfl, fun d _ => le_refl _⟩
  have hm := expand_mem N val_set model _ N _ _ box e ho h h
  exact ⟨hm.1, hm.2, expand_ordered N val_set model _ N _ _ box e ho⟩

/-- On mathematical integers: for a non-empty state set in a given seed order whose finished
boxes have fewer than `2^64` lattice points each (the volume is computed in `size_t`), every seed
has a finished box, the search returns, the returned volume is the number of lattice points
`prod_d (max_d - min_d + 1)` of the returned box, the returned box is the finished box of a seed,
every seed before it in the order has a finished box of smaller volume, and every seed after it
one of at most this volume. -/
theorem first_seed_of_maximal_volume_on_integers (state_set : List StateBase) (model : Model)
    (hne : state_set ≠ [])
    (hvol : ∀ s ∈ state_set, ∀ box : List Int × List Int,
      FinishedBox (state_set.map BoundedBox.get_state_vec) model s box →
      lattice_points box.1 box.2 < 2 ^ 64) :
    (∀ s ∈ state_set, ∃ box : List Int × List Int,
      FinishedBox (state_set.map BoundedBox.get_state_vec) model s box) ∧
    ∃ best : BoundedBox.Best,
      Terminates (fun fuel => BoundedBox.compute_bounded_box fuel state_set model)
        (best.max_volume, BoundedBox.box_expression best model) ∧
      ∃ (pre : List StateBase) (seed : StateBase) (post : List StateBase),
        state_set = pre ++ seed :: post ∧
        FinishedBox (state_set.map BoundedBox.get_state_vec) model seed
          (best.best_min, best.best_max) ∧
        best.max_volume = lattice_points best.best_min best.best_max ∧
        (∀ s ∈ pre, ∀ box : List Int × List Int,
          FinishedBox (state_set.map BoundedBox.get_state_vec) model s box →
          lattice_points box.1 box.2 < best.max_volume) ∧
        (∀ s ∈ post, ∀ box : List Int × List Int,
          FinishedBox (state_set.map BoundedBox.get_state_vec) model s box →
          lattice_points box.1 box.2 ≤ best.max_volume) := by
  have hmem : ∀ s ∈ state_set,
      BoundedBox.get_state_vec s ∈ state_set.map BoundedBox.get_state_vec :=
    fun s hs => List.mem_map_of_mem _ hs
  have hex : ∀ s ∈ state_set, ∃ box : List Int × List Int,
      FinishedBox (state_set.map BoundedBox.get_state_vec) model s box := by
    intro s hs
    obtain ⟨box, _, _, hfin, _⟩ := finished_box_exists _ model s (hmem s hs)
    exact ⟨box, hfin⟩
  refine ⟨hex, ?_⟩
  obtain ⟨best, Nb, hNb⟩ := find_best_terminates (state_set.map BoundedBox.get_state_vec) model
    state_set { max_volume := 0, best_min := [], best_max := [] } hmem
  obtain ⟨M, hM⟩ := finished_boxes_uniform (state_set.map BoundedBox.get_state_vec) model
    state_set hmem
  have hvolume : ∀ s ∈ state_set, ∀ b : List Int × List Int,
      BoundedBox.expand (max Nb M) (state_set.map BoundedBox.get_state_vec) model
        (BoundedBox.get_state_vec s).length (max Nb M) (BoundedBox.get_state_vec s)
        (BoundedBox.get_state_vec s) = some b →
      BoundedBox.compute_volume b.1 b.2 (BoundedBox.get_state_vec s).length
        = lattice_points b.1 b.2 ∧ 0 < lattice_points b.1 b.2 := by
    intro s hs b hb
    have hfin := (hM s hs (max Nb M) (le_max_right _ _) b).1 hb
    obtain ⟨_, _, hl1, _, hle⟩ := finished_box_corners _ model s b (hmem s hs) hfin
    have hle2 : ∀ d, d < b.1.length → BoundedBox.at_dim b.1 d ≤ BoundedBox.at_dim b.2 d := by
      rw [hl1]; exact hle
    have hv := compute_volume_eq b.1 b.2 hle2 (hvol s hs b hfin)
    rw [hl1] at hv
    exact ⟨hv, lattice_points_pos b.1 b.2 hle2⟩
  have hF := hNb (max Nb M) (le_max_left _ _)
  simp only at hF
  refine ⟨best, ?_, ?_⟩
  · refine ⟨Nb, ?_⟩
    intro fuel hf
    have e := hNb fuel hf
    simp only at e
    simp only [BoundedBox.compute_bounded_box, BoundedBox.best_box, e]
  · rcases find_best_first_maximum (max Nb M) _ model state_set _ best hF with
      ⟨_, hall⟩ | ⟨pre, s, post, box, hsplit, hb, hres, _, hpre, hpost⟩
    · exfalso
      cases hstate : state_set with
      | nil => exact hne hstate
      | cons s0 rest =>
        have hs0 : s0 ∈ state_set := by rw [hstate]; exact List.mem_cons_self _ _
        obtain ⟨box, N, hN, hfin, _⟩ := finished_box_exists _ model s0 (hmem s0 hs0)
        have hb := (hM s0 hs0 (max Nb M) (le_max_right _ _) box).2 hfin
        have h1 := hall s0 hs0 box hb
        have h2 := hvolume s0 hs0 box hb
        simp only at h1
        omega
    · have hs : s ∈ state_set := by rw [hsplit]; simp
      have hvs := hvolume s hs box hb
      refine ⟨pre, s, post, hsplit, ?_, ?_, ?_, ?_⟩
      · rw [hres]
        exact (hM s hs (max Nb M) (le_max_right _ _) box).1 hb
      · rw [hres]
        exact hvs.1
      · intro t ht b hfin
        have htm : t ∈ state_set := by rw [hsplit]; simp [ht]
        have hbt := (hM t htm (max Nb M) (le_max_right _ _) b).2 hfin
        have h1 := hpre t ht b hbt
        rw [(hvolume t htm b hbt).1] at h1
        rw [hres]
        exact h1
      · intro t ht b hfin
        have htm : t ∈ state_set := by rw [hsplit]; simp [ht]
        have hbt := (hM t htm (max Nb M) (le_max_right _ _) b).2 hfin
        have h1 := hpost t ht b hbt
        rw [(hvolume t htm b hbt).1] at h1
        rw [hres]
        exact h1
/-! ## The bounded box and the model domain -/

theorem corner_in_domain (state_set : List StateBase) (model : Model)
    (hdom : ∀ s ∈ state_set, model.in_domain s) (corner : List Int)
    (h : corner ∈ state_set.map BoundedBox.get_state_vec) (d : Nat) (hd : d < corner.length) :
    model.lower_bound_int (d + 1) ≤ BoundedBox.at_dim corner d ∧
      BoundedBox.at_dim corner d ≤ model.upper_bound_int (d + 1) := by
  obtain ⟨t, ht, rfl⟩ := List.mem_map.1 h
  rw [get_state_vec_length] at hd
  rw [at_dim_get_state_vec t d hd]
  exact hdom t ht (d + 1) (by omega) (by omega)

/-- C35: for every state set whose states all lie in the model domain, `compute_bounded_box`
returns, and the returned box lies in the model domain: `LB_d <= best_min[d]` and
`best_max[d] <= UB_d` for every data dimension `d`. -/
theorem bounded_box_lies_within_domain (state_set : List StateBase) (model : Model)
    (hdom : ∀ s ∈ state_set, model.in_domain s) :
    ∃ best : BoundedBox.Best,
      Terminates (fun fuel => BoundedBox.best_box fuel state_set model) best ∧
      Terminates (fun fuel => BoundedBox.compute_bounded_box fuel state_set model)
        (best.max_volume, BoundedBox.box_expression best model) ∧
      (∀ d, d < best.best_min.length →
        model.lower_bound_int (d + 1) ≤ BoundedBox.at_dim best.best_min d) ∧
      (∀ d, d < best.best_max.length →
        BoundedBox.at_dim best.best_max d ≤ model.upper_bound_int (d + 1)) := by
  have hmem : ∀ s ∈ state_set,
      BoundedBox.get_state_vec s ∈ state_set.map BoundedBox.get_state_vec :=
    fun s hs => List.mem_map_of_mem _ hs
  obtain ⟨best, N, hN⟩ := find_best_terminates (state_set.map BoundedBox.get_state_vec) model
    state_set { max_volume := 0, best_min := [], best_max := [] } hmem
  refine ⟨best, ⟨N, hN⟩, ⟨N, ?_⟩, ?_⟩
  · intro fuel hf
    have e := hN fuel hf
    simp only at e
    simp only [BoundedBox.compute_bounded_box, BoundedBox.best_box, e]
  · have hF := hN N (le_refl _)
    simp only at hF
    rcases find_best_first_maximum N _ model state_set _ best hF with
      ⟨hres, _⟩ | ⟨pre, s, post, box, hsplit, hb, hres, _, _, _⟩
    · rw [hres]
      exact ⟨fun d hd => by simp at hd, fun d hd => by simp at hd⟩
    · have hs : s ∈ state_set := by rw [hsplit]; simp
      have hm := expand_mem N _ model _ N _ _ box hb ⟨rfl, rfl, fun d _ => le_refl _⟩
        (hmem s hs) (hmem s hs)
      rw [hres]
      exact ⟨fun d hd => (corner_in_domain state_set model hdom box.1 hm.1 d hd).1,
        fun d hd => (corner_in_domain state_set model hdom box.2 hm.2 d hd).2⟩

/-- Witness for C35: the three states with data valuations `(0,0)`, `(1,0)`, `(1,1)` over the
domain `[0,1] x [0,1]`. -/
theorem bounded_box_lies_within_domain_witness :
    ∃ best : BoundedBox.Best,
      Terminates (fun fuel => BoundedBox.best_box fuel Example.corner_states Example.unit_square)
        best ∧
      Terminates
        (fun fuel => BoundedBox.compute_bounded_box fuel Example.corner_states
          Example.unit_square)
        (best.max_volume, BoundedBox.box_expression best Example.unit_square) ∧
      (∀ d, d < best.best_min.length →
        Example.unit_square.lower_bound_int (d + 1) ≤ BoundedBox.at_dim best.best_min d) ∧
      (∀ d, d < best.best_max.length →
        BoundedBox.at_dim best.best_max d ≤ Example.unit_square.upper_bound_int (d + 1)) :=
  bounded_box_lies_within_domain Example.corner_states Example.unit_square
    (by
      intro s hs i h1 h2
      simp only [Example.corner_states, List.mem_cons, List.mem_singleton, List.not_mem_nil,
        or_false] at hs
      rcases hs with rfl | rfl | rfl <;>
        (have h3 : i < 3 := h2
         interval_cases i <;> decide))

/-! ## Termination of the bounded-box search -/

theorem expand_dim_kept (fuel : Nat) (val_set : List (List Int)) (model : Model)
    (c c1 : BoundedBox.Corners) (dim : Nat)
    (h : BoundedBox.expand_dim fuel val_set model c dim = some c1)
    (hd1 : dim < c.min_corner.length) (hd2 : dim < c.max_corner.length) :
    (c1.min_corner = c.min_corner ∨
      (c1.min_corner = c.min_corner.set dim (BoundedBox.at_dim c.min_corner dim - 1) ∧
        c1.min_corner ∈ val_set ∧
        ∀ i, i < c1.min_corner.length →
          model.lower_bound_int (i + 1) ≤ BoundedBox.at_dim c1.min_corner i)) ∧
    (c1.max_corner = c.max_corner ∨
      (c1.max_corner = c.max_corner.set dim (BoundedBox.at_dim c.max_corner dim + 1) ∧
        c1.max_corner ∈ val_set)) := by
  unfold BoundedBox.expand_dim at h
  cases hb1 : BoundedBox.is_bounded fuel
      (c.min_corner.set dim (BoundedBox.at_dim c.min_corner dim - 1)) c.max_corner val_set
      model with
  | none => simp [hb1] at h
  | some b1 =>
    simp only [hb1] at h
    split at h
    · simp at h
    · rename_i b2 hb2
      simp only [Option.some.injEq] at h
      subst h
      constructor
      · cases b1 with
        | false =>
          left
          simp only [Bool.not_false, if_true]
          exact set_revert _ _ _ _ hd1 (by rw [at_dim_set _ _ _ hd1]; omega)
        | true =>
          right
          simp only [Bool.not_true, Bool.false_eq_true, if_false]
          refine ⟨trivial, is_bounded_true_mem fuel _ _ _ _ hb1, ?_⟩
          have hdc : BoundedBox.domain_check
              (c.min_corner.set dim (BoundedBox.at_dim c.min_corner dim - 1)) c.max_corner model
              = true := by
            unfold BoundedBox.is_bounded at hb1
            by_contra hne
            simp [hne] at hb1
          intro i hi
          exact ((domain_check_iff _ _ model).1 hdc i hi).1
      · cases b2 with
        | false =>
          left
          simp only [Bool.not_false, if_true]
          exact set_revert _ _ _ _ hd2 (by rw [at_dim_set _ _ _ hd2]; omega)
        | true =>
          right
          simp only [Bool.not_true, Bool.false_eq_true, if_false]
          exact ⟨trivial, is_bounded_true_mem fuel _ _ _ _ hb2⟩

/-- C37: for every finite state set and every model domain `compute_bounded_box` returns. The
expansion of every seed returns, that is, reaches a fixed point after finitely many sweeps; every
call of `is_bounded` on corners of one common dimension count of at least one returns, in
whichever order the corners are passed; and in every step of the expansion a corner is either
left as it was or moved by one to a point of the set, the lower corner to one that is not below
the domain lower bound in any dimension. -/
theorem bounded_box_search_terminates (state_set : List StateBase) (model : Model) :
    (∃ r, Terminates (fun fuel => BoundedBox.compute_bounded_box fuel state_set model) r) ∧
    (∀ s, s ∈ state_set → ∃ box : List Int × List Int,
      FinishedBox (state_set.map BoundedBox.get_state_vec) model s box) ∧
    (∀ (a b : List Int) (point_set : List (List Int)), a.length = b.length → 1 ≤ a.length →
      (∃ r, Terminates (fun fuel => BoundedBox.is_bounded fuel a b point_set model) r) ∧
      (∃ r, Terminates (fun fuel => BoundedBox.is_bounded fuel b a point_set model) r)) ∧
    (∀ (fuel : Nat) (c c1 : BoundedBox.Corners) (dim : Nat),
      BoundedBox.expand_dim fuel (state_set.map BoundedBox.get_state_vec) model c dim = some c1 →
      dim < c.min_corner.length → dim < c.max_corner.length →
      (c1.min_corner = c.min_corner ∨
        (c1.min_corner = c.min_corner.set dim (BoundedBox.at_dim c.min_corner dim - 1) ∧
          c1.min_corner ∈ state_set.map BoundedBox.get_state_vec ∧
          ∀ i, i < c1.min_corner.length →
            model.lower_bound_int (i + 1) ≤ BoundedBox.at_dim c1.min_corner i)) ∧
      (c1.max_corner = c.max_corner ∨
        (c1.max_corner = c.max_corner.set dim (BoundedBox.at_dim c.max_corner dim + 1) ∧
          c1.max_corner ∈ state_set.map BoundedBox.get_state_vec))) := by
  refine ⟨compute_bounded_box_terminates state_set model, ?_, ?_, ?_⟩
  · intro s hs
    obtain ⟨box, _, _, hfin, _⟩ := finished_box_exists _ model s (List.mem_map_of_mem _ hs)
    exact ⟨box, hfin⟩
  · intro a b point_set hlen hpos
    exact ⟨is_bounded_terminates a b point_set model hlen hpos,
      is_bounded_terminates b a point_set model hlen.symm (by omega)⟩
  · intro fuel c c1 dim h hd1 hd2
    exact expand_dim_kept fuel _ model c c1 dim h hd1 hd2

/-! ## The step machine and the final check -/

theorem run_testing_never_enters_check_start (self next : SafeStartGenerator) (fuel : Nat)
    (answers : StepAnswers) (mode : Mode)
    (h : self.run_testing fuel answers = Outcome.ok (mode, next)) : mode ≠ Mode.CheckStart := by
  unfold SafeStartGenerator.run_testing at h
  cases hst : self.per_iteration_stats with
  | none => simp [hst] at h
  | some file =>
    simp only [hst] at h
    by_cases he : answers.unsafe_states_ids.isEmpty = true
    · simp only [he, Bool.not_true, Bool.false_eq_true, if_false, Outcome.ok.injEq,
        Prod.mk.injEq] at h
      rw [← h.1]; decide
    · simp only [he, Bool.not_false, if_true] at h
      cases hu : self.update_conditions fuel self.approximate_testing
          (SafeStartGenerator.get_unsafe_states answers) with
      | out_of_fuel => simp [hu] at h
      | null_dereference => simp [hu] at h
      | ok u =>
        simp only [hu, Outcome.ok.injEq, Prod.mk.injEq] at h
        rw [← h.1]
        cases self.alternating_mode <;> simp

theorem run_verification_enters_check_start (self next : SafeStartGenerator) (fuel : Nat)
    (answers : StepAnswers)
    (h : self.run_verification fuel answers = Outcome.ok (Mode.CheckStart, next)) :
    answers.verification_result = [] ∧ next = self := by
  unfold SafeStartGenerator.run_verification at h
  by_cases he : answers.verification_result.isEmpty = true
  · simp only [he, if_true, Outcome.ok.injEq, Prod.mk.injEq, true_and] at h
    exact ⟨List.isEmpty_iff.1 he, h.symm⟩
  · simp only [he, Bool.false_eq_true, if_false] at h
    cases hu : self.update_conditions fuel self.approximate_verification
        answers.verification_result with
    | out_of_fuel => simp [hu] at h
    | null_dereference => simp [hu] at h
    | ok u =>
      simp only [hu, Outcome.ok.injEq, Prod.mk.injEq] at h
      have := h.1
      cases hc : (self.use_testing || self.alternating_mode) <;> simp [hc] at this

/-- C38: in the step machine, a step that returns `SOLVED` or `FINISHED` is a step in mode
`CheckStart`; the driver is not constructed in mode `CheckStart`; a step that enters `CheckStart`
from another mode is a Verification step whose verifier returned the empty set, and it leaves the
start and unsafety predicates as they were passed to the verifier; and a step in mode
`CheckStart` changes neither the predicates nor the mode. -/
theorem check_start_follows_certification :
    (∀ (self next : SafeStartGenerator) (fuel : Nat) (answers : StepAnswers)
        (status : SearchStatus),
      self.step fuel answers = Outcome.ok (status, next) → status ≠ SearchStatus.IN_PROGRESS →
      self.iteration_mode = Mode.CheckStart) ∧
    (∀ config : Configuration,
      (SafeStartGenerator.create config).iteration_mode ≠ Mode.CheckStart) ∧
    (∀ (self next : SafeStartGenerator) (fuel : Nat) (answers : StepAnswers)
        (status : SearchStatus),
      self.step fuel answers = Outcome.ok (status, next) →
      self.iteration_mode ≠ Mode.CheckStart → next.iteration_mode = Mode.CheckStart →
      self.iteration_mode = Mode.Verification ∧ answers.verification_result = [] ∧
        next.start_condition = self.start_condition ∧
        next.unsafety_condition = self.unsafety_condition) ∧
    (∀ (self : SafeStartGenerator) (fuel : Nat) (answers : StepAnswers),
      self.iteration_mode = Mode.CheckStart →
      self.step fuel answers = Outcome.ok (self.check_start_condition answers, self) ∧
        self.check_start_condition answers ≠ SearchStatus.IN_PROGRESS) := by
  refine ⟨?_, ?_, ?_, ?_⟩
  · intro self next fuel answers status h hs
    unfold SafeStartGenerator.step at h
    cases hm : self.iteration_mode with
    | Testing =>
      simp only [hm] at h
      cases ht : self.run_testing fuel answers with
      | out_of_fuel => simp [ht] at h
      | null_dereference => simp [ht] at h
      | ok r =>
        simp only [ht, Outcome.ok.injEq, Prod.mk.injEq] at h
        exact absurd h.1.symm hs
    | Verification =>
      simp only [hm] at h
      cases hv : self.run_verification fuel answers with
      | out_of_fuel => simp [hv] at h
      | null_dereference => simp [hv] at h
      | ok r =>
        simp only [hv, Outcome.ok.injEq, Prod.mk.injEq] at h
        exact absurd h.1.symm hs
    | CheckStart => rfl
  · intro config
    unfold SafeStartGenerator.create
    simp only
    split <;> simp
  · intro self next fuel answers status h hne hnext
    unfold SafeStartGenerator.step at h
    cases hm : self.iteration_mode with
    | Testing =>
      simp only [hm] at h
      cases ht : self.run_testing fuel answers with
      | out_of_fuel => simp [ht] at h
      | null_dereference => simp [ht] at h
      | ok r =>
        obtain ⟨mode, g⟩ := r
        simp only [ht, Outcome.ok.injEq, Prod.mk.injEq] at h
        rw [← h.2] at hnext
        simp only at hnext
        exact absurd hnext (run_testing_never_enters_check_start self g fuel answers mode ht)
    | Verification =>
      simp only [hm] at h
      cases hv : self.run_verification fuel answers with
      | out_of_fuel => simp [hv] at h
      | null_dereference => simp [hv] at h
      | ok r =>
        obtain ⟨mode, g⟩ := r
        simp only [hv, Outcome.ok.injEq, Prod.mk.injEq] at h
        rw [← h.2] at hnext ⊢
        simp only at hnext ⊢
        subst hnext
        obtain ⟨h1, h2⟩ := run_verification_enters_check_start self g fuel answers hv
        subst h2
        exact ⟨trivial, h1, rfl, rfl⟩
    | CheckStart => exact absurd hm hne
  · intro self fuel answers hm
    constructor
    · unfold SafeStartGenerator.step
      simp only [hm]
    · unfold SafeStartGenerator.check_start_condition
      split <;> simp

/-! ## Sampling among equal distances -/

theorem all_adjacent_equal_of_all_equal (distances : List Int)
    (h : ∀ d ∈ distances, ∀ e ∈ distances, d = e) :
    PolicyRunSampler.all_adjacent_equal distances = true := by
  induction distances with
  | nil => rfl
  | cons a rest ih =>
    cases rest with
    | nil => rfl
    | cons b rest =>
      simp only [PolicyRunSampler.all_adjacent_equal, Bool.and_eq_true, decide_eq_true_eq]
      refine ⟨h a (by simp) b (by simp), ih ?_⟩
      intro d hd e he
      exact h d (List.mem_cons_of_mem _ hd) e (List.mem_cons_of_mem _ he)

theorem distribution_loop_replicate (p q : Double) (states : List StateID_type) (k : Nat) :
    ∀ (i0 c0 : Nat),
      (∀ m, m < k →
        (∀ j, j < m →
          Double.le p (PolicyRunSampler.cumulative_probability q (c0 + j + 1)) = false) →
        Double.le p (PolicyRunSampler.cumulative_probability q (c0 + m + 1)) = true →
        ∀ hi : i0 + m < states.length,
        PolicyRunSampler.distribution_loop p states (List.replicate k q) i0
            (PolicyRunSampler.cumulative_probability q c0)
          = Sampled.ok (states.get ⟨i0 + m, hi⟩)) ∧
      ((∀ j, j < k →
          Double.le p (PolicyRunSampler.cumulative_probability q (c0 + j + 1)) = false) →
        ∀ hne : states ≠ [],
        PolicyRunSampler.distribution_loop p states (List.replicate k q) i0
            (PolicyRunSampler.cumulative_probability q c0)
          = Sampled.ok (states.getLast hne)) := by
  induction k with
  | zero =>
    intro i0 c0
    refine ⟨fun m hm => absurd hm (by omega), fun _ hne => ?_⟩
    simp [PolicyRunSampler.distribution_loop, List.getLast?_eq_getLast _ hne]
  | succ k ih =>
    intro i0 c0
    have hrep : List.replicate (k + 1) q = q :: List.replicate k q := rfl
    have hstep : Double.add (PolicyRunSampler.cumulative_probability q c0) q
        = PolicyRunSampler.cumulative_probability q (c0 + 1) := rfl
    rw [hrep]
    constructor
    · intro m hm hbefore hat hi
      cases m with
      | zero =>
        have hat2 : Double.le p (PolicyRunSampler.cumulative_probability q (c0 + 1)) = true := hat
        have hi0 : i0 < states.length := by omega
        simp [PolicyRunSampler.distribution_loop, hstep, hat2, List.getElem?_eq_getElem hi0]
      | succ m =>
        have h0 : Double.le p (PolicyRunSampler.cumulative_probability q (c0 + 1)) = false :=
          hbefore 0 (by omega)
        simp only [PolicyRunSampler.distribution_loop, hstep, h0, Bool.false_eq_true, if_false]
        have e : i0 + (m + 1) = i0 + 1 + m := by omega
        have hi2 : i0 + 1 + m < states.length := by omega
        have hget : states.get ⟨i0 + (m + 1), hi⟩ = states.get ⟨i0 + 1 + m, hi2⟩ := by
          congr 1
          exact Fin.ext e
        rw [hget]
        apply (ih (i0 + 1) (c0 + 1)).1 m (by omega)
        · intro j hj
          have := hbefore (j + 1) (by omega)
          have e2 : c0 + (j + 1) + 1 = c0 + 1 + j + 1 := by omega
          rw [e2] at this
          exact this
        · have e2 : c0 + (m + 1) + 1 = c0 + 1 + m + 1 := by omega
          rw [e2] at hat
          exact hat
    · intro hnone hne
      have h0 : Double.le p (PolicyRunSampler.cumulative_probability q (c0 + 1)) = false :=
        hnone 0 (by omega)
      simp only [PolicyRunSampler.distribution_loop, hstep, h0, Bool.false_eq_true, if_false]
      apply (ih (i0 + 1) (c0 + 1)).2 _ hne
      intro j hj
      have := hnone (j + 1) (by omega)
      have e2 : c0 + (j + 1) + 1 = c0 + 1 + j + 1 := by omega
      rw [e2] at this
      exact this

theorem distribution_loop_mem (p : Double) (states : List StateID_type) (hne : states ≠ [])
    (probabilities : List Double) :
    ∀ (i0 : Nat) (cumulative : Double), i0 + probabilities.length ≤ states.length →
      ∃ state, state ∈ states ∧
        PolicyRunSampler.distribution_loop p states probabilities i0 cumulative
          = Sampled.ok state := by
  induction probabilities with
  | nil =>
    intro i0 cumulative _
    refine ⟨states.getLast hne, List.getLast_mem hne, ?_⟩
    simp [PolicyRunSampler.distribution_loop, List.getLast?_eq_getLast _ hne]
  | cons q rest ih =>
    intro i0 cumulative hlen
    simp only [List.length_cons] at hlen
    simp only [PolicyRunSampler.distribution_loop]
    by_cases hp : Double.le p (Double.add cumulative q) = true
    · have hi : i0 < states.length := by omega
      refine ⟨states.get ⟨i0, hi⟩, List.get_mem _ _ _, ?_⟩
      simp [hp, List.getElem?_eq_getElem hi]
    · simp only [hp, if_false]
      exact ih (i0 + 1) (Double.add cumulative q) (by omega)

theorem uniform_loop_least_index (p : Double) (states : List StateID_type) (i : Nat)
    (hi : i < states.length)
    (hbefore : ∀ j, j < i → Double.le p (PolicyRunSampler.cumulative_probability
      (Double.div (Double.finite 1) (Double.of_nat states.length)) (j + 1)) = false)
    (hat : Double.le p (PolicyRunSampler.cumulative_probability
      (Double.div (Double.finite 1) (Double.of_nat states.length)) (i + 1)) = true) :
    PolicyRunSampler.distribution_loop p states
        (List.replicate states.length (Double.div (Double.finite 1) (Double.of_nat states.length)))
        0 (Double.finite 0)
      = Sampled.ok (states.get ⟨i, hi⟩) := by
  have hloop := distribution_loop_replicate p
    (Double.div (Double.finite 1) (Double.of_nat states.length)) states states.length 0 0
  have h := hloop.1 i hi (fun j hj => by rw [Nat.zero_add]; exact hbefore j hj)
    (by rw [Nat.zero_add]; exact hat) (by omega)
  have h0 : PolicyRunSampler.cumulative_probability
      (Double.div (Double.finite 1) (Double.of_nat states.length)) 0 = Double.finite 0 := rfl
  rw [h0] at h
  rw [h]
  congr 2
  exact Fin.ext (Nat.zero_add i)

theorem sample_successor_equal_branch (self : PolicyRunSampler)
    (successors : List StateID_type) (distances : List Int)
    (hadj : PolicyRunSampler.all_adjacent_equal distances = true) :
    self.sample_successor successors distances
      = PolicyRunSampler.distribution_loop self.rng_prob successors
          (List.replicate successors.length
            (Double.div (Double.finite 1) (Double.of_nat successors.length)))
          0 (Double.finite 0) := by
  simp only [PolicyRunSampler.sample_successor, hadj, if_true,
    PolicyRunSampler.sample_from_distribution]

/-- The probability `1.0 / n` of the equal-distances branch: the `double` nearest to `1 / n`. -/
theorem uniform_probability_spec (n : Nat) (h1 : 1 ≤ n) (h2 : n ≤ 2 ^ 50) :
    ∃ q : ℚ, Double.div (Double.finite 1) (Double.of_nat n) = Double.finite q ∧
      |q - 1 / (n : ℚ)| ≤ 1 / (n : ℚ) / 2 ^ (53 : ℕ) := by
  have hn : (0 : ℚ) < (n : ℚ) := by exact_mod_cast h1
  have hn2 : (n : ℚ) ≤ 2 ^ (50 : ℕ) := by exact_mod_cast h2
  have hof : Double.of_nat n = Double.finite (n : ℚ) :=
    round_nat n (lt_of_le_of_lt h2 (by norm_num))
  have hdiv : Double.div (Double.finite 1) (Double.of_nat n) = Double.round (1 / (n : ℚ)) := by
    rw [hof]
    show (if (n : ℚ) = 0 then _ else Double.round (1 / (n : ℚ))) = _
    rw [if_neg (ne_of_gt hn)]
  rw [hdiv]
  apply round_normal
  · rw [le_div_iff₀ hn]
    have h3 : (2 : ℚ) ^ (-1022 : ℤ) ≤ 1 / 2 ^ (50 : ℕ) := by
      rw [zpow_neg, ← one_div]
      apply one_div_le_one_div_of_le (by positivity)
      have : (2 : ℚ) ^ (50 : ℕ) = 2 ^ (50 : ℤ) := by norm_cast
      rw [this]
      exact zpow_le_zpow_right₀ (by norm_num) (by norm_num)
    have h4 : (2 : ℚ) ^ (-1022 : ℤ) * (n : ℚ) ≤ 1 / 2 ^ (50 : ℕ) * 2 ^ (50 : ℕ) :=
      mul_le_mul h3 hn2 (le_of_lt hn) (by positivity)
    have h5 : (1 : ℚ) / 2 ^ (50 : ℕ) * 2 ^ (50 : ℕ) = 1 := by norm_num
    rw [h5] at h4
    exact h4
  · have h6 : 1 / (n : ℚ) ≤ 1 := by
      rw [div_le_one hn]
      exact_mod_cast h1
    exact le_trans h6 (one_le_pow₀ (by norm_num))

/-- The running sum of `k` copies of a `double` within relative distance `2 ^ (-53)` of `1 / n`
differs from `k / n` by at most `3 k 2 ^ (-53)`. -/
theorem cumulative_probability_error (n : Nat) (h1 : 1 ≤ n) (h2 : n ≤ 2 ^ 50) (q : ℚ)
    (hq : |q - 1 / (n : ℚ)| ≤ 1 / (n : ℚ) / 2 ^ (53 : ℕ)) :
    ∀ k, k ≤ n → ∃ c : ℚ,
      PolicyRunSampler.cumulative_probability (Double.finite q) k = Double.finite c ∧
      |c - (k : ℚ) / (n : ℚ)| ≤ 3 * (k : ℚ) / 2 ^ (53 : ℕ) := by
  have hn : (0 : ℚ) < (n : ℚ) := by exact_mod_cast h1
  have hn1 : (1 : ℚ) ≤ (n : ℚ) := by exact_mod_cast h1
  have hn2 : (n : ℚ) ≤ 2 ^ (50 : ℕ) := by exact_mod_cast h2
  obtain ⟨r, hr⟩ : ∃ r : ℚ, r = 1 / (n : ℚ) := ⟨_, rfl⟩
  have hrn : r * (n : ℚ) = 1 := by rw [hr]; field_simp
  have hr0 : 0 < r := by rw [hr]; positivity
  have hr1 : r ≤ 1 := by
    rw [hr, div_le_one hn]; exact hn1
  have hr50 : 1 / 2 ^ (50 : ℕ) ≤ r := by
    rw [hr]
    exact one_div_le_one_div_of_le hn hn2
  rw [← hr] at hq
  have hq' := abs_le.1 hq
  intro k
  induction k with
  | zero =>
    intro _
    exact ⟨0, rfl, by simp⟩
  | succ k ih =>
    intro hk
    obtain ⟨c, hc, herr⟩ := ih (by omega)
    have herr' := abs_le.1 herr
    have hK0 : (0 : ℚ) ≤ (k : ℚ) := Nat.cast_nonneg k
    have hKn : (k : ℚ) + 1 ≤ (n : ℚ) := by exact_mod_cast hk
    have hdiv : ∀ m : ℚ, m / (n : ℚ) = m * r := by
      intro m; rw [hr]; ring
    rw [hdiv] at herr'
    have hKr : (k : ℚ) * r + r ≤ 1 := by
      have := mul_le_mul_of_nonneg_left hKn (le_of_lt hr0)
      nlinarith
    have hKu : (k : ℚ) ≤ 2 ^ (50 : ℕ) := by linarith
    have hK3 : 0 ≤ (k : ℚ) * (r - 3 / 2 ^ (53 : ℕ)) := by
      apply mul_nonneg hK0
      have : (3 : ℚ) / 2 ^ (53 : ℕ) ≤ 1 / 2 ^ (50 : ℕ) := by norm_num
      linarith
    have hc0 : 0 ≤ c := by
      have e1 : 3 * (k : ℚ) / 2 ^ (53 : ℕ) = (k : ℚ) * (3 / 2 ^ (53 : ℕ)) := by ring
      rw [e1] at herr'
      nlinarith [herr'.1]
    have hx1 : (2 : ℚ) ^ (-1022 : ℤ) ≤ c + q := by
      have h3 : (2 : ℚ) ^ (-1022 : ℤ) ≤ 1 / 2 ^ (51 : ℕ) := by
        rw [zpow_neg, ← one_div]
        apply one_div_le_one_div_of_le (by positivity)
        have : (2 : ℚ) ^ (51 : ℕ) = 2 ^ (51 : ℤ) := by norm_cast
        rw [this]
        exact zpow_le_zpow_right₀ (by norm_num) (by norm_num)
      have h4 : r / 2 ^ (53 : ℕ) ≤ r / 2 := by
        apply div_le_div_of_nonneg_left (le_of_lt hr0) (by norm_num) (by norm_num)
      have h5 : (1 : ℚ) / 2 ^ (51 : ℕ) = 1 / 2 ^ (50 : ℕ) / 2 := by norm_num
      have h6 : (1 : ℚ) / 2 ^ (50 : ℕ) / 2 ≤ r / 2 := by linarith
      have h7 : r / 2 ≤ q := by linarith [hq'.1]
      have h8 : (1 : ℚ) / 2 ^ (51 : ℕ) ≤ r / 2 := by rw [h5]; exact h6
      exact le_trans h3 (le_trans h8 (by linarith))
    have hx2 : c + q ≤ 2 := by
      have h7 : 3 * (k : ℚ) / 2 ^ (53 : ℕ) ≤ 3 / 8 := by
        have : 3 * (k : ℚ) / 2 ^ (53 : ℕ) ≤ 3 * 2 ^ (50 : ℕ) / 2 ^ (53 : ℕ) := by
          apply div_le_div_of_nonneg_right _ (by positivity)
          linarith
        have e : (3 : ℚ) * 2 ^ (50 : ℕ) / 2 ^ (53 : ℕ) = 3 / 8 := by norm_num
        linarith
      have h8 : r / 2 ^ (53 : ℕ) ≤ 1 / 8 := by
        have : r / 2 ^ (53 : ℕ) ≤ 1 / 2 ^ (53 : ℕ) :=
          div_le_div_of_nonneg_right hr1 (by positivity)
        have e : (1 : ℚ) / 2 ^ (53 : ℕ) ≤ 1 / 8 := by norm_num
        linarith
      linarith [herr'.2, hq'.2]
    obtain ⟨w, hw, hwerr⟩ := round_normal (c + q) hx1
      (le_trans hx2 (by norm_num))
    have hwerr' := abs_le.1 hwerr
    refine ⟨w, ?_, ?_⟩
    · show Double.add (PolicyRunSampler.cumulative_probability (Double.finite q) k)
        (Double.finite q) = Double.finite w
      rw [hc]
      exact hw
    · have hxu : (c + q) / 2 ^ (53 : ℕ) ≤ 2 / 2 ^ (53 : ℕ) :=
        div_le_div_of_nonneg_right hx2 (by positivity)
      have hru : r / 2 ^ (53 : ℕ) ≤ 1 / 2 ^ (53 : ℕ) :=
        div_le_div_of_nonneg_right hr1 (by positivity)
      have e1 : (((k + 1 : Nat) : ℚ)) / (n : ℚ) = (k : ℚ) * r + r := by
        rw [hdiv]; push_cast; ring
      have e2 : 3 * (((k + 1 : Nat) : ℚ)) / 2 ^ (53 : ℕ)
          = 3 * (k : ℚ) / 2 ^ (53 : ℕ) + 2 / 2 ^ (53 : ℕ) + 1 / 2 ^ (53 : ℕ) := by
        push_cast; ring
      rw [e1, e2, abs_le]
      constructor
      · linarith [hwerr'.1, herr'.1, hq'.1]
      · linarith [hwerr'.2, herr'.2, hq'.2]

/-- C33: for a non-empty list of `n` candidate states whose distances are all equal,
probabilistic `sample_successor` with the draw `p` compares `p` with the running sums
`c_1, c_2, ...` of the `double` value `1.0 / n`, each sum rounded to `double`: it returns the
state at the least index `i < n` with `p <= c_(i+1)`, and the last state when there is no such
index; the result is always one of the candidates. For `n <= 2 ^ 50` the sum `c_k` is a finite
number that differs from `k / n` by at most `3 k 2 ^ (-53)`, so that a draw `p` with
`i / n + 3 i 2 ^ (-53) < p <= (i + 1) / n - 3 (i + 1) 2 ^ (-53)` selects candidate `i`: up to
these margins each candidate is chosen on an interval of length `1 / n`. -/
theorem equal_distances_are_sampled_by_rounded_sums (self : PolicyRunSampler)
    (successors : List StateID_type) (distances : List Int) (hne : successors ≠ [])
    (heq : ∀ d ∈ distances, ∀ e ∈ distances, d = e) :
    (∀ (i : Nat) (hi : i < successors.length),
      (∀ j, j < i → Double.le self.rng_prob (PolicyRunSampler.cumulative_probability
        (Double.div (Double.finite 1) (Double.of_nat successors.length)) (j + 1)) = false) →
      Double.le self.rng_prob (PolicyRunSampler.cumulative_probability
        (Double.div (Double.finite 1) (Double.of_nat successors.length)) (i + 1)) = true →
      self.sample_successor successors distances = Sampled.ok (successors.get ⟨i, hi⟩)) ∧
    ((∀ j, j < successors.length →
        Double.le self.rng_prob (PolicyRunSampler.cumulative_probability
          (Double.div (Double.finite 1) (Double.of_nat successors.length)) (j + 1)) = false) →
      self.sample_successor successors distances = Sampled.ok (successors.getLast hne)) ∧
    (successors.length ≤ 2 ^ 50 → ∀ k, k ≤ successors.length →
      ∃ c : ℚ, PolicyRunSampler.cumulative_probability
          (Double.div (Double.finite 1) (Double.of_nat successors.length)) k = Double.finite c ∧
        |c - (k : ℚ) / (successors.length : ℚ)| ≤ 3 * (k : ℚ) / 2 ^ (53 : ℕ)) ∧
    (successors.length ≤ 2 ^ 50 → ∀ (p : ℚ) (i : Nat) (hi : i < successors.length),
      self.rng_prob = Double.finite p →
      (i = 0 ∨ (i : ℚ) / (successors.length : ℚ) + 3 * (i : ℚ) / 2 ^ (53 : ℕ) < p) →
      p ≤ ((i : ℚ) + 1) / (successors.length : ℚ) - 3 * ((i : ℚ) + 1) / 2 ^ (53 : ℕ) →
      self.sample_successor successors distances = Sampled.ok (successors.get ⟨i, hi⟩)) ∧
    (∃ state, state ∈ successors ∧
      self.sample_successor successors distances = Sampled.ok state) := by
  have hadj := all_adjacent_equal_of_all_equal distances heq
  have hred := sample_successor_equal_branch self successors distances hadj
  have hpos : 1 ≤ successors.length := List.length_pos.2 hne
  have hnpos : (0 : ℚ) < (successors.length : ℚ) := by exact_mod_cast hpos
  have hleast : ∀ (i : Nat) (hi : i < successors.length),
      (∀ j, j < i → Double.le self.rng_prob (PolicyRunSampler.cumulative_probability
        (Double.div (Double.finite 1) (Double.of_nat successors.length)) (j + 1)) = false) →
      Double.le self.rng_prob (PolicyRunSampler.cumulative_probability
        (Double.div (Double.finite 1) (Double.of_nat successors.length)) (i + 1)) = true →
      self.sample_successor successors distances = Sampled.ok (successors.get ⟨i, hi⟩) := by
    intro i hi hbefore hat
    rw [hred]
    exact uniform_loop_least_index self.rng_prob successors i hi hbefore hat
  have hsums : successors.length ≤ 2 ^ 50 → ∀ k, k ≤ successors.length →
      ∃ c : ℚ, PolicyRunSampler.cumulative_probability
          (Double.div (Double.finite 1) (Double.of_nat successors.length)) k = Double.finite c ∧
        |c - (k : ℚ) / (successors.length : ℚ)| ≤ 3 * (k : ℚ) / 2 ^ (53 : ℕ) := by
    intro hlen k hk
    obtain ⟨q, hq, hqerr⟩ := uniform_probability_spec successors.length hpos hlen
    rw [hq]
    exact cumulative_probability_error successors.length hpos hlen q hqerr k hk
  refine ⟨hleast, ?_, hsums, ?_, ?_⟩
  · intro hnone
    have hloop := distribution_loop_replicate self.rng_prob
      (Double.div (Double.finite 1) (Double.of_nat successors.length)) successors
      successors.length 0 0
    have h := hloop.2 (fun j hj => by rw [Nat.zero_add]; exact hnone j hj) hne
    rw [hred]
    exact h
  · intro hlen p i hi hp hlow hhigh
    apply hleast i hi
    · intro j hj
      obtain ⟨c, hc, herr⟩ := hsums hlen (j + 1) (by omega)
      rw [hc, hp]
      show decide (p ≤ c) = false
      rw [decide_eq_false_iff_not, not_le]
      rcases hlow with h0 | hlt
      · omega
      · have hji : ((j + 1 : Nat) : ℚ) ≤ (i : ℚ) := by exact_mod_cast hj
        have h1 : ((j + 1 : Nat) : ℚ) / (successors.length : ℚ)
            ≤ (i : ℚ) / (successors.length : ℚ) :=
          div_le_div_of_nonneg_right hji (le_of_lt hnpos)
        have h2 : 3 * ((j + 1 : Nat) : ℚ) / 2 ^ (53 : ℕ) ≤ 3 * (i : ℚ) / 2 ^ (53 : ℕ) :=
          div_le_div_of_nonneg_right (by linarith) (by positivity)
        have := (abs_le.1 herr).2
        linarith
    · obtain ⟨c, hc, herr⟩ := hsums hlen (i + 1) (by omega)
      rw [hc, hp]
      show decide (p ≤ c) = true
      rw [decide_eq_true_eq]
      have := (abs_le.1 herr).1
      push_cast at this
      linarith
  · obtain ⟨state, hmem, hs⟩ := distribution_loop_mem self.rng_prob successors hne
      (List.replicate successors.length
        (Double.div (Double.finite 1) (Double.of_nat successors.length))) 0 (Double.finite 0)
      (by simp)
    exact ⟨state, hmem, by rw [hred]; exact hs⟩

/-- Witness for C33: three candidates of distance 1 and the draw `p = 1/2`, which selects the
second candidate. -/
theorem equal_distances_are_sampled_by_rounded_sums_witness :
    PolicyRunSampler.sample_successor
        { Example.sampler Example.x_eq_5 with rng_prob := Double.finite (1 / 2) } [1, 2, 7]
        [1, 1, 1]
      = Sampled.ok 2 :=
  (equal_distances_are_sampled_by_rounded_sums
    { Example.sampler Example.x_eq_5 with rng_prob := Double.finite (1 / 2) } [1, 2, 7] [1, 1, 1]
    (by decide) (by decide)).1 1 (by decide)
    (by
      intro j hj
      have hj0 : j = 0 := by omega
      subst hj0
      decide!)
    (by decide!)

/-- C33 (counterexample): five candidates of equal distance and the draw `p = 0.2`, that is, the
`double` nearest to `1/5`, which is above `1/5`. The first running sum is `0.0 + 1.0 / 5`, the
same `double`, so `p <= cumulative_probability` holds in the first pass and the first candidate
is returned; in exact rational arithmetic `p <= 1/5` is false and `p <= 2/5` true, so the least
index `i` with `p <= (i + 1) / 5` is 1, the second candidate. -/
theorem draw_of_one_fifth_selects_first_candidate :
    Double.round (1 / 5) = Double.finite (3602879701896397 / 18014398509481984) ∧
    ¬ ((3602879701896397 : ℚ) / 18014398509481984 ≤ (0 + 1) / 5) ∧
    (3602879701896397 : ℚ) / 18014398509481984 ≤ (1 + 1) / 5 ∧
    PolicyRunSampler.sample_successor
        { Example.sampler Example.x_eq_5 with rng_prob := Double.round (1 / 5) }
        [1, 2, 3, 4, 5] [1, 1, 1, 1, 1]
      = Sampled.ok 1 := by
  refine ⟨by decide!, by norm_num, by norm_num, by decide!⟩

/-! ## Lifetime of the transition cache -/

theorem cycle_step_keeps_cache (setup : Setup) (self : UnsafePathIdentifier)
    (state successor : StateID_type) (action_label : ActionLabel_type) (t : Transition)
    (ht : t ∈ self.transition_cache) :
    t ∈ ((((UnsafePathIdentifier.sample_successor setup self state action_label).2).set_next_state
      successor).cache_and_check_cycle action_label).2.transition_cache := by
  have hframe := (sample_successor_frame setup self state action_label).2.1
  unfold UnsafePathIdentifier.cache_and_check_cycle UnsafePathIdentifier.set_next_state
  dsimp only
  split_ifs
  · dsimp only
    rw [hframe]; exact ht
  · dsimp only
    rw [hframe]
    exact List.mem_append_left _ ht

theorem simulate_loop_keeps_cache (setup : Setup) (t : Transition) (fuel : Nat) :
    ∀ (self : UnsafePathIdentifier) (current_state : StateID_type)
      (actions : List ActionLabel_type) (r : Option StateID_type × UnsafePathIdentifier),
      UnsafePathIdentifier.simulate_loop setup fuel self current_state actions = Outcome.ok r →
      t ∈ self.transition_cache → t ∈ r.2.transition_cache := by
  induction fuel with
  | zero =>
    intro self current_state actions r h
    simp [UnsafePathIdentifier.simulate_loop] at h
  | succ k ih =>
    intro self current_state actions r h ht
    unfold UnsafePathIdentifier.simulate_loop at h
    split at h
    · split at h
      · simp only [Outcome.ok.injEq] at h
        subst h
        exact ht
      · rename_i next_action rest hlen
        split at h
        · simp at h
        · rename_i successor self1 hs
          have hkeep := cycle_step_keeps_cache setup self current_state successor next_action t ht
          rw [hs] at hkeep
          dsimp only at h hkeep
          split at h
          · simp only [Outcome.ok.injEq] at h
            subst h
            exact hkeep
          · split at h
            · simp only [Outcome.ok.injEq] at h
              subst h
              exact hkeep
            · split at h
              · simp only [Outcome.ok.injEq] at h
                subst h
                exact hkeep
              · exact ih _ _ _ r h hkeep
    · simp only [Outcome.ok.injEq] at h
      subst h
      exact ht

theorem execute_policy_keeps_cache (setup : Setup) (t : Transition) (inner_fuel fuel : Nat) :
    ∀ (self : UnsafePathIdentifier) (current_state : StateID_type)
      (r : Bool × UnsafePathIdentifier),
      UnsafePathIdentifier.execute_policy setup inner_fuel fuel self current_state
        = Outcome.ok r →
      t ∈ self.transition_cache → t ∈ r.2.transition_cache := by
  induction fuel with
  | zero =>
    intro self current_state r h
    simp [UnsafePathIdentifier.execute_policy] at h
  | succ k ih =>
    intro self current_state r h ht
    unfold UnsafePathIdentifier.execute_policy at h
    have hterm : t ∈ (UnsafePathIdentifier.is_terminal setup self current_state).2.transition_cache
        := by
      unfold UnsafePathIdentifier.is_terminal
      dsimp only
      split_ifs <;> exact ht
    dsimp only at h
    split at h
    · simp only [Outcome.ok.injEq] at h
      subst h
      exact hterm
    · split at h
      · simp at h
      · simp at h
      · rename_i self1 hsim
        simp only [Outcome.ok.injEq] at h
        subst h
        exact simulate_loop_keeps_cache setup t inner_fuel _ _ _ _ hsim hterm
      · rename_i choice_state self1 hsim
        have h1 : t ∈ self1.transition_cache :=
          simulate_loop_keeps_cache setup t inner_fuel _ _ _ _ hsim hterm
        split at h
        · simp only [Outcome.ok.injEq] at h
          subst h
          exact h1
        · split at h
          · rename_i self3 hs
            simp only [Outcome.ok.injEq] at h
            subst h
            have hframe := (sample_successor_frame setup (self1.set_current_state choice_state)
              choice_state (setup.policy choice_state)).2.1
            rw [hs] at hframe
            dsimp only at hframe
            rw [hframe]
            exact h1
          · rename_i successor self3 hs
            have hkeep := cycle_step_keeps_cache setup (self1.set_current_state choice_state)
              choice_state successor (setup.policy choice_state) t h1
            rw [hs] at hkeep
            dsimp only at h hkeep
            split at h
            · simp only [Outcome.ok.injEq] at h
              subst h
              exact hkeep
            · split at h
              · simp only [Outcome.ok.injEq] at h
                subst h
                exact hkeep
              · exact ih _ _ r h hkeep

theorem identify_loop_keeps_cache (setup : Setup) (t : Transition) (fuel : Nat)
    (samples : List (Option StateID_type)) :
    ∀ (self final : UnsafePathIdentifier),
      UnsafePathIdentifier.identify_loop setup fuel samples self = Outcome.ok final →
      t ∈ self.transition_cache → t ∈ final.transition_cache := by
  induction samples with
  | nil =>
    intro self final h ht
    simp only [UnsafePathIdentifier.identify_loop, Outcome.ok.injEq] at h
    subst h
    exact ht
  | cons sample rest ih =>
    intro self final h ht
    cases sample with
    | none =>
      simp only [UnsafePathIdentifier.identify_loop, Outcome.ok.injEq] at h
      subst h
      exact ht
    | some start_state =>
      simp only [UnsafePathIdentifier.identify_loop] at h
      split at h
      · simp at h
      · simp at h
      · rename_i self3 hex
        have h3 := execute_policy_keeps_cache setup t fuel fuel _ _ _ hex ht
        exact ih _ final h h3
      · rename_i self3 hex
        have h3 := execute_policy_keeps_cache setup t fuel fuel _ _ _ hex ht
        exact ih _ final h h3
/-- C36 (counterexample): over `merge_environment` no policy run has a cycle. The rollout from
state 3 alone takes the transitions `3 -> 1 -> 2` and reports no cycle. After a rollout from
state 0, which takes `0 -> 1 -> 2`, the rollout from state 3 in the same loop of
`identify_unsafe_paths` finds the transition `1 -> 2` in the cache and reports it as a cycle. -/
theorem transition_of_earlier_rollout_is_reported_as_cycle :
    ((UnsafePathIdentifier.identify_loop (Example.merge_setup false) 10 [some 3]
        UnsafePathIdentifier.init).value.map fun r => (r.cycles, r.transition_cache))
      = some (0, [{ src := 3, label := 1, successor := 1 },
                  { src := 1, label := 1, successor := 2 }]) ∧
    ((UnsafePathIdentifier.identify_loop (Example.merge_setup false) 10 [some 0, some 3]
        UnsafePathIdentifier.init).value.map fun r => (r.cycles, r.transition_cache))
      = some (1, [{ src := 0, label := 1, successor := 1 },
                  { src := 1, label := 1, successor := 2 },
                  { src := 3, label := 1, successor := 1 }]) := by
  decide

/-- C36 (amended): `cache_and_check_cycle` reports a cycle exactly when the triple
`(source, label, target)` is in the transition cache. The cache is emptied on entry to
`identify_unsafe_paths` only: a rollout and the whole loop over the start states keep every
triple that is in the cache, so a reported triple was inserted earlier in the same call of
`identify_unsafe_paths`, by the current rollout or by an earlier one. -/
theorem cycle_report_means_transition_seen_in_invocation :
    (∀ (self : UnsafePathIdentifier) (action_label : ActionLabel_type),
      (self.cache_and_check_cycle action_label).1 = false ↔
        ({ src := self.source, label := action_label, successor := self.target } : Transition)
          ∈ self.transition_cache) ∧
    (∀ (setup : Setup) (inner_fuel fuel : Nat) (self : UnsafePathIdentifier)
        (state : StateID_type) (r : Bool × UnsafePathIdentifier) (t : Transition),
      UnsafePathIdentifier.execute_policy setup inner_fuel fuel self state = Outcome.ok r →
      t ∈ self.transition_cache → t ∈ r.2.transition_cache) ∧
    (∀ (setup : Setup) (fuel : Nat) (samples : List (Option StateID_type))
        (self final : UnsafePathIdentifier) (t : Transition),
      UnsafePathIdentifier.identify_loop setup fuel samples self = Outcome.ok final →
      t ∈ self.transition_cache → t ∈ final.transition_cache) ∧
    (∀ (setup : Setup) (fuel : Nat) (samples : List (Option StateID_type))
        (self : UnsafePathIdentifier),
      UnsafePathIdentifier.identify_unsafe_paths setup fuel samples self
        = UnsafePathIdentifier.identify_unsafe_paths setup fuel samples
            { self with transition_cache := [] }) := by
  refine ⟨?_, ?_, ?_, ?_⟩
  · intro self action_label
    unfold UnsafePathIdentifier.cache_and_check_cycle
    dsimp only
    split_ifs with h
    · simp [h]
    · simp [h]
  · intro setup inner_fuel fuel self state r t h ht
    exact execute_policy_keeps_cache setup t inner_fuel fuel self state r h ht
  · intro setup fuel samples self final t h ht
    exact identify_loop_keeps_cache setup t fuel samples self final h ht
  · intro setup fuel samples self
    rfl

/-! ## The loop of the policy-run sampler -/

theorem sample_loop_eq_loop_exit (self : PolicyRunSampler) (fuel : Nat) :
    ∀ (polls : Nat) (num_steps : Int) (evaluated : Option (List StateID_type))
      (current_successors : List StateID_type) (search_tree : PolicyRunSampler.SearchTree),
      PolicyRunSampler.sample_loop self fuel polls num_steps (self.candidates evaluated)
          current_successors search_tree
        = (PolicyRunSampler.loop_exit self fuel polls num_steps evaluated current_successors
            search_tree).result := by
  induction fuel with
  | zero => intro polls num_steps evaluated current_successors search_tree; rfl
  | succ k ih =>
    intro polls num_steps evaluated current_successors search_tree
    unfold PolicyRunSampler.sample_loop PolicyRunSampler.loop_exit
    by_cases h1 : (!self.check_timer polls) = true
    · simp only [h1, if_true, if_false, Bool.false_eq_true]
    · simp only [h1, if_false, Bool.false_eq_true]
      by_cases h2 : PolicyRunSampler.unique_min_exists
          (self.min_states_to_distance current_successors) = true
      · simp only [h2, if_true, if_false, Bool.false_eq_true]
      · simp only [h2, if_false, Bool.false_eq_true]
        by_cases h3 : (current_successors.all fun state => self.is_terminal state) = true
        · simp only [h3, if_true, if_false, Bool.false_eq_true]
        · simp only [h3, if_false, Bool.false_eq_true]
          cases hexp : self.expand_frontier current_successors current_successors []
              search_tree with
          | undefined_behaviour => rfl
          | unsafe_leaf s path => rfl
          | frontier new_successors search_tree1 =>
            simp only
            by_cases h4 : new_successors.isEmpty = true
            · simp only [h4, if_true, if_false, Bool.false_eq_true]
            · simp only [h4, if_false, Bool.false_eq_true]
              by_cases h5 : self.max_policy_run_length = num_steps + 1
              · simp only [h5, if_true, if_false, Bool.false_eq_true]
              · simp only [h5, if_false, Bool.false_eq_true]
                exact ih (polls + 1) (num_steps + 1) (some current_successors) new_successors
                  search_tree1

theorem sample_run_eq_sample_exit (self : PolicyRunSampler) (fuel : Nat)
    (successor_ids : List StateID_type) :
    PolicyRunSampler.sample_run self fuel successor_ids
      = (PolicyRunSampler.sample_exit self fuel successor_ids).result :=
  sample_loop_eq_loop_exit self fuel 0 0 none _ _
theorem foldl_min_le (rest : List Int) :
    ∀ init : Int,
      rest.foldl (fun m d => if d < m then d else m) init ≤ init ∧
      (∀ d ∈ rest, rest.foldl (fun m d => if d < m then d else m) init ≤ d) ∧
      (rest.foldl (fun m d => if d < m then d else m) init = init ∨
        rest.foldl (fun m d => if d < m then d else m) init ∈ rest) := by
  induction rest with
  | nil => intro init; simp
  | cons a rest ih =>
    intro init
    simp only [List.foldl_cons, List.mem_cons]
    obtain ⟨h1, h2, h3⟩ := ih (if a < init then a else init)
    refine ⟨?_, ?_, ?_⟩
    · refine le_trans h1 ?_
      split_ifs with h
      · exact le_of_lt h
      · exact le_refl _
    · intro d hd
      rcases hd with rfl | hd
      · refine le_trans h1 ?_
        split_ifs with h
        · exact le_refl _
        · exact not_lt.1 h
      · exact h2 d hd
    · rcases h3 with h | h
      · rw [h]
        split_ifs with hlt
        · exact Or.inr (Or.inl rfl)
        · exact Or.inl rfl
      · exact Or.inr (Or.inr h)

theorem exists_zip_of_mem (successors : List StateID_type) (distances : List Int)
    (hlen : successors.length = distances.length) (d : Int) (hd : d ∈ distances) :
    ∃ s, (s, d) ∈ successors.zip distances := by
  induction successors generalizing distances with
  | nil =>
    cases distances with
    | nil => simp at hd
    | cons _ _ => simp at hlen
  | cons a rest ih =>
    cases distances with
    | nil => simp at hd
    | cons b ds =>
      simp only [List.length_cons, Nat.add_right_cancel_iff] at hlen
      simp only [List.mem_cons] at hd
      rcases hd with rfl | hd
      · exact ⟨a, by simp⟩
      · obtain ⟨s, hs⟩ := ih ds hlen hd
        exact ⟨s, by simp [hs]⟩

theorem zip_map_fst_snd (entries : List (StateID_type × Int)) :
    (entries.map fun entry => entry.1).zip (entries.map fun entry => entry.2) = entries := by
  induction entries with
  | nil => rfl
  | cons a rest ih => simp [ih]

/-- A state that `greedy_selection` returns is a candidate whose distance is not above any
distance of the list. -/
theorem greedy_selection_ok (self : PolicyRunSampler) (successors : List StateID_type)
    (distances : List Int) (s : StateID_type)
    (h : self.greedy_selection successors distances = Sampled.ok s) :
    ∃ d, (s, d) ∈ successors.zip distances ∧ ∀ e ∈ distances, d ≤ e := by
  unfold PolicyRunSampler.greedy_selection at h
  cases distances with
  | nil => simp at h
  | cons first rest =>
    simp only at h
    split at h
    · rename_i state hget
      simp only [Sampled.ok.injEq] at h
      subst h
      have hmem := List.get?_mem hget
      simp only [List.mem_map, List.mem_filter, decide_eq_true_eq] at hmem
      obtain ⟨entry, ⟨hz, hmin⟩, rfl⟩ := hmem
      obtain ⟨m1, m2, _⟩ := foldl_min_le rest first
      refine ⟨entry.2, hz, ?_⟩
      intro e he
      rw [hmin]
      rcases List.mem_cons.1 he with rfl | he
      · exact m1
      · exact m2 e he
    · simp at h

/-- On a non-empty list of candidates with one distance each, `greedy_selection` returns a state
whenever the random index is within range. -/
theorem greedy_selection_total (self : PolicyRunSampler) (successors : List StateID_type)
    (distances : List Int) (hlen : successors.length = distances.length) (hne : distances ≠ [])
    (hrng : ∀ n, 1 < n → self.rng_index n < n) :
    ∃ s, self.greedy_selection successors distances = Sampled.ok s := by
  unfold PolicyRunSampler.greedy_selection
  cases distances with
  | nil => exact absurd rfl hne
  | cons first rest =>
    simp only
    obtain ⟨_, _, m3⟩ := foldl_min_le rest first
    have hmin_mem : rest.foldl (fun m d => if d < m then d else m) first ∈ first :: rest := by
      rcases m3 with h | h
      · rw [h]; exact List.mem_cons_self _ _
      · exact List.mem_cons_of_mem _ h
    obtain ⟨s0, hs0⟩ := exists_zip_of_mem successors (first :: rest) hlen _ hmin_mem
    have hpos : 0 < (((successors.zip (first :: rest)).filter fun entry =>
        entry.2 = rest.foldl (fun m d => if d < m then d else m) first).map fun entry =>
          entry.1).length := by
      apply List.length_pos_of_mem (a := s0)
      simp only [List.mem_map, List.mem_filter, decide_eq_true_eq]
      exact ⟨(s0, _), ⟨hs0, rfl⟩, rfl⟩
    have hidx : (if (((successors.zip (first :: rest)).filter fun entry =>
        entry.2 = rest.foldl (fun m d => if d < m then d else m) first).map fun entry =>
          entry.1).length > 1 then self.rng_index (((successors.zip (first :: rest)).filter
            fun entry => entry.2 = rest.foldl (fun m d => if d < m then d else m) first).map
              fun entry => entry.1).length else 0)
        < (((successors.zip (first :: rest)).filter fun entry =>
          entry.2 = rest.foldl (fun m d => if d < m then d else m) first).map fun entry =>
            entry.1).length := by
      split_ifs with h
      · exact hrng _ h
      · exact hpos
    rw [List.get?_eq_get hidx]
    exact ⟨_, rfl⟩

theorem distribution_loop_ok_mem (p : Double) (states : List StateID_type)
    (probabilities : List Double) :
    ∀ (i0 : Nat) (cumulative : Double) (s : StateID_type),
      PolicyRunSampler.distribution_loop p states probabilities i0 cumulative = Sampled.ok s →
      s ∈ states := by
  induction probabilities with
  | nil =>
    intro i0 cumulative s h
    simp only [PolicyRunSampler.distribution_loop] at h
    split at h
    · rename_i state hlast
      simp only [Sampled.ok.injEq] at h
      subst h
      exact List.mem_of_mem_getLast? hlast
    · simp at h
  | cons q rest ih =>
    intro i0 cumulative s h
    simp only [PolicyRunSampler.distribution_loop] at h
    split at h
    · split at h
      · rename_i state hget
        simp only [Sampled.ok.injEq] at h
        subst h
        exact List.get?_mem hget
      · simp at h
    · exact ih _ _ s h

theorem sample_successor_ok_mem (self : PolicyRunSampler) (successors : List StateID_type)
    (distances : List Int) (s : StateID_type)
    (h : self.sample_successor successors distances = Sampled.ok s) : s ∈ successors := by
  unfold PolicyRunSampler.sample_successor PolicyRunSampler.sample_from_distribution at h
  split at h
  · exact distribution_loop_ok_mem _ _ _ _ _ s h
  · exact distribution_loop_ok_mem _ _ _ _ _ s h

theorem min_distance_le (self : PolicyRunSampler) (current_successors : List StateID_type)
    (t : StateID_type) (ht : t ∈ current_successors) :
    self.min_distance current_successors ≤ self.distance_to_avoid t := by
  unfold PolicyRunSampler.min_distance PolicyRunSampler.current_successors_distance
  have key : ∀ (l : List StateID_type) (init : Int),
      (l.map fun id => (id, self.distance_to_avoid id)).foldl
          (fun m entry => if entry.2 < m then entry.2 else m) init
        = (l.map self.distance_to_avoid).foldl (fun m d => if d < m then d else m) init := by
    intro l
    induction l with
    | nil => intro init; rfl
    | cons a l ih => intro init; simp only [List.map_cons, List.foldl_cons, ih]
  rw [key]
  exact (foldl_min_le _ INT_MAX).2.1 _ (List.mem_map_of_mem _ ht)

/-- A candidate of an evaluated frontier is a state of the frontier whose distance is not above
the distance of any state of the frontier. -/
theorem candidate_is_minimal (self : PolicyRunSampler) (current_successors : List StateID_type)
    (entry : StateID_type × Int)
    (h : entry ∈ self.min_states_to_distance current_successors) :
    entry.1 ∈ current_successors ∧ entry.2 = self.distance_to_avoid entry.1 ∧
      entry.2 = self.min_distance current_successors ∧
      ∀ t ∈ current_successors, entry.2 ≤ self.distance_to_avoid t := by
  obtain ⟨h1, h2, h3⟩ := (mem_min_states_to_distance self current_successors entry).1 h
  have h4 : self.min_distance current_successors ≤ entry.2 := by
    rw [h2]; exact min_distance_le self current_successors entry.1 h1
  exact ⟨h1, h2, le_antisymm h3 h4,
    fun t ht => le_trans h3 (min_distance_le self current_successors t ht)⟩

/-- The leaf that the tail of `sample_run` selects is a state of the candidate map. -/
theorem select_leaf_ok (self : PolicyRunSampler)
    (successors_to_distance : List (StateID_type × Int))
    (search_tree : PolicyRunSampler.SearchTree) (leaf : StateID_type)
    (path : List StateID_type)
    (h : self.select_leaf successors_to_distance search_tree = Sampled.ok (leaf, path)) :
    ∃ d, (leaf, d) ∈ successors_to_distance := by
  unfold PolicyRunSampler.select_leaf at h
  simp only at h
  split at h
  · rename_i id hsel
    split at h
    · rename_i node hfind
      simp only [Sampled.ok.injEq, Prod.mk.injEq] at h
      obtain ⟨rfl, _⟩ := h
      by_cases hmode : self.use_probabilistic_sampling = true
      · simp only [hmode, if_true] at hsel
        have hm := sample_successor_ok_mem self _ _ id hsel
        obtain ⟨entry, he, rfl⟩ := List.mem_map.1 hm
        exact ⟨entry.2, he⟩
      · simp only [hmode, if_false, Bool.false_eq_true] at hsel
        obtain ⟨d, hz, _⟩ := greedy_selection_ok self _ _ id hsel
        rw [zip_map_fst_snd] at hz
        exact ⟨d, hz⟩
    · simp at h
  · simp at h
  · simp at h

/-- When the loop of `sample_run` is not left from inside at an unsafe state, a returned leaf is
what the tail selects from the candidates of the frontier evaluated last. -/
theorem loop_exit_tail (self : PolicyRunSampler) (fuel : Nat) :
    ∀ (polls : Nat) (num_steps : Int) (evaluated : Option (List StateID_type))
      (current_successors : List StateID_type) (search_tree : PolicyRunSampler.SearchTree),
      (PolicyRunSampler.loop_exit self fuel polls num_steps evaluated current_successors
          search_tree).early = false →
      (PolicyRunSampler.loop_exit self fuel polls num_steps evaluated current_successors
          search_tree).result = Sampled.out_of_fuel ∨
      (PolicyRunSampler.loop_exit self fuel polls num_steps evaluated current_successors
          search_tree).result = Sampled.undefined_behaviour ∨
      (PolicyRunSampler.loop_exit self fuel polls num_steps evaluated current_successors
          search_tree).result
        = self.select_leaf
            (self.candidates (PolicyRunSampler.loop_exit self fuel polls num_steps evaluated
              current_successors search_tree).evaluated)
            (PolicyRunSampler.loop_exit self fuel polls num_steps evaluated current_successors
              search_tree).search_tree := by
  induction fuel with
  | zero =>
    intro polls num_steps evaluated current_successors search_tree _
    exact Or.inl rfl
  | succ k ih =>
    intro polls num_steps evaluated current_successors search_tree
    unfold PolicyRunSampler.loop_exit
    by_cases h1 : (!self.check_timer polls) = true
    · simp only [h1, if_true, if_false, Bool.false_eq_true]
      intro _; right; right; trivial
    · simp only [h1, if_true, if_false, Bool.false_eq_true]
      by_cases h2 : PolicyRunSampler.unique_min_exists
          (self.min_states_to_distance current_successors) = true
      · simp only [h2, if_true, if_false, Bool.false_eq_true]
        intro _; right; right; rfl
      · simp only [h2, if_true, if_false, Bool.false_eq_true]
        by_cases h3 : (current_successors.all fun state => self.is_terminal state) = true
        · simp only [h3, if_true, if_false, Bool.false_eq_true]
          intro _; right; right; rfl
        · simp only [h3, if_true, if_false, Bool.false_eq_true]
          cases hexp : self.expand_frontier current_successors current_successors []
              search_tree with
          | undefined_behaviour => intro _; right; left; rfl
          | unsafe_leaf s path => intro h; simp at h
          | frontier new_successors search_tree1 =>
            simp only
            by_cases h4 : new_successors.isEmpty = true
            · simp only [h4, if_true, if_false, Bool.false_eq_true]
              intro _; right; right; rfl
            · simp only [h4, if_true, if_false, Bool.false_eq_true]
              by_cases h5 : self.max_policy_run_length = num_steps + 1
              · simp only [h5, if_true, if_false, Bool.false_eq_true]
                intro _; right; right; rfl
              · simp only [h5, if_true, if_false, Bool.false_eq_true]
                exact ih (polls + 1) (num_steps + 1) (some current_successors) new_successors
                  search_tree1
/-- C31: on every non-empty list of candidates with one distance each, for every random index
within range, `greedy_selection` returns a candidate whose distance is the minimum of the list.
Whenever `sample_run` returns a leaf and did not return from inside the loop at an unsafe state,
a frontier was evaluated, the leaf is a state of the frontier evaluated last, and no state of
that frontier has a smaller distance; this holds in greedy mode (and in probabilistic mode
alike). In the example the selection among the distances 1, 1, 5 returns the first candidate, and
`sample_run` returns state 4 of the last frontier `[4]`. -/
theorem greedy_leaf_has_minimal_distance :
    (∀ (self : PolicyRunSampler) (successors : List StateID_type) (distances : List Int),
      successors.length = distances.length → distances ≠ [] →
      (∀ n, 1 < n → self.rng_index n < n) →
      ∃ s d, self.greedy_selection successors distances = Sampled.ok s ∧
        (s, d) ∈ successors.zip distances ∧ ∀ e ∈ distances, d ≤ e) ∧
    (∀ (self : PolicyRunSampler) (fuel : Nat) (successor_ids : List StateID_type)
        (leaf : StateID_type) (path : List StateID_type),
      PolicyRunSampler.sample_run self fuel successor_ids = Sampled.ok (leaf, path) →
      (PolicyRunSampler.sample_exit self fuel successor_ids).early = false →
      ∃ frontier, (PolicyRunSampler.sample_exit self fuel successor_ids).evaluated
          = some frontier ∧
        leaf ∈ frontier ∧
        ∀ t ∈ frontier, self.distance_to_avoid leaf ≤ self.distance_to_avoid t) ∧
    PolicyRunSampler.greedy_selection (Example.sampler Example.x_eq_5) [1, 2, 3] [1, 1, 5]
      = Sampled.ok 1 ∧
    PolicyRunSampler.sample_run (Example.sampler Example.x_eq_5) 10 [1, 2, 3]
      = Sampled.ok (4, [4, 3]) ∧
    (PolicyRunSampler.sample_exit (Example.sampler Example.x_eq_5) 10 [1, 2, 3]).evaluated
      = some [4] := by
  refine ⟨?_, ?_, by decide, by decide, by decide⟩
  · intro self successors distances hlen hne hrng
    obtain ⟨s, hs⟩ := greedy_selection_total self successors distances hlen hne hrng
    obtain ⟨d, hz, hmin⟩ := greedy_selection_ok self successors distances s hs
    exact ⟨s, d, hs, hz, hmin⟩
  · intro self fuel successor_ids leaf path hrun hearly
    rw [sample_run_eq_sample_exit] at hrun
    have htail := loop_exit_tail self fuel 0 0 none
      (PolicyRunSampler.initial_frontier successor_ids).1
      (PolicyRunSampler.initial_frontier successor_ids).2 hearly
    change (PolicyRunSampler.sample_exit self fuel successor_ids).result = Sampled.out_of_fuel ∨
      (PolicyRunSampler.sample_exit self fuel successor_ids).result
        = Sampled.undefined_behaviour ∨
      (PolicyRunSampler.sample_exit self fuel successor_ids).result
        = self.select_leaf
            (self.candidates (PolicyRunSampler.sample_exit self fuel successor_ids).evaluated)
            (PolicyRunSampler.sample_exit self fuel successor_ids).search_tree at htail
    rw [hrun] at htail
    rcases htail with h | h | h
    · simp at h
    · simp at h
    · obtain ⟨d, hd⟩ := select_leaf_ok self _ _ leaf path h.symm
      cases hev : (PolicyRunSampler.sample_exit self fuel successor_ids).evaluated with
      | none =>
        rw [hev] at hd
        simp [PolicyRunSampler.candidates] at hd
      | some frontier =>
        rw [hev] at hd
        obtain ⟨h1, h2, _, h4⟩ := candidate_is_minimal self frontier (leaf, d) hd
        refine ⟨frontier, rfl, h1, ?_⟩
        intro t ht
        have := h4 t ht
        simp only at h2 this
        rw [← h2]
        exact this

theorem greedy_selection_all_equal (self : PolicyRunSampler)
    (entries : List (StateID_type × Int)) (m : Int) (hall : ∀ entry ∈ entries, entry.2 = m)
    (h : (if (entries.map fun entry => entry.1).length > 1 then
        self.rng_index (entries.map fun entry => entry.1).length else 0)
      < (entries.map fun entry => entry.1).length) :
    self.greedy_selection (entries.map fun entry => entry.1) (entries.map fun entry => entry.2)
      = Sampled.ok ((entries.map fun entry => entry.1).get
          ⟨if (entries.map fun entry => entry.1).length > 1 then
            self.rng_index (entries.map fun entry => entry.1).length else 0, h⟩) := by
  cases entries with
  | nil => simp at h
  | cons a rest =>
    have hfold : (rest.map fun entry => entry.2).foldl (fun m d => if d < m then d else m) a.2
        = m := by
      obtain ⟨h1, h2, h3⟩ := foldl_min_le (rest.map fun entry => entry.2) a.2
      have ha : a.2 = m := hall a (List.mem_cons_self _ _)
      rcases h3 with e | e
      · rw [e, ha]
      · obtain ⟨entry, he, hval⟩ := List.mem_map.1 e
        rw [← hval]
        exact hall entry (List.mem_cons_of_mem _ he)
    have hfilter : (((a :: rest).map fun entry => entry.1).zip
        ((a :: rest).map fun entry => entry.2)).filter (fun entry => decide (entry.2 = m))
        = a :: rest := by
      rw [zip_map_fst_snd]
      apply List.filter_eq_self.2
      intro entry he
      simp [hall entry he]
    unfold PolicyRunSampler.greedy_selection
    simp only [List.map_cons, hfold]
    simp only [List.map_cons] at hfilter h
    rw [hfilter]
    simp only [List.map_cons]
    rw [List.get?_eq_get h]

/-- C39: whenever the loop of `sample_run` is left for the tail of the function, the leaf is
selected from the candidates of the frontier evaluated last; every candidate is a state of that
frontier whose distance is the minimum distance of the frontier. Hence probabilistic
`sample_successor` on the candidates takes its equal-distances branch, whatever the values of the
exponential are, gives each of the `n` candidates the same probability `1.0 / n` and returns the
candidate at the least index `i` for which the draw `p` is at most the running sum of `i + 1`
copies of `1.0 / n`, the last candidate when there is none; and `greedy_selection` on the
candidates finds every candidate minimal and returns the one at the random index: both modes
choose among all of the `n` candidates. -/
theorem final_selection_sees_only_minimal_distances :
    (∀ (self : PolicyRunSampler) (fuel : Nat) (successor_ids : List StateID_type),
      (PolicyRunSampler.sample_exit self fuel successor_ids).early = false →
      (PolicyRunSampler.sample_exit self fuel successor_ids).result = Sampled.out_of_fuel ∨
      (PolicyRunSampler.sample_exit self fuel successor_ids).result
        = Sampled.undefined_behaviour ∨
      PolicyRunSampler.sample_run self fuel successor_ids
        = self.select_leaf
            (self.candidates (PolicyRunSampler.sample_exit self fuel successor_ids).evaluated)
            (PolicyRunSampler.sample_exit self fuel successor_ids).search_tree) ∧
    (∀ (self : PolicyRunSampler) (evaluated : Option (List StateID_type))
        (entry : StateID_type × Int),
      entry ∈ self.candidates evaluated →
      ∃ frontier, evaluated = some frontier ∧ entry.1 ∈ frontier ∧
        entry.2 = self.distance_to_avoid entry.1 ∧ entry.2 = self.min_distance frontier ∧
        ∀ t ∈ frontier, entry.2 ≤ self.distance_to_avoid t) ∧
    (∀ (self : PolicyRunSampler) (evaluated : Option (List StateID_type)) (exp : Int → Double),
      PolicyRunSampler.all_adjacent_equal
          ((self.candidates evaluated).map fun entry => entry.2) = true ∧
      self.sample_successor ((self.candidates evaluated).map fun entry => entry.1)
          ((self.candidates evaluated).map fun entry => entry.2)
        = PolicyRunSampler.sample_successor { self with exp_minus := exp }
          ((self.candidates evaluated).map fun entry => entry.1)
          ((self.candidates evaluated).map fun entry => entry.2)) ∧
    (∀ (self : PolicyRunSampler) (evaluated : Option (List StateID_type)),
      self.sample_successor ((self.candidates evaluated).map fun entry => entry.1)
          ((self.candidates evaluated).map fun entry => entry.2)
        = self.sample_from_distribution ((self.candidates evaluated).map fun entry => entry.1)
            (List.replicate ((self.candidates evaluated).map fun entry => entry.1).length
              (Double.div (Double.finite 1)
                (Double.of_nat ((self.candidates evaluated).map fun entry => entry.1).length)))) ∧
    (∀ (self : PolicyRunSampler) (evaluated : Option (List StateID_type)) (i : Nat)
        (hi : i < ((self.candidates evaluated).map fun entry => entry.1).length),
      (∀ j, j < i → Double.le self.rng_prob (PolicyRunSampler.cumulative_probability
        (Double.div (Double.finite 1)
          (Double.of_nat ((self.candidates evaluated).map fun entry => entry.1).length))
        (j + 1)) = false) →
      Double.le self.rng_prob (PolicyRunSampler.cumulative_probability
        (Double.div (Double.finite 1)
          (Double.of_nat ((self.candidates evaluated).map fun entry => entry.1).length))
        (i + 1)) = true →
      self.sample_successor ((self.candidates evaluated).map fun entry => entry.1)
          ((self.candidates evaluated).map fun entry => entry.2)
        = Sampled.ok (((self.candidates evaluated).map fun entry => entry.1).get ⟨i, hi⟩)) ∧
    (∀ (self : PolicyRunSampler) (evaluated : Option (List StateID_type))
        (hne : ((self.candidates evaluated).map fun entry => entry.1) ≠ []),
      (∀ j, j < ((self.candidates evaluated).map fun entry => entry.1).length →
        Double.le self.rng_prob (PolicyRunSampler.cumulative_probability
          (Double.div (Double.finite 1)
            (Double.of_nat ((self.candidates evaluated).map fun entry => entry.1).length))
          (j + 1)) = false) →
      self.sample_successor ((self.candidates evaluated).map fun entry => entry.1)
          ((self.candidates evaluated).map fun entry => entry.2)
        = Sampled.ok (((self.candidates evaluated).map fun entry => entry.1).getLast hne)) ∧
    (∀ (self : PolicyRunSampler) (evaluated : Option (List StateID_type))
        (h : (if ((self.candidates evaluated).map fun entry => entry.1).length > 1 then
            self.rng_index ((self.candidates evaluated).map fun entry => entry.1).length else 0)
          < ((self.candidates evaluated).map fun entry => entry.1).length),
      self.greedy_selection ((self.candidates evaluated).map fun entry => entry.1)
          ((self.candidates evaluated).map fun entry => entry.2)
        = Sampled.ok (((self.candidates evaluated).map fun entry => entry.1).get
            ⟨if ((self.candidates evaluated).map fun entry => entry.1).length > 1 then
              self.rng_index ((self.candidates evaluated).map fun entry => entry.1).length
             else 0, h⟩)) := by
  have hcand : ∀ (self : PolicyRunSampler) (evaluated : Option (List StateID_type))
      (entry : StateID_type × Int), entry ∈ self.candidates evaluated →
      ∃ frontier, evaluated = some frontier ∧ entry.1 ∈ frontier ∧
        entry.2 = self.distance_to_avoid entry.1 ∧ entry.2 = self.min_distance frontier ∧
        ∀ t ∈ frontier, entry.2 ≤ self.distance_to_avoid t := by
    intro self evaluated entry he
    cases evaluated with
    | none => simp [PolicyRunSampler.candidates] at he
    | some frontier =>
      obtain ⟨h1, h2, h3, h4⟩ := candidate_is_minimal self frontier entry he
      exact ⟨frontier, rfl, h1, h2, h3, h4⟩
  have hequal : ∀ (self : PolicyRunSampler) (evaluated : Option (List StateID_type)),
      ∃ m, ∀ entry ∈ self.candidates evaluated, entry.2 = m := by
    intro self evaluated
    cases evaluated with
    | none => exact ⟨0, fun entry he => by simp [PolicyRunSampler.candidates] at he⟩
    | some frontier =>
      exact ⟨self.min_distance frontier,
        fun entry he => (candidate_is_minimal self frontier entry he).2.2.1⟩
  have hadj : ∀ (self : PolicyRunSampler) (evaluated : Option (List StateID_type)),
      PolicyRunSampler.all_adjacent_equal
        ((self.candidates evaluated).map fun entry => entry.2) = true := by
    intro self evaluated
    obtain ⟨m, hm⟩ := hequal self evaluated
    apply all_adjacent_equal_of_all_equal
    intro d hd e he
    obtain ⟨e1, h1, rfl⟩ := List.mem_map.1 hd
    obtain ⟨e2, h2, rfl⟩ := List.mem_map.1 he
    rw [hm e1 h1, hm e2 h2]
  refine ⟨?_, hcand, ?_, ?_, ?_, ?_, ?_⟩
  · intro self fuel successor_ids hearly
    rw [sample_run_eq_sample_exit]
    exact loop_exit_tail self fuel 0 0 none
      (PolicyRunSampler.initial_frontier successor_ids).1
      (PolicyRunSampler.initial_frontier successor_ids).2 hearly
  · intro self evaluated exp
    refine ⟨hadj self evaluated, ?_⟩
    rw [sample_successor_equal_branch self _ _ (hadj self evaluated),
      sample_successor_equal_branch { self with exp_minus := exp } _ _ (hadj self evaluated)]
  · intro self evaluated
    rw [sample_successor_equal_branch self _ _ (hadj self evaluated)]
    rfl
  · intro self evaluated i hi hbefore hat
    rw [sample_successor_equal_branch self _ _ (hadj self evaluated)]
    exact uniform_loop_least_index self.rng_prob _ i hi hbefore hat
  · intro self evaluated hne hnone
    rw [sample_successor_equal_branch self _ _ (hadj self evaluated)]
    have hloop := distribution_loop_replicate self.rng_prob
      (Double.div (Double.finite 1)
        (Double.of_nat ((self.candidates evaluated).map fun entry => entry.1).length))
      ((self.candidates evaluated).map fun entry => entry.1)
      ((self.candidates evaluated).map fun entry => entry.1).length 0 0
    exact hloop.2 (fun j hj => by rw [Nat.zero_add]; exact hnone j hj) hne
  · intro self evaluated h
    obtain ⟨m, hm⟩ := hequal self evaluated
    exact greedy_selection_all_equal self (self.candidates evaluated) m hm h
theorem tree_find_mem (search_tree : PolicyRunSampler.SearchTree) (id : StateID_type)
    (node : SearchNode) (h : PolicyRunSampler.tree_find search_tree id = some node) :
    (id, node) ∈ search_tree := by
  unfold PolicyRunSampler.tree_find at h
  split at h
  · rename_i entry hfind
    simp only [Option.some.injEq] at h
    subst h
    have hmem := List.mem_of_find?_eq_some hfind
    have hkey := List.find?_some hfind
    simp only [decide_eq_true_eq] at hkey
    rw [← hkey]
    exact hmem
  · simp at h

theorem add_children_depth (k : Nat) (current_successors : List StateID_type)
    (parent : Option SearchNode) (hparent : ∀ p, parent = some p → p.depth ≤ k)
    (children : List StateID_type) :
    ∀ acc : List StateID_type × PolicyRunSampler.SearchTree,
      RoundDepth k current_successors acc.2 →
      RoundDepth k current_successors
        (PolicyRunSampler.add_children current_successors parent children acc).2 := by
  induction children with
  | nil => intro acc h; exact h
  | cons c rest ih =>
    intro acc h
    obtain ⟨new_successors, search_tree⟩ := acc
    simp only [PolicyRunSampler.add_children]
    by_cases hskip : PolicyRunSampler.tree_count search_tree c = true ∨ c ∈ current_successors
    · simp only [hskip, if_true]
      exact ih _ h
    · simp only [hskip, if_false]
      apply ih
      have hcount : PolicyRunSampler.tree_count search_tree c = false := by
        cases hc : PolicyRunSampler.tree_count search_tree c with
        | false => rfl
        | true => exact absurd (Or.inl hc) hskip
      have hcur : c ∉ current_successors := fun hc => hskip (Or.inr hc)
      have hassign : PolicyRunSampler.tree_assign search_tree c (SearchNode.create c parent)
          = search_tree ++ [(c, SearchNode.create c parent)] := by
        unfold PolicyRunSampler.tree_assign
        simp [hcount]
      have hdepth : (SearchNode.create c parent).depth ≤ k + 1 := by
        cases parent with
        | none => simp [SearchNode.create, SearchNode.depth]
        | some p =>
          have := hparent p rfl
          simp only [SearchNode.create, SearchNode.depth]
          omega
      simp only at h ⊢
      rw [hassign]
      constructor
      · intro entry he
        rcases List.mem_append.1 he with h1 | h1
        · exact h.1 entry h1
        · simp only [List.mem_singleton] at h1
          rw [h1]; exact hdepth
      · intro entry he hin
        rcases List.mem_append.1 he with h1 | h1
        · exact h.2 entry h1 hin
        · simp only [List.mem_singleton] at h1
          rw [h1] at hin
          exact absurd hin hcur

theorem expansion_tree_depth (self : PolicyRunSampler) (k : Nat)
    (current_successors : List StateID_type) (rest : List StateID_type) :
    ∀ (new_successors : List StateID_type) (search_tree : PolicyRunSampler.SearchTree),
      (∀ s ∈ rest, s ∈ current_successors) →
      RoundDepth k current_successors search_tree →
      RoundDepth k current_successors
        (self.expansion_tree current_successors rest new_successors search_tree) := by
  induction rest with
  | nil => intro new_successors search_tree _ h; exact h
  | cons s rest ih =>
    intro new_successors search_tree hsub h
    simp only [PolicyRunSampler.expansion_tree]
    split_ifs with hun
    · exact h
    · apply ih _ _ (fun t ht => hsub t (List.mem_cons_of_mem _ ht))
      apply add_children_depth k current_successors _ _ _ (new_successors, search_tree) h
      intro p hp
      exact h.2 (s, p) (tree_find_mem search_tree s p hp) (hsub s (List.mem_cons_self _ _))

theorem expand_frontier_tree (self : PolicyRunSampler) (current_successors : List StateID_type)
    (rest : List StateID_type) :
    ∀ (new_successors new_successors1 : List StateID_type)
      (search_tree search_tree1 : PolicyRunSampler.SearchTree),
      self.expand_frontier current_successors rest new_successors search_tree
        = PolicyRunSampler.Expansion.frontier new_successors1 search_tree1 →
      self.expansion_tree current_successors rest new_successors search_tree = search_tree1 := by
  induction rest with
  | nil =>
    intro new_successors new_successors1 search_tree search_tree1 h
    simp only [PolicyRunSampler.expand_frontier,
      PolicyRunSampler.Expansion.frontier.injEq] at h
    exact h.2
  | cons s rest ih =>
    intro new_successors new_successors1 search_tree search_tree1 h
    simp only [PolicyRunSampler.expand_frontier] at h
    simp only [PolicyRunSampler.expansion_tree]
    split_ifs at h ⊢ with hun
    · split at h <;> simp at h
    · exact ih _ _ _ _ h

theorem initial_frontier_depth (successor_ids : List StateID_type) :
    ∀ entry ∈ (PolicyRunSampler.initial_frontier successor_ids).2, entry.2.depth = 0 := by
  unfold PolicyRunSampler.initial_frontier
  suffices H : ∀ (acc : List StateID_type × PolicyRunSampler.SearchTree),
      (∀ entry ∈ acc.2, entry.2.depth = 0) →
      ∀ entry ∈ (successor_ids.foldl
        (fun (acc : List StateID_type × PolicyRunSampler.SearchTree) s =>
          (set_insert acc.1 s, PolicyRunSampler.tree_assign acc.2 s (SearchNode.root s)))
        acc).2, entry.2.depth = 0 from
    H ([], []) (fun entry he => by simp at he)
  induction successor_ids with
  | nil => intro acc h; exact h
  | cons s rest ih =>
    intro acc h
    simp only [List.foldl_cons]
    apply ih
    intro entry he
    simp only [PolicyRunSampler.tree_assign] at he
    split_ifs at he
    · obtain ⟨e0, he0, rfl⟩ := List.mem_map.1 he
      split_ifs
      · rfl
      · exact h e0 he0
    · rcases List.mem_append.1 he with h1 | h1
      · exact h entry h1
      · simp only [List.mem_singleton] at h1
        rw [h1]; rfl

theorem loop_exit_bounds (self : PolicyRunSampler) (fuel : Nat) :
    ∀ (polls k : Nat) (evaluated : Option (List StateID_type))
      (current_successors : List StateID_type) (search_tree : PolicyRunSampler.SearchTree),
      (k : Int) < self.max_policy_run_length →
      (∀ entry ∈ search_tree, entry.2.depth ≤ k) →
      ((k : Int) ≤ (PolicyRunSampler.loop_exit self fuel polls k evaluated current_successors
          search_tree).num_steps) ∧
      ((PolicyRunSampler.loop_exit self fuel polls k evaluated current_successors
          search_tree).num_steps ≤ self.max_policy_run_length) ∧
      (∀ entry ∈ (PolicyRunSampler.loop_exit self fuel polls k evaluated current_successors
          search_tree).search_tree, (entry.2.depth : Int) ≤ self.max_policy_run_length) ∧
      (self.max_policy_run_length - k ≤ fuel →
        (PolicyRunSampler.loop_exit self fuel polls k evaluated current_successors
          search_tree).result ≠ Sampled.out_of_fuel) := by
  induction fuel with
  | zero =>
    intro polls k evaluated current_successors search_tree hk hdepth
    refine ⟨le_refl _, le_of_lt hk, ?_, ?_⟩
    · intro entry he
      have := hdepth entry he
      simp only [PolicyRunSampler.loop_exit] at he
      have h2 := hdepth entry he
      omega
    · intro hf
      simp only [Nat.cast_zero] at hf
      omega
  | succ n ih =>
    intro polls k evaluated current_successors search_tree hk hdepth
    have hbase : ∀ entry ∈ search_tree, (entry.2.depth : Int) ≤ self.max_policy_run_length := by
      intro entry he
      have := hdepth entry he
      omega
    have hround : RoundDepth k current_successors search_tree :=
      ⟨fun entry he => Nat.le_succ_of_le (hdepth entry he), fun entry he _ => hdepth entry he⟩
    have hexp_tree := expansion_tree_depth self k current_successors current_successors []
      search_tree (fun s hs => hs) hround
    have hexp : ∀ entry ∈ self.expansion_tree current_successors current_successors []
        search_tree, (entry.2.depth : Int) ≤ self.max_policy_run_length := by
      intro entry he
      have := hexp_tree.1 entry he
      omega
    have hsel : ∀ (cands : List (StateID_type × Int)) (tree : PolicyRunSampler.SearchTree),
        self.select_leaf cands tree ≠ Sampled.out_of_fuel := by
      intro cands tree h
      unfold PolicyRunSampler.select_leaf at h
      simp only at h
      split at h
      · split at h <;> simp at h
      · rename_i hsel2
        split_ifs at hsel2 with hmode
        · unfold PolicyRunSampler.sample_successor
            PolicyRunSampler.sample_from_distribution at hsel2
          have hloop : ∀ (p : Double) (states : List StateID_type) (probs : List Double)
              (i : Nat) (c : Double), PolicyRunSampler.distribution_loop p states probs i c
                ≠ Sampled.out_of_fuel := by
            intro p states probs
            induction probs with
            | nil =>
              intro i c hh
              simp only [PolicyRunSampler.distribution_loop] at hh
              split at hh <;> simp at hh
            | cons q rest ihp =>
              intro i c hh
              simp only [PolicyRunSampler.distribution_loop] at hh
              split_ifs at hh
              · split at hh <;> simp at hh
              · exact ihp _ _ hh
          split_ifs at hsel2
          · exact hloop _ _ _ _ _ hsel2
          · exact hloop _ _ _ _ _ hsel2
        · unfold PolicyRunSampler.greedy_selection at hsel2
          split at hsel2
          · simp at hsel2
          · simp only at hsel2
            split at hsel2 <;> simp at hsel2
      · simp at h
    unfold PolicyRunSampler.loop_exit
    by_cases h1 : (!self.check_timer polls) = true
    · simp only [h1, if_true, if_false, Bool.false_eq_true]
      exact ⟨le_refl _, le_of_lt hk, hbase, fun _ => hsel _ _⟩
    · simp only [h1, if_true, if_false, Bool.false_eq_true]
      by_cases h2 : PolicyRunSampler.unique_min_exists
          (self.min_states_to_distance current_successors) = true
      · simp only [h2, if_true, if_false, Bool.false_eq_true]
        exact ⟨le_refl _, le_of_lt hk, hbase, fun _ => hsel _ _⟩
      · simp only [h2, if_true, if_false, Bool.false_eq_true]
        by_cases h3 : (current_successors.all fun state => self.is_terminal state) = true
        · simp only [h3, if_true, if_false, Bool.false_eq_true]
          exact ⟨le_refl _, le_of_lt hk, hbase, fun _ => hsel _ _⟩
        · simp only [h3, if_true, if_false, Bool.false_eq_true]
          cases hexpand : self.expand_frontier current_successors current_successors []
              search_tree with
          | undefined_behaviour =>
            exact ⟨le_refl _, le_of_lt hk, hexp, fun _ => by simp⟩
          | unsafe_leaf s path =>
            exact ⟨le_refl _, le_of_lt hk, hexp, fun _ => by simp⟩
          | frontier new_successors search_tree1 =>
            have htree := expand_frontier_tree self current_successors current_successors [] _
              search_tree search_tree1 hexpand
            rw [htree] at hexp hexp_tree
            simp only
            by_cases h4 : new_successors.isEmpty = true
            · simp only [h4, if_true, if_false, Bool.false_eq_true]
              exact ⟨le_refl _, le_of_lt hk, hexp, fun _ => hsel _ _⟩
            · simp only [h4, if_true, if_false, Bool.false_eq_true]
              by_cases h5 : self.max_policy_run_length = (k : Int) + 1
              · simp only [h5, if_true, if_false, Bool.false_eq_true]
                refine ⟨by omega, le_refl _, ?_, fun _ => hsel _ _⟩
                rw [← h5]; exact hexp
              · simp only [h5, if_true, if_false, Bool.false_eq_true]
                have hk1 : ((k + 1 : Nat) : Int) < self.max_policy_run_length := by
                  push_cast; omega
                have hrec := ih (polls + 1) (k + 1) (some current_successors) new_successors
                  search_tree1 hk1 hexp_tree.1
                have hcast : ((k + 1 : Nat) : Int) = (k : Int) + 1 := by push_cast; rfl
                rw [hcast] at hrec
                refine ⟨by omega, hrec.2.1, hrec.2.2.1, ?_⟩
                intro hf
                apply hrec.2.2.2
                push_cast at hf
                omega

/-- C32: for every run length limit of at least one and every simulation environment, policy,
distance function and timer, the loop of `sample_run` replaces its frontier at most
`max_policy_run_length` times: `num_steps` ends between 0 and the limit, the call returns with a
fuel of `max_policy_run_length` loop iterations, and every node of the search tree with which the
loop is left has depth at most `max_policy_run_length` below an initial successor. -/
theorem sample_run_expands_at_most_max_run_length_rounds (self : PolicyRunSampler)
    (hmax : 1 ≤ self.max_policy_run_length) (fuel : Nat) (successor_ids : List StateID_type) :
    PolicyRunSampler.sample_run self fuel successor_ids
      = (PolicyRunSampler.sample_exit self fuel successor_ids).result ∧
    0 ≤ (PolicyRunSampler.sample_exit self fuel successor_ids).num_steps ∧
    (PolicyRunSampler.sample_exit self fuel successor_ids).num_steps
      ≤ self.max_policy_run_length ∧
    (∀ entry ∈ (PolicyRunSampler.sample_exit self fuel successor_ids).search_tree,
      (entry.2.depth : Int) ≤ self.max_policy_run_length) ∧
    (self.max_policy_run_length ≤ fuel →
      PolicyRunSampler.sample_run self fuel successor_ids ≠ Sampled.out_of_fuel) := by
  have h := loop_exit_bounds self fuel 0 0 none
    (PolicyRunSampler.initial_frontier successor_ids).1
    (PolicyRunSampler.initial_frontier successor_ids).2 (by simpa using hmax)
    (fun entry he => by rw [initial_frontier_depth successor_ids entry he])
  simp only [Nat.cast_zero, sub_zero] at h
  refine ⟨sample_run_eq_sample_exit self fuel successor_ids, h.1, h.2.1, h.2.2.1, ?_⟩
  intro hf
  rw [sample_run_eq_sample_exit]
  exact h.2.2.2 hf

/-- Witness for C32: the example sampler with run length limit 10 on the successors 1, 2, 3. -/
theorem sample_run_expands_at_most_max_run_length_rounds_witness :
    PolicyRunSampler.sample_run (Example.sampler Example.x_eq_5) 10 [1, 2, 3]
      = (PolicyRunSampler.sample_exit (Example.sampler Example.x_eq_5) 10 [1, 2, 3]).result ∧
    0 ≤ (PolicyRunSampler.sample_exit (Example.sampler Example.x_eq_5) 10 [1, 2, 3]).num_steps ∧
    (PolicyRunSampler.sample_exit (Example.sampler Example.x_eq_5) 10 [1, 2, 3]).num_steps
      ≤ (Example.sampler Example.x_eq_5).max_policy_run_length ∧
    (∀ entry ∈ (PolicyRunSampler.sample_exit (Example.sampler Example.x_eq_5) 10
        [1, 2, 3]).search_tree,
      (entry.2.depth : Int) ≤ (Example.sampler Example.x_eq_5).max_policy_run_length) ∧
    ((Example.sampler Example.x_eq_5).max_policy_run_length ≤ ((10 : Nat) : Int) →
      PolicyRunSampler.sample_run (Example.sampler Example.x_eq_5) 10 [1, 2, 3]
        ≠ Sampled.out_of_fuel) :=
  sample_run_expands_at_most_max_run_length_rounds (Example.sampler Example.x_eq_5) (by decide)
    10 [1, 2, 3]

/-! ## Assertion scopes of the solvers during verification -/

/-- C34 (the code departs from the claim): two learned labels 1 and 2 with one action op each,
the solvers replayed as stacks of assertion scopes. The checks of `solver_z3` see the start and
unsafety conditions and the update formula of the current action op only, and both solvers end
with the scopes they had on entry. But the second check of `solver_marabou`, made for the action
op of label 2, still has the output-interface constraint of label 1 in force: `verify` asserts it
in the scope that it opened at its start, without a scope of its own. -/
theorem output_interface_of_earlier_label_stays_asserted :
    ((InvariantStrengthening.verify Example.two_label_verifier Example.fresh_members).value.map
      fun verified =>
        (InvariantStrengthening.Scopes.replay verified.members.marabou_calls
          Example.fresh_solver,
         InvariantStrengthening.Scopes.replay verified.members.z3_calls Example.fresh_solver))
      = some
        ({ stack := [[]]
           checks :=
            [[InvariantStrengthening.SolverCall.add_to_solver
                InvariantStrengthening.Condition.start 0,
              InvariantStrengthening.SolverCall.add_to_solver
                InvariantStrengthening.Condition.unsafety 1,
              InvariantStrengthening.SolverCall.add_output_interface 1 0,
              InvariantStrengthening.SolverCall.add_action_op 0 0 false 0],
             [InvariantStrengthening.SolverCall.add_to_solver
                InvariantStrengthening.Condition.start 0,
              InvariantStrengthening.SolverCall.add_to_solver
                InvariantStrengthening.Condition.unsafety 1,
              InvariantStrengthening.SolverCall.add_output_interface 1 0,
              InvariantStrengthening.SolverCall.add_output_interface 2 0,
              InvariantStrengthening.SolverCall.add_action_op 1 0 false 0]] },
         { stack := [[]]
           checks :=
            [[InvariantStrengthening.SolverCall.add_to_solver
                InvariantStrengthening.Condition.start 0,
              InvariantStrengthening.SolverCall.add_to_solver
                InvariantStrengthening.Condition.unsafety 1,
              InvariantStrengthening.SolverCall.add_action_op 0 0 false 0],
             [InvariantStrengthening.SolverCall.add_to_solver
                InvariantStrengthening.Condition.start 0,
              InvariantStrengthening.SolverCall.add_to_solver
                InvariantStrengthening.Condition.unsafety 1,
              InvariantStrengthening.SolverCall.add_action_op 1 0 false 0]] }) := by
  decide

/-! ## Bounded box with 32-bit `int` arithmetic -/

theorem wrap_int_succ (v : Int) (h1 : INT_MIN ≤ v) (h2 : v < INT_MAX) :
    wrap_int (v + 1) = v + 1 := by
  unfold wrap_int
  unfold INT_MIN at h1
  unfold INT_MAX at h2
  omega

theorem wrap_int_pred (v : Int) (h1 : INT_MIN < v) (h2 : v ≤ INT_MAX) :
    wrap_int (v - 1) = v - 1 := by
  unfold wrap_int
  unfold INT_MIN at h1
  unfold INT_MAX at h2
  omega

/-- The step to the next point in 32-bit arithmetic is the step on mathematical integers as long
as no entry of the current point in the dimensions visited is `INT_MAX`. -/
theorem machine_next_point_eq (a b : List Int) (dim : Nat) :
    ∀ current : List Int,
      (∀ d, d < dim → INT_MIN ≤ BoundedBox.at_dim current d ∧
        BoundedBox.at_dim current d < INT_MAX) →
      Machine.BoundedBox.next_point a b dim current = BoundedBox.next_point a b dim current := by
  induction dim with
  | zero => intro current _; rfl
  | succ dim ih =>
    intro current h
    have hd := h dim (Nat.lt_succ_self dim)
    simp only [Machine.BoundedBox.next_point, BoundedBox.next_point,
      wrap_int_succ _ hd.1 hd.2]
    split_ifs with h1 h2
    · rfl
    · rfl
    · apply ih
      intro d hdd
      have hne : ¬ (dim = d ∧ dim < (current.set dim (BoundedBox.at_dim current dim + 1)).length) := by
        intro hcon; omega
      have hne2 : ¬ (dim = d ∧ dim < current.length) := by
        intro hcon; omega
      rw [at_dim_set_eq, if_neg hne, at_dim_set_eq, if_neg hne2]
      exact h d (by omega)

/-- The containment check in 32-bit arithmetic agrees with the check on mathematical integers
when no entry of a point of the set is `INT_MAX`. -/
theorem machine_check_points_eq (a b : List Int) (point_set : List (List Int))
    (hS : BelowIntMax point_set) (fuel : Nat) :
    ∀ current : List Int,
      Machine.BoundedBox.check_points a b point_set fuel current
        = BoundedBox.check_points a b point_set fuel current := by
  induction fuel with
  | zero => intro current; rfl
  | succ fuel ih =>
    intro current
    simp only [Machine.BoundedBox.check_points, BoundedBox.check_points]
    by_cases hm : current ∈ point_set
    · simp only [hm, not_true_eq_false, if_false]
      rw [machine_next_point_eq a b current.length current (fun d _ => hS current hm d)]
      cases BoundedBox.next_point a b current.length current with
      | none => rfl
      | some next => exact ih next
    · simp only [hm, not_false_eq_true, if_true]

theorem machine_is_bounded_eq (fuel : Nat) (a b : List Int) (point_set : List (List Int))
    (model : Model) (hS : BelowIntMax point_set) :
    Machine.BoundedBox.is_bounded fuel a b point_set model
      = BoundedBox.is_bounded fuel a b point_set model := by
  simp only [Machine.BoundedBox.is_bounded, BoundedBox.is_bounded,
    machine_check_points_eq a b point_set hS]

/-- The containment check in 32-bit arithmetic agrees with the check on mathematical integers
when the current point lies in a box whose upper corner has no entry `INT_MAX`. -/
theorem machine_check_points_eq_within (a b : List Int) (point_set : List (List Int))
    (hlen : b.length = a.length)
    (hb : ∀ d, d < a.length → INT_MIN ≤ BoundedBox.at_dim a d ∧ BoundedBox.at_dim b d < INT_MAX)
    (fuel : Nat) :
    ∀ current : List Int, Within a b current → 1 ≤ current.length →
      Machine.BoundedBox.check_points a b point_set fuel current
        = BoundedBox.check_points a b point_set fuel current := by
  induction fuel with
  | zero => intro current _ _; rfl
  | succ fuel ih =>
    intro current hw hpos
    have hin := (within_iff_in_box a b current hlen).1 hw
    simp only [Machine.BoundedBox.check_points, BoundedBox.check_points]
    by_cases hm : current ∈ point_set
    · simp only [hm, not_true_eq_false, if_false]
      have hrange : ∀ d, d < current.length → INT_MIN ≤ BoundedBox.at_dim current d ∧
          BoundedBox.at_dim current d < INT_MAX := by
        intro d hd
        have hd2 : d < a.length := by rw [← hin.1]; exact hd
        have h1 := hin.2 d hd2
        have h2 := hb d hd2
        omega
      rw [machine_next_point_eq a b current.length current hrange]
      cases hn : BoundedBox.next_point a b current.length current with
      | none => rfl
      | some next =>
        rw [next_point_eq_odometer a b current hin.1.symm (by rw [hlen]; exact hin.1.symm)
          hpos] at hn
        have hw2 := odometer_within a b current next hw hn
        have hl2 : next.length = current.length := by
          rw [((within_iff_in_box a b next hlen).1 hw2).1, hin.1]
        exact ih next hw2 (by omega)
    · simp only [hm, not_false_eq_true, if_true]

theorem machine_is_bounded_eq_of_corners (fuel : Nat) (min_corner max_corner : List Int)
    (point_set : List (List Int)) (model : Model)
    (hlen : max_corner.length = min_corner.length) (hpos : 1 ≤ min_corner.length)
    (hle : ∀ d, d < min_corner.length →
      BoundedBox.at_dim min_corner d ≤ BoundedBox.at_dim max_corner d)
    (hint : ∀ d, d < min_corner.length →
      INT_MIN ≤ BoundedBox.at_dim min_corner d ∧ BoundedBox.at_dim max_corner d < INT_MAX) :
    Machine.BoundedBox.is_bounded fuel min_corner max_corner point_set model
      = BoundedBox.is_bounded fuel min_corner max_corner point_set model := by
  have hw : Within min_corner max_corner min_corner :=
    (within_iff_in_box min_corner max_corner min_corner hlen).2
      (in_box_lower_corner min_corner max_corner hle)
  simp only [Machine.BoundedBox.is_bounded, BoundedBox.is_bounded,
    machine_check_points_eq_within min_corner max_corner point_set hlen hint fuel min_corner hw
      hpos]

/-- C28: for corners of one common dimension count of at least one whose entries are 32-bit `int`
values with `min_corner[d] <= max_corner[d] < INT_MAX` in every dimension, every point set and
every model domain, the call `is_bounded(min_corner, max_corner, set, model)` returns, and it
returns true exactly when the box lies in the model domain in every dimension and every lattice
point of the box is in the set. -/
theorem is_bounded_below_int_max_iff_box_within_domain_and_set (min_corner max_corner : List Int)
    (point_set : List (List Int)) (model : Model)
    (hlen : max_corner.length = min_corner.length) (hpos : 1 ≤ min_corner.length)
    (hle : ∀ d, d < min_corner.length →
      BoundedBox.at_dim min_corner d ≤ BoundedBox.at_dim max_corner d)
    (hint : ∀ d, d < min_corner.length →
      INT_MIN ≤ BoundedBox.at_dim min_corner d ∧ BoundedBox.at_dim max_corner d < INT_MAX) :
    ∃ r, Terminates (fun fuel =>
        Machine.BoundedBox.is_bounded fuel min_corner max_corner point_set model) r ∧
      (r = true ↔
        (∀ d, d < min_corner.length →
          model.lower_bound_int (d + 1) ≤ BoundedBox.at_dim min_corner d ∧
            BoundedBox.at_dim max_corner d ≤ model.upper_bound_int (d + 1)) ∧
        ∀ p, InBox min_corner max_corner p → p ∈ point_set) := by
  obtain ⟨r, ⟨N, hN⟩, hiff⟩ := is_bounded_iff_on_integers min_corner max_corner
    point_set model hlen hpos hle
  refine ⟨r, ⟨N, ?_⟩, hiff⟩
  intro fuel hf
  simp only
  rw [machine_is_bounded_eq_of_corners fuel min_corner max_corner point_set model hlen hpos hle
    hint]
  exact hN fuel hf

/-- Witness for C28: the box from `(0,0,0)` to `(1,1,1)` over the eight points of `{0,1}^3` and
the domain `[0,1]^3`. -/
theorem is_bounded_below_int_max_iff_box_within_domain_and_set_witness :
    ∃ r, Terminates (fun fuel => Machine.BoundedBox.is_bounded fuel [0, 0, 0] [1, 1, 1]
        (Example.cube_states.map BoundedBox.get_state_vec) Example.unit_cube) r ∧
      (r = true ↔
        (∀ d, d < [(0 : Int), 0, 0].length →
          Example.unit_cube.lower_bound_int (d + 1) ≤ BoundedBox.at_dim [0, 0, 0] d ∧
            BoundedBox.at_dim [1, 1, 1] d ≤ Example.unit_cube.upper_bound_int (d + 1)) ∧
        ∀ p, InBox [0, 0, 0] [1, 1, 1] p →
          p ∈ Example.cube_states.map BoundedBox.get_state_vec) :=
  is_bounded_below_int_max_iff_box_within_domain_and_set [0, 0, 0] [1, 1, 1]
    (Example.cube_states.map BoundedBox.get_state_vec) Example.unit_cube rfl (by decide)
    (by
      intro d hd
      have h3 : d < 3 := hd
      interval_cases d <;> decide)
    (by
      intro d hd
      have h3 : d < 3 := hd
      interval_cases d <;> decide)

/-- C28 (counterexample): one dimension with the domain `[0, INT_MAX]`, both corners at
`INT_MAX`, and the set that holds this one point. The box lies in the domain and its only lattice
point is in the set, but after the membership test `current[0]++` overflows to `INT_MIN`, which is
not above `max_corner[0]`, so the loop goes on to test the point `INT_MIN`, which is not in the
set: the call returns false. -/
theorem is_bounded_at_int_max_returns_false :
    Machine.BoundedBox.is_bounded 2 [2147483647] [2147483647] [[2147483647]] Example.wide_line
      = some false ∧
    Machine.BoundedBox.is_bounded 1000 [2147483647] [2147483647] [[2147483647]] Example.wide_line
      = some false ∧
    BoundedBox.at_dim [2147483647] 0 = INT_MAX ∧
    Example.wide_line.lower_bound_int 1 ≤ BoundedBox.at_dim [2147483647] 0 ∧
    BoundedBox.at_dim [2147483647] 0 ≤ Example.wide_line.upper_bound_int 1 ∧
    ([2147483647] : List Int) ∈ ([[2147483647]] : List (List Int)) ∧
    Machine.BoundedBox.next_point [2147483647] [2147483647] 1 [2147483647]
      = some [-2147483648] := by
  refine ⟨by decide, by decide, by decide, by decide, by decide, by decide, by decide⟩

theorem is_bounded_false_of_not_mem (fuel : Nat) (hfuel : 1 ≤ fuel) (a b : List Int)
    (point_set : List (List Int)) (model : Model) (h : a ∉ point_set) :
    BoundedBox.is_bounded fuel a b point_set model = some false := by
  obtain ⟨f, rfl⟩ : ∃ f, fuel = f + 1 := ⟨fuel - 1, by omega⟩
  unfold BoundedBox.is_bounded
  split_ifs
  · simp [BoundedBox.check_points, h]
  · rfl

theorem machine_is_bounded_false_of_not_mem (fuel : Nat) (hfuel : 1 ≤ fuel) (a b : List Int)
    (point_set : List (List Int)) (model : Model) (h : a ∉ point_set) :
    Machine.BoundedBox.is_bounded fuel a b point_set model = some false := by
  obtain ⟨f, rfl⟩ : ∃ f, fuel = f + 1 := ⟨fuel - 1, by omega⟩
  unfold Machine.BoundedBox.is_bounded
  split_ifs
  · simp [Machine.BoundedBox.check_points, h]
  · rfl

/-- One loop body of the expansion in 32-bit arithmetic agrees with the loop body on mathematical
integers when both corners are points of a set none of whose entries is `INT_MAX`. At the entry
`INT_MIN` the decrement overflows to `INT_MAX`; the lowered corner is then no point of the set,
as the corner with the entry `INT_MIN - 1` is none, and both are reverted. -/
theorem machine_expand_dim_eq (fuel : Nat) (hfuel : 1 ≤ fuel) (val_set : List (List Int))
    (model : Model) (hS : BelowIntMax val_set) (c : BoundedBox.Corners) (dim : Nat)
    (hd1 : dim < c.min_corner.length) (hd2 : dim < c.max_corner.length)
    (hmin : c.min_corner ∈ val_set) (hmax : c.max_corner ∈ val_set) :
    Machine.BoundedBox.expand_dim fuel val_set model c dim
      = BoundedBox.expand_dim fuel val_set model c dim := by
  have hm := hS c.min_corner hmin dim
  have hM := hS c.max_corner hmax dim
  have emax : wrap_int (BoundedBox.at_dim c.max_corner dim + 1)
      = BoundedBox.at_dim c.max_corner dim + 1 := wrap_int_succ _ hM.1 hM.2
  have emaxr : wrap_int (BoundedBox.at_dim
      (c.max_corner.set dim (BoundedBox.at_dim c.max_corner dim + 1)) dim - 1)
      = BoundedBox.at_dim
        (c.max_corner.set dim (BoundedBox.at_dim c.max_corner dim + 1)) dim - 1 := by
    rw [at_dim_set _ _ _ hd2]
    exact wrap_int_pred _ (by omega) (by omega)
  by_cases hlow : INT_MIN < BoundedBox.at_dim c.min_corner dim
  · have emin : wrap_int (BoundedBox.at_dim c.min_corner dim - 1)
        = BoundedBox.at_dim c.min_corner dim - 1 := wrap_int_pred _ hlow (le_of_lt hm.2)
    have eminr : wrap_int (BoundedBox.at_dim
        (c.min_corner.set dim (BoundedBox.at_dim c.min_corner dim - 1)) dim + 1)
        = BoundedBox.at_dim
          (c.min_corner.set dim (BoundedBox.at_dim c.min_corner dim - 1)) dim + 1 := by
      rw [at_dim_set _ _ _ hd1]
      exact wrap_int_succ _ (by omega) (by omega)
    simp only [Machine.BoundedBox.expand_dim, BoundedBox.expand_dim, emin, eminr, emax, emaxr,
      machine_is_bounded_eq _ _ _ _ _ hS]
  · have hmeq : BoundedBox.at_dim c.min_corner dim = INT_MIN := by omega
    have hideal : BoundedBox.is_bounded fuel
        (c.min_corner.set dim (BoundedBox.at_dim c.min_corner dim - 1)) c.max_corner val_set
        model = some false := by
      apply is_bounded_false_of_not_mem fuel hfuel
      intro hcon
      have := (hS _ hcon dim).1
      rw [at_dim_set _ _ _ hd1] at this
      omega
    have hwrap : wrap_int (BoundedBox.at_dim c.min_corner dim - 1) = INT_MAX := by
      rw [hmeq]; decide
    have hmach : Machine.BoundedBox.is_bounded fuel
        (c.min_corner.set dim (wrap_int (BoundedBox.at_dim c.min_corner dim - 1))) c.max_corner
        val_set model = some false := by
      apply machine_is_bounded_false_of_not_mem fuel hfuel
      intro hcon
      have := (hS _ hcon dim).2
      rw [at_dim_set _ _ _ hd1, hwrap] at this
      omega
    have hrev1 : (c.min_corner.set dim (BoundedBox.at_dim c.min_corner dim - 1)).set dim
        (BoundedBox.at_dim (c.min_corner.set dim (BoundedBox.at_dim c.min_corner dim - 1)) dim
          + 1) = c.min_corner := by
      apply set_revert _ _ _ _ hd1
      rw [at_dim_set _ _ _ hd1]
      omega
    have hrev2 : (c.min_corner.set dim (wrap_int (BoundedBox.at_dim c.min_corner dim - 1))).set
        dim (wrap_int (BoundedBox.at_dim
          (c.min_corner.set dim (wrap_int (BoundedBox.at_dim c.min_corner dim - 1))) dim + 1))
        = c.min_corner := by
      apply set_revert _ _ _ _ hd1
      rw [at_dim_set _ _ _ hd1, hwrap, hmeq]
      decide
    simp only [Machine.BoundedBox.expand_dim, BoundedBox.expand_dim, hideal, hmach,
      Bool.not_false, if_true, hrev1, hrev2, emax, emaxr, machine_is_bounded_eq _ _ _ _ _ hS]

theorem machine_sweep_eq (fuel : Nat) (hfuel : 1 ≤ fuel) (val_set : List (List Int))
    (model : Model) (hS : BelowIntMax val_set) (size : Nat) (dims : List Nat) :
    ∀ c : BoundedBox.Corners, OrderedCorners size c.min_corner c.max_corner →
      (∀ dim ∈ dims, dim < size) → c.min_corner ∈ val_set → c.max_corner ∈ val_set →
      Machine.BoundedBox.sweep fuel val_set model dims c
        = BoundedBox.sweep fuel val_set model dims c := by
  induction dims with
  | nil => intro c _ _ _ _; rfl
  | cons dim dims ih =>
    intro c ho hdims hmin hmax
    have hd : dim < size := hdims dim (List.mem_cons_self _ _)
    simp only [Machine.BoundedBox.sweep, BoundedBox.sweep]
    rw [machine_expand_dim_eq fuel hfuel val_set model hS c dim (by rw [ho.1]; exact hd)
      (by rw [ho.2.1]; exact hd) hmin hmax]
    cases h : BoundedBox.expand_dim fuel val_set model c dim with
    | none => rfl
    | some c1 =>
      have hm := expand_dim_mem fuel val_set model c c1 dim size h ho hd hmin hmax
      exact ih c1 (expand_dim_ordered fuel val_set model c c1 dim size h ho)
        (fun d hdd => hdims d (List.mem_cons_of_mem _ hdd)) hm.1 hm.2

theorem machine_expand_eq (point_fuel : Nat) (hfuel : 1 ≤ point_fuel)
    (val_set : List (List Int)) (model : Model) (hS : BelowIntMax val_set) (size fuel : Nat) :
    ∀ min_corner max_corner : List Int, OrderedCorners size min_corner max_corner →
      min_corner ∈ val_set → max_corner ∈ val_set →
      Machine.BoundedBox.expand point_fuel val_set model size fuel min_corner max_corner
        = BoundedBox.expand point_fuel val_set model size fuel min_corner max_corner := by
  induction fuel with
  | zero => intro _ _ _ _ _; rfl
  | succ fuel ih =>
    intro min_corner max_corner ho hmin hmax
    simp only [Machine.BoundedBox.expand, BoundedBox.expand]
    rw [machine_sweep_eq point_fuel hfuel val_set model hS size (List.range size)
      { min_corner := min_corner, max_corner := max_corner, fixed_point := true } ho
      (fun d hd => List.mem_range.1 hd) hmin hmax]
    cases h : BoundedBox.sweep point_fuel val_set model (List.range size)
        { min_corner := min_corner, max_corner := max_corner, fixed_point := true } with
    | none => rfl
    | some c =>
      simp only
      by_cases hfp : c.fixed_point = true
      · simp only [hfp, if_true]
      · simp only [hfp, Bool.false_eq_true, if_false]
        have hm := sweep_mem point_fuel val_set model size (List.range size) _ c h ho
          (fun d hd => List.mem_range.1 hd) hmin hmax
        exact ih c.min_corner c.max_corner
          (sweep_ordered point_fuel val_set model size (List.range size) _ c h ho) hm.1 hm.2

/-- The expansion of a seed of the set in 32-bit arithmetic agrees with the expansion on
mathematical integers, for every fuel. -/
theorem machine_expand_seed_eq (fuel : Nat) (val_set : List (List Int)) (model : Model)
    (hS : BelowIntMax val_set) (center : List Int) (hc : center ∈ val_set) :
    Machine.BoundedBox.expand fuel val_set model center.length fuel center center
      = BoundedBox.expand fuel val_set model center.length fuel center center := by
  rcases Nat.eq_zero_or_pos fuel with h0 | hpos
  · subst h0; rfl
  · exact machine_expand_eq fuel hpos val_set model hS center.length fuel center center
      ⟨rfl, rfl, fun d _ => le_refl _⟩ hc hc

theorem machine_finished_box_iff (val_set : List (List Int)) (model : Model)
    (hS : BelowIntMax val_set) (state : StateBase)
    (hs : BoundedBox.get_state_vec state ∈ val_set) (box : List Int × List Int) :
    Machine.FinishedBox val_set model state box ↔ FinishedBox val_set model state box := by
  unfold Machine.FinishedBox FinishedBox Terminates
  constructor
  · rintro ⟨N, hN⟩
    refine ⟨N, fun fuel hf => ?_⟩
    have := hN fuel hf
    simp only at this ⊢
    rw [machine_expand_seed_eq fuel val_set model hS _ hs] at this
    exact this
  · rintro ⟨N, hN⟩
    refine ⟨N, fun fuel hf => ?_⟩
    have := hN fuel hf
    simp only at this ⊢
    rw [machine_expand_seed_eq fuel val_set model hS _ hs]
    exact this

/-- The volume loop in 32-bit arithmetic agrees with the loop on mathematical integers when every
side of the box has at most `INT_MAX` points. -/
theorem machine_compute_volume_eq (min_corner max_corner : List Int) (size : Nat)
    (h : ∀ d, d < size → 0 ≤ BoundedBox.at_dim max_corner d - BoundedBox.at_dim min_corner d ∧
      BoundedBox.at_dim max_corner d - BoundedBox.at_dim min_corner d < INT_MAX) :
    Machine.BoundedBox.compute_volume min_corner max_corner size
      = BoundedBox.compute_volume min_corner max_corner size := by
  unfold Machine.BoundedBox.compute_volume BoundedBox.compute_volume
  apply List.foldl_ext
  intro volume d hd
  have hd2 := h d (List.mem_range.1 hd)
  have e1 : wrap_int (BoundedBox.at_dim max_corner d - BoundedBox.at_dim min_corner d)
      = BoundedBox.at_dim max_corner d - BoundedBox.at_dim min_corner d :=
    wrap_int_of_range _ (by unfold INT_MIN; omega) (by omega)
  rw [e1, wrap_int_succ _ (by unfold INT_MIN; omega) hd2.2]

theorem machine_seed_step_eq (fuel : Nat) (val_set : List (List Int)) (model : Model)
    (hS : BelowIntMax val_set) (hspan : NarrowSpan val_set) (best : BoundedBox.Best)
    (state : StateBase) (hs : BoundedBox.get_state_vec state ∈ val_set) :
    Machine.BoundedBox.seed_step fuel val_set model best state
      = BoundedBox.seed_step fuel val_set model best state := by
  simp only [Machine.BoundedBox.seed_step, BoundedBox.seed_step]
  rw [machine_expand_seed_eq fuel val_set model hS _ hs]
  cases h : BoundedBox.expand fuel val_set model (BoundedBox.get_state_vec state).length fuel
      (BoundedBox.get_state_vec state) (BoundedBox.get_state_vec state) with
  | none => rfl
  | some box =>
    obtain ⟨mn, mx⟩ := box
    have ho0 : OrderedCorners (BoundedBox.get_state_vec state).length
        (BoundedBox.get_state_vec state) (BoundedBox.get_state_vec state) :=
      ⟨rfl, rfl, fun d _ => le_refl _⟩
    have ho := expand_ordered fuel val_set model _ fuel _ _ (mn, mx) h ho0
    have hm := expand_mem fuel val_set model _ fuel _ _ (mn, mx) h ho0 hs hs
    simp only
    rw [machine_compute_volume_eq mn mx _ (fun d hd =>
      ⟨by have := ho.2.2 d hd; simp only at this; omega, hspan mx hm.2 mn hm.1 d⟩)]

theorem machine_find_best_eq (fuel : Nat) (val_set : List (List Int)) (model : Model)
    (hS : BelowIntMax val_set) (hspan : NarrowSpan val_set) (states : List StateBase) :
    ∀ best : BoundedBox.Best, (∀ s ∈ states, BoundedBox.get_state_vec s ∈ val_set) →
      Machine.BoundedBox.find_best fuel val_set model states best
        = BoundedBox.find_best fuel val_set model states best := by
  induction states with
  | nil => intro _ _; rfl
  | cons s rest ih =>
    intro best hmem
    simp only [Machine.BoundedBox.find_best, BoundedBox.find_best]
    rw [machine_seed_step_eq fuel val_set model hS hspan best s
      (hmem s (List.mem_cons_self _ _))]
    cases BoundedBox.seed_step fuel val_set model best s with
    | none => rfl
    | some best1 => exact ih best1 (fun t ht => hmem t (List.mem_cons_of_mem _ ht))

/-- The bounded-box search in 32-bit arithmetic agrees with the search on mathematical integers
when no data value of a state is `INT_MAX` and the values of a variable differ by less than
`INT_MAX`. -/
theorem machine_best_box_eq (fuel : Nat) (state_set : List StateBase) (model : Model)
    (hS : BelowIntMax (state_set.map BoundedBox.get_state_vec))
    (hspan : NarrowSpan (state_set.map BoundedBox.get_state_vec)) :
    Machine.BoundedBox.best_box fuel state_set model
      = BoundedBox.best_box fuel state_set model := by
  unfold Machine.BoundedBox.best_box BoundedBox.best_box
  exact machine_find_best_eq fuel _ model hS hspan state_set _
    (fun s hs => List.mem_map_of_mem _ hs)

theorem machine_compute_bounded_box_eq (fuel : Nat) (state_set : List StateBase) (model : Model)
    (hS : BelowIntMax (state_set.map BoundedBox.get_state_vec))
    (hspan : NarrowSpan (state_set.map BoundedBox.get_state_vec)) :
    Machine.BoundedBox.compute_bounded_box fuel state_set model
      = BoundedBox.compute_bounded_box fuel state_set model := by
  unfold Machine.BoundedBox.compute_bounded_box BoundedBox.compute_bounded_box
  rw [machine_best_box_eq fuel state_set model hS hspan]

theorem at_dim_of_length_le (v : List Int) (d : Nat) (h : v.length ≤ d) :
    BoundedBox.at_dim v d = 0 := by
  unfold BoundedBox.at_dim
  exact List.getD_eq_default _ _ h

theorem full_box_below_int_max (val_set : List (List Int)) (model : Model) (lo hi : List Int)
    (fb : FullBox val_set model lo hi)
    (hint : ∀ d, d < lo.length → INT_MIN ≤ BoundedBox.at_dim lo d ∧
      BoundedBox.at_dim hi d < INT_MAX ∧
      BoundedBox.at_dim hi d - BoundedBox.at_dim lo d < INT_MAX) :
    BelowIntMax val_set ∧ NarrowSpan val_set := by
  have hbox : ∀ p ∈ val_set, ∀ d, (d < lo.length ∧
      BoundedBox.at_dim lo d ≤ BoundedBox.at_dim p d ∧
      BoundedBox.at_dim p d ≤ BoundedBox.at_dim hi d) ∨
      (lo.length ≤ d ∧ BoundedBox.at_dim p d = 0) := by
    intro p hp d
    have hin := (fb.points p).1 hp
    rcases Nat.lt_or_ge d lo.length with hd | hd
    · exact Or.inl ⟨hd, hin.2 d hd⟩
    · exact Or.inr ⟨hd, at_dim_of_length_le p d (by rw [hin.1]; exact hd)⟩
  constructor
  · intro p hp d
    rcases hbox p hp d with ⟨hd, h1, h2⟩ | ⟨_, h0⟩
    · have := hint d hd
      omega
    · rw [h0]; decide
  · intro p hp q hq d
    rcases hbox p hp d with ⟨hd, h1, h2⟩ | ⟨hd, h0⟩
    · rcases hbox q hq d with ⟨_, h3, h4⟩ | ⟨hd2, _⟩
      · have := hint d hd
        omega
      · omega
    · rcases hbox q hq d with ⟨hd2, _, _⟩ | ⟨_, h5⟩
      · omega
      · rw [h0, h5]; decide

/-- C19: when the data valuations of the state set are exactly the lattice points of a non-empty
axis-aligned box that lies within the model domain, whose corners are 32-bit `int` values with
no entry `INT_MAX` in the upper corner, whose sides have at most `INT_MAX` points each and which
has fewer than `2 ^ 64` points, the bounded-box search ends, for every seed order, with that box
as `best_min` and `best_max` and with its number of points as volume; and over a model with as
many variables as the box has dimensions the predicate returned by `compute_bounded_box` is the
predicate returned by `compute_bounding_box` and holds exactly on the states inside the box. -/
theorem bounded_box_of_full_box_below_int_max_is_the_box (state_set : List StateBase)
    (model : Model) (lo hi : List Int)
    (fb : FullBox (state_set.map BoundedBox.get_state_vec) model lo hi)
    (hvol : lattice_points lo hi < 2 ^ 64)
    (hvars : model.number_variables = lo.length)
    (hint : ∀ d, d < lo.length → INT_MIN ≤ BoundedBox.at_dim lo d ∧
      BoundedBox.at_dim hi d < INT_MAX ∧
      BoundedBox.at_dim hi d - BoundedBox.at_dim lo d < INT_MAX) :
    Terminates (fun fuel => Machine.BoundedBox.best_box fuel state_set model)
      { max_volume := lattice_points lo hi, best_min := lo, best_max := hi } ∧
    Terminates (fun fuel => Machine.BoundedBox.compute_bounded_box fuel state_set model)
      (lattice_points lo hi, (BoundingBox.compute_bounding_box state_set model).2) ∧
    (∀ t : StateBase, (BoundingBox.compute_bounding_box state_set model).2.sat t = true ↔
      ∀ d, d < lo.length → BoundedBox.at_dim lo d ≤ t.get_int (d + 1) ∧
        t.get_int (d + 1) ≤ BoundedBox.at_dim hi d) := by
  obtain ⟨hS, hspan⟩ := full_box_below_int_max _ model lo hi fb hint
  obtain ⟨⟨N1, h1⟩, ⟨N2, h2⟩, h3⟩ := bounded_box_of_full_box_on_integers state_set model lo hi
    fb hvol hvars (fun d hd => ⟨(hint d hd).1, le_of_lt (hint d hd).2.1⟩)
  refine ⟨⟨N1, fun fuel hf => ?_⟩, ⟨N2, fun fuel hf => ?_⟩, h3⟩
  · simp only
    rw [machine_best_box_eq fuel state_set model hS hspan]
    exact h1 fuel hf
  · simp only
    rw [machine_compute_bounded_box_eq fuel state_set model hS hspan]
    exact h2 fuel hf

/-- Witness for C19: the eight states over `{0,1}^3`; the volume is 8. -/
theorem bounded_box_of_full_box_below_int_max_is_the_box_witness :
    lattice_points [0, 0, 0] [1, 1, 1] = 8 ∧
    Terminates (fun fuel =>
        Machine.BoundedBox.best_box fuel Example.cube_states Example.unit_cube)
      { max_volume := lattice_points [0, 0, 0] [1, 1, 1], best_min := [0, 0, 0],
        best_max := [1, 1, 1] } ∧
    Terminates (fun fuel =>
        Machine.BoundedBox.compute_bounded_box fuel Example.cube_states Example.unit_cube)
      (lattice_points [0, 0, 0] [1, 1, 1],
        (BoundingBox.compute_bounding_box Example.cube_states Example.unit_cube).2) ∧
    (∀ t : StateBase,
      (BoundingBox.compute_bounding_box Example.cube_states Example.unit_cube).2.sat t = true ↔
      ∀ d, d < ([0, 0, 0] : List Int).length →
        BoundedBox.at_dim [0, 0, 0] d ≤ t.get_int (d + 1) ∧
          t.get_int (d + 1) ≤ BoundedBox.at_dim [1, 1, 1] d) :=
  ⟨by decide,
    bounded_box_of_full_box_below_int_max_is_the_box Example.cube_states Example.unit_cube
      [0, 0, 0] [1, 1, 1] cube_states_full_box (by decide) rfl (by
        intro d hd
        have hd3 : d < 3 := hd
        interval_cases d <;> decide)⟩

/-- C19 (counterexample): the two states with the values `INT_MAX - 1` and `INT_MAX` of the one
variable of a model with the domain `[0, INT_MAX]`: the lattice points of the box
`[INT_MAX - 1, INT_MAX]`, which lies in the domain and has two points. In both seed orders the
bounded-box search returns a box of one point with volume 1: every containment check that starts
at or reaches `INT_MAX` increments it to `INT_MIN`, which is not above the upper corner and not in
the set. The bounding box of the same set is `[INT_MAX - 1, INT_MAX]`. -/
theorem bounded_box_of_full_box_at_int_max_is_one_point :
    Example.top_states.map BoundedBox.get_state_vec = [[2147483646], [2147483647]] ∧
    INT_MAX = 2147483647 ∧
    Example.wide_line.lower_bound_int 1 ≤ 2147483646 ∧
    2147483647 ≤ Example.wide_line.upper_bound_int 1 ∧
    lattice_points [2147483646] [2147483647] = 2 ∧
    Machine.BoundedBox.best_box 5 Example.top_states Example.wide_line
      = some { max_volume := 1, best_min := [2147483646], best_max := [2147483646] } ∧
    Machine.BoundedBox.best_box 5 Example.top_states.reverse Example.wide_line
      = some { max_volume := 1, best_min := [2147483647], best_max := [2147483647] } ∧
    Machine.BoundedBox.best_box 1000 Example.top_states Example.wide_line
      = some { max_volume := 1, best_min := [2147483646], best_max := [2147483646] } ∧
    (Machine.BoundedBox.compute_bounded_box 5 Example.top_states Example.wide_line).map
        (fun r => r.1) = some 1 ∧
    BoundingBox.find_bounds Example.top_states 1 1 = (2147483646, 2147483647) := by
  refine ⟨by decide, by decide, by decide, by decide, by decide, by decide, by decide,
    by decide, by decide, by decide⟩

/-- A loop body of the expansion that leaves `fixed_point` set has reverted both corners; in
particular the call `is_bounded(max_corner, min_corner, ...)` on the raised upper corner returned
false. -/
theorem expand_dim_fixed_point (fuel : Nat) (val_set : List (List Int)) (model : Model)
    (c c1 : BoundedBox.Corners) (dim : Nat)
    (hd1 : dim < c.min_corner.length) (hd2 : dim < c.max_corner.length)
    (h : BoundedBox.expand_dim fuel val_set model c dim = some c1)
    (hfp : c1.fixed_point = true) :
    c.fixed_point = true ∧ c1.min_corner = c.min_corner ∧ c1.max_corner = c.max_corner ∧
    BoundedBox.is_bounded fuel (c.max_corner.set dim (BoundedBox.at_dim c.max_corner dim + 1))
      c.min_corner val_set model = some false := by
  unfold BoundedBox.expand_dim at h
  cases hb1 : BoundedBox.is_bounded fuel
      (c.min_corner.set dim (BoundedBox.at_dim c.min_corner dim - 1)) c.max_corner val_set
      model with
  | none => simp [hb1] at h
  | some b1 =>
    simp only [hb1] at h
    split at h
    · simp at h
    · rename_i b2 hb2
      simp only [Option.some.injEq] at h
      subst h
      cases b1 with
      | true =>
        cases b2 <;> simp at hfp
      | false =>
        cases b2 with
        | true => simp at hfp
        | false =>
          simp only [Bool.not_false, if_true] at hfp hb2 ⊢
          have hrev : (c.min_corner.set dim (BoundedBox.at_dim c.min_corner dim - 1)).set dim
              (BoundedBox.at_dim (c.min_corner.set dim (BoundedBox.at_dim c.min_corner dim - 1))
                dim + 1) = c.min_corner :=
            set_revert _ _ _ _ hd1 (by rw [at_dim_set _ _ _ hd1]; omega)
          rw [hrev] at hb2 ⊢
          exact ⟨hfp, rfl,
            set_revert _ _ _ _ hd2 (by rw [at_dim_set _ _ _ hd2]; omega), hb2⟩

theorem sweep_fixed_point (fuel : Nat) (val_set : List (List Int)) (model : Model) (size : Nat)
    (dims : List Nat) :
    ∀ c c1 : BoundedBox.Corners, BoundedBox.sweep fuel val_set model dims c = some c1 →
      OrderedCorners size c.min_corner c.max_corner → (∀ dim ∈ dims, dim < size) →
      c1.fixed_point = true →
      c.fixed_point = true ∧ c1.min_corner = c.min_corner ∧ c1.max_corner = c.max_corner ∧
      ∀ dim ∈ dims, BoundedBox.is_bounded fuel
        (c.max_corner.set dim (BoundedBox.at_dim c.max_corner dim + 1)) c.min_corner val_set
        model = some false := by
  induction dims with
  | nil =>
    intro c c1 h _ _ hfp
    simp only [BoundedBox.sweep, Option.some.injEq] at h
    subst h
    exact ⟨hfp, rfl, rfl, fun d hd => absurd hd (List.not_mem_nil _)⟩
  | cons dim dims ih =>
    intro c c1 h ho hdims hfp
    have hd : dim < size := hdims dim (List.mem_cons_self _ _)
    simp only [BoundedBox.sweep] at h
    cases he : BoundedBox.expand_dim fuel val_set model c dim with
    | none => simp [he] at h
    | some c2 =>
      simp only [he] at h
      have ho2 := expand_dim_ordered fuel val_set model c c2 dim size he ho
      obtain ⟨h1, h2, h3, h4⟩ := ih c2 c1 h ho2
        (fun d hdd => hdims d (List.mem_cons_of_mem _ hdd)) hfp
      obtain ⟨g1, g2, g3, g4⟩ := expand_dim_fixed_point fuel val_set model c c2 dim
        (by rw [ho.1]; exact hd) (by rw [ho.2.1]; exact hd) he h1
      refine ⟨g1, h2.trans g2, h3.trans g3, ?_⟩
      intro d hdd
      rcases List.mem_cons.1 hdd with rfl | hin
      · exact g4
      · have := h4 d hin
        rw [g2, g3] at this
        exact this

/-- At the box that the expansion of a seed returns, every call
`is_bounded(max_corner, min_corner, ...)` on a raised upper corner returns false. -/
theorem expand_result_is_fixed_point (point_fuel : Nat) (val_set : List (List Int))
    (model : Model) (size fuel : Nat) :
    ∀ (min_corner max_corner : List Int) (box : List Int × List Int),
      BoundedBox.expand point_fuel val_set model size fuel min_corner max_corner = some box →
      OrderedCorners size min_corner max_corner →
      ∀ dim, dim < size → BoundedBox.is_bounded point_fuel
        (box.2.set dim (BoundedBox.at_dim box.2 dim + 1)) box.1 val_set model = some false := by
  induction fuel with
  | zero => intro _ _ _ h; simp [BoundedBox.expand] at h
  | succ fuel ih =>
    intro min_corner max_corner box h ho
    simp only [BoundedBox.expand] at h
    cases hs : BoundedBox.sweep point_fuel val_set model (List.range size)
        { min_corner := min_corner, max_corner := max_corner, fixed_point := true } with
    | none => simp [hs] at h
    | some c =>
      simp only [hs] at h
      by_cases hfp : c.fixed_point = true
      · simp only [hfp, if_true, Option.some.injEq] at h
        subst h
        obtain ⟨_, g2, g3, g4⟩ := sweep_fixed_point point_fuel val_set model size
          (List.range size) _ c hs ho (fun d hd => List.mem_range.1 hd) hfp
        intro dim hd
        have := g4 dim (List.mem_range.2 hd)
        simp only at this g2 g3 ⊢
        rw [g2, g3]
        exact this
      · simp only [hfp, Bool.false_eq_true, if_false] at h
        exact ih c.min_corner c.max_corner box h
          (sweep_ordered point_fuel val_set model size (List.range size) _ c hs ho)

/-- A lower corner that sits on the lower bound of the domain in every dimension is not moved by
the expansion. -/
theorem expand_dim_min_at_lower_bound (fuel : Nat) (val_set : List (List Int)) (model : Model)
    (c c1 : BoundedBox.Corners) (dim : Nat)
    (hd1 : dim < c.min_corner.length) (hd2 : dim < c.max_corner.length)
    (h : BoundedBox.expand_dim fuel val_set model c dim = some c1)
    (hlb : BoundedBox.at_dim c.min_corner dim = model.lower_bound_int (dim + 1)) :
    c1.min_corner = c.min_corner := by
  rcases (expand_dim_kept fuel val_set model c c1 dim h hd1 hd2).1 with h1 | ⟨h1, _, h3⟩
  · exact h1
  · have hlen : dim < c1.min_corner.length := by rw [h1, List.length_set]; exact hd1
    have := h3 dim hlen
    rw [h1, at_dim_set _ _ _ hd1] at this
    omega

theorem sweep_min_at_lower_bound (fuel : Nat) (val_set : List (List Int)) (model : Model)
    (size : Nat) (dims : List Nat) :
    ∀ c c1 : BoundedBox.Corners, BoundedBox.sweep fuel val_set model dims c = some c1 →
      OrderedCorners size c.min_corner c.max_corner → (∀ dim ∈ dims, dim < size) →
      (∀ d, d < size → BoundedBox.at_dim c.min_corner d = model.lower_bound_int (d + 1)) →
      c1.min_corner = c.min_corner := by
  induction dims with
  | nil =>
    intro c c1 h _ _ _
    simp only [BoundedBox.sweep, Option.some.injEq] at h
    subst h
    rfl
  | cons dim dims ih =>
    intro c c1 h ho hdims hlb
    have hd : dim < size := hdims dim (List.mem_cons_self _ _)
    simp only [BoundedBox.sweep] at h
    cases he : BoundedBox.expand_dim fuel val_set model c dim with
    | none => simp [he] at h
    | some c2 =>
      simp only [he] at h
      have ho2 := expand_dim_ordered fuel val_set model c c2 dim size he ho
      have e2 := expand_dim_min_at_lower_bound fuel val_set model c c2 dim
        (by rw [ho.1]; exact hd) (by rw [ho.2.1]; exact hd) he (hlb dim hd)
      have := ih c2 c1 h ho2 (fun d hdd => hdims d (List.mem_cons_of_mem _ hdd))
        (fun d hdd => by rw [e2]; exact hlb d hdd)
      rw [this, e2]

theorem expand_min_at_lower_bound (point_fuel : Nat) (val_set : List (List Int))
    (model : Model) (size fuel : Nat) :
    ∀ (min_corner max_corner : List Int) (box : List Int × List Int),
      BoundedBox.expand point_fuel val_set model size fuel min_corner max_corner = some box →
      OrderedCorners size min_corner max_corner →
      (∀ d, d < size → BoundedBox.at_dim min_corner d = model.lower_bound_int (d + 1)) →
      box.1 = min_corner := by
  induction fuel with
  | zero => intro _ _ _ h; simp [BoundedBox.expand] at h
  | succ fuel ih =>
    intro min_corner max_corner box h ho hlb
    simp only [BoundedBox.expand] at h
    cases hs : BoundedBox.sweep point_fuel val_set model (List.range size)
        { min_corner := min_corner, max_corner := max_corner, fixed_point := true } with
    | none => simp [hs] at h
    | some c =>
      simp only [hs] at h
      have e := sweep_min_at_lower_bound point_fuel val_set model size (List.range size) _ c
        hs ho (fun d hd => List.mem_range.1 hd) hlb
      simp only at e
      by_cases hfp : c.fixed_point = true
      · simp only [hfp, if_true, Option.some.injEq] at h
        subst h
        exact e
      · simp only [hfp, Bool.false_eq_true, if_false] at h
        have := ih c.min_corner c.max_corner box h
          (sweep_ordered point_fuel val_set model size (List.range size) _ c hs ho)
          (fun d hd => by rw [e]; exact hlb d hd)
        rw [this, e]

theorem compute_volume_lt (min_corner max_corner : List Int) (size : Nat) :
    BoundedBox.compute_volume min_corner max_corner size < 2 ^ 64 := by
  unfold BoundedBox.compute_volume
  have key : ∀ (l : List Nat) (init : Nat), init < 2 ^ 64 →
      l.foldl (fun volume dim => (volume * BoundedBox.to_size_t
        (BoundedBox.at_dim max_corner dim - BoundedBox.at_dim min_corner dim + 1)) % 2 ^ 64)
        init < 2 ^ 64 := by
    intro l
    induction l with
    | nil => intro init h; exact h
    | cons a l ih =>
      intro init _
      simp only [List.foldl_cons]
      exact ih _ (Nat.mod_lt _ (by norm_num))
  exact key _ 1 (by norm_num)

/-- The volume kept by the loop over the seeds is a `size_t` value. -/
theorem find_best_volume_lt (fuel : Nat) (val_set : List (List Int)) (model : Model)
    (states : List StateBase) :
    ∀ best result : BoundedBox.Best, best.max_volume < 2 ^ 64 →
      BoundedBox.find_best fuel val_set model states best = some result →
      result.max_volume < 2 ^ 64 := by
  induction states with
  | nil =>
    intro best result hb h
    simp only [BoundedBox.find_best, Option.some.injEq] at h
    subst h
    exact hb
  | cons s rest ih =>
    intro best result hb h
    simp only [BoundedBox.find_best] at h
    cases hs : BoundedBox.seed_step fuel val_set model best s with
    | none => simp [hs] at h
    | some best1 =>
      simp only [hs] at h
      apply ih best1 result _ h
      unfold BoundedBox.seed_step at hs
      simp only at hs
      split at hs
      · simp at hs
      · split_ifs at hs
        · simp only [Option.some.injEq] at hs
          subst hs
          exact compute_volume_lt _ _ _
        · simp only [Option.some.injEq] at hs
          subst hs
          exact hb

theorem at_dim_mem_or_zero (p : List Int) (d : Nat) :
    BoundedBox.at_dim p d ∈ p ∨ BoundedBox.at_dim p d = 0 := by
  unfold BoundedBox.at_dim
  rcases Nat.lt_or_ge d p.length with h | h
  · left
    rw [List.getD_eq_getElem _ _ h]
    exact List.getElem_mem h
  · right
    exact List.getD_eq_default _ _ h

/-- A set whose entries all lie between `lo <= 0` and `hi >= 0`, two 32-bit `int` values with
`hi < INT_MAX` and `hi - lo < INT_MAX`, has no entry `INT_MAX` and a narrow span. -/
theorem below_int_max_of_bounds (val_set : List (List Int)) (lo hi : Int)
    (hlo : INT_MIN ≤ lo) (hhi : hi < INT_MAX) (hspan : hi - lo < INT_MAX) (h0 : lo ≤ 0)
    (h1 : 0 ≤ hi) (h : ∀ p ∈ val_set, ∀ x ∈ p, lo ≤ x ∧ x ≤ hi) :
    BelowIntMax val_set ∧ NarrowSpan val_set := by
  have key : ∀ p ∈ val_set, ∀ d, lo ≤ BoundedBox.at_dim p d ∧ BoundedBox.at_dim p d ≤ hi := by
    intro p hp d
    rcases at_dim_mem_or_zero p d with hm | hz
    · exact h p hp _ hm
    · rw [hz]; exact ⟨h0, h1⟩
  constructor
  · intro p hp d
    have := key p hp d
    omega
  · intro p hp q hq d
    have := key p hp d
    have := key q hq d
    omega

theorem get_state_vec_cons (x : Int) (v : List Int) :
    BoundedBox.get_state_vec (x :: v) = v := by
  unfold BoundedBox.get_state_vec StateBase.get_int_state_size StateBase.get_int
  apply List.ext_getElem
  · simp
  · intro i h1 h2
    simp only [List.getElem_map, List.getElem_range, List.getD_cons_succ]
    exact List.getD_eq_getElem _ _ h2

theorem stair_length (k : Nat) : (Example.stair k).length = 64 := by
  simp [Example.stair]

theorem at_dim_stair (k d : Nat) (hd : d < 64) :
    BoundedBox.at_dim (Example.stair k) d = if d < k then 1 else 0 := by
  unfold BoundedBox.at_dim Example.stair
  rw [List.getD_eq_getElem _ _ (by simpa using hd)]
  simp

theorem stair_set (k : Nat) (hk : k < 64) :
    (Example.stair k).set k (BoundedBox.at_dim (Example.stair k) k + 1)
      = Example.stair (k + 1) := by
  rw [at_dim_stair k k hk]
  apply List.ext_getElem
  · simp [Example.stair]
  · intro i h1 h2
    rw [List.getElem_set]
    simp only [Example.stair, List.getElem_map, List.getElem_range]
    by_cases hik : k = i
    · subst hik
      simp
    · simp only [hik, if_false]
      by_cases h3 : i < k
      · have h4 : i < k + 1 := by omega
        simp [h3, h4]
      · have h4 : ¬ i < k + 1 := by omega
        simp [h3, h4]

theorem staircase_vectors :
    Example.staircase_states.map BoundedBox.get_state_vec = (List.range 65).map Example.stair := by
  unfold Example.staircase_states
  rw [List.map_map]
  apply List.map_congr_left
  intro k _
  exact get_state_vec_cons 0 (Example.stair k)

theorem mem_staircase_vectors (p : List Int) :
    p ∈ Example.staircase_states.map BoundedBox.get_state_vec
      ↔ ∃ k, k ≤ 64 ∧ p = Example.stair k := by
  rw [staircase_vectors, List.mem_map]
  constructor
  · rintro ⟨k, hk, rfl⟩
    exact ⟨k, by have := List.mem_range.1 hk; omega, rfl⟩
  · rintro ⟨k, hk, rfl⟩
    exact ⟨k, List.mem_range.2 (by omega), rfl⟩

theorem staircase_below_int_max :
    BelowIntMax (Example.staircase_states.map BoundedBox.get_state_vec) ∧
      NarrowSpan (Example.staircase_states.map BoundedBox.get_state_vec) := by
  apply below_int_max_of_bounds _ 0 1 (by decide) (by decide) (by decide) (le_refl _)
    (by decide)
  intro p hp x hx
  obtain ⟨k, _, rfl⟩ := (mem_staircase_vectors p).1 hp
  unfold Example.stair at hx
  obtain ⟨d, _, rfl⟩ := List.mem_map.1 hx
  split_ifs <;> decide

/-- On the staircase the expansion of the seed `stair 0` ends with the whole cube `{0,1}^64`: the
lower corner sits on the lower bound of the domain, and the upper corner `stair k` with `k < 64`
is no fixed point, because the raised corner `stair (k + 1)` is a point of the set and the call
`is_bounded(max_corner, min_corner, ...)` tests no other point. -/
theorem staircase_finished_box :
    FinishedBox (Example.staircase_states.map BoundedBox.get_state_vec) Example.binary_model
      (0 :: Example.stair 0) (Example.stair 0, Example.stair 64) := by
  have hseed : BoundedBox.get_state_vec (0 :: Example.stair 0) = Example.stair 0 :=
    get_state_vec_cons 0 _
  have hmem0 : BoundedBox.get_state_vec (0 :: Example.stair 0)
      ∈ Example.staircase_states.map BoundedBox.get_state_vec := by
    rw [hseed]
    exact (mem_staircase_vectors _).2 ⟨0, by omega, rfl⟩
  obtain ⟨box, N, hN, hfin, _⟩ := finished_box_exists _ Example.binary_model
    (0 :: Example.stair 0) hmem0
  have e := hN N (le_refl _)
  rw [hseed, stair_length] at e
  have ho : OrderedCorners 64 (Example.stair 0) (Example.stair 0) :=
    ⟨stair_length 0, stair_length 0, fun d _ => le_refl _⟩
  have hm0 : Example.stair 0 ∈ Example.staircase_states.map BoundedBox.get_state_vec :=
    (mem_staircase_vectors _).2 ⟨0, by omega, rfl⟩
  have h1 : box.1 = Example.stair 0 :=
    expand_min_at_lower_bound N _ Example.binary_model 64 N _ _ box e ho
      (fun d hd => by rw [at_dim_stair 0 d hd]; simp [Example.binary_model])
  have h2 := (expand_mem N _ Example.binary_model 64 N _ _ box e ho hm0 hm0).2
  obtain ⟨k, hk, hbox2⟩ := (mem_staircase_vectors _).1 h2
  have hk64 : k = 64 := by
    by_contra hne
    have hlt : k < 64 := by omega
    have hrej := expand_result_is_fixed_point N _ Example.binary_model 64 N _ _ box e ho k hlt
    rw [hbox2, h1, stair_set k hlt] at hrej
    have := is_bounded_swapped N (Example.stair (k + 1)) (Example.stair 0) _
      Example.binary_model false (by rw [stair_length, stair_length])
      (by rw [stair_length]; omega)
      (fun d hd => by
        rw [stair_length] at hd
        rw [at_dim_stair 0 d hd, at_dim_stair (k + 1) d hd]
        split_ifs <;> omega)
      (fun i hi => by
        rw [stair_length] at hi
        rw [at_dim_stair 0 i hi, at_dim_stair (k + 1) i hi]
        simp only [Example.binary_model]
        split_ifs <;> omega)
      ((mem_staircase_vectors _).2 ⟨k + 1, by omega, rfl⟩) hrej
    exact Bool.false_ne_true this
  have hb : box = (Example.stair 0, Example.stair 64) := by
    rw [← hk64, ← hbox2, ← h1]
  rw [← hb]
  exact hfin

/-- C29: for a non-empty state set in a given seed order, none of whose data values is
`INT_MAX`, whose values differ by less than `INT_MAX` in every variable, and whose finished boxes
have fewer than `2 ^ 64` lattice points each (the volume is computed in `size_t`), every seed has
a finished box, `compute_bounded_box` returns, the returned volume is the number of lattice
points `prod_d (max_d - min_d + 1)` of the returned box, the returned box is the finished box of
a seed, every seed before it in the order has a finished box of smaller volume, and every seed
after it one of at most this volume: the volume is the maximum over the seeds and the box is
that of the first seed attaining it. -/
theorem bounded_box_is_first_seed_of_maximal_volume_without_overflow
    (state_set : List StateBase) (model : Model) (hne : state_set ≠ [])
    (hS : BelowIntMax (state_set.map BoundedBox.get_state_vec))
    (hspan : NarrowSpan (state_set.map BoundedBox.get_state_vec))
    (hvol : ∀ s ∈ state_set, ∀ box : List Int × List Int,
      Machine.FinishedBox (state_set.map BoundedBox.get_state_vec) model s box →
      lattice_points box.1 box.2 < 2 ^ 64) :
    (∀ s ∈ state_set, ∃ box : List Int × List Int,
      Machine.FinishedBox (state_set.map BoundedBox.get_state_vec) model s box) ∧
    ∃ best : BoundedBox.Best,
      Terminates (fun fuel => Machine.BoundedBox.compute_bounded_box fuel state_set model)
        (best.max_volume, BoundedBox.box_expression best model) ∧
      ∃ (pre : List StateBase) (seed : StateBase) (post : List StateBase),
        state_set = pre ++ seed :: post ∧
        Machine.FinishedBox (state_set.map BoundedBox.get_state_vec) model seed
          (best.best_min, best.best_max) ∧
        best.max_volume = lattice_points best.best_min best.best_max ∧
        (∀ s ∈ pre, ∀ box : List Int × List Int,
          Machine.FinishedBox (state_set.map BoundedBox.get_state_vec) model s box →
          lattice_points box.1 box.2 < best.max_volume) ∧
        (∀ s ∈ post, ∀ box : List Int × List Int,
          Machine.FinishedBox (state_set.map BoundedBox.get_state_vec) model s box →
          lattice_points box.1 box.2 ≤ best.max_volume) := by
  have hiff : ∀ s ∈ state_set, ∀ box : List Int × List Int,
      Machine.FinishedBox (state_set.map BoundedBox.get_state_vec) model s box
        ↔ FinishedBox (state_set.map BoundedBox.get_state_vec) model s box :=
    fun s hs box => machine_finished_box_iff _ model hS s (List.mem_map_of_mem _ hs) box
  obtain ⟨hex, best, ⟨N, hN⟩, pre, seed, post, hsplit, hfin, hvolume, hpre, hpost⟩ :=
    first_seed_of_maximal_volume_on_integers state_set model hne
      (fun s hs box hf => hvol s hs box ((hiff s hs box).2 hf))
  refine ⟨fun s hs => ?_, best, ⟨N, fun fuel hf => ?_⟩, pre, seed, post, hsplit, ?_, hvolume,
    ?_, ?_⟩
  · obtain ⟨box, hbox⟩ := hex s hs
    exact ⟨box, (hiff s hs box).2 hbox⟩
  · simp only
    rw [machine_compute_bounded_box_eq fuel state_set model hS hspan]
    exact hN fuel hf
  · exact (hiff seed (by rw [hsplit]; simp) _).2 hfin
  · intro s hs box hf
    exact hpre s hs box ((hiff s (by rw [hsplit]; simp [hs]) box).1 hf)
  · intro s hs box hf
    exact hpost s hs box ((hiff s (by rw [hsplit]; simp [hs]) box).1 hf)

/-- Witness for C29: the three states with data valuations `(0,0)`, `(1,0)`, `(1,1)` over the
domain `[0,1] x [0,1]`. -/
theorem bounded_box_is_first_seed_of_maximal_volume_without_overflow_witness :
    (∀ s ∈ Example.corner_states, ∃ box : List Int × List Int,
      Machine.FinishedBox (Example.corner_states.map BoundedBox.get_state_vec)
        Example.unit_square s box) ∧
    ∃ best : BoundedBox.Best,
      Terminates
        (fun fuel => Machine.BoundedBox.compute_bounded_box fuel Example.corner_states
          Example.unit_square)
        (best.max_volume, BoundedBox.box_expression best Example.unit_square) ∧
      ∃ (pre : List StateBase) (seed : StateBase) (post : List StateBase),
        Example.corner_states = pre ++ seed :: post ∧
        Machine.FinishedBox (Example.corner_states.map BoundedBox.get_state_vec)
          Example.unit_square seed (best.best_min, best.best_max) ∧
        best.max_volume = lattice_points best.best_min best.best_max ∧
        (∀ s ∈ pre, ∀ box : List Int × List Int,
          Machine.FinishedBox (Example.corner_states.map BoundedBox.get_state_vec)
            Example.unit_square s box →
          lattice_points box.1 box.2 < best.max_volume) ∧
        (∀ s ∈ post, ∀ box : List Int × List Int,
          Machine.FinishedBox (Example.corner_states.map BoundedBox.get_state_vec)
            Example.unit_square s box →
          lattice_points box.1 box.2 ≤ best.max_volume) :=
  bounded_box_is_first_seed_of_maximal_volume_without_overflow Example.corner_states
    Example.unit_square (by decide)
    (below_int_max_of_bounds _ 0 1 (by decide) (by decide) (by decide) (le_refl _) (by decide)
      (by decide)).1
    (below_int_max_of_bounds _ 0 1 (by decide) (by decide) (by decide) (le_refl _) (by decide)
      (by decide)).2
    (by
      intro s hs box hfin
      have hfin2 := (machine_finished_box_iff _ Example.unit_square
        (below_int_max_of_bounds _ 0 1 (by decide) (by decide) (by decide) (le_refl _)
          (by decide) (by decide)).1 s (List.mem_map_of_mem _ hs) box).1 hfin
      obtain ⟨h1, h2, _⟩ := finished_box_corners _ Example.unit_square s box
        (List.mem_map_of_mem _ hs) hfin2
      have hv : ∀ lo ∈ Example.corner_states.map BoundedBox.get_state_vec,
          ∀ hi ∈ Example.corner_states.map BoundedBox.get_state_vec,
          lattice_points lo hi < 2 ^ 64 := by decide
      exact hv _ h1 _ h2)

/-- C29 (counterexample): the staircase of 65 states over 64 variables with the domain `[0, 1]`,
whose data valuations are the points `1^k 0^(64-k)` for `k = 0, ..., 64`; no `int` operation
overflows on it. The finished box of the seed `0^64` is the whole cube from `0^64` to `1^64`,
whose volume `prod_d (max_d - min_d + 1)` is `2 ^ 64`; `compute_bounded_box` returns, and the
volume it returns is a `size_t` value, below `2 ^ 64`: it is not the maximum of the volumes of
the finished boxes of the seeds. -/
theorem staircase_volume_exceeds_size_t :
    Example.staircase_states.length = 65 ∧
    (0 :: Example.stair 0) ∈ Example.staircase_states ∧
    Example.stair 0 = List.replicate 64 0 ∧
    Example.stair 64 = List.replicate 64 1 ∧
    Machine.FinishedBox (Example.staircase_states.map BoundedBox.get_state_vec)
      Example.binary_model (0 :: Example.stair 0) (Example.stair 0, Example.stair 64) ∧
    lattice_points (Example.stair 0) (Example.stair 64) = 2 ^ 64 ∧
    BoundedBox.compute_volume (Example.stair 0) (Example.stair 64) 64 = 0 ∧
    Machine.BoundedBox.compute_volume (Example.stair 0) (Example.stair 64) 64 = 0 ∧
    ∃ best : BoundedBox.Best,
      Terminates (fun fuel =>
          Machine.BoundedBox.compute_bounded_box fuel Example.staircase_states
            Example.binary_model)
        (best.max_volume, BoundedBox.box_expression best Example.binary_model) ∧
      best.max_volume < 2 ^ 64 := by
  refine ⟨by decide, by decide, by decide, by decide, ?_, by decide!, by decide!, by decide!,
    ?_⟩
  · exact (machine_finished_box_iff _ Example.binary_model staircase_below_int_max.1 _
      (by rw [get_state_vec_cons]; exact (mem_staircase_vectors _).2 ⟨0, by omega, rfl⟩) _).2
      staircase_finished_box
  · obtain ⟨best, N, hN⟩ := find_best_terminates
      (Example.staircase_states.map BoundedBox.get_state_vec) Example.binary_model
      Example.staircase_states { max_volume := 0, best_min := [], best_max := [] }
      (fun s hs => List.mem_map_of_mem _ hs)
    refine ⟨best, ⟨N, fun fuel hf => ?_⟩, ?_⟩
    · simp only
      rw [machine_compute_bounded_box_eq fuel _ _ staircase_below_int_max.1
        staircase_below_int_max.2]
      have := hN fuel hf
      simp only at this
      simp only [BoundedBox.compute_bounded_box, BoundedBox.best_box, this]
    · exact find_best_volume_lt N _ Example.binary_model Example.staircase_states _ best
        (by norm_num) (hN N (le_refl _))

end SSG
